import Mathlib

/-!
SymSpell helper classes: embedding and verification

Shallow embedding of the classes of `include/Helpers.h` (`Helpers`, the edit-distance
kernels `DamerauOSA` and `Levenshtein`, `EditDistance`, `SuggestItem`, `ChunkArray`,
`SuggestionStage`), the reference recurrences the kernels are compared with, the index
builder of the class `SymSpell`, and the theorems proved about them.

Conventions of the embedding.

* An `xstring` is a `List Char`; `string[i]` is `charAt string i`.
* A `vector<int>` is a `List Int`; the read `v[j]` is `rd v j` and the write `v[j] = x` is
  `v.set j x`. The loops of the cores use the indices below `len2`, on vectors that the
  methods have grown to at least `len2` elements. The exception is the first loop of the
  `Levenshtein` cores, whose last write can be past the end of the vector; it is embedded
  with a check of the index (`Levenshtein.initLoop`), and the cores and methods of
  `Levenshtein` return an `Option`: `none` stands for a call that uses an element outside
  the vector and has no defined behaviour.
* String lengths and loop counters are natural numbers: the `int` variables of the
  source hold them exactly as long as the strings are shorter than `2^31` characters.
  Quantities the source obtains by a subtraction (`lenDiff`, `jStartOffset`) and all
  costs and results are integers.
* A `for` loop with a counter is `forLoop body count first`: it runs `body first`,
  `body (first + 1)`, ... `count` times.
* The `maxDistance` parameter of the bounded `Distance` is a `double` in the source.
  `DistanceMax` is the method on the integral values of the bound, for which `ceil` is the
  identity; `DistanceMaxDouble` is the method on every value of the bound, a rational
  number, with `ceil` applied as in the source. The two agree on the integral values
  (`DistanceMaxDouble_intCast`, `lev_DistanceMaxDouble_intCast`).
* A method that changes its instance returns the returned value together with the
  instance afterwards.
* The methods of `ChunkArray` and `SuggestionStage` return an `Option`: `none` stands for a
  call that does not return a value, because an exception is thrown or because the
  behaviour is undefined (an element outside a vector is used, an `int` overflows). The
  `int` values of these classes are integers, and the conversions between `int` and
  `unsigned int` are `toUnsigned` and `toInt`.
* A `Dictionary<int, V>` (an `unordered_map`) is the list of its key-value pairs, with
  `Dictionary.find` and `Dictionary.set` for `find` and for the assignment `d[key] = value`.
  The order of the list stands for the order in which the map is iterated.
* The `double` values of `Similarity` and `ToDistance` are rational numbers; the
  conversion of a `double` to `int` is `truncToInt`.
* A constructor or method with a `throw` returns an `Except String`: `Except.error`
  carries the message that is thrown.
* The functions `ltrim`, `rtrim` and `trim` are those of `include/SymSpell.h`; the
  library function behind the macro `isxspace` is an argument of their embedding.
* `include/SymSpell.h` declares the class `SymSpell`; the bodies of its methods are not
  part of the sources. The index builder (`CreateDictionaryEntry`, `EditsPrefix`, `Edits`,
  `CommitStaged`, `PurgeBelowThresholdWords`) is therefore modelled from the specification
  of the library; the doc comment of each of these definitions says so. The hash
  `GetstringHash` is an argument of the model.

The file has two parts: the definitions, then the theorems.
-/

/-! ## Part I: definitions -/

/-- The largest value of the source's `int`. -/
def INT_MAX : Int := 2147483647

/-- Character `s[i]` of a string. -/
def charAt (s : List Char) (i : Nat) : Char := s.getD i (Char.ofNat 0)

/-- Element `v[j]` of an integer vector. -/
def rd (v : List Int) (j : Nat) : Int := v.getD j 0

/-- Counted loop: `for (j = first; j < first + count; ++j) s = body j s`. -/
def forLoop {σ : Type} (body : Nat → σ → σ) : Nat → Nat → σ → σ
  | 0, _, s => s
  | count + 1, first, s => forLoop body count (first + 1) (body first s)

namespace Helpers

/-- Method `Helpers::NullDistanceResults`. -/
def NullDistanceResults (string1 string2 : List Char) (maxDistance : Int) : Int :=
  if string1.isEmpty then
    (if string2.isEmpty then 0
     else if (string2.length : Int) ≤ maxDistance then (string2.length : Int) else -1)
  else if (string1.length : Int) ≤ maxDistance then (string1.length : Int) else -1

/-- First loop of `Helpers::PrefixSuffixPrep`:
`while (len1 != 0 && string1[len1 - 1] == string2[len2 - 1]) { len1--; len2--; }`.
The recursion is on `len1`, which the loop decreases. -/
def suffixLoop (string1 string2 : List Char) : Nat → Nat → Nat × Nat
  | 0, len2 => (0, len2)
  | len1 + 1, len2 =>
    if charAt string1 len1 = charAt string2 (len2 - 1) then
      suffixLoop string1 string2 len1 (len2 - 1)
    else (len1 + 1, len2)

/-- Second loop of `Helpers::PrefixSuffixPrep`:
`while (start != len1 && string1[start] == string2[start]) start++;`.
The first argument bounds the number of iterations; `len1` iterations always suffice. -/
def prefixLoop (string1 string2 : List Char) (len1 : Nat) : Nat → Nat → Nat
  | 0, start => start
  | fuel + 1, start =>
    if start ≠ len1 ∧ charAt string1 start = charAt string2 start then
      prefixLoop string1 string2 len1 fuel (start + 1)
    else start

/-- Method `Helpers::PrefixSuffixPrep`: the result is `(len1, len2, start)`. -/
def PrefixSuffixPrep (string1 string2 : List Char) : Nat × Nat × Nat :=
  let r := suffixLoop string1 string2 string1.length string2.length
  let start := prefixLoop string1 string2 r.1 r.1 0
  if start ≠ 0 then (r.1 - start, r.2 - start, start) else (r.1, r.2, start)

end Helpers

namespace DamerauOSA

/-- Variables of the inner loop of the two `DamerauOSA` cores. -/
structure Inner where
  char1Costs : List Int
  prevChar1Costs : List Int
  currentCost : Int
  leftCharCost : Int
  aboveCharCost : Int
  nextTransCost : Int
  char2 : Char

/-- Body of the inner loop `for (j ...)`, the same text in both `DamerauOSA` cores. -/
def innerBody (string2 : List Char) (start i : Nat) (char1 prevChar1 : Char)
    (j : Nat) (v : Inner) : Inner :=
  let thisTransCost := v.nextTransCost
  let nextTransCost := rd v.prevChar1Costs j
  let diagCost := v.leftCharCost
  let prevChar1Costs := v.prevChar1Costs.set j diagCost
  let leftCharCost := rd v.char1Costs j
  let prevChar2 := v.char2
  let char2 := charAt string2 (start + j)
  let currentCost :=
    if char1 ≠ char2 then
      let c1 := if v.aboveCharCost < diagCost then v.aboveCharCost else diagCost
      let c2 := if leftCharCost < c1 then leftCharCost else c1
      let c3 := c2 + 1
      if i ≠ 0 ∧ j ≠ 0 ∧ char1 = prevChar2 ∧ prevChar1 = char2 ∧ thisTransCost + 1 < c3 then
        thisTransCost + 1
      else c3
    else diagCost
  { char1Costs := v.char1Costs.set j currentCost
    prevChar1Costs := prevChar1Costs
    currentCost := currentCost
    leftCharCost := leftCharCost
    aboveCharCost := currentCost
    nextTransCost := nextTransCost
    char2 := char2 }

/-- Variables that live across the iterations of the outer loop `for (i ...)`. -/
structure Outer where
  char1Costs : List Int
  prevChar1Costs : List Int
  char1 : Char
  currentCost : Int

/-- One iteration of the outer loop, the inner loop running over the columns
`jStart ≤ j < jStart + count`. -/
def row (string1 string2 : List Char) (start i jStart count : Nat) (o : Outer) : Outer :=
  let prevChar1 := o.char1
  let char1 := charAt string1 (start + i)
  let v := forLoop (innerBody string2 start i char1 prevChar1) count jStart
    { char1Costs := o.char1Costs
      prevChar1Costs := o.prevChar1Costs
      currentCost := o.currentCost
      leftCharCost := (i : Int)
      aboveCharCost := (i : Int)
      nextTransCost := 0
      char2 := ' ' }
  { char1Costs := v.char1Costs
    prevChar1Costs := v.prevChar1Costs
    char1 := char1
    currentCost := v.currentCost }

/-- Static `DamerauOSA::Distance(string1, string2, len1, len2, start, char1Costs,
prevChar1Costs)`: the core without a bound. -/
def DistanceCore (string1 string2 : List Char) (len1 len2 start : Nat)
    (char1Costs prevChar1Costs : List Int) : Int :=
  let char1Costs := forLoop (fun j c => c.set j ((j : Int) + 1)) len2 0 char1Costs
  (forLoop (fun i o => row string1 string2 start i 0 len2 o) len1 0
    { char1Costs := char1Costs
      prevChar1Costs := prevChar1Costs
      char1 := ' '
      currentCost := 0 }).currentCost

/-- Outer loop of the bounded core from row `i` on, with `n` rows left, and the final
`return (currentCost <= maxDistance) ? currentCost : -1`. -/
def rowsMax (string1 string2 : List Char) (len2 start : Nat) (maxDistance lenDiff
    jStartOffset : Int) : Nat → Nat → Nat → Int → Outer → Int
  | 0, _, _, _, o => if o.currentCost ≤ maxDistance then o.currentCost else -1
  | n + 1, i, jStart, jEnd, o =>
    let jStart := jStart + (if (i : Int) > jStartOffset then 1 else 0)
    let jEnd := jEnd + (if jEnd < (len2 : Int) then 1 else 0)
    let o := row string1 string2 start i jStart (jEnd - (jStart : Int)).toNat o
    if rd o.char1Costs ((i : Int) + lenDiff).toNat > maxDistance then -1
    else rowsMax string1 string2 len2 start maxDistance lenDiff jStartOffset n (i + 1)
      jStart jEnd o

/-- Static `DamerauOSA::Distance(string1, string2, len1, len2, start, maxDistance,
char1Costs, prevChar1Costs)`: the core with a bound. -/
def DistanceCoreMax (string1 string2 : List Char) (len1 len2 start : Nat)
    (maxDistance : Int) (char1Costs prevChar1Costs : List Int) : Int :=
  let char1Costs := forLoop (fun j c => c.set j ((j : Int) + 1)) maxDistance.toNat 0 char1Costs
  let char1Costs := forLoop (fun j c => c.set j (maxDistance + 1))
    (len2 - maxDistance.toNat) maxDistance.toNat char1Costs
  let lenDiff : Int := (len2 : Int) - (len1 : Int)
  let jStartOffset : Int := maxDistance - lenDiff
  rowsMax string1 string2 len2 start maxDistance lenDiff jStartOffset len1 0 0 maxDistance
    { char1Costs := char1Costs
      prevChar1Costs := prevChar1Costs
      char1 := ' '
      currentCost := 0 }

end DamerauOSA

/-- State of a `DamerauOSA` instance: its two cost buffers. -/
structure DamerauOSA where
  baseChar1Costs : List Int
  basePrevChar1Costs : List Int

namespace DamerauOSA

/-- The buffer update at the head of the DP calls:
`if (len2 > baseChar1Costs.size()) { both buffers = vector<int>(len2, 0); }`. -/
def grow (this : DamerauOSA) (len2 : Nat) : DamerauOSA :=
  if len2 > this.baseChar1Costs.length then
    { baseChar1Costs := List.replicate len2 0, basePrevChar1Costs := List.replicate len2 0 }
  else this

/-- Method `DamerauOSA::Distance(string1, string2)`: the returned value and the instance
afterwards. -/
def Distance (this : DamerauOSA) (string1 string2 : List Char) : Int × DamerauOSA :=
  if string1.isEmpty then ((string2.length : Int), this)
  else if string2.isEmpty then ((string1.length : Int), this)
  else
    let s1 := if string1.length > string2.length then string2 else string1
    let s2 := if string1.length > string2.length then string1 else string2
    let (len1, len2, start) := Helpers.PrefixSuffixPrep s1 s2
    if len1 = 0 then ((len2 : Int), this)
    else
      let this := this.grow len2
      (DistanceCore s1 s2 len1 len2 start this.baseChar1Costs this.basePrevChar1Costs, this)

/-- Method `DamerauOSA::Distance(string1, string2, maxDistance)`: the returned value and the
instance afterwards. -/
def DistanceMax (this : DamerauOSA) (string1 string2 : List Char) (maxDistance : Int) :
    Int × DamerauOSA :=
  if string1.isEmpty ∨ string2.isEmpty then
    (Helpers.NullDistanceResults string1 string2 maxDistance, this)
  else if maxDistance ≤ 0 then ((if string1 = string2 then 0 else -1), this)
  else
    let iMaxDistance : Int := if maxDistance ≤ INT_MAX then maxDistance else INT_MAX
    let s1 := if string1.length > string2.length then string2 else string1
    let s2 := if string1.length > string2.length then string1 else string2
    if ((s2.length - s1.length : Nat) : Int) > iMaxDistance then (-1, this)
    else
      let (len1, len2, start) := Helpers.PrefixSuffixPrep s1 s2
      if len1 = 0 then ((if (len2 : Int) ≤ iMaxDistance then (len2 : Int) else -1), this)
      else
        let this := this.grow len2
        if iMaxDistance < (len2 : Int) then
          (DistanceCoreMax s1 s2 len1 len2 start iMaxDistance this.baseChar1Costs
            this.basePrevChar1Costs, this)
        else
          (DistanceCore s1 s2 len1 len2 start this.baseChar1Costs this.basePrevChar1Costs,
            this)

end DamerauOSA

/-- Reference recurrence of the optimal-string-alignment (restricted Damerau-Levenshtein)
distance: entry `(i, j)` is the distance between the first `i` characters of `s1` and the
first `j` characters of `s2`. Insertion, deletion and substitution cost 1 each; when the
last two characters of the two prefixes are each other's exchange (`s1[i] = s2[j-1]` and
`s1[i-1] = s2[j]`, 0-based, for the entry `(i + 1, j + 1)`), exchanging them costs 1 on top
of the entry two rows and two columns back. -/
def osaTable (s1 s2 : Nat → Char) : Nat → Nat → Nat
  | 0, j => j
  | i + 1, 0 => i + 1
  | i + 1, j + 1 =>
    let best := min (osaTable s1 s2 i j + (if s1 i = s2 j then 0 else 1))
      (min (osaTable s1 s2 i (j + 1) + 1) (osaTable s1 s2 (i + 1) j + 1))
    if 0 < i ∧ 0 < j ∧ s1 i = s2 (j - 1) ∧ s1 (i - 1) = s2 j then
      min best (osaTable s1 s2 (i - 1) (j - 1) + 1)
    else best
termination_by i j => (i, j)

/-- The entries a cell of the table is computed from, without the transposition. -/
def osaBest (f g : Nat → Char) (i j : Nat) : Nat :=
  min (osaTable f g i j + (if f i = g j then 0 else 1))
    (min (osaTable f g i (j + 1) + 1) (osaTable f g (i + 1) j + 1))

/-- The numbers `v` and `D` are the same, or both are too large for a path through a cell
at distance `h` from the final diagonal to stay within `M`. -/
def CapEq (M h v D : Int) : Prop :=
  0 ≤ v ∧ (v = D ∨ (M < v + h ∧ M < D + h))

namespace Levenshtein

/-- Variables of the inner loop of the two `Levenshtein` cores (`currentCost` and
`prevChar1Cost` are the names of the bounded core for `currentCharCost` and
`leftCharCost`). -/
structure Inner where
  char1Costs : List Int
  currentCharCost : Int
  leftCharCost : Int
  aboveCharCost : Int

/-- Body of the inner loop `for (j ...)` of the `Levenshtein` cores; the second string is
read at `offset + j`, where `offset` is `0` in the `start == 0` branch and `start` in the
other one. -/
def innerBody (string2 : List Char) (offset : Nat) (char1 : Char) (j : Nat) (v : Inner) :
    Inner :=
  let diagCost := v.leftCharCost
  let leftCharCost := rd v.char1Costs j
  let currentCharCost :=
    if charAt string2 (offset + j) ≠ char1 then
      let c1 := if v.aboveCharCost < diagCost then v.aboveCharCost else diagCost
      let c2 := if leftCharCost < c1 then leftCharCost else c1
      c2 + 1
    else diagCost
  { char1Costs := v.char1Costs.set j currentCharCost
    currentCharCost := currentCharCost
    leftCharCost := leftCharCost
    aboveCharCost := currentCharCost }

/-- Variables that live across the iterations of the outer loop `for (i ...)`. -/
structure Outer where
  char1Costs : List Int
  currentCharCost : Int

/-- One iteration of the outer loop, the inner loop running over the columns
`jStart ≤ j < jStart + count`. -/
def row (string1 string2 : List Char) (offset i jStart count : Nat) (o : Outer) : Outer :=
  let char1 := charAt string1 (offset + i)
  let v := forLoop (innerBody string2 offset char1) count jStart
    { char1Costs := o.char1Costs
      currentCharCost := o.currentCharCost
      leftCharCost := (i : Int)
      aboveCharCost := (i : Int) }
  { char1Costs := v.char1Costs, currentCharCost := v.currentCharCost }

/-- The loop `for (int j = 0; j < n;) char1Costs[j] = ++j;`. In the assignment the right
operand `++j` is evaluated before the left operand `char1Costs[j]` (C++17, [expr.ass]),
so that iteration `j` stores `j + 1` in element `j + 1`. The vector is accessed with
`operator[]`: an element outside the vector has no defined behaviour, and the loop then
gives `none`. -/
def initLoop (n : Nat) (char1Costs : List Int) : Option (List Int) :=
  forLoop (fun j c => c.bind (fun c =>
    if j + 1 < c.length then some (c.set (j + 1) ((j : Int) + 1)) else none))
    n 0 (some char1Costs)

/-- Static `Levenshtein::Distance(string1, string2, len1, len2, start, char1Costs)`, the
core without a bound: the returned value and the vector, which is passed by reference;
`none` when the first loop leaves the vector. -/
def DistanceCore (string1 string2 : List Char) (len1 len2 start : Nat)
    (char1Costs : List Int) : Option (Int × List Int) :=
  (initLoop len2 char1Costs).map (fun char1Costs =>
    let o := forLoop
      (fun i o => row string1 string2 (if start = 0 then 0 else start) i 0 len2 o)
      len1 0 { char1Costs := char1Costs, currentCharCost := 0 }
    (o.currentCharCost, o.char1Costs))

/-- Outer loop of the bounded core from row `i` on, with `n` rows left, and the final
`return (currentCost <= maxDistance) ? currentCost : -1`. -/
def rowsMax (string1 string2 : List Char) (len2 offset : Nat) (maxDistance lenDiff
    jStartOffset : Int) : Nat → Nat → Nat → Int → Outer → Int × List Int
  | 0, _, _, _, o =>
    ((if o.currentCharCost ≤ maxDistance then o.currentCharCost else -1), o.char1Costs)
  | n + 1, i, jStart, jEnd, o =>
    let jStart := jStart + (if (i : Int) > jStartOffset then 1 else 0)
    let jEnd := jEnd + (if jEnd < (len2 : Int) then 1 else 0)
    let o := row string1 string2 offset i jStart (jEnd - (jStart : Int)).toNat o
    if rd o.char1Costs ((i : Int) + lenDiff).toNat > maxDistance then (-1, o.char1Costs)
    else rowsMax string1 string2 len2 offset maxDistance lenDiff jStartOffset n (i + 1)
      jStart jEnd o

/-- Static `Levenshtein::Distance(string1, string2, len1, len2, start, maxDistance,
char1Costs)`, the core with a bound: the returned value and the vector, which is passed
by reference; `none` when the first loop leaves the vector. -/
def DistanceCoreMax (string1 string2 : List Char) (len1 len2 start : Nat)
    (maxDistance : Int) (char1Costs : List Int) : Option (Int × List Int) :=
  (initLoop maxDistance.toNat char1Costs).map (fun char1Costs =>
    let char1Costs := forLoop (fun j c => c.set j (maxDistance + 1))
      (len2 - maxDistance.toNat) maxDistance.toNat char1Costs
    let lenDiff : Int := (len2 : Int) - (len1 : Int)
    let jStartOffset : Int := maxDistance - lenDiff
    rowsMax string1 string2 len2 (if start = 0 then 0 else start) maxDistance lenDiff
      jStartOffset len1 0 0 maxDistance { char1Costs := char1Costs, currentCharCost := 0 })

end Levenshtein

/-- State of a `Levenshtein` instance: its cost buffer. -/
structure Levenshtein where
  baseChar1Costs : List Int

namespace Levenshtein

/-- The argument `(this->baseChar1Costs = (len2 <= this->baseChar1Costs.size()) ?
this->baseChar1Costs : vector<int>(len2, 0))` of the calls of the cores. -/
def grow (this : Levenshtein) (len2 : Nat) : Levenshtein :=
  if len2 ≤ this.baseChar1Costs.length then this
  else { baseChar1Costs := List.replicate len2 0 }

/-- Method `Levenshtein::Distance(string1, string2)`: the returned value and the instance
afterwards; `none` when the core leaves the vector. -/
def Distance (this : Levenshtein) (string1 string2 : List Char) :
    Option (Int × Levenshtein) :=
  if string1.isEmpty then some ((string2.length : Int), this)
  else if string2.isEmpty then some ((string1.length : Int), this)
  else
    let s1 := if string1.length > string2.length then string2 else string1
    let s2 := if string1.length > string2.length then string1 else string2
    let (len1, len2, start) := Helpers.PrefixSuffixPrep s1 s2
    if len1 = 0 then some ((len2 : Int), this)
    else
      (Levenshtein.DistanceCore s1 s2 len1 len2 start (this.grow len2).baseChar1Costs).map
        (fun r => (r.1, { baseChar1Costs := r.2 }))

/-- Method `Levenshtein::Distance(string1, string2, maxDistance)`: the returned value and the
instance afterwards; `none` when the core leaves the vector. -/
def DistanceMax (this : Levenshtein) (string1 string2 : List Char) (maxDistance : Int) :
    Option (Int × Levenshtein) :=
  if string1.isEmpty ∨ string2.isEmpty then
    some (Helpers.NullDistanceResults string1 string2 maxDistance, this)
  else if maxDistance ≤ 0 then some ((if string1 = string2 then 0 else -1), this)
  else
    let iMaxDistance : Int := if maxDistance ≤ INT_MAX then maxDistance else INT_MAX
    let s1 := if string1.length > string2.length then string2 else string1
    let s2 := if string1.length > string2.length then string1 else string2
    if ((s2.length - s1.length : Nat) : Int) > iMaxDistance then some (-1, this)
    else
      let (len1, len2, start) := Helpers.PrefixSuffixPrep s1 s2
      if len1 = 0 then
        some ((if (len2 : Int) ≤ iMaxDistance then (len2 : Int) else -1), this)
      else if iMaxDistance < (len2 : Int) then
        (Levenshtein.DistanceCoreMax s1 s2 len1 len2 start iMaxDistance
          (this.grow len2).baseChar1Costs).map (fun r => (r.1, { baseChar1Costs := r.2 }))
      else
        (Levenshtein.DistanceCore s1 s2 len1 len2 start
          (this.grow len2).baseChar1Costs).map (fun r => (r.1, { baseChar1Costs := r.2 }))

end Levenshtein

/-- Reference recurrence of the classic Levenshtein distance (insertion, deletion and
substitution, cost 1 each): entry `(i, j)` is the distance between the first `i`
characters of `s1` and the first `j` characters of `s2`. -/
def levTable (s1 s2 : Nat → Char) : Nat → Nat → Nat
  | 0, j => j
  | i + 1, 0 => i + 1
  | i + 1, j + 1 =>
    min (levTable s1 s2 i j + (if s1 i = s2 j then 0 else 1))
      (min (levTable s1 s2 i (j + 1) + 1) (levTable s1 s2 (i + 1) j + 1))
termination_by i j => (i, j)

/-- Reference Levenshtein distance of two strings. -/
def levDistance (a b : List Char) : Nat :=
  levTable (charAt a) (charAt b) a.length b.length

/-- The string `s` with the characters at positions `i` and `i + 1` exchanged. -/
def swapAdjacent (s : List Char) (i : Nat) : List Char :=
  (s.set i (charAt s (i + 1))).set (i + 1) (charAt s i)

namespace DamerauOSA

/-- Method `DamerauOSA::DamerauOSA()`. -/
def new : DamerauOSA := { baseChar1Costs := [], basePrevChar1Costs := [] }

/-- Method `DamerauOSA::DamerauOSA(int expectedMaxstringLength)`; a `throw` is an error. -/
def newExpected (expectedMaxstringLength : Int) : Except String DamerauOSA :=
  if expectedMaxstringLength ≤ 0 then
    Except.error "expectedMaxstringLength must be larger than 0"
  else
    Except.ok
      { baseChar1Costs := List.replicate expectedMaxstringLength.toNat 0
        basePrevChar1Costs := List.replicate expectedMaxstringLength.toNat 0 }

end DamerauOSA

namespace Levenshtein

/-- Method `Levenshtein::Levenshtein()`. -/
def new : Levenshtein := { baseChar1Costs := [] }

/-- Method `Levenshtein::Levenshtein(int expectedMaxstringLength)`; a `throw` is an error. -/
def newExpected (expectedMaxstringLength : Int) : Except String Levenshtein :=
  if expectedMaxstringLength ≤ 0 then
    Except.error "expectedMaxstringLength must be larger than 0"
  else Except.ok { baseChar1Costs := List.replicate expectedMaxstringLength.toNat 0 }

end Levenshtein

/-- Distance of the cell `(I, J)` from the diagonal through the last cell `(len1, len2)`. -/
def offDiag (len1 len2 I J : Nat) : Int :=
  max (((J : Int) + len1) - ((I : Int) + len2)) (((I : Int) + len2) - ((J : Int) + len1))

/-- The cost `v` held for cell `(I, J)` agrees with the reference table, as far as paths
of total cost at most `M` are concerned. -/
def Agree (f g : Nat → Char) (len1 len2 : Nat) (M : Int) (v : Int) (I J : Nat) : Prop :=
  CapEq M (offDiag len1 len2 I J) v (osaTable f g I J : Int)

/-- The cost the loop body computes for a cell, from the costs it reads. -/
def cellCost (char1 prevChar1 char2 prevChar2 : Char) (i j : Nat)
    (diag above left trans : Int) : Int :=
  if char1 ≠ char2 then
    let c1 := if above < diag then above else diag
    let c2 := if left < c1 then left else c1
    let c3 := c2 + 1
    if i ≠ 0 ∧ j ≠ 0 ∧ char1 = prevChar2 ∧ prevChar1 = char2 ∧ trans + 1 < c3 then
      trans + 1
    else c3
  else diag

/-- Characters of a string from position `start` on. -/
def window (s : List Char) (start : Nat) : Nat → Char := fun u => charAt s (start + u)

namespace DamerauOSA

/-- The cost the body of the inner loop computes in column `j`. -/
def newCost (string2 : List Char) (start i : Nat) (char1 prevChar1 : Char) (j : Nat)
    (v : Inner) : Int :=
  cellCost char1 prevChar1 (window string2 start j) v.char2 i j v.leftCharCost v.aboveCharCost
    (rd v.char1Costs j) v.nextTransCost

/-- State of the inner loop of row `i` before column `j`, the columns `jS ≤ t < j` done. -/
structure RowInv (f g : Nat → Char) (len1 len2 : Nat) (M : Int) (i jS : Nat)
    (c0 p0 : List Int) (j : Nat) (v : Inner) : Prop where
  lenC : v.char1Costs.length = c0.length
  lenP : v.prevChar1Costs.length = p0.length
  cIn : ∀ t, jS ≤ t → t < j → Agree f g len1 len2 M (rd v.char1Costs t) (i + 1) (t + 1)
  cOut : ∀ t, (t < jS ∨ j ≤ t) → rd v.char1Costs t = rd c0 t
  pIn : ∀ t, jS ≤ t → t < j → Agree f g len1 len2 M (rd v.prevChar1Costs t) i t
  pOut : ∀ t, (t < jS ∨ j ≤ t) → rd v.prevChar1Costs t = rd p0 t
  left : v.leftCharCost = rd c0 (j - 1)
  above : v.aboveCharCost = rd v.char1Costs (j - 1)
  cur : v.currentCost = rd v.char1Costs (j - 1)
  next : v.nextTransCost = rd p0 (j - 1)
  ch2 : v.char2 = g (j - 1)

/-- What a row needs of the state it starts from. -/
structure RowPre (f g : Nat → Char) (len1 len2 : Nat) (M : Int) (i jS jE : Nat)
    (prevChar1 : Char) (c0 p0 : List Int) : Prop where
  lt : jS < jE
  lenC : jE ≤ c0.length
  lenP : jE ≤ p0.length
  prev : ∀ t, jS ≤ t → t < jE → Agree f g len1 len2 M (rd c0 t) i (t + 1)
  edge : jS = 0 ∨ (1 ≤ i ∧ M ≤ offDiag len1 len2 i jS ∧ 1 ≤ osaTable f g (i + 1) (jS + 1) ∧
    1 ≤ osaTable f g i jS)
  prev2 : ∀ i', i = i' + 1 → ∀ t, jS ≤ t → t + 1 < jE → Agree f g len1 len2 M (rd p0 t) i' t
  chr : ∀ i', i = i' + 1 → prevChar1 = f i'

/-- What a row establishes. -/
structure RowPost (f g : Nat → Char) (len1 len2 : Nat) (M : Int) (i jS jE : Nat)
    (o o' : Outer) : Prop where
  lenC : o'.char1Costs.length = o.char1Costs.length
  lenP : o'.prevChar1Costs.length = o.prevChar1Costs.length
  cIn : ∀ t, jS ≤ t → t < jE → Agree f g len1 len2 M (rd o'.char1Costs t) (i + 1) (t + 1)
  cOut : ∀ t, (t < jS ∨ jE ≤ t) → rd o'.char1Costs t = rd o.char1Costs t
  pIn : ∀ t, jS ≤ t → t < jE → Agree f g len1 len2 M (rd o'.prevChar1Costs t) i t
  chr : o'.char1 = f i
  cur : o'.currentCost = rd o'.char1Costs (jE - 1)

/-- State of the outer loop of the core without a bound, `i` rows done. -/
structure OuterInv (f g : Nat → Char) (len1 len2 : Nat) (M : Int) (i : Nat) (o : Outer) :
    Prop where
  lenC : len2 ≤ o.char1Costs.length
  lenP : len2 ≤ o.prevChar1Costs.length
  cAll : ∀ t, t < len2 → Agree f g len1 len2 M (rd o.char1Costs t) i (t + 1)
  pAll : ∀ i', i = i' + 1 → ∀ t, t < len2 → Agree f g len1 len2 M (rd o.prevChar1Costs t) i' t
  chr : ∀ i', i = i' + 1 → o.char1 = f i'
  cur : ∀ i', i = i' + 1 → o.currentCost = rd o.char1Costs (len2 - 1)

/-- State of the outer loop of the core with a bound, `i` rows done; `jStart` and `jEnd`
are the band limits of the previous row. -/
structure BandInv (f g : Nat → Char) (len1 len2 : Nat) (M : Int) (i jStart : Nat)
    (jEnd : Int) (o : Outer) : Prop where
  js : (jStart : Int) = max 0 ((i : Int) - 1 - (M - ((len2 : Int) - (len1 : Int))))
  je : jEnd = min (len2 : Int) (M + (i : Int))
  lenC : len2 ≤ o.char1Costs.length
  lenP : len2 ≤ o.prevChar1Costs.length
  cIn : ∀ t : Nat, jStart ≤ t → (t : Int) < jEnd →
    Agree f g len1 len2 M (rd o.char1Costs t) i (t + 1)
  cOut : ∀ t : Nat, jEnd ≤ (t : Int) → t < len2 → rd o.char1Costs t = M + 1
  pIn : ∀ i', i = i' + 1 → ∀ t : Nat, jStart ≤ t → (t : Int) < jEnd →
    Agree f g len1 len2 M (rd o.prevChar1Costs t) i' t
  chr : ∀ i', i = i' + 1 → o.char1 = f i'
  cur : ∀ i', i = i' + 1 → o.currentCost = rd o.char1Costs (jEnd.toNat - 1)
  ok : ∀ i', i = i' + 1 → rd o.char1Costs (i' + (len2 - len1)) ≤ M

end DamerauOSA

/-- Reference optimal-string-alignment distance of two strings: the last entry of the
table of the reference recurrence. -/
def osaDistance (a b : List Char) : Nat :=
  osaTable (charAt a) (charAt b) a.length b.length

namespace Helpers

/-- Result of `PrefixSuffixPrep` on strings with `|string1| ≤ |string2|`. -/
structure PrepSpec (s1 s2 : List Char) (len1 len2 start : Nat) : Prop where
  bound : start + len1 ≤ s1.length
  diff : len2 + s1.length = len1 + s2.length
  pre : ∀ u, u < start → charAt s1 u = charAt s2 u
  suf : ∀ u, u < s1.length - (start + len1) →
    charAt s1 (start + len1 + u) = charAt s2 (start + len2 + u)
  first : len1 ≠ 0 → charAt s1 start ≠ charAt s2 start
  last : len1 ≠ 0 → charAt s1 (start + len1 - 1) ≠ charAt s2 (start + len2 - 1)

end Helpers

namespace DamerauOSA

/-- Class invariant of `DamerauOSA`: the two cost buffers have the same size. -/
def Sized (this : DamerauOSA) : Prop :=
  this.baseChar1Costs.length = this.basePrevChar1Costs.length

end DamerauOSA

namespace Levenshtein

/-- The cost the body of the `Levenshtein` cores computes for a cell. -/
def levCost (char1 char2 : Char) (diag above left : Int) : Int :=
  if char2 ≠ char1 then
    let c1 := if above < diag then above else diag
    let c2 := if left < c1 then left else c1
    c2 + 1
  else diag

/-- Non-negative costs stay non-negative through the inner loop, and the cost of a cell
with different characters is positive. -/
structure NonNeg (string2 : List Char) (offset : Nat) (char1 : Char) (jS : Nat)
    (c0 : List Int) (j : Nat) (v : Inner) : Prop where
  len : v.char1Costs.length = c0.length
  all : ∀ t, 0 ≤ rd v.char1Costs t
  cur : 0 ≤ v.currentCharCost
  left : 0 ≤ v.leftCharCost
  above : 0 ≤ v.aboveCharCost
  pos : ∀ j', j = j' + 1 → jS ≤ j' → charAt string2 (offset + j') ≠ char1 →
    1 ≤ v.currentCharCost

/-- Upper bounds during row `i` of the core without a bound: every cost is at most the
larger index of its cell, except possibly in the cell to the right of the main diagonal
when the characters are equal there. -/
structure UpInv (string1 string2 : List Char) (offset i : Nat) (c0 : List Int) (j : Nat)
    (v : Inner) : Prop where
  len : v.char1Costs.length = c0.length
  cIn : ∀ t, t < j →
    (t ≠ i + 1 ∨ charAt string2 (offset + t) ≠ charAt string1 (offset + i)) →
    rd v.char1Costs t ≤ max ((i : Int) + 1) ((t : Int) + 1)
  cOut : ∀ t, j ≤ t → rd v.char1Costs t = rd c0 t
  left : v.leftCharCost = if j = 0 then (i : Int) else rd c0 (j - 1)
  above : v.aboveCharCost = if j = 0 then (i : Int) else rd v.char1Costs (j - 1)
  cur : j ≠ 0 → v.currentCharCost = rd v.char1Costs (j - 1)

/-- Upper bounds after `i` rows of the core without a bound. -/
structure UpOuter (string1 string2 : List Char) (offset len2 i : Nat) (o : Outer) : Prop where
  len : len2 ≤ o.char1Costs.length
  all : ∀ t, t < len2 →
    (t ≠ i ∨ ∃ i', i = i' + 1 ∧ charAt string2 (offset + t) ≠ charAt string1 (offset + i')) →
    rd o.char1Costs t ≤ max (i : Int) ((t : Int) + 1)
  cur : ∀ i', i = i' + 1 → o.currentCharCost = rd o.char1Costs (len2 - 1)

/-- Class invariant of `Levenshtein`: no element of the cost buffer is negative. -/
def NonNegBuf (this : Levenshtein) : Prop := ∀ x ∈ this.baseChar1Costs, 0 ≤ x

end Levenshtein

/-- The `compare` member of `std::basic_string`: negative when the first string is
lexicographically before the second (the first different character is smaller, or the
first string is a proper beginning of the second), zero for equal strings, positive
otherwise. Only the sign of the result is fixed by the language; `-1` and `1` stand for
the negative and the positive results. -/
def xstringCompare : List Char → List Char → Int
  | [], [] => 0
  | [], _ :: _ => -1
  | _ :: _, [] => 1
  | a :: as, b :: bs =>
    if a < b then -1 else if b < a then 1 else xstringCompare as bs

namespace Helpers

/-- Method `Helpers::CompareTo`. -/
def CompareTo (mainValue compareValue : Int) : Int :=
  if mainValue = compareValue then 0
  else if mainValue > compareValue then 1
  else -1

end Helpers

/-- Fields of the class `SuggestItem`. -/
structure SuggestItem where
  term : List Char
  distance : Int
  count : Int

namespace SuggestItem

/-- Method `SuggestItem::CompareTo`. -/
def CompareTo (this other : SuggestItem) : Int :=
  let disCom := Helpers.CompareTo this.distance other.distance
  if disCom ≠ 0 then disCom
  else
    let cntCom := Helpers.CompareTo other.count this.count
    if cntCom ≠ 0 then cntCom
    else xstringCompare this.term other.term

/-- Method `SuggestItem::Equals`. -/
def Equals (this obj : SuggestItem) : Bool :=
  this.term == obj.term && this.distance == obj.distance && this.count == obj.count

/-- Method `SuggestItem::compare`: `s1.CompareTo(s2) < 0 ? 1 : 0`, as a `bool`. -/
def compare (s1 s2 : SuggestItem) : Bool :=
  if s1.CompareTo s2 < 0 then true else false

end SuggestItem

/-- Conversion of an `int` to `unsigned int`, as for the arguments of `ChunkArray::Row`,
`ChunkArray::Col` and `ChunkArray::At`: the value modulo `2^32`. -/
def toUnsigned (i : Int) : Nat := (i % 4294967296).toNat

/-- Conversion of an unsigned value to `int`: the value modulo `2^32`, taken in the range
from `-2^31` to `2^31 - 1`. -/
def toInt (n : Nat) : Int :=
  if n % 4294967296 < 2147483648 then ((n % 4294967296 : Nat) : Int)
  else ((n % 4294967296 : Nat) : Int) - 4294967296

/-- The call `v.resize(n)` of a vector, new elements being `d`. -/
def vresize {α : Type} (v : List α) (n : Nat) (d : α) : List α :=
  v.take n ++ List.replicate (n - v.length) d

/-- The read `v[i]` of a vector with an `int` index: `none` when `i` is not an index of
`v`. -/
def vget? {α : Type} (v : List α) (i : Int) : Option α :=
  if 0 ≤ i then v[i.toNat]? else none

/-- The write `v[i] = x` of a vector with an `int` index: `none` when `i` is not an index
of `v`. -/
def vset? {α : Type} (v : List α) (i : Int) (x : α) : Option (List α) :=
  if 0 ≤ i ∧ i.toNat < v.length then some (v.set i.toNat x) else none

/-- Fields of the class `ChunkArray<T>`. -/
structure ChunkArray (T : Type) where
  Values : List (List T)
  Count : Int

namespace ChunkArray

/-- Constant `ChunkArray::ChunkSize`. -/
def ChunkSize : Int := 4096

/-- Constant `ChunkArray::DivShift`. -/
def DivShift : Nat := 12

/-- Method `ChunkArray::Row`: `index >> DivShift`, returned as an `int`. -/
def Row (index : Nat) : Int := toInt (index >>> DivShift)

/-- Method `ChunkArray::Col`: `index & (ChunkSize - 1)`, returned as an `int`. -/
def Col (index : Nat) : Int := toInt (index &&& toUnsigned (ChunkSize - 1))

/-- Method `ChunkArray::Capacity`: `Values.size() * ChunkSize`, returned as an `int`. -/
def Capacity {T : Type} (this : ChunkArray T) : Int := toInt (this.Values.length * ChunkSize.toNat)

/-- Constructor `ChunkArray()`. -/
def new {T : Type} : ChunkArray T := { Values := [], Count := 0 }

/-- Method `ChunkArray::Reserve`. The result is `none` when the call does not return: when
`initialCapacity + ChunkSize` is more than `INT_MAX` (the addition overflows), and when
`chunks` is negative (`Values.resize` is then asked for more elements than a vector can
hold and throws). -/
def Reserve {T : Type} [Inhabited T] (this : ChunkArray T) (initialCapacity : Int) :
    Option (ChunkArray T) :=
  if INT_MAX < initialCapacity + ChunkSize then none
  else
    let chunks := Int.tdiv (initialCapacity + ChunkSize - 1) ChunkSize
    if chunks < 0 then none
    else
      some { Values := (vresize this.Values chunks.toNat []).map
               (fun chunk => vresize chunk ChunkSize.toNat default)
             Count := this.Count }

/-- Method `ChunkArray::Add`: the returned index and the array afterwards. The result is
`none` when `Values[row][col]` is not an element of the array, and when `Count` is
`INT_MAX` (`Count++` overflows). -/
def Add {T : Type} [Inhabited T] (this : ChunkArray T) (value : T) : Option (Int × ChunkArray T) :=
  let Values :=
    if this.Count = this.Capacity then this.Values ++ [vresize [] ChunkSize.toNat default]
    else this.Values
  let row := Row (toUnsigned this.Count)
  let col := Col (toUnsigned this.Count)
  match vget? Values row with
  | none => none
  | some chunk =>
    match vset? chunk col value with
    | none => none
    | some chunk =>
      match vset? Values row chunk with
      | none => none
      | some Values =>
        if this.Count < INT_MAX then
          some (this.Count, { Values := Values, Count := this.Count + 1 })
        else none

/-- Method `ChunkArray::Clear`. -/
def Clear {T : Type} (this : ChunkArray T) : ChunkArray T := { Values := this.Values, Count := 0 }

/-- Method `ChunkArray::At`: `none` when `Values[Row(index)][Col(index)]` is not an element
of the array. -/
def At {T : Type} (this : ChunkArray T) (index : Nat) : Option T :=
  match vget? this.Values (Row index) with
  | none => none
  | some chunk => vget? chunk (Col index)

/-- Method `ChunkArray::Set`: `none` when `Values[Row(index)][Col(index)]` is not an element
of the array. -/
def Set {T : Type} (this : ChunkArray T) (index : Nat) (value : T) : Option (ChunkArray T) :=
  match vget? this.Values (Row index) with
  | none => none
  | some chunk =>
    match vset? chunk (Col index) value with
    | none => none
    | some chunk =>
      match vset? this.Values (Row index) chunk with
      | none => none
      | some Values => some { Values := Values, Count := this.Count }

/-- The calls `Add(v0)`, `Add(v1)`, ... one after the other: the returned indices and the
array afterwards. -/
def addAll {T : Type} [Inhabited T] : ChunkArray T → List T → Option (List Int × ChunkArray T)
  | c, [] => some ([], c)
  | c, v :: vs =>
    match c.Add v with
    | none => none
    | some (i, c1) =>
      match addAll c1 vs with
      | none => none
      | some (is, c2) => some (i :: is, c2)

/-- Every chunk has `ChunkSize` elements, `Count` is at most the number of elements of the
chunks, and both numbers are in the range of `int` (the second may also be `2^31`). -/
structure Inv {T : Type} (c : ChunkArray T) : Prop where
  chunks : ∀ chunk ∈ c.Values, chunk.length = 4096
  count_nonneg : 0 ≤ c.Count
  count_le : c.Count ≤ (c.Values.length : Int) * 4096
  count_max : c.Count ≤ INT_MAX
  capacity_max : (c.Values.length : Int) * 4096 ≤ 2147483648

/-- Element `k` of the array, by division: element `k % 4096` of chunk `k / 4096`. -/
def get? {T : Type} (c : ChunkArray T) (k : Nat) : Option T :=
  match c.Values[k / 4096]? with
  | none => none
  | some chunk => chunk[k % 4096]?

end ChunkArray

/-- Fields of the class `Node`. -/
structure Node where
  suggestion : List Char
  next : Int
deriving Inhabited

/-- Fields of the class `Entry`. -/
structure Entry where
  count : Int
  first : Int

namespace Dictionary

/-- The lookup `d.find(key)` of a `Dictionary<int, V>` (an `unordered_map`), which is
embedded as the list of its key-value pairs: `none` stands for `d.end()`. -/
def find {V : Type} : List (Int × V) → Int → Option V
  | [], _ => none
  | (k, v) :: rest, key => if k = key then some v else find rest key

/-- The assignment `d[key] = value` of a `Dictionary<int, V>`: the value of a key of the
dictionary is replaced, another key is added with its value. -/
def set {V : Type} : List (Int × V) → Int → V → List (Int × V)
  | [], key, value => [(key, value)]
  | (k, v) :: rest, key, value =>
    if k = key then (k, value) :: rest else (k, v) :: set rest key value

end Dictionary

/-- Fields of the class `SuggestionStage`. -/
structure SuggestionStage where
  Deletes : List (Int × Entry)
  Nodes : ChunkArray Node

namespace SuggestionStage

/-- Constructor `SuggestionStage(initialCapacity)`. The result is `none` when the call does
not return: when `initialCapacity` is negative (`Deletes.reserve` is then asked for more
buckets than a map can hold and throws), when `initialCapacity * 2` is more than
`INT_MAX`, and when `Nodes.Reserve` does not return. -/
def new (initialCapacity : Int) : Option SuggestionStage :=
  if initialCapacity < 0 then none
  else if INT_MAX < initialCapacity * 2 then none
  else
    match (ChunkArray.new : ChunkArray Node).Reserve (initialCapacity * 2) with
    | none => none
    | some nodes => some { Deletes := [], Nodes := nodes }

/-- Method `SuggestionStage::DeleteCount`. -/
def DeleteCount (this : SuggestionStage) : Int := (this.Deletes.length : Int)

/-- Method `SuggestionStage::NodeCount`. -/
def NodeCount (this : SuggestionStage) : Int := this.Nodes.Count

/-- Method `SuggestionStage::Clear`. -/
def Clear (this : SuggestionStage) : SuggestionStage :=
  { Deletes := [], Nodes := this.Nodes.Clear }

/-- Method `SuggestionStage::Add`: the stage afterwards, `none` when `Nodes.Add` does not
return. -/
def Add (this : SuggestionStage) (deleteHash : Int) (suggestion : List Char) :
    Option SuggestionStage :=
  let newEntry : Entry := { count := 0, first := -1 }
  let entry : Entry :=
    match Dictionary.find this.Deletes deleteHash with
    | none => newEntry
    | some e => e
  let next := entry.first
  let entry : Entry := { count := entry.count + 1, first := this.Nodes.Count }
  let Deletes := Dictionary.set this.Deletes deleteHash entry
  let item : Node := { suggestion := suggestion, next := next }
  match this.Nodes.Add item with
  | none => none
  | some r => some { Deletes := Deletes, Nodes := r.2 }

/-- The loop of `SuggestionStage::CommitTo` that follows a list of nodes:
`while (next >= 0) { node = Nodes.At(next); suggestions.push_back(node.suggestion);
next = node.next; }`. The first argument bounds the number of iterations; the result is
`none` when they do not suffice, and when `Nodes.At(next)` is not an element of `Nodes`. -/
def walk (Nodes : ChunkArray Node) :
    Nat → Int → List (List Char) → Option (List (List Char))
  | 0, next, suggestions => if 0 ≤ next then none else some suggestions
  | fuel + 1, next, suggestions =>
    if 0 ≤ next then
      match Nodes.At (toUnsigned next) with
      | none => none
      | some node => walk Nodes fuel node.next (suggestions ++ [node.suggestion])
    else some suggestions

/-- The loop of `SuggestionStage::CommitTo` over the staged hashes, run on the key-value
pairs of `Deletes` in the order of the list: the permanent dictionary afterwards. -/
def commitLoop (Nodes : ChunkArray Node) (fuel : Nat) :
    List (Int × Entry) → List (Int × List (List Char)) →
      Option (List (Int × List (List Char)))
  | [], permanentDeletes => some permanentDeletes
  | (key, entry) :: rest, permanentDeletes =>
    let suggestions : List (List Char) :=
      match Dictionary.find permanentDeletes key with
      | some s => s
      | none => []
    match walk Nodes fuel entry.first suggestions with
    | none => none
    | some suggestions =>
      commitLoop Nodes fuel rest (Dictionary.set permanentDeletes key suggestions)

/-- Method `SuggestionStage::CommitTo`: the permanent dictionary afterwards; `fuel` bounds
the number of iterations of each list walk. The stage itself is not changed. -/
def CommitTo (this : SuggestionStage) (fuel : Nat)
    (permanentDeletes : List (Int × List (List Char))) :
    Option (List (Int × List (List Char))) :=
  commitLoop this.Nodes fuel this.Deletes permanentDeletes

/-- The list staged for the hash `deleteHash`: the suggestions of the nodes from the
entry's `first` on through the `next` fields, the empty list for a hash that is not
staged. The walk is that of `CommitTo`. -/
def staged (this : SuggestionStage) (fuel : Nat) (deleteHash : Int) :
    Option (List (List Char)) :=
  match Dictionary.find this.Deletes deleteHash with
  | none => some []
  | some entry => walk this.Nodes fuel entry.first []

/-- The calls `Add(h0, s0)`, `Add(h1, s1)`, ... one after the other. -/
def addAll : SuggestionStage → List (Int × List Char) → Option SuggestionStage
  | s, [] => some s
  | s, (h, w) :: rest =>
    match s.Add h w with
    | none => none
    | some s1 => addAll s1 rest

/-- Well-formed stages: the node array is well formed, no hash is staged twice, every
entry's `first` is the index of a node, and every node's `next` is smaller than the node's
own index. -/
structure Inv (s : SuggestionStage) : Prop where
  nodes : s.Nodes.Inv
  keys : (s.Deletes.map Prod.fst).Nodup
  first : ∀ h e, Dictionary.find s.Deletes h = some e →
    0 ≤ e.first ∧ e.first < s.Nodes.Count
  next : ∀ k : Nat, (k : Int) < s.Nodes.Count →
    ∃ node, s.Nodes.get? k = some node ∧ node.next < (k : Int)

/-- The entry `Add` starts from: the staged entry of the hash, or `newEntry`. -/
def oldEntry (s : SuggestionStage) (h : Int) : Entry :=
  match Dictionary.find s.Deletes h with
  | none => { count := 0, first := -1 }
  | some e => e

end SuggestionStage

/-- The suggestions added for the hash `h` by the calls `adds`, the last one first. -/
def addedFor (adds : List (Int × List Char)) (h : Int) : List (List Char) :=
  ((adds.filter (fun p => p.1 = h)).map Prod.snd).reverse

namespace Helpers

/-- Method `Helpers::ToSimilarity`. The `double` values of the source are embedded as
rational numbers and the operations on them as the exact ones. -/
def ToSimilarity (distance length : Int) : ℚ :=
  if distance < 0 then -1 else 1 - (distance : ℚ) / (length : ℚ)

end Helpers

namespace DamerauOSA

/-- Method `DamerauOSA::Similarity(string1, string2)`: the returned value and the instance
afterwards. -/
def Similarity (this : DamerauOSA) (string1 string2 : List Char) : ℚ × DamerauOSA :=
  if string1.isEmpty then ((if string2.isEmpty then 1 else 0), this)
  else if string2.isEmpty then (0, this)
  else
    let s1 := if string1.length > string2.length then string2 else string1
    let s2 := if string1.length > string2.length then string1 else string2
    let (len1, len2, start) := Helpers.PrefixSuffixPrep s1 s2
    if len1 = 0 then (1, this)
    else
      let this := this.grow len2
      (Helpers.ToSimilarity
        (DistanceCore s1 s2 len1 len2 start this.baseChar1Costs this.basePrevChar1Costs)
        (s2.length : Int), this)

end DamerauOSA

/-- Value `DistanceAlgorithm::LevenshteinDistance` of the enumeration. -/
def LevenshteinDistance : Int := 0

/-- Value `DistanceAlgorithm::DamerauOSADistance` of the enumeration. -/
def DamerauOSADistance : Int := 1

/-- Target of the pointer `IDistance* distanceComparer` of an `EditDistance`: the member
of the same object that it points to. -/
inductive DistanceComparer where
  | damerauOSADistance : DistanceComparer
  | levenshteinDistance : DistanceComparer

/-- Fields of the class `EditDistance`. -/
structure EditDistance where
  algorithm : Int
  distanceComparer : DistanceComparer
  damerauOSADistance : DamerauOSA
  levenshteinDistance : Levenshtein

namespace EditDistance

/-- Constructor `EditDistance(DistanceAlgorithm algorithm)`: the `switch` sets the pointer
`distanceComparer`; the `throw` of the `default` case is an error. The two members are
made by their default constructors. -/
def new (algorithm : Int) : Except String EditDistance :=
  if algorithm = DamerauOSADistance then
    Except.ok (EditDistance.mk algorithm DistanceComparer.damerauOSADistance DamerauOSA.new
      Levenshtein.new)
  else if algorithm = LevenshteinDistance then
    Except.ok (EditDistance.mk algorithm DistanceComparer.levenshteinDistance DamerauOSA.new
      Levenshtein.new)
  else Except.error "Unknown distance algorithm."

/-- Method `EditDistance::Compare`, the call
`this->distanceComparer->Distance(string1, string2, maxDistance)` of the virtual method on
the member the pointer points to: the returned value and the instance afterwards; `none`
when the call of the member returns no value. -/
def Compare (this : EditDistance) (string1 string2 : List Char) (maxDistance : Int) :
    Option (Int × EditDistance) :=
  match this.distanceComparer with
  | DistanceComparer.damerauOSADistance =>
    let r := this.damerauOSADistance.DistanceMax string1 string2 maxDistance
    some (r.1, EditDistance.mk this.algorithm this.distanceComparer r.2
      this.levenshteinDistance)
  | DistanceComparer.levenshteinDistance =>
    (this.levenshteinDistance.DistanceMax string1 string2 maxDistance).map
      (fun r => (r.1, EditDistance.mk this.algorithm this.distanceComparer
        this.damerauOSADistance r.2))

end EditDistance

/-- An `EditDistance` as an object made with `algorithm` is after any number of `Compare`
calls: the field and the pointer are those the constructor has set. -/
def EditDistance.MadeWith (algorithm : Int) (e : EditDistance) : Prop :=
  e.algorithm = algorithm ∧
  ((algorithm = DamerauOSADistance ∧
      e.distanceComparer = DistanceComparer.damerauOSADistance) ∨
    (algorithm = LevenshteinDistance ∧
      e.distanceComparer = DistanceComparer.levenshteinDistance))

/-- Conversion `(int)x` of a `double` to `int`: the fraction is dropped (rounding is
towards zero). -/
def truncToInt (x : ℚ) : Int := if 0 ≤ x then ⌊x⌋ else -⌊-x⌋

namespace Helpers

/-- Method `Helpers::NullSimilarityResults`. -/
def NullSimilarityResults (string1 string2 : List Char) (minSimilarity : ℚ) : Int :=
  if string1.isEmpty ∧ string2.isEmpty then 1
  else if 0 ≤ minSimilarity then 0 else -1

/-- Method `Helpers::ToDistance`: `(int)((length * (1 - similarity)) + .0000000001)`. -/
def ToDistance (similarity : ℚ) (length : Int) : Int :=
  truncToInt ((length : ℚ) * (1 - similarity) + 1 / 10000000000)

end Helpers

namespace DamerauOSA

/-- Method `DamerauOSA::Similarity(string1, string2, minSimilarity)`: the returned value
and the instance afterwards; the `throw` is an error. In
`string2.size() - string1.size() > iMaxDistance` the `int` is converted to an unsigned
number, so that a negative `iMaxDistance` is larger than every difference of sizes. -/
def SimilarityMax (this : DamerauOSA) (string1 string2 : List Char) (minSimilarity : ℚ) :
    Except String (ℚ × DamerauOSA) :=
  if minSimilarity < 0 ∨ minSimilarity > 1 then
    Except.error "minSimilarity must be in range 0 to 1.0"
  else if string1.isEmpty ∨ string2.isEmpty then
    Except.ok (((Helpers.NullSimilarityResults string1 string2 minSimilarity : Int) : ℚ), this)
  else
    let s1 := if string1.length > string2.length then string2 else string1
    let s2 := if string1.length > string2.length then string1 else string2
    let iMaxDistance := Helpers.ToDistance minSimilarity (s2.length : Int)
    if 0 ≤ iMaxDistance ∧ ((s2.length - s1.length : Nat) : Int) > iMaxDistance then
      Except.ok (-1, this)
    else if iMaxDistance ≤ 0 then Except.ok ((if s1 = s2 then 1 else -1), this)
    else
      let (len1, len2, start) := Helpers.PrefixSuffixPrep s1 s2
      if len1 = 0 then Except.ok (1, this)
      else
        let this := this.grow len2
        if iMaxDistance < (len2 : Int) then
          Except.ok (Helpers.ToSimilarity
            (DistanceCoreMax s1 s2 len1 len2 start iMaxDistance this.baseChar1Costs
              this.basePrevChar1Costs) (s2.length : Int), this)
        else
          Except.ok (Helpers.ToSimilarity
            (DistanceCore s1 s2 len1 len2 start this.baseChar1Costs this.basePrevChar1Costs)
            (s2.length : Int), this)

end DamerauOSA

namespace Levenshtein

/-- Method `Levenshtein::Similarity(string1, string2)`: the returned value and the instance
afterwards; `none` when the core leaves the vector. -/
def Similarity (this : Levenshtein) (string1 string2 : List Char) :
    Option (ℚ × Levenshtein) :=
  if string1.isEmpty then some ((if string2.isEmpty then 1 else 0), this)
  else if string2.isEmpty then some (0, this)
  else
    let s1 := if string1.length > string2.length then string2 else string1
    let s2 := if string1.length > string2.length then string1 else string2
    let (len1, len2, start) := Helpers.PrefixSuffixPrep s1 s2
    if len1 = 0 then some (1, this)
    else
      (Levenshtein.DistanceCore s1 s2 len1 len2 start (this.grow len2).baseChar1Costs).map
        (fun r => (Helpers.ToSimilarity r.1 (s2.length : Int), { baseChar1Costs := r.2 }))

/-- Method `Levenshtein::Similarity(string1, string2, minSimilarity)`: the returned value
and the instance afterwards; the `throw` is an error, and the result is `none` when the
core leaves the vector. -/
def SimilarityMax (this : Levenshtein) (string1 string2 : List Char) (minSimilarity : ℚ) :
    Except String (Option (ℚ × Levenshtein)) :=
  if minSimilarity < 0 ∨ minSimilarity > 1 then
    Except.error "minSimilarity must be in range 0 to 1.0"
  else if string1.isEmpty ∨ string2.isEmpty then
    Except.ok (some
      (((Helpers.NullSimilarityResults string1 string2 minSimilarity : Int) : ℚ), this))
  else
    let s1 := if string1.length > string2.length then string2 else string1
    let s2 := if string1.length > string2.length then string1 else string2
    let iMaxDistance := Helpers.ToDistance minSimilarity (s2.length : Int)
    if 0 ≤ iMaxDistance ∧ ((s2.length - s1.length : Nat) : Int) > iMaxDistance then
      Except.ok (some (-1, this))
    else if iMaxDistance = 0 then Except.ok (some ((if s1 = s2 then 1 else -1), this))
    else
      let (len1, len2, start) := Helpers.PrefixSuffixPrep s1 s2
      if len1 = 0 then Except.ok (some (1, this))
      else if iMaxDistance < (len2 : Int) then
        Except.ok ((Levenshtein.DistanceCoreMax s1 s2 len1 len2 start iMaxDistance
          (this.grow len2).baseChar1Costs).map
          (fun r => (Helpers.ToSimilarity r.1 (s2.length : Int), { baseChar1Costs := r.2 })))
      else
        Except.ok ((Levenshtein.DistanceCore s1 s2 len1 len2 start
          (this.grow len2).baseChar1Costs).map
          (fun r => (Helpers.ToSimilarity r.1 (s2.length : Int), { baseChar1Costs := r.2 })))

end Levenshtein

namespace Dictionary

/-- The lookup `d.find(key)` of a `Dictionary<xstring, V>`, embedded as the list of its
key-value pairs: `none` stands for `d.end()`. -/
def findWord {V : Type} : List (List Char × V) → List Char → Option V
  | [], _ => none
  | (k, v) :: rest, key => if k = key then some v else findWord rest key

/-- The assignment `d[key] = value` of a `Dictionary<xstring, V>`. -/
def setWord {V : Type} : List (List Char × V) → List Char → V → List (List Char × V)
  | [], key, value => [(key, value)]
  | (k, v) :: rest, key, value =>
    if k = key then (k, value) :: rest else (k, v) :: setWord rest key value

/-- The call `d.erase(key)` of a `Dictionary<xstring, V>`. -/
def eraseWord {V : Type} : List (List Char × V) → List Char → List (List Char × V)
  | [], _ => []
  | (k, v) :: rest, key => if k = key then eraseWord rest key else (k, v) :: eraseWord rest key

end Dictionary

/-- Fields of the class `SymSpell` that the index builder uses (`SymSpell.h` declares
them; the lengths and distances, `int` in the source, are natural numbers). The map
`deletes` is the dictionary the pointer of the source points to. -/
structure SymSpell where
  maxDictionaryEditDistance : Nat
  prefixLength : Nat
  countThreshold : Int
  maxDictionaryWordLength : Nat
  deletes : List (Int × List (List Char))
  words : List (List Char × Int)
  belowThresholdWords : List (List Char × Int)

namespace SymSpell

/-- Modelled from the spec: the state after construction. The body of the constructor is
not in the sources; by §3 of the specification the configuration is fixed at construction
and the maps start empty. -/
def new (maxDictionaryEditDistance prefixLength : Nat) (countThreshold : Int) : SymSpell :=
  { maxDictionaryEditDistance := maxDictionaryEditDistance
    prefixLength := prefixLength
    countThreshold := countThreshold
    maxDictionaryWordLength := 0
    deletes := []
    words := []
    belowThresholdWords := [] }

/-- Modelled from the spec: the addition of counts, "saturating at `i64::MAX`" (§4.E,
step 1). The body of `CreateDictionaryEntry` is not in the sources. -/
def addCounts (a b : Int) : Int :=
  if a + b ≤ 9223372036854775807 then a + b else 9223372036854775807

/-- Modelled from the spec: the strings reachable from `s` by one single-character
deletion (§4.E, step 3). The body of `Edits` is not in the sources. -/
def deleteOne (s : List Char) : List (List Char) :=
  (List.range s.length).map (fun i => s.eraseIdx i)

/-- Modelled from the spec: layer `k` of the enumeration "BFS layer by layer" of §4.E,
step 3: the unique strings reachable from `s` by `k` single-character deletions. The body
of `Edits` is not in the sources. -/
def Edits (s : List Char) : Nat → List (List Char)
  | 0 => [s]
  | k + 1 => ((Edits s k).flatMap deleteOne).dedup

/-- Modelled from the spec: the deletes generated for the word `key` (§4.E, step 3): the
prefix region `key[0 .. min(len, prefixLength)]` itself (the delete variant with no
character removed, §3), the empty delete if `len ≤ maxDictionaryEditDistance`, and all
unique strings reachable from the prefix region by between `1` and
`maxDictionaryEditDistance` single-character deletions. The body of `EditsPrefix` is not
in the sources. -/
def EditsPrefix (this : SymSpell) (key : List Char) : List (List Char) :=
  let region := key.take (min key.length this.prefixLength)
  ((if key.length ≤ this.maxDictionaryEditDistance then [[]] else []) ++ [region] ++
    (List.range this.maxDictionaryEditDistance).flatMap (fun k => Edits region (k + 1))).dedup

/-- Modelled from the spec: recording `(hash, key)` "directly into `deletes`" for each
generated delete (§4.E, step 4): `key` is put at the end of the list of the hash.
`GetstringHash` is an argument: its body is not in the sources. -/
def recordDirect (GetstringHash : List Char → Int) (key : List Char) :
    List (Int × List (List Char)) → List (List Char) → List (Int × List (List Char))
  | deletes, [] => deletes
  | deletes, d :: rest =>
    recordDirect GetstringHash key
      (Dictionary.set deletes (GetstringHash d)
        ((Dictionary.find deletes (GetstringHash d)).getD [] ++ [key])) rest

/-- Modelled from the spec: recording `(hash, key)` "through the staging buffer" for each
generated delete (§4.E, step 4), by `SuggestionStage::Add`; `none` when an `Add` does not
return. -/
def recordStaged (GetstringHash : List Char → Int) (key : List Char) :
    SuggestionStage → List (List Char) → Option SuggestionStage
  | staging, [] => some staging
  | staging, d :: rest =>
    match staging.Add (GetstringHash d) key with
    | none => none
    | some staging => recordStaged GetstringHash key staging rest

/-- Modelled from the spec: steps 2 to 4 of §4.E, for a word that is promoted to `words`
with the count `count`: the word is put into `words`, `maxDictionaryWordLength` is
updated, and the generated deletes are recorded, in `deletes` when `staging` is `none`
and in the staging buffer otherwise. -/
def promote (GetstringHash : List Char → Int) (this : SymSpell) (key : List Char)
    (count : Int) (staging : Option SuggestionStage) :
    Option (Bool × SymSpell × Option SuggestionStage) :=
  let this : SymSpell :=
    { maxDictionaryEditDistance := this.maxDictionaryEditDistance
      prefixLength := this.prefixLength
      countThreshold := this.countThreshold
      maxDictionaryWordLength := max this.maxDictionaryWordLength key.length
      deletes := this.deletes
      words := Dictionary.setWord this.words key count
      belowThresholdWords := this.belowThresholdWords }
  match staging with
  | none =>
    some (true,
      { maxDictionaryEditDistance := this.maxDictionaryEditDistance
        prefixLength := this.prefixLength
        countThreshold := this.countThreshold
        maxDictionaryWordLength := this.maxDictionaryWordLength
        deletes := recordDirect GetstringHash key this.deletes (this.EditsPrefix key)
        words := this.words
        belowThresholdWords := this.belowThresholdWords }, none)
  | some stage =>
    match recordStaged GetstringHash key stage (this.EditsPrefix key) with
    | none => none
    | some stage => some (true, this, some stage)

/-- Modelled from the spec: `CreateDictionaryEntry(key, count, staging)` as §4.E describes
it (the body is not in the sources): the returned value, the instance afterwards and the
staging buffer afterwards; `staging` is `none` for a call without a staging buffer. The
result is `none` when an `Add` of the staging buffer does not return. -/
def CreateDictionaryEntry (GetstringHash : List Char → Int) (this : SymSpell)
    (key : List Char) (count : Int) (staging : Option SuggestionStage) :
    Option (Bool × SymSpell × Option SuggestionStage) :=
  match Dictionary.findWord this.words key with
  | some c =>
    some (false,
      { maxDictionaryEditDistance := this.maxDictionaryEditDistance
        prefixLength := this.prefixLength
        countThreshold := this.countThreshold
        maxDictionaryWordLength := this.maxDictionaryWordLength
        deletes := this.deletes
        words := Dictionary.setWord this.words key (addCounts c count)
        belowThresholdWords := this.belowThresholdWords }, staging)
  | none =>
    match Dictionary.findWord this.belowThresholdWords key with
    | some c =>
      if addCounts c count < this.countThreshold then
        some (false,
          { maxDictionaryEditDistance := this.maxDictionaryEditDistance
            prefixLength := this.prefixLength
            countThreshold := this.countThreshold
            maxDictionaryWordLength := this.maxDictionaryWordLength
            deletes := this.deletes
            words := this.words
            belowThresholdWords :=
              Dictionary.setWord this.belowThresholdWords key (addCounts c count) }, staging)
      else
        promote GetstringHash
          { maxDictionaryEditDistance := this.maxDictionaryEditDistance
            prefixLength := this.prefixLength
            countThreshold := this.countThreshold
            maxDictionaryWordLength := this.maxDictionaryWordLength
            deletes := this.deletes
            words := this.words
            belowThresholdWords := Dictionary.eraseWord this.belowThresholdWords key }
          key (addCounts c count) staging
    | none =>
      if count < this.countThreshold then
        some (false,
          { maxDictionaryEditDistance := this.maxDictionaryEditDistance
            prefixLength := this.prefixLength
            countThreshold := this.countThreshold
            maxDictionaryWordLength := this.maxDictionaryWordLength
            deletes := this.deletes
            words := this.words
            belowThresholdWords := Dictionary.setWord this.belowThresholdWords key count },
          staging)
      else promote GetstringHash this key count staging

/-- Modelled from the spec: `PurgeBelowThresholdWords`, which "clears the below-threshold
map" (§4.D); the body is not in the sources. -/
def PurgeBelowThresholdWords (this : SymSpell) : SymSpell :=
  { maxDictionaryEditDistance := this.maxDictionaryEditDistance
    prefixLength := this.prefixLength
    countThreshold := this.countThreshold
    maxDictionaryWordLength := this.maxDictionaryWordLength
    deletes := this.deletes
    words := this.words
    belowThresholdWords := [] }

/-- Modelled from the spec: `CommitStaged(staging)`, which "forwards to `commitTo(deletes)`"
(§4.D); the body is not in the sources. `fuel` bounds the list walks of
`SuggestionStage::CommitTo`; the result is `none` when `CommitTo` does not return. -/
def CommitStaged (this : SymSpell) (fuel : Nat) (staging : SuggestionStage) :
    Option SymSpell :=
  match staging.CommitTo fuel this.deletes with
  | none => none
  | some deletes =>
    some
      { maxDictionaryEditDistance := this.maxDictionaryEditDistance
        prefixLength := this.prefixLength
        countThreshold := this.countThreshold
        maxDictionaryWordLength := this.maxDictionaryWordLength
        deletes := deletes
        words := this.words
        belowThresholdWords := this.belowThresholdWords }

end SymSpell

/-- The mutating calls of the index: `CreateDictionaryEntry` without and with the staging
buffer, `CommitStaged` and `PurgeBelowThresholdWords`. -/
inductive IndexOp where
  | create (key : List Char) (count : Int)
  | createStaged (key : List Char) (count : Int)
  | commit
  | purge

namespace SymSpell

/-- One mutating call on an index and the staging buffer used with it; `none` when the
call does not return. -/
def step (GetstringHash : List Char → Int) (fuel : Nat) :
    SymSpell × SuggestionStage → IndexOp → Option (SymSpell × SuggestionStage)
  | (this, staging), IndexOp.create key count =>
    match CreateDictionaryEntry GetstringHash this key count none with
    | none => none
    | some r => some (r.2.1, staging)
  | (this, staging), IndexOp.createStaged key count =>
    match CreateDictionaryEntry GetstringHash this key count (some staging) with
    | none => none
    | some r => some (r.2.1, r.2.2.getD staging)
  | (this, staging), IndexOp.commit =>
    match CommitStaged this fuel staging with
    | none => none
    | some this => some (this, staging)
  | (this, staging), IndexOp.purge => some (PurgeBelowThresholdWords this, staging)

/-- A sequence of mutating calls, one after the other. -/
def run (GetstringHash : List Char → Int) (fuel : Nat) :
    SymSpell × SuggestionStage → List IndexOp → Option (SymSpell × SuggestionStage)
  | st, [] => some st
  | st, op :: ops =>
    match step GetstringHash fuel st op with
    | none => none
    | some st => run GetstringHash fuel st ops

/-- Whether after the calls `ops` no staged entry waits for a `CommitStaged`: the value is
`clean` for no call, a staged `CreateDictionaryEntry` makes it `false`, a `CommitStaged`
makes it `true`. -/
def committed : Bool → List IndexOp → Bool
  | clean, [] => clean
  | clean, IndexOp.create _ _ :: ops => committed clean ops
  | _, IndexOp.createStaged _ _ :: ops => committed false ops
  | _, IndexOp.commit :: ops => committed true ops
  | clean, IndexOp.purge :: ops => committed clean ops

/-- The string `d` is obtained from `s` by `k` single-character deletions. -/
inductive DeletesTo (s : List Char) : Nat → List Char → Prop where
  | zero : DeletesTo s 0 s
  | succ (k : Nat) (e : List Char) (i : Nat) :
      DeletesTo s k e → i < e.length → DeletesTo s (k + 1) (e.eraseIdx i)

/-- The index invariant: for every word `w` of `words` and every string `d` obtained from
the first `min(|w|, prefixLength)` characters of `w` by between `0` and
`maxDictionaryEditDistance` deletions, the list `deletes[GetstringHash(d)]` contains
`w`. -/
def IndexInv (GetstringHash : List Char → Int) (this : SymSpell) : Prop :=
  ∀ w, (Dictionary.findWord this.words w).isSome →
    ∀ k d, k ≤ this.maxDictionaryEditDistance →
      DeletesTo (w.take (min w.length this.prefixLength)) k d →
      w ∈ (Dictionary.find this.deletes (GetstringHash d)).getD []

end SymSpell

namespace SuggestionStage

/-- The string `w` is among the strings staged for the hash `h`: every walk with enough
iterations returns a list that contains `w`. -/
def InStage (s : SuggestionStage) (h : Int) (w : List Char) : Prop :=
  ∀ fuel : Nat, s.Nodes.Count < (fuel : Int) → ∃ l, s.staged fuel h = some l ∧ w ∈ l

end SuggestionStage

namespace SymSpell

/-- Every delete variant of every word of `words` is recorded in `deletes` or satisfies
`pending`; `IndexInv` is the case where nothing is pending. -/
def Covered (GetstringHash : List Char → Int) (this : SymSpell)
    (pending : Int → List Char → Prop) : Prop :=
  ∀ w, (Dictionary.findWord this.words w).isSome →
    ∀ k d, k ≤ this.maxDictionaryEditDistance →
      DeletesTo (w.take (min w.length this.prefixLength)) k d →
      w ∈ (Dictionary.find this.deletes (GetstringHash d)).getD [] ∨
        pending (GetstringHash d) w

/-- The state of a sequence of calls: the configuration is the one given at construction,
the staging buffer is well formed, every delete variant is recorded or staged, and all are
recorded when `clean` is `true`. -/
def RunInv (GetstringHash : List Char → Int) (maxEditDistance prefixLen : Nat)
    (clean : Bool) (st : SymSpell × SuggestionStage) : Prop :=
  st.1.maxDictionaryEditDistance = maxEditDistance ∧ st.1.prefixLength = prefixLen ∧
    st.2.Inv ∧ Covered GetstringHash st.1 st.2.InStage ∧
    (clean = true → IndexInv GetstringHash st.1)

/-- An upper bound of the number of nodes that the calls `ops` add to the staging buffer:
the number of generated deletes of every word passed with the staging buffer. -/
def stagedCost (this : SymSpell) : List IndexOp → Nat
  | [] => 0
  | IndexOp.createStaged key _ :: ops => (this.EditsPrefix key).length + stagedCost this ops
  | IndexOp.create _ _ :: ops => stagedCost this ops
  | IndexOp.commit :: ops => stagedCost this ops
  | IndexOp.purge :: ops => stagedCost this ops

/-- The value of `committed` after one call. -/
def committedStep : Bool → IndexOp → Bool
  | clean, IndexOp.create _ _ => clean
  | _, IndexOp.createStaged _ _ => false
  | _, IndexOp.commit => true
  | clean, IndexOp.purge => clean

end SymSpell

/-- The algorithm `find_if(first, last, pred)` of the standard library on the characters
of a string from `first` on: the number of characters before the first one that satisfies
`pred`, the length of the string when there is none. -/
def find_if (pred : Char → Bool) : List Char → Nat
  | [] => 0
  | ch :: rest => if pred ch then 0 else find_if pred rest + 1

/-- The call `s.erase(first, last)` of a string, the iterators given by their positions:
the characters at the positions `first ≤ k < last` are removed. -/
def xstringErase (s : List Char) (first last : Nat) : List Char :=
  s.take first ++ s.drop last

/-- Function `ltrim` of `SymSpell.h`: the string `s` afterwards. The macro `isxspace`
stands for the library function `isspace` or `iswspace`; it is an argument here. -/
def ltrim (isxspace : Char → Bool) (s : List Char) : List Char :=
  xstringErase s 0 (find_if (fun ch => !isxspace ch) s)

/-- Function `rtrim` of `SymSpell.h`: the string `s` afterwards. The search runs over the
reverse iterators `s.rbegin() .. s.rend()`; the member `base()` of the reverse iterator
found after `k` characters is the position `|s| - k` of the string. -/
def rtrim (isxspace : Char → Bool) (s : List Char) : List Char :=
  xstringErase s (s.length - find_if (fun ch => !isxspace ch) s.reverse) s.length

/-- Function `trim` of `SymSpell.h`: `ltrim(s); rtrim(s);`. -/
def trim (isxspace : Char → Bool) (s : List Char) : List Char :=
  rtrim isxspace (ltrim isxspace s)

/-- First column of the band of row `i`: `max(0, i - (maxDistance - lenDiff))`. -/
def bandStart (maxDistance lenDiff : Int) (i : Nat) : Nat :=
  (max 0 ((i : Int) - (maxDistance - lenDiff))).toNat

/-- End of the band of row `i`, the first column after it:
`min(len2, i + maxDistance + 1)`. -/
def bandEnd (len2 : Nat) (maxDistance : Int) (i : Nat) : Int :=
  min (len2 : Int) ((i : Int) + maxDistance + 1)

namespace DamerauOSA

/-- The outer loop of the bounded core with the band of each row in closed form: row `i`
runs its inner loop over the columns `bandStart .. bandEnd - 1`; everything else is as in
`rowsMax`. -/
def rowsBand (string1 string2 : List Char) (len2 start : Nat) (maxDistance lenDiff : Int) :
    Nat → Nat → Outer → Int
  | 0, _, o => if o.currentCost ≤ maxDistance then o.currentCost else -1
  | n + 1, i, o =>
    let o := row string1 string2 start i (bandStart maxDistance lenDiff i)
      (bandEnd len2 maxDistance i - (bandStart maxDistance lenDiff i : Int)).toNat o
    if rd o.char1Costs ((i : Int) + lenDiff).toNat > maxDistance then -1
    else rowsBand string1 string2 len2 start maxDistance lenDiff n (i + 1) o

end DamerauOSA

namespace Levenshtein

/-- The outer loop of the bounded core with the band of each row in closed form: row `i`
runs its inner loop over the columns `bandStart .. bandEnd - 1`; everything else is as in
`rowsMax`. -/
def rowsBand (string1 string2 : List Char) (len2 offset : Nat) (maxDistance lenDiff : Int) :
    Nat → Nat → Outer → Int × List Int
  | 0, _, o =>
    ((if o.currentCharCost ≤ maxDistance then o.currentCharCost else -1), o.char1Costs)
  | n + 1, i, o =>
    let o := row string1 string2 offset i (bandStart maxDistance lenDiff i)
      (bandEnd len2 maxDistance i - (bandStart maxDistance lenDiff i : Int)).toNat o
    if rd o.char1Costs ((i : Int) + lenDiff).toNat > maxDistance then (-1, o.char1Costs)
    else rowsBand string1 string2 len2 offset maxDistance lenDiff n (i + 1) o

end Levenshtein

namespace DamerauOSA

/-- What row `i` of a `DamerauOSA` core, run over the columns `lo ≤ t < hi`, has done to the
state `o` of the outer loop when it leaves `o1`: every column `t` of the band holds in
`char1Costs` the cost `cellCost` of its cell, computed from the cost on the diagonal (the
old element `t - 1`, or `i` in the first column), the cost above (the new element `t - 1`,
or `i`), the old element `t` and the transposition cost (the old element `t - 1` of
`prevChar1Costs`, or `0`), and in `prevChar1Costs` the cost on the diagonal; the elements
outside the band are as before; `currentCost` is the cost of the last column. -/
def RowWritten (string1 string2 : List Char) (start i lo : Nat) (hi : Int) (o o1 : Outer) :
    Prop :=
  o1.char1 = charAt string1 (start + i) ∧
  (∀ t : Nat, lo ≤ t → (t : Int) < hi →
    rd o1.char1Costs t =
      cellCost (charAt string1 (start + i)) o.char1 (charAt string2 (start + t))
        (if t = lo then ' ' else charAt string2 (start + (t - 1))) i t
        (if t = lo then (i : Int) else rd o.char1Costs (t - 1))
        (if t = lo then (i : Int) else rd o1.char1Costs (t - 1))
        (rd o.char1Costs t)
        (if t = lo then 0 else rd o.prevChar1Costs (t - 1)) ∧
    rd o1.prevChar1Costs t = (if t = lo then (i : Int) else rd o.char1Costs (t - 1))) ∧
  (∀ t : Nat, (t < lo ∨ hi ≤ (t : Int)) →
    rd o1.char1Costs t = rd o.char1Costs t ∧
      rd o1.prevChar1Costs t = rd o.prevChar1Costs t) ∧
  ((lo : Int) < hi → o1.currentCost = rd o1.char1Costs (hi - 1).toNat)

end DamerauOSA

namespace Levenshtein

/-- What row `i` of a `Levenshtein` core, run over the columns `lo ≤ t < hi`, has done to
the state `o` of the outer loop when it leaves `o1`: every column `t` of the band holds the
cost `levCost` of its cell, computed from the cost on the diagonal (the old element
`t - 1`, or `i` in the first column), the cost above (the new element `t - 1`, or `i`) and
the old element `t`; the elements outside the band are as before; `currentCharCost` is the
cost of the last column. -/
def RowWritten (string1 string2 : List Char) (offset i lo : Nat) (hi : Int) (o o1 : Outer) :
    Prop :=
  (∀ t : Nat, lo ≤ t → (t : Int) < hi →
    rd o1.char1Costs t =
      levCost (charAt string1 (offset + i)) (charAt string2 (offset + t))
        (if t = lo then (i : Int) else rd o.char1Costs (t - 1))
        (if t = lo then (i : Int) else rd o1.char1Costs (t - 1))
        (rd o.char1Costs t)) ∧
  (∀ t : Nat, (t < lo ∨ hi ≤ (t : Int)) → rd o1.char1Costs t = rd o.char1Costs t) ∧
  ((lo : Int) < hi → o1.currentCharCost = rd o1.char1Costs (hi - 1).toNat)

end Levenshtein

namespace DamerauOSA

/-- State of the inner loop of a row before column `j`, on all vectors. -/
structure CellInv (string1 string2 : List Char) (start i jS : Nat) (o : Outer) (j : Nat)
    (v : Inner) : Prop where
  lenC : v.char1Costs.length = o.char1Costs.length
  lenP : v.prevChar1Costs.length = o.prevChar1Costs.length
  cOut : ∀ t, (t < jS ∨ j ≤ t) → rd v.char1Costs t = rd o.char1Costs t
  pOut : ∀ t, (t < jS ∨ j ≤ t) → rd v.prevChar1Costs t = rd o.prevChar1Costs t
  cells : ∀ t, jS ≤ t → t < j →
    rd v.char1Costs t =
      cellCost (charAt string1 (start + i)) o.char1 (charAt string2 (start + t))
        (if t = jS then ' ' else charAt string2 (start + (t - 1))) i t
        (if t = jS then (i : Int) else rd o.char1Costs (t - 1))
        (if t = jS then (i : Int) else rd v.char1Costs (t - 1))
        (rd o.char1Costs t)
        (if t = jS then 0 else rd o.prevChar1Costs (t - 1)) ∧
    rd v.prevChar1Costs t = (if t = jS then (i : Int) else rd o.char1Costs (t - 1))
  left : v.leftCharCost = if j = jS then (i : Int) else rd o.char1Costs (j - 1)
  above : v.aboveCharCost = if j = jS then (i : Int) else rd v.char1Costs (j - 1)
  next : v.nextTransCost = if j = jS then 0 else rd o.prevChar1Costs (j - 1)
  ch2 : v.char2 = if j = jS then ' ' else charAt string2 (start + (j - 1))
  cur : jS < j → v.currentCost = rd v.char1Costs (j - 1)

end DamerauOSA

namespace Levenshtein

/-- State of the inner loop of a row before column `j`, on every vector. -/
structure LevCellInv (string1 string2 : List Char) (offset i jS : Nat) (o : Outer) (j : Nat)
    (v : Inner) : Prop where
  lenC : v.char1Costs.length = o.char1Costs.length
  cOut : ∀ t, (t < jS ∨ j ≤ t) → rd v.char1Costs t = rd o.char1Costs t
  cells : ∀ t, jS ≤ t → t < j →
    rd v.char1Costs t =
      levCost (charAt string1 (offset + i)) (charAt string2 (offset + t))
        (if t = jS then (i : Int) else rd o.char1Costs (t - 1))
        (if t = jS then (i : Int) else rd v.char1Costs (t - 1))
        (rd o.char1Costs t)
  left : v.leftCharCost = if j = jS then (i : Int) else rd o.char1Costs (j - 1)
  above : v.aboveCharCost = if j = jS then (i : Int) else rd v.char1Costs (j - 1)
  cur : jS < j → v.currentCharCost = rd v.char1Costs (j - 1)

end Levenshtein

/-- The public calls of a kernel that use its cost buffers: `Distance(string1, string2)`,
`Distance(string1, string2, maxDistance)`, `Similarity(string1, string2)` and
`Similarity(string1, string2, minSimilarity)`. -/
inductive KernelCall where
  | distance (string1 string2 : List Char)
  | distanceMax (string1 string2 : List Char) (maxDistance : Int)
  | similarity (string1 string2 : List Char)
  | similarityMax (string1 string2 : List Char) (minSimilarity : ℚ)

namespace KernelCall

/-- The first string of a call. -/
def string1 : KernelCall → List Char
  | distance a _ => a
  | distanceMax a _ _ => a
  | similarity a _ => a
  | similarityMax a _ _ => a

/-- The second string of a call. -/
def string2 : KernelCall → List Char
  | distance _ b => b
  | distanceMax _ b _ => b
  | similarity _ b => b
  | similarityMax _ b _ => b

/-- The shorter string of a call, as the methods order the strings. -/
def shorter (c : KernelCall) : List Char :=
  if c.string1.length > c.string2.length then c.string2 else c.string1

/-- The longer string of a call, as the methods order the strings. -/
def longer (c : KernelCall) : List Char :=
  if c.string1.length > c.string2.length then c.string1 else c.string2

/-- The trimmed length `len1` of the shorter string of a call. -/
def len1 (c : KernelCall) : Nat := (Helpers.PrefixSuffixPrep c.shorter c.longer).1

/-- The trimmed length `len2` of the longer string of a call. -/
def len2 (c : KernelCall) : Nat := (Helpers.PrefixSuffixPrep c.shorter c.longer).2.1

/-- The conditions on the bound under which a call goes on to `PrefixSuffixPrep`: none for
the calls without a bound; `0 < maxDistance` and a difference of the sizes of at most
`iMaxDistance` for `Distance`; `minSimilarity` from `0` to `1`, `iMaxDistance > 0` and a
difference of the sizes of at most `iMaxDistance` for `Similarity`. -/
def boundAdmits : KernelCall → Prop
  | distance _ _ => True
  | distanceMax a b maxDistance =>
    0 < maxDistance ∧
      (((distanceMax a b maxDistance).longer.length -
        (distanceMax a b maxDistance).shorter.length : Nat) : Int) ≤
        (if maxDistance ≤ INT_MAX then maxDistance else INT_MAX)
  | similarity _ _ => True
  | similarityMax a b minSimilarity =>
    0 ≤ minSimilarity ∧ minSimilarity ≤ 1 ∧
      0 < Helpers.ToDistance minSimilarity ((similarityMax a b minSimilarity).longer.length : Int) ∧
      (((similarityMax a b minSimilarity).longer.length -
        (similarityMax a b minSimilarity).shorter.length : Nat) : Int) ≤
        Helpers.ToDistance minSimilarity ((similarityMax a b minSimilarity).longer.length : Int)

/-- The call runs the DP, one of the cores: none of the returns before the call of the
core is taken. Both strings are non-empty, the bound admits the call, and the trimmed
shorter string is not empty. -/
def runsDP (c : KernelCall) : Prop :=
  c.string1 ≠ [] ∧ c.string2 ≠ [] ∧ c.boundAdmits ∧ c.len1 ≠ 0

end KernelCall

namespace DamerauOSA

/-- The instance after a call; a call that throws leaves the instance as it is. -/
def call (this : DamerauOSA) : KernelCall → DamerauOSA
  | KernelCall.distance a b => (this.Distance a b).2
  | KernelCall.distanceMax a b maxDistance => (this.DistanceMax a b maxDistance).2
  | KernelCall.similarity a b => (this.Similarity a b).2
  | KernelCall.similarityMax a b minSimilarity =>
    match this.SimilarityMax a b minSimilarity with
    | Except.ok r => r.2
    | Except.error _ => this

/-- The instance after a sequence of calls. -/
def calls (this : DamerauOSA) : List KernelCall → DamerauOSA
  | [] => this
  | c :: cs => calls (this.call c) cs

end DamerauOSA

namespace Levenshtein

/-- The instance after a call, `none` when the call returns no value; a call that throws
leaves the instance as it is. -/
def call (this : Levenshtein) : KernelCall → Option Levenshtein
  | KernelCall.distance a b => (this.Distance a b).map Prod.snd
  | KernelCall.distanceMax a b maxDistance => (this.DistanceMax a b maxDistance).map Prod.snd
  | KernelCall.similarity a b => (this.Similarity a b).map Prod.snd
  | KernelCall.similarityMax a b minSimilarity =>
    match this.SimilarityMax a b minSimilarity with
    | Except.ok r => r.map Prod.snd
    | Except.error _ => some this

/-- The instance after a sequence of calls, `none` when one of them returns no value. -/
def calls (this : Levenshtein) : List KernelCall → Option Levenshtein
  | [] => some this
  | c :: cs => (this.call c).bind (fun l => calls l cs)

/-- What a call that runs the DP does to the instance, when the instance afterwards is
`X`: if the call returns, the buffer has the size it has after the growth to `len2`, and
the call returns on an instance whose buffer has more than `len2` elements. -/
def DPResult (this : Levenshtein) (len2 : Nat) (X : Option Levenshtein) : Prop :=
  (∀ l1, X = some l1 →
    l1.baseChar1Costs.length = (this.grow len2).baseChar1Costs.length) ∧
  (len2 < this.baseChar1Costs.length → ∃ l1, X = some l1)

end Levenshtein

/-- The calls that change a `SuggestionStage`: `Add(deleteHash, suggestion)` and
`Clear()`. -/
inductive StageOp where
  | add (deleteHash : Int) (suggestion : List Char)
  | clear

namespace StageOp

/-- The `Add` calls since the last `Clear`, in the order of the calls, after the calls
`ops`; the first argument holds those of the calls before `ops`. -/
def sinceClear : List (Int × List Char) → List StageOp → List (Int × List Char)
  | adds, [] => adds
  | adds, add deleteHash suggestion :: ops => sinceClear (adds ++ [(deleteHash, suggestion)]) ops
  | _, clear :: ops => sinceClear [] ops

end StageOp

namespace SuggestionStage

/-- The calls `ops` one after the other; `none` when an `Add` does not return. -/
def runOps : SuggestionStage → List StageOp → Option SuggestionStage
  | s, [] => some s
  | s, StageOp.add deleteHash suggestion :: ops =>
    match s.Add deleteHash suggestion with
    | none => none
    | some s1 => runOps s1 ops
  | s, StageOp.clear :: ops => runOps s.Clear ops

/-- The stage after the `Add` calls `adds` (in the order of the calls) since the
construction or the last `Clear`: it is well formed, `Nodes.Count` is the number of the
calls, the list staged for a hash holds the suggestions added for it, the last one first,
the staged hashes are the added ones, the `count` of an entry is the number of suggestions
added for its hash, and no `next` is below `-1`. -/
structure Chain (s : SuggestionStage) (adds : List (Int × List Char)) : Prop where
  inv : s.Inv
  count : s.Nodes.Count = (adds.length : Int)
  staged : ∀ (fuel : Nat) (h : Int), s.Nodes.Count < (fuel : Int) →
    s.staged fuel h = some (addedFor adds h)
  keys : ∀ h, (Dictionary.find s.Deletes h).isSome ↔ h ∈ adds.map Prod.fst
  entry : ∀ h e, Dictionary.find s.Deletes h = some e →
    e.count = ((addedFor adds h).length : Int)
  next : ∀ k : Nat, (k : Int) < s.Nodes.Count →
    ∃ node, s.Nodes.get? k = some node ∧ -1 ≤ node.next

/-- The loop `while (next >= 0)` of `SuggestionStage::CommitTo` with the member `Nodes`
passed through the iterations: an iteration copies `Nodes.At(next)` to the local `node`
and assigns to `suggestions` and `next`. The result is the array and the suggestions
after the loop. -/
def walkState (Nodes : ChunkArray Node) :
    Nat → Int → List (List Char) → Option (ChunkArray Node × List (List Char))
  | 0, next, suggestions => if 0 ≤ next then none else some (Nodes, suggestions)
  | fuel + 1, next, suggestions =>
    if 0 ≤ next then
      match Nodes.At (toUnsigned next) with
      | none => none
      | some node => walkState Nodes fuel node.next (suggestions ++ [node.suggestion])
    else some (Nodes, suggestions)

/-- The loop of `SuggestionStage::CommitTo` over the staged hashes with the stage passed
through the iterations; the second argument holds the key-value pairs of `Deletes` that the
iterator has not reached yet. The result is the stage and the permanent dictionary after
the loop. -/
def commitLoopState (fuel : Nat) :
    SuggestionStage → List (Int × Entry) → List (Int × List (List Char)) →
      Option (SuggestionStage × List (Int × List (List Char)))
  | this, [], permanentDeletes => some (this, permanentDeletes)
  | this, (key, entry) :: rest, permanentDeletes =>
    let suggestions : List (List Char) :=
      match Dictionary.find permanentDeletes key with
      | some s => s
      | none => []
    match walkState this.Nodes fuel entry.first suggestions with
    | none => none
    | some r =>
      commitLoopState fuel { Deletes := this.Deletes, Nodes := r.1 } rest
        (Dictionary.set permanentDeletes key r.2)

/-- Method `SuggestionStage::CommitTo` as a change of the state: the stage and the
permanent dictionary after the call; `fuel` bounds the number of iterations of each list
walk. -/
def CommitToState (this : SuggestionStage) (fuel : Nat)
    (permanentDeletes : List (Int × List (List Char))) :
    Option (SuggestionStage × List (Int × List (List Char))) :=
  commitLoopState fuel this this.Deletes permanentDeletes

end SuggestionStage

namespace Helpers

end Helpers

namespace DamerauOSA

end DamerauOSA

namespace Levenshtein

end Levenshtein

/-! ## Part II: theorems -/

section
variable (f g : Nat → Char)

theorem osaTable_zero_left (j : Nat) : osaTable f g 0 j = j := by
  rw [osaTable]

theorem osaTable_zero_right (i : Nat) : osaTable f g i 0 = i := by
  cases i <;> rw [osaTable]

theorem osaTable_one_left (j : Nat) :
    osaTable f g 1 (j + 1) = osaBest f g 0 j := by
  rw [osaTable]; simp [osaBest]

theorem osaTable_one_right (i : Nat) :
    osaTable f g (i + 1) 1 = osaBest f g i 0 := by
  rw [osaTable]; simp [osaBest]

theorem osaTable_succ_succ (i j : Nat) :
    osaTable f g (i + 2) (j + 2) =
      if f (i + 1) = g j ∧ f i = g (j + 1) then
        min (osaBest f g (i + 1) (j + 1)) (osaTable f g i j + 1)
      else osaBest f g (i + 1) (j + 1) := by
  rw [osaTable]; simp [osaBest]

end

section
variable (f g : Nat → Char)

theorem osaTable_le_sub (i j : Nat) :
    osaTable f g (i + 1) (j + 1) ≤ osaTable f g i j + (if f i = g j then 0 else 1) := by
  rw [osaTable.eq_3]; split_ifs <;> omega

theorem osaTable_le_del (i j : Nat) :
    osaTable f g (i + 1) (j + 1) ≤ osaTable f g i (j + 1) + 1 := by
  rw [osaTable.eq_3]; split_ifs <;> omega

theorem osaTable_le_ins (i j : Nat) :
    osaTable f g (i + 1) (j + 1) ≤ osaTable f g (i + 1) j + 1 := by
  rw [osaTable.eq_3]; split_ifs <;> omega

theorem osaTable_le_trans (i j : Nat) (h1 : f (i + 1) = g j) (h2 : f i = g (j + 1)) :
    osaTable f g (i + 1 + 1) (j + 1 + 1) ≤ osaTable f g i j + 1 := by
  show osaTable f g (i + 2) (j + 2) ≤ osaTable f g i j + 1
  rw [osaTable_succ_succ, if_pos ⟨h1, h2⟩]; omega

/-- Every entry is attained by one of the candidates of the recurrence. -/
theorem osaTable_attained (i j : Nat) :
    osaTable f g (i + 1) (j + 1) = osaTable f g i j + (if f i = g j then 0 else 1) ∨
    osaTable f g (i + 1) (j + 1) = osaTable f g i (j + 1) + 1 ∨
    osaTable f g (i + 1) (j + 1) = osaTable f g (i + 1) j + 1 ∨
    (0 < i ∧ 0 < j ∧ f i = g (j - 1) ∧ f (i - 1) = g j ∧
      osaTable f g (i + 1) (j + 1) = osaTable f g (i - 1) (j - 1) + 1) := by
  rw [osaTable.eq_3]
  split_ifs with hc h h
  · have := hc.1; have := hc.2.1; have := hc.2.2.1; have := hc.2.2.2
    simp only [true_and, *]; omega
  · have := hc.1; have := hc.2.1; have := hc.2.2.1; have := hc.2.2.2
    simp only [true_and, *]; omega
  · omega
  · omega

theorem osaTable_le_succ_row (i j : Nat) : osaTable f g (i + 1) j ≤ osaTable f g i j + 1 := by
  cases j with
  | zero => simp [osaTable_zero_right]
  | succ j => exact osaTable_le_del f g i j

theorem osaTable_le_succ_col (i j : Nat) : osaTable f g i (j + 1) ≤ osaTable f g i j + 1 := by
  cases i with
  | zero => simp [osaTable_zero_left]
  | succ i => exact osaTable_le_ins f g i j

/-- Induction along the dependencies of the recurrence. -/
theorem table_induction {motive : Nat → Nat → Prop}
    (h0 : ∀ j, motive 0 j) (h1 : ∀ i, motive (i + 1) 0)
    (hs : ∀ i j, motive i j → motive i (j + 1) → motive (i + 1) j →
      (∀ i' j', i = i' + 1 → j = j' + 1 → motive i' j') → motive (i + 1) (j + 1))
    (i j : Nat) : motive i j := by
  induction i using Nat.strong_induction_on generalizing j with
  | _ i ih =>
    match i with
    | 0 => exact h0 j
    | i + 1 =>
      induction j with
      | zero => exact h1 i
      | succ j ihj =>
        exact hs i j (ih i (by omega) j) (ih i (by omega) (j + 1)) ihj
          (fun i' j' hi _ => ih i' (by omega) j')

theorem osaTable_symm (i j : Nat) : osaTable f g i j = osaTable g f j i := by
  induction i, j using table_induction with
  | h0 j => rw [osaTable_zero_left, osaTable_zero_right]
  | h1 i => rw [osaTable_zero_left, osaTable_zero_right]
  | hs i j ih1 ih2 ih3 ih4 =>
    have e : (if f i = g j then 0 else 1) = (if g j = f i then 0 else 1) := by
      by_cases e : f i = g j
      · rw [if_pos e, if_pos e.symm]
      · rw [if_neg e, if_neg (fun c => e c.symm)]
    by_cases h : 0 < i ∧ 0 < j ∧ f i = g (j - 1) ∧ f (i - 1) = g j
    · have h' : 0 < j ∧ 0 < i ∧ g j = f (i - 1) ∧ g (j - 1) = f i :=
        ⟨h.2.1, h.1, h.2.2.2.symm, h.2.2.1.symm⟩
      have ih4' := ih4 (i - 1) (j - 1) (by omega) (by omega)
      rw [osaTable.eq_3, osaTable.eq_3, if_pos h, if_pos h', ih1, ih2, ih3, ih4', e]
      omega
    · have h' : ¬ (0 < j ∧ 0 < i ∧ g j = f (i - 1) ∧ g (j - 1) = f i) :=
        fun c => h ⟨c.2.1, c.1, c.2.2.2.symm, c.2.2.1.symm⟩
      rw [osaTable.eq_3, osaTable.eq_3, if_neg h, if_neg h', ih1, ih2, ih3, e]
      omega

/-- Dropping the last character of the second string lowers the distance by at most one. -/
theorem osaTable_le_succ_right (i j : Nat) :
    osaTable f g i j ≤ osaTable f g i (j + 1) + 1 := by
  induction i using Nat.strong_induction_on generalizing j with
  | _ i ih =>
    match i with
    | 0 => simp only [osaTable_zero_left]; omega
    | i + 1 =>
      have h1 := ih i (by omega) (j + 1)
      have h2 := osaTable_le_succ_row f g i j
      have h3 := osaTable_le_succ_row f g i (j + 1)
      have h0 := ih i (by omega) j
      rcases osaTable_attained f g i j with h | h | h | ⟨hi, hj, -, -, h⟩
      · split_ifs at h <;> omega
      · omega
      · omega
      · obtain ⟨i', rfl⟩ : ∃ i', i = i' + 1 := ⟨i - 1, by omega⟩
        obtain ⟨j', rfl⟩ : ∃ j', j = j' + 1 := ⟨j - 1, by omega⟩
        simp only [Nat.add_sub_cancel] at h
        have h5 := osaTable_le_succ_row f g i' j'
        have h6 := osaTable_le_sub f g (i' + 1) j'
        have h7 := ih (i' + 1) (by omega) j'
        split_ifs at h6 <;> omega

end

section
variable (f g : Nat → Char)

theorem osaTable_le_succ_left (i j : Nat) :
    osaTable f g i j ≤ osaTable f g (i + 1) j + 1 := by
  rw [osaTable_symm f g i j, osaTable_symm f g (i + 1) j]
  exact osaTable_le_succ_right g f j i

/-- Equal characters: the entry is the diagonal neighbour. -/
theorem osaTable_eq_diag (i j : Nat) (h : f i = g j) :
    osaTable f g (i + 1) (j + 1) = osaTable f g i j := by
  have h1 := osaTable_le_sub f g i j
  rw [if_pos h] at h1
  have h2 := osaTable_le_succ_right f g i j
  have h3 := osaTable_le_succ_left f g i j
  rcases osaTable_attained f g i j with e | e | e | ⟨hi, hj, -, -, e⟩
  · rw [if_pos h] at e; omega
  · omega
  · omega
  · obtain ⟨i', rfl⟩ : ∃ i', i = i' + 1 := ⟨i - 1, by omega⟩
    obtain ⟨j', rfl⟩ : ∃ j', j = j' + 1 := ⟨j - 1, by omega⟩
    simp only [Nat.add_sub_cancel] at e
    have h6 := osaTable_le_sub f g i' j'
    split_ifs at h6 <;> omega

/-- The table does not decrease along a diagonal. -/
theorem osaTable_diag_mono (i j : Nat) :
    osaTable f g i j ≤ osaTable f g (i + 1) (j + 1) := by
  have h2 := osaTable_le_succ_right f g i j
  have h3 := osaTable_le_succ_left f g i j
  rcases osaTable_attained f g i j with e | e | e | ⟨hi, hj, -, -, e⟩
  · omega
  · omega
  · omega
  · obtain ⟨i', rfl⟩ : ∃ i', i = i' + 1 := ⟨i - 1, by omega⟩
    obtain ⟨j', rfl⟩ : ∃ j', j = j' + 1 := ⟨j - 1, by omega⟩
    simp only [Nat.add_sub_cancel] at e
    have h6 := osaTable_le_sub f g i' j'
    split_ifs at h6 <;> omega

theorem osaTable_diag_mono_add (i j t : Nat) :
    osaTable f g i j ≤ osaTable f g (i + t) (j + t) := by
  induction t with
  | zero => simp
  | succ t ih => exact le_trans ih (osaTable_diag_mono f g (i + t) (j + t))

/-- The distance is at least the difference of the lengths. -/
theorem osaTable_lower (i j : Nat) :
    i ≤ osaTable f g i j + j ∧ j ≤ osaTable f g i j + i := by
  induction i, j using table_induction with
  | h0 j => rw [osaTable_zero_left]; omega
  | h1 i => rw [osaTable_zero_right]; omega
  | hs i j ih1 ih2 ih3 ih4 =>
    rcases osaTable_attained f g i j with e | e | e | ⟨hi, hj, -, -, e⟩
    · omega
    · omega
    · omega
    · have := ih4 (i - 1) (j - 1) (by omega) (by omega)
      omega

/-- The distance is at most the larger length. -/
theorem osaTable_le_max (i j : Nat) : osaTable f g i j ≤ max i j := by
  induction i, j using table_induction with
  | h0 j => rw [osaTable_zero_left]; omega
  | h1 i => rw [osaTable_zero_right]; omega
  | hs i j ih1 ih2 ih3 ih4 =>
    have := osaTable_le_sub f g i j
    split_ifs at this <;> omega

/-- When the first characters differ, only the empty prefixes are at distance zero. -/
theorem osaTable_pos (h : f 0 ≠ g 0) (i j : Nat) (hij : 0 < i + j) :
    1 ≤ osaTable f g i j := by
  induction i, j using table_induction with
  | h0 j => rw [osaTable_zero_left]; omega
  | h1 i => rw [osaTable_zero_right]; omega
  | hs i j ih1 ih2 ih3 ih4 =>
    rcases osaTable_attained f g i j with e | e | e | ⟨hi, hj, -, -, e⟩
    · by_cases h0 : i + j = 0
      · obtain ⟨rfl, rfl⟩ : i = 0 ∧ j = 0 := by omega
        rw [if_neg h] at e; omega
      · have := ih1 (by omega); omega
    · omega
    · omega
    · omega

end

section
variable (f g : Nat → Char)

theorem osaTable_one_row (h : f 0 = g 0) (j : Nat) : osaTable f g 1 (j + 1) = j := by
  induction j with
  | zero => rw [osaTable_eq_diag f g 0 0 h, osaTable_zero_left]
  | succ j ih =>
    have h1 := osaTable_le_succ_col f g 1 (j + 1)
    have h2 := (osaTable_lower f g 1 (j + 1 + 1)).2
    omega

theorem osaTable_one_col (h : f 0 = g 0) (i : Nat) : osaTable f g (i + 1) 1 = i := by
  rw [osaTable_symm]; exact osaTable_one_row g f h.symm i

/-- A common first character can be removed. -/
theorem osaTable_shift_one (h : f 0 = g 0) (i j : Nat) :
    osaTable f g (i + 1) (j + 1) =
      osaTable (fun u => f (u + 1)) (fun u => g (u + 1)) i j := by
  induction i, j using table_induction with
  | h0 j => rw [osaTable_one_row f g h, osaTable_zero_left]
  | h1 i => rw [osaTable_one_col f g h, osaTable_zero_right]
  | hs i j ih1 ih2 ih3 ih4 =>
    have a1 := osaTable_le_sub f g (i + 1) (j + 1)
    have a2 := osaTable_le_del f g (i + 1) (j + 1)
    have a3 := osaTable_le_ins f g (i + 1) (j + 1)
    have b1 := osaTable_le_sub (fun u => f (u + 1)) (fun u => g (u + 1)) i j
    have b2 := osaTable_le_del (fun u => f (u + 1)) (fun u => g (u + 1)) i j
    have b3 := osaTable_le_ins (fun u => f (u + 1)) (fun u => g (u + 1)) i j
    beta_reduce at b1
    apply Nat.le_antisymm
    · rcases osaTable_attained (fun u => f (u + 1)) (fun u => g (u + 1)) i j with
        e | e | e | ⟨hi, hj, c1, c2, e⟩
      · omega
      · omega
      · omega
      · obtain ⟨i', rfl⟩ : ∃ i', i = i' + 1 := ⟨i - 1, by omega⟩
        obtain ⟨j', rfl⟩ : ∃ j', j = j' + 1 := ⟨j - 1, by omega⟩
        simp only [Nat.add_sub_cancel] at e c1 c2
        have e4 := ih4 i' j' rfl rfl
        have := osaTable_le_trans f g (i' + 1) (j' + 1) c1 c2
        omega
    · rcases osaTable_attained f g (i + 1) (j + 1) with e | e | e | ⟨-, -, c1, c2, e⟩
      · omega
      · omega
      · omega
      · simp only [Nat.add_sub_cancel] at e c1 c2
        match i, j with
        | 0, j =>
          rw [osaTable_zero_left] at e
          rw [osaTable_zero_left] at b1
          split_ifs at b1 <;> omega
        | i + 1, 0 =>
          rw [osaTable_zero_right] at e
          rw [osaTable_zero_right] at b1
          split_ifs at b1 <;> omega
        | i + 1, j + 1 =>
          have e4 := ih4 i j rfl rfl
          have := osaTable_le_trans (fun u => f (u + 1)) (fun u => g (u + 1)) i j c1 c2
          omega

/-- A common prefix can be removed. -/
theorem osaTable_shift (t : Nat) : ∀ (f g : Nat → Char), (∀ u, u < t → f u = g u) →
    ∀ i j, osaTable f g (t + i) (t + j) =
      osaTable (fun u => f (t + u)) (fun u => g (t + u)) i j := by
  induction t with
  | zero => intro f g _ i j; simp
  | succ t ih =>
    intro f g h i j
    have e1 : t + 1 + i = (t + i) + 1 := by omega
    have e2 : t + 1 + j = (t + j) + 1 := by omega
    rw [e1, e2, osaTable_shift_one f g (h 0 (by omega)),
      ih (fun u => f (u + 1)) (fun u => g (u + 1)) (fun u hu => h (u + 1) (by omega))]
    have e3 : ∀ u, t + u + 1 = t + 1 + u := by intro u; omega
    simp only [e3]

/-- A common suffix can be removed. -/
theorem osaTable_drop_suffix (i j t : Nat) (h : ∀ u, u < t → f (i + u) = g (j + u)) :
    osaTable f g (i + t) (j + t) = osaTable f g i j := by
  induction t with
  | zero => rfl
  | succ t ih =>
    rw [← Nat.add_assoc, ← Nat.add_assoc, osaTable_eq_diag f g (i + t) (j + t) (h t (by omega))]
    exact ih (fun u hu => h u (by omega))

/-- An entry depends only on the characters before its indices. -/
theorem osaTable_congr (f' g' : Nat → Char) (i j : Nat)
    (hf : ∀ u, u < i → f u = f' u) (hg : ∀ u, u < j → g u = g' u) :
    osaTable f g i j = osaTable f' g' i j := by
  induction i, j using table_induction with
  | h0 j => rw [osaTable_zero_left, osaTable_zero_left]
  | h1 i => rw [osaTable_zero_right, osaTable_zero_right]
  | hs i j ih1 ih2 ih3 ih4 =>
    have e1 := ih1 (fun u hu => hf u (by omega)) (fun u hu => hg u (by omega))
    have e2 := ih2 (fun u hu => hf u (by omega)) hg
    have e3 := ih3 hf (fun u hu => hg u (by omega))
    rw [osaTable.eq_3, osaTable.eq_3, e1, e2, e3, ← hf i (by omega), ← hg j (by omega)]
    match i, j with
    | 0, j => simp
    | i + 1, 0 => simp
    | i + 1, j + 1 =>
      have e4 := ih4 i j rfl rfl (fun u hu => hf u (by omega)) (fun u hu => hg u (by omega))
      simp only [Nat.add_sub_cancel, e4, ← hf i (by omega), ← hg j (by omega)]

end

theorem CapEq.succ {M h H v D : Int} (hv : CapEq M h v D) (hh : h ≤ H + 1) :
    CapEq M H (v + 1) (D + 1) := by
  unfold CapEq at *; omega

theorem CapEq.min {M H x X y Y : Int} (hx : CapEq M H x X) (hy : CapEq M H y Y) :
    CapEq M H (min x y) (min X Y) := by
  unfold CapEq at *; omega

theorem CapEq.of_large {M H v D : Int} (h0 : 0 ≤ v) (hv : M < v + H) (hD : M < D + H) :
    CapEq M H v D := by
  unfold CapEq; omega

theorem CapEq.refl {M H : Int} (v : Int) (h0 : 0 ≤ v) : CapEq M H v v := by
  unfold CapEq; omega

theorem CapEq.eq_of_le {M v D : Int} (h : CapEq M 0 v D) (hv : v ≤ M) : v = D := by
  unfold CapEq at *; omega

theorem CapEq.lt_of_lt {M v D : Int} (h : CapEq M 0 v D) (hv : M < v) : M < D := by
  unfold CapEq at *; omega

/-- The cost computed by the loop body when the characters differ, as a minimum. -/
theorem cost_eq_min (d a l t : Int) (tc : Prop) [Decidable tc] :
    (if tc ∧ t + 1 < (if l < (if a < d then a else d) then l else (if a < d then a else d)) + 1
      then t + 1
      else (if l < (if a < d then a else d) then l else (if a < d then a else d)) + 1) =
    if tc then min (min (d + 1) (min (l + 1) (a + 1))) (t + 1)
    else min (d + 1) (min (l + 1) (a + 1)) := by
  by_cases h : tc
  · simp only [h, true_and, if_true]; split_ifs <;> omega
  · simp only [h, false_and, if_false]; split_ifs <;> omega

theorem rd_set_eq (l : List Int) (j : Nat) (x : Int) (h : j < l.length) :
    rd (l.set j x) j = x := by
  simp [rd, List.getD_eq_getElem?_getD, List.getElem?_set, h]

theorem rd_set_ne (l : List Int) (j t : Nat) (x : Int) (h : t ≠ j) :
    rd (l.set j x) t = rd l t := by
  simp [rd, List.getD_eq_getElem?_getD, List.getElem?_set, Ne.symm h]

theorem rd_replicate (n t : Nat) : rd (List.replicate n 0) t = 0 := by
  simp [rd, List.getD_eq_getElem?_getD, List.getElem?_replicate]
  split_ifs <;> simp

/-- Invariant rule for counted loops. -/
theorem forLoop_inv {σ : Type} (body : Nat → σ → σ) (P : Nat → σ → Prop) (count : Nat) :
    ∀ (first : Nat) (s : σ), P first s →
      (∀ j s, first ≤ j → j < first + count → P j s → P (j + 1) (body j s)) →
      P (first + count) (forLoop body count first s) := by
  induction count with
  | zero => intro first s h _; simpa [forLoop] using h
  | succ n ih =>
    intro first s h hs
    have h1 := hs first s (le_refl _) (by omega) h
    have := ih (first + 1) (body first s) h1
      (fun j s hj hj' hp => hs j s (by omega) (by omega) hp)
    have e : first + (n + 1) = first + 1 + n := by omega
    rw [e]
    exact this

theorem offDiag_nonneg (len1 len2 I J : Nat) : 0 ≤ offDiag len1 len2 I J := by
  unfold offDiag; omega

theorem offDiag_succ_succ (len1 len2 I J : Nat) :
    offDiag len1 len2 (I + 1) (J + 1) = offDiag len1 len2 I J := by
  unfold offDiag; push_cast; omega

theorem offDiag_right (len1 len2 I J : Nat) :
    offDiag len1 len2 I (J + 1) ≤ offDiag len1 len2 I J + 1 := by
  unfold offDiag; push_cast; omega

theorem offDiag_down (len1 len2 I J : Nat) :
    offDiag len1 len2 (I + 1) J ≤ offDiag len1 len2 I J + 1 := by
  unfold offDiag; push_cast; omega

theorem offDiag_last (len1 len2 : Nat) : offDiag len1 len2 len1 len2 = 0 := by
  unfold offDiag; omega

section Cell
variable (f g : Nat → Char) (len1 len2 : Nat) (M : Int)

theorem cellCost_nonneg (char1 prevChar1 char2 prevChar2 : Char) (i j : Nat)
    (diag above left trans : Int) (hd : 1 ≤ diag) (ha : 0 ≤ above) (hl : 0 ≤ left)
    (ht : 0 ≤ trans) :
    1 ≤ cellCost char1 prevChar1 char2 prevChar2 i j diag above left trans := by
  unfold cellCost
  simp only []
  split_ifs <;> omega

/-- One cell of the table: the loop body computes a cost that agrees with the reference
table when the costs it reads do. In column `0` the cost above is taken to be `i`. -/
theorem cellCost_agree (prevChar1 prevChar2 : Char) (i j : Nat) (diag above left trans : Int)
    (hd : Agree f g len1 len2 M diag i j)
    (hl : Agree f g len1 len2 M left i (j + 1))
    (ha : Agree f g len1 len2 M above (i + 1) j ∨ (j = 0 ∧ above = diag))
    (ht : ∀ i' j', i = i' + 1 → j = j' + 1 → Agree f g len1 len2 M trans i' j')
    (hp1 : ∀ i', i = i' + 1 → prevChar1 = f i')
    (hp2 : ∀ j', j = j' + 1 → prevChar2 = g j') :
    Agree f g len1 len2 M (cellCost (f i) prevChar1 (g j) prevChar2 i j diag above left trans)
      (i + 1) (j + 1) := by
  unfold Agree at *
  rw [offDiag_succ_succ]
  by_cases hne : f i = g j
  · rw [osaTable_eq_diag f g i j hne]
    simpa [cellCost, hne] using hd
  · have hcost : cellCost (f i) prevChar1 (g j) prevChar2 i j diag above left trans =
        if (i ≠ 0 ∧ j ≠ 0 ∧ f i = prevChar2 ∧ prevChar1 = g j) then
          min (min (diag + 1) (min (left + 1) (above + 1))) (trans + 1)
        else min (diag + 1) (min (left + 1) (above + 1)) := by
      rw [← cost_eq_min]
      simp only [cellCost, hne, ne_eq, not_false_eq_true, if_true, and_assoc]
    have hd1 : CapEq M (offDiag len1 len2 i j) (diag + 1) ((osaTable f g i j : Int) + 1) :=
      hd.succ (by omega)
    have hl1 : CapEq M (offDiag len1 len2 i j) (left + 1)
        ((osaTable f g i (j + 1) : Int) + 1) := hl.succ (by
      have := offDiag_right len1 len2 i j
      unfold offDiag at *; push_cast at *; omega)
    have hbest : CapEq M (offDiag len1 len2 i j) (min (diag + 1) (min (left + 1) (above + 1)))
        (min ((osaTable f g i j : Int) + 1)
          (min ((osaTable f g i (j + 1) : Int) + 1) ((osaTable f g (i + 1) j : Int) + 1))) := by
      rcases ha with ha | ⟨rfl, rfl⟩
      · have ha1 : CapEq M (offDiag len1 len2 i j) (above + 1)
            ((osaTable f g (i + 1) j : Int) + 1) := ha.succ (by
          unfold offDiag; push_cast; omega)
        exact hd1.min (hl1.min ha1)
      · have e1 : min (above + 1) (min (left + 1) (above + 1)) = min (above + 1) (left + 1) := by
          omega
        have e2 : min ((osaTable f g i 0 : Int) + 1)
            (min ((osaTable f g i (0 + 1) : Int) + 1) ((osaTable f g (i + 1) 0 : Int) + 1)) =
            min ((osaTable f g i 0 : Int) + 1) ((osaTable f g i (0 + 1) : Int) + 1) := by
          rw [osaTable_zero_right, osaTable_zero_right]; push_cast; omega
        rw [e1, e2]
        exact hd1.min hl1
    rw [hcost, osaTable.eq_3, if_neg hne]
    by_cases hc : 0 < i ∧ 0 < j ∧ f i = g (j - 1) ∧ f (i - 1) = g j
    · obtain ⟨hi, hj, c1, c2⟩ := hc
      obtain ⟨i', rfl⟩ : ∃ i', i = i' + 1 := ⟨i - 1, by omega⟩
      obtain ⟨j', rfl⟩ : ∃ j', j = j' + 1 := ⟨j - 1, by omega⟩
      simp only [Nat.add_sub_cancel] at c1 c2 ⊢
      have hc' : (i' + 1 ≠ 0 ∧ j' + 1 ≠ 0 ∧ f (i' + 1) = prevChar2 ∧ prevChar1 = g (j' + 1)) := by
        refine ⟨by omega, by omega, ?_, ?_⟩
        · rw [hp2 j' rfl]; exact c1
        · rw [hp1 i' rfl]; exact c2
      rw [if_pos hc', if_pos ⟨by omega, by omega, c1, c2⟩]
      have ht1 : CapEq M (offDiag len1 len2 (i' + 1) (j' + 1)) (trans + 1)
          ((osaTable f g i' j' : Int) + 1) := (ht i' j' rfl rfl).succ (by
        rw [offDiag_succ_succ]; omega)
      push_cast
      exact hbest.min ht1
    · have hc' : ¬ (i ≠ 0 ∧ j ≠ 0 ∧ f i = prevChar2 ∧ prevChar1 = g j) := by
        rintro ⟨hi, hj, c1, c2⟩
        obtain ⟨i', rfl⟩ : ∃ i', i = i' + 1 := ⟨i - 1, by omega⟩
        obtain ⟨j', rfl⟩ : ∃ j', j = j' + 1 := ⟨j - 1, by omega⟩
        apply hc
        refine ⟨by omega, by omega, ?_, ?_⟩
        · simp only [Nat.add_sub_cancel]; rw [← hp2 j' rfl]; exact c1
        · simp only [Nat.add_sub_cancel]; rw [← hp1 i' rfl]; exact c2
      rw [if_neg hc', if_neg hc]
      push_cast
      exact hbest

end Cell

namespace DamerauOSA

section Proj
variable (string2 : List Char) (start i : Nat) (char1 prevChar1 : Char) (j : Nat) (v : Inner)

theorem innerBody_char1Costs :
    (innerBody string2 start i char1 prevChar1 j v).char1Costs =
      v.char1Costs.set j (newCost string2 start i char1 prevChar1 j v) := rfl

theorem innerBody_prevChar1Costs :
    (innerBody string2 start i char1 prevChar1 j v).prevChar1Costs =
      v.prevChar1Costs.set j v.leftCharCost := rfl

theorem innerBody_currentCost :
    (innerBody string2 start i char1 prevChar1 j v).currentCost =
      newCost string2 start i char1 prevChar1 j v := rfl

theorem innerBody_leftCharCost :
    (innerBody string2 start i char1 prevChar1 j v).leftCharCost = rd v.char1Costs j := rfl

theorem innerBody_aboveCharCost :
    (innerBody string2 start i char1 prevChar1 j v).aboveCharCost =
      newCost string2 start i char1 prevChar1 j v := rfl

theorem innerBody_nextTransCost :
    (innerBody string2 start i char1 prevChar1 j v).nextTransCost = rd v.prevChar1Costs j := rfl

theorem innerBody_char2 :
    (innerBody string2 start i char1 prevChar1 j v).char2 = window string2 start j := rfl

end Proj

section Row
variable (string1 string2 : List Char) (start : Nat) (len1 len2 : Nat) (M : Int)

theorem agree_nonneg {f g : Nat → Char} {len1 len2 : Nat} {M v : Int} {I J : Nat}
    (h : Agree f g len1 len2 M v I J) : 0 ≤ v := h.1

theorem agree_zero_col (f g : Nat → Char) (i : Nat) :
    Agree f g len1 len2 M (i : Int) i 0 := by
  unfold Agree
  rw [osaTable_zero_right]
  exact CapEq.refl _ (by omega)

/-- The first column of a row. -/
theorem rowInv_first (i jS jE : Nat) (prevChar1 : Char) (c0 p0 : List Int) (cur0 : Int)
    (h : RowPre (window string1 start) (window string2 start) len1 len2 M i jS jE prevChar1
      c0 p0) :
    RowInv (window string1 start) (window string2 start) len1 len2 M i jS c0 p0 (jS + 1)
      (innerBody string2 start i (window string1 start i) prevChar1 jS
        { char1Costs := c0, prevChar1Costs := p0, currentCost := cur0,
          leftCharCost := (i : Int), aboveCharCost := (i : Int), nextTransCost := 0,
          char2 := ' ' }) := by
  have hjc : jS < c0.length := lt_of_lt_of_le h.lt h.lenC
  have hjp : jS < p0.length := lt_of_lt_of_le h.lt h.lenP
  have hleft := h.prev jS (le_refl _) h.lt
  have hdiag : Agree (window string1 start) (window string2 start) len1 len2 M (i : Int) i jS := by
    rcases h.edge with rfl | ⟨h1, h2, -, h4⟩
    · exact agree_zero_col len1 len2 M _ _ i
    · exact CapEq.of_large (by omega) (by omega) (by omega)
  have hnew : Agree (window string1 start) (window string2 start) len1 len2 M
      (cellCost (window string1 start i) prevChar1 (window string2 start jS) ' ' i jS
        (i : Int) (i : Int) (rd c0 jS) 0) (i + 1) (jS + 1) := by
    rcases h.edge with rfl | ⟨h1, h2, h3, -⟩
    · exact cellCost_agree _ _ len1 len2 M prevChar1 ' ' i 0 _ _ _ 0 hdiag hleft
        (Or.inr ⟨rfl, rfl⟩) (fun i' j' _ hj => by omega) h.chr (fun j' hj => by omega)
    · have := cellCost_nonneg (window string1 start i) prevChar1 (window string2 start jS) ' '
        i jS (i : Int) (i : Int) (rd c0 jS) 0 (by omega) (by omega) (agree_nonneg hleft)
        (le_refl _)
      refine CapEq.of_large (by omega) ?_ ?_
      · rw [offDiag_succ_succ]; omega
      · rw [offDiag_succ_succ]; omega
  constructor
  · simp [innerBody_char1Costs]
  · simp [innerBody_prevChar1Costs]
  · intro t h1 h2
    obtain rfl : t = jS := by omega
    rw [innerBody_char1Costs, rd_set_eq _ _ _ hjc]
    exact hnew
  · intro t ht
    rw [innerBody_char1Costs, rd_set_ne _ _ _ _ (by omega)]
  · intro t h1 h2
    obtain rfl : t = jS := by omega
    rw [innerBody_prevChar1Costs, rd_set_eq _ _ _ hjp]
    exact hdiag
  · intro t ht
    rw [innerBody_prevChar1Costs, rd_set_ne _ _ _ _ (by omega)]
  · rw [innerBody_leftCharCost]; simp
  · rw [innerBody_aboveCharCost, innerBody_char1Costs]
    simp only [Nat.add_sub_cancel]
    rw [rd_set_eq _ _ _ hjc]
  · rw [innerBody_currentCost, innerBody_char1Costs]
    simp only [Nat.add_sub_cancel]
    rw [rd_set_eq _ _ _ hjc]
  · rw [innerBody_nextTransCost]; simp
  · rw [innerBody_char2]; simp

/-- A further column of a row. -/
theorem rowInv_step (i jS jE : Nat) (prevChar1 : Char) (c0 p0 : List Int)
    (h : RowPre (window string1 start) (window string2 start) len1 len2 M i jS jE prevChar1
      c0 p0) (j : Nat) (v : Inner) (hj1 : jS < j) (hj2 : j < jE)
    (inv : RowInv (window string1 start) (window string2 start) len1 len2 M i jS c0 p0 j v) :
    RowInv (window string1 start) (window string2 start) len1 len2 M i jS c0 p0 (j + 1)
      (innerBody string2 start i (window string1 start i) prevChar1 j v) := by
  obtain ⟨j', rfl⟩ : ∃ j', j = j' + 1 := ⟨j - 1, by omega⟩
  have hjc : j' + 1 < v.char1Costs.length := by rw [inv.lenC]; exact lt_of_lt_of_le hj2 h.lenC
  have hjp : j' + 1 < v.prevChar1Costs.length := by
    rw [inv.lenP]; exact lt_of_lt_of_le hj2 h.lenP
  have hdiag : Agree (window string1 start) (window string2 start) len1 len2 M v.leftCharCost i
      (j' + 1) := by
    rw [inv.left]; exact h.prev j' (by omega) (by omega)
  have hnew : Agree (window string1 start) (window string2 start) len1 len2 M
      (newCost string2 start i (window string1 start i) prevChar1 (j' + 1) v)
      (i + 1) (j' + 1 + 1) := by
    unfold newCost
    apply cellCost_agree _ _ len1 len2 M prevChar1 v.char2 i (j' + 1) _ _ _ _ hdiag
    · rw [inv.cOut (j' + 1) (Or.inr (le_refl _))]
      exact h.prev (j' + 1) (by omega) hj2
    · left
      rw [inv.above]
      exact inv.cIn j' (by omega) (by omega)
    · intro i' j'' hi hj
      obtain rfl : j'' = j' := by omega
      rw [inv.next]
      exact h.prev2 i' hi j'' (by omega) (by omega)
    · exact h.chr
    · intro j'' hj
      obtain rfl : j'' = j' := by omega
      rw [inv.ch2]; simp
  constructor
  · simp [innerBody_char1Costs, inv.lenC]
  · simp [innerBody_prevChar1Costs, inv.lenP]
  · intro t h1 h2
    rw [innerBody_char1Costs]
    by_cases e : t = j' + 1
    · subst e; rw [rd_set_eq _ _ _ hjc]; exact hnew
    · rw [rd_set_ne _ _ _ _ e]; exact inv.cIn t h1 (by omega)
  · intro t ht
    rw [innerBody_char1Costs, rd_set_ne _ _ _ _ (by omega)]
    exact inv.cOut t (by omega)
  · intro t h1 h2
    rw [innerBody_prevChar1Costs]
    by_cases e : t = j' + 1
    · subst e; rw [rd_set_eq _ _ _ hjp]; exact hdiag
    · rw [rd_set_ne _ _ _ _ e]; exact inv.pIn t h1 (by omega)
  · intro t ht
    rw [innerBody_prevChar1Costs, rd_set_ne _ _ _ _ (by omega)]
    exact inv.pOut t (by omega)
  · rw [innerBody_leftCharCost]
    simp only [Nat.add_sub_cancel]
    exact inv.cOut (j' + 1) (Or.inr (le_refl _))
  · rw [innerBody_aboveCharCost, innerBody_char1Costs]
    simp only [Nat.add_sub_cancel]
    rw [rd_set_eq _ _ _ hjc]
  · rw [innerBody_currentCost, innerBody_char1Costs]
    simp only [Nat.add_sub_cancel]
    rw [rd_set_eq _ _ _ hjc]
  · rw [innerBody_nextTransCost]
    simp only [Nat.add_sub_cancel]
    exact inv.pOut (j' + 1) (Or.inr (le_refl _))
  · rw [innerBody_char2]; simp

end Row

theorem row_spec (string1 string2 : List Char) (start len1 len2 : Nat) (M : Int)
    (i jS jE : Nat) (o : Outer)
    (h : RowPre (window string1 start) (window string2 start) len1 len2 M i jS jE o.char1
      o.char1Costs o.prevChar1Costs) :
    RowPost (window string1 start) (window string2 start) len1 len2 M i jS jE o
      (row string1 string2 start i jS (jE - jS) o) := by
  obtain ⟨n, hn⟩ : ∃ n, jE - jS = n + 1 := ⟨jE - jS - 1, by have := h.lt; omega⟩
  have hE : jE = jS + 1 + n := by have := h.lt; omega
  have key : RowInv (window string1 start) (window string2 start) len1 len2 M i jS
      o.char1Costs o.prevChar1Costs (jS + 1 + n)
      (forLoop (innerBody string2 start i (window string1 start i) o.char1) n (jS + 1)
        (innerBody string2 start i (window string1 start i) o.char1 jS
          { char1Costs := o.char1Costs, prevChar1Costs := o.prevChar1Costs,
            currentCost := o.currentCost, leftCharCost := (i : Int),
            aboveCharCost := (i : Int), nextTransCost := 0, char2 := ' ' })) := by
    apply forLoop_inv _ (fun j v => RowInv (window string1 start) (window string2 start) len1
      len2 M i jS o.char1Costs o.prevChar1Costs j v)
    · exact rowInv_first string1 string2 start len1 len2 M i jS jE o.char1 _ _ _ h
    · intro j v h1 h2 inv
      exact rowInv_step string1 string2 start len1 len2 M i jS jE o.char1 _ _ h j v
        (by omega) (by omega) inv
  have hrow : row string1 string2 start i jS (jE - jS) o =
      { char1Costs := (forLoop (innerBody string2 start i (window string1 start i) o.char1) n
          (jS + 1) (innerBody string2 start i (window string1 start i) o.char1 jS
            { char1Costs := o.char1Costs, prevChar1Costs := o.prevChar1Costs,
              currentCost := o.currentCost, leftCharCost := (i : Int),
              aboveCharCost := (i : Int), nextTransCost := 0, char2 := ' ' })).char1Costs
        prevChar1Costs := (forLoop (innerBody string2 start i (window string1 start i) o.char1)
          n (jS + 1) (innerBody string2 start i (window string1 start i) o.char1 jS
            { char1Costs := o.char1Costs, prevChar1Costs := o.prevChar1Costs,
              currentCost := o.currentCost, leftCharCost := (i : Int),
              aboveCharCost := (i : Int), nextTransCost := 0, char2 := ' ' })).prevChar1Costs
        char1 := window string1 start i
        currentCost := (forLoop (innerBody string2 start i (window string1 start i) o.char1) n
          (jS + 1) (innerBody string2 start i (window string1 start i) o.char1 jS
            { char1Costs := o.char1Costs, prevChar1Costs := o.prevChar1Costs,
              currentCost := o.currentCost, leftCharCost := (i : Int),
              aboveCharCost := (i : Int), nextTransCost := 0, char2 := ' ' })).currentCost } := by
    rw [hn]; rfl
  rw [hrow]
  subst hE
  constructor
  · exact key.lenC
  · exact key.lenP
  · exact fun t h1 h2 => key.cIn t h1 h2
  · exact fun t ht => key.cOut t ht
  · exact fun t h1 h2 => key.pIn t h1 h2
  · rfl
  · exact key.cur

/-- The loop `for (j = 0; j < n; j++) char1Costs[j] = j + 1`, from column `first` on. -/
theorem init_loop (n : Nat) : ∀ (first : Nat) (c : List Int),
    (forLoop (fun j c => c.set j ((j : Int) + 1)) n first c).length = c.length ∧
    ∀ t, rd (forLoop (fun j c => c.set j ((j : Int) + 1)) n first c) t =
      if first ≤ t ∧ t < first + n ∧ t < c.length then (t : Int) + 1 else rd c t := by
  induction n with
  | zero =>
    intro first c
    refine ⟨rfl, fun t => ?_⟩
    rw [if_neg (by omega)]; rfl
  | succ n ih =>
    intro first c
    obtain ⟨h1, h2⟩ := ih (first + 1) (c.set first ((first : Int) + 1))
    refine ⟨by simpa [forLoop] using h1, fun t => ?_⟩
    show rd (forLoop _ n (first + 1) (c.set first ((first : Int) + 1))) t = _
    rw [h2 t]
    simp only [List.length_set]
    by_cases e : t = first
    · subst e
      by_cases hl : t < c.length
      · rw [if_neg (by omega), if_pos ⟨le_refl _, by omega, hl⟩, rd_set_eq _ _ _ hl]
      · rw [if_neg (by omega), if_neg (by omega), List.set_eq_of_length_le (by omega)]
    · rw [rd_set_ne _ _ _ _ e]
      by_cases hc : first + 1 ≤ t ∧ t < first + 1 + n ∧ t < c.length
      · rw [if_pos hc, if_pos ⟨by omega, by omega, hc.2.2⟩]
      · rw [if_neg hc, if_neg (by omega)]

/-- The loop `for (; j < len2;) char1Costs[j++] = x`, from column `first` on. -/
theorem fill_loop (x : Int) (n : Nat) : ∀ (first : Nat) (c : List Int),
    (forLoop (fun j c => c.set j x) n first c).length = c.length ∧
    ∀ t, rd (forLoop (fun j c => c.set j x) n first c) t =
      if first ≤ t ∧ t < first + n ∧ t < c.length then x else rd c t := by
  induction n with
  | zero =>
    intro first c
    refine ⟨rfl, fun t => ?_⟩
    rw [if_neg (by omega)]; rfl
  | succ n ih =>
    intro first c
    obtain ⟨h1, h2⟩ := ih (first + 1) (c.set first x)
    refine ⟨by simpa [forLoop] using h1, fun t => ?_⟩
    show rd (forLoop _ n (first + 1) (c.set first x)) t = _
    rw [h2 t]
    simp only [List.length_set]
    by_cases e : t = first
    · subst e
      by_cases hl : t < c.length
      · rw [if_neg (by omega), if_pos ⟨le_refl _, by omega, hl⟩, rd_set_eq _ _ _ hl]
      · rw [if_neg (by omega), if_neg (by omega), List.set_eq_of_length_le (by omega)]
    · rw [rd_set_ne _ _ _ _ e]
      by_cases hc : first + 1 ≤ t ∧ t < first + 1 + n ∧ t < c.length
      · rw [if_pos hc, if_pos ⟨by omega, by omega, hc.2.2⟩]
      · rw [if_neg hc, if_neg (by omega)]

theorem agree_zero_row (f g : Nat → Char) (len1 len2 : Nat) (M : Int) (t : Nat) :
    Agree f g len1 len2 M ((t : Int) + 1) 0 (t + 1) := by
  unfold Agree
  rw [osaTable_zero_left]
  push_cast
  exact CapEq.refl _ (by omega)

/-- The core without a bound computes the last entry of the reference table of the two
windows it is given. -/
theorem DistanceCore_eq (string1 string2 : List Char) (len1 len2 start : Nat)
    (c p : List Int) (h1 : 1 ≤ len1) (h2 : 1 ≤ len2) (hc : len2 ≤ c.length)
    (hp : len2 ≤ p.length) :
    DistanceCore string1 string2 len1 len2 start c p =
      (osaTable (window string1 start) (window string2 start) len1 len2 : Int) := by
  obtain ⟨hl, hr⟩ := init_loop len2 0 c
  have key := forLoop_inv (fun i o => row string1 string2 start i 0 len2 o)
    (fun i o => OuterInv (window string1 start) (window string2 start) len1 len2
      (osaTable (window string1 start) (window string2 start) len1 len2 : Int) i o) len1 0
    { char1Costs := forLoop (fun j c => c.set j ((j : Int) + 1)) len2 0 c
      prevChar1Costs := p
      char1 := ' '
      currentCost := 0 }
    (by
      constructor
      · show len2 ≤ (forLoop _ len2 0 c).length
        rw [hl]; exact hc
      · exact hp
      · intro t ht
        show Agree _ _ _ _ _ (rd (forLoop _ len2 0 c) t) 0 (t + 1)
        rw [hr t, if_pos ⟨by omega, by omega, by omega⟩]
        exact agree_zero_row _ _ _ _ _ t
      · intro i' hi; omega
      · intro i' hi; omega
      · intro i' hi; omega)
    (by
      intro i o _ hi inv
      have post : RowPost (window string1 start) (window string2 start) len1 len2
          (osaTable (window string1 start) (window string2 start) len1 len2 : Int) i 0 len2 o
          (row string1 string2 start i 0 len2 o) :=
        row_spec string1 string2 start len1 len2
        (osaTable (window string1 start) (window string2 start) len1 len2 : Int) i 0 len2 o
        { lt := by omega
          lenC := inv.lenC
          lenP := inv.lenP
          prev := fun t _ ht => inv.cAll t ht
          edge := Or.inl rfl
          prev2 := fun i' hi' t _ ht => inv.pAll i' hi' t (by omega)
          chr := inv.chr }
      constructor
      · show len2 ≤ (row string1 string2 start i 0 len2 o).char1Costs.length
        rw [post.lenC]; exact inv.lenC
      · show len2 ≤ (row string1 string2 start i 0 len2 o).prevChar1Costs.length
        rw [post.lenP]; exact inv.lenP
      · exact fun t ht => post.cIn t (by omega) ht
      · intro i' hi' t ht
        obtain rfl : i' = i := by omega
        exact post.pIn t (by omega) ht
      · intro i' hi'
        obtain rfl : i' = i := by omega
        exact post.chr
      · intro i' _
        exact post.cur)
  simp only [Nat.zero_add] at key
  obtain ⟨i', hi'⟩ : ∃ i', len1 = i' + 1 := ⟨len1 - 1, by omega⟩
  have hcur := key.cur i' hi'
  have hag := key.cAll (len2 - 1) (by omega)
  rw [← hcur] at hag
  have e : len2 - 1 + 1 = len2 := by omega
  rw [e] at hag
  unfold Agree at hag
  rw [offDiag_last] at hag
  exact hag.eq_of_le (by
    unfold CapEq at hag
    omega)

theorem rowsMax_eq (string1 string2 : List Char) (len1 len2 start : Nat) (M : Int)
    (h12 : len1 ≤ len2) (hM0 : 0 ≤ M) (hM : M < len2)
    (hd : (len2 : Int) - (len1 : Int) ≤ M)
    (hne : window string1 start 0 ≠ window string2 start 0) :
    ∀ (n i jStart : Nat) (jEnd : Int) (o : Outer), i + n = len1 → 1 ≤ len1 →
      BandInv (window string1 start) (window string2 start) len1 len2 M i jStart jEnd o →
      rowsMax string1 string2 len2 start M ((len2 : Int) - (len1 : Int))
        (M - ((len2 : Int) - (len1 : Int))) n i jStart jEnd o =
      if (osaTable (window string1 start) (window string2 start) len1 len2 : Int) ≤ M then
        (osaTable (window string1 start) (window string2 start) len1 len2 : Int)
      else -1 := by
  intro n
  induction n with
  | zero =>
    intro i jStart jEnd o hin h1 inv
    obtain ⟨i', hi'⟩ : ∃ i', i = i' + 1 := ⟨i - 1, by omega⟩
    have hje : jEnd = (len2 : Int) := by rw [inv.je]; omega
    have hcur := inv.cur i' hi'
    have hok := inv.ok i' hi'
    have e1 : jEnd.toNat - 1 = len2 - 1 := by rw [hje]; simp
    have e2 : i' + (len2 - len1) = len2 - 1 := by omega
    rw [e1] at hcur
    rw [e2] at hok
    have hag := inv.cIn (len2 - 1) (by have := inv.js; omega) (by rw [hje]; omega)
    have e3 : len2 - 1 + 1 = len2 := by omega
    have e4 : i = len1 := by omega
    rw [e3, ← hcur, e4] at hag
    unfold Agree at hag
    rw [offDiag_last] at hag
    have := hag.eq_of_le (by rw [hcur]; exact hok)
    show (if o.currentCost ≤ M then o.currentCost else -1) = _
    rw [← this]
  | succ n ih =>
    intro i jStart jEnd o hin h1 inv
    -- the band of this row
    obtain ⟨jS, hjS⟩ : ∃ jS : Nat, jS = jStart +
        (if (i : Int) > M - ((len2 : Int) - (len1 : Int)) then 1 else 0) := ⟨_, rfl⟩
    obtain ⟨jE', hjE'⟩ : ∃ jE' : Int, jE' = jEnd + (if jEnd < (len2 : Int) then 1 else 0) :=
      ⟨_, rfl⟩
    have hjS' : (jS : Int) = max 0 ((i : Int) - (M - ((len2 : Int) - (len1 : Int)))) := by
      have := inv.js
      rw [hjS]; split_ifs <;> push_cast <;> omega
    have hjE'' : jE' = min (len2 : Int) (M + (i : Int) + 1) := by
      have := inv.je
      rw [hjE']; split_ifs <;> omega
    obtain ⟨jE, hjE⟩ : ∃ jE : Nat, (jE : Int) = jE' := ⟨jE'.toNat, by omega⟩
    have hcount : (jE' - (jS : Int)).toNat = jE - jS := by omega
    have hle : jStart ≤ jS := by rw [hjS]; omega
    have pre : RowPre (window string1 start) (window string2 start) len1 len2 M i jS jE
        o.char1 o.char1Costs o.prevChar1Costs := by
      constructor
      · omega
      · have := inv.lenC; omega
      · have := inv.lenP; omega
      · intro t h1 h2
        by_cases ht : (t : Int) < jEnd
        · exact inv.cIn t (by omega) ht
        · have hte : (t : Int) = M + i := by have := inv.je; omega
          rw [inv.cOut t (by omega) (by omega)]
          have hlow := (osaTable_lower (window string1 start) (window string2 start) i
            (t + 1)).2
          have := offDiag_nonneg len1 len2 i (t + 1)
          exact CapEq.of_large (by omega) (by omega) (by omega)
      · by_cases h0 : jS = 0
        · exact Or.inl h0
        · right
          have hi1 : 1 ≤ i := by omega
          refine ⟨hi1, ?_, ?_, ?_⟩
          · unfold offDiag; omega
          · exact osaTable_pos _ _ hne _ _ (by omega)
          · exact osaTable_pos _ _ hne _ _ (by omega)
      · intro i' hi' t h1 h2
        exact inv.pIn i' hi' t (by omega) (by have := inv.je; omega)
      · exact inv.chr
    have post := row_spec string1 string2 start len1 len2 M i jS jE o pre
    -- the early exit
    have hdiagIdx : ((i : Int) + ((len2 : Int) - (len1 : Int))).toNat = i + (len2 - len1) := by
      omega
    have hagd := post.cIn (i + (len2 - len1)) (by omega) (by omega)
    unfold Agree at hagd
    have hoff : offDiag len1 len2 (i + 1) (i + (len2 - len1) + 1) = 0 := by
      unfold offDiag; push_cast; omega
    rw [hoff] at hagd
    show (if rd (row string1 string2 start i
        (jStart + (if (i : Int) > M - ((len2 : Int) - (len1 : Int)) then 1 else 0))
        ((jEnd + (if jEnd < (len2 : Int) then 1 else 0)) -
          ((jStart + (if (i : Int) > M - ((len2 : Int) - (len1 : Int)) then 1 else 0) : Nat)
            : Int)).toNat o).char1Costs
        ((i : Int) + ((len2 : Int) - (len1 : Int))).toNat > M then -1
      else rowsMax string1 string2 len2 start M ((len2 : Int) - (len1 : Int))
        (M - ((len2 : Int) - (len1 : Int))) n (i + 1)
        (jStart + (if (i : Int) > M - ((len2 : Int) - (len1 : Int)) then 1 else 0))
        (jEnd + (if jEnd < (len2 : Int) then 1 else 0))
        (row string1 string2 start i
          (jStart + (if (i : Int) > M - ((len2 : Int) - (len1 : Int)) then 1 else 0))
          ((jEnd + (if jEnd < (len2 : Int) then 1 else 0)) -
            ((jStart + (if (i : Int) > M - ((len2 : Int) - (len1 : Int)) then 1 else 0) : Nat)
              : Int)).toNat o)) = _
    rw [← hjS, ← hjE', hcount, hdiagIdx]
    by_cases hab : rd (row string1 string2 start i jS (jE - jS) o).char1Costs
        (i + (len2 - len1)) > M
    · rw [if_pos hab]
      have h3 := hagd.lt_of_lt hab
      have h4 := osaTable_diag_mono_add (window string1 start) (window string2 start) (i + 1)
        (i + (len2 - len1) + 1) n
      have e5 : i + 1 + n = len1 := by omega
      have e6 : i + (len2 - len1) + 1 + n = len2 := by omega
      rw [e5, e6] at h4
      rw [if_neg (by omega)]
    · rw [if_neg hab]
      apply ih (i + 1) jS jE' _ (by omega) h1
      constructor
      · rw [hjS']; push_cast; omega
      · rw [hjE'']; push_cast; omega
      · rw [post.lenC]; exact inv.lenC
      · rw [post.lenP]; exact inv.lenP
      · intro t h1 h2
        exact post.cIn t h1 (by omega)
      · intro t h1 h2
        rw [post.cOut t (Or.inr (by omega))]
        exact inv.cOut t (by omega) h2
      · intro i' hi' t h1 h2
        obtain rfl : i' = i := by omega
        exact post.pIn t h1 (by omega)
      · intro i' hi'
        obtain rfl : i' = i := by omega
        exact post.chr
      · intro i' _
        rw [post.cur, ← hjE]; simp
      · intro i' hi'
        obtain rfl : i' = i := by omega
        omega

/-- The core with a bound: the last entry of the reference table when it is within the
bound, and `-1` otherwise. -/
theorem DistanceCoreMax_eq (string1 string2 : List Char) (len1 len2 start : Nat) (M : Int)
    (c p : List Int) (h1 : 1 ≤ len1) (h12 : len1 ≤ len2) (hM0 : 0 ≤ M) (hM : M < len2)
    (hd : (len2 : Int) - (len1 : Int) ≤ M)
    (hne : window string1 start 0 ≠ window string2 start 0)
    (hc : len2 ≤ c.length) (hp : len2 ≤ p.length) :
    DistanceCoreMax string1 string2 len1 len2 start M c p =
      if (osaTable (window string1 start) (window string2 start) len1 len2 : Int) ≤ M then
        (osaTable (window string1 start) (window string2 start) len1 len2 : Int)
      else -1 := by
  obtain ⟨hl1, hr1⟩ := init_loop M.toNat 0 c
  obtain ⟨hl2, hr2⟩ := fill_loop (M + 1) (len2 - M.toNat) M.toNat
    (forLoop (fun j c => c.set j ((j : Int) + 1)) M.toNat 0 c)
  unfold DistanceCoreMax
  apply rowsMax_eq string1 string2 len1 len2 start M h12 hM0 hM hd hne len1 0 0 M _
    (by omega) h1
  constructor
  · push_cast; omega
  · push_cast; omega
  · show len2 ≤ List.length (forLoop _ _ _ _)
    rw [hl2, hl1]; exact hc
  · exact hp
  · intro t _ ht
    show Agree _ _ _ _ _ (rd (forLoop _ _ _ _) t) 0 (t + 1)
    rw [hr2 t, if_neg (by omega), hr1 t, if_pos ⟨by omega, by omega, by omega⟩]
    exact agree_zero_row _ _ _ _ _ t
  · intro t h1 h2
    show rd (forLoop _ _ _ _) t = M + 1
    rw [hr2 t, if_pos ⟨by omega, by omega, by rw [hl1]; omega⟩]
  · intro i' hi; omega
  · intro i' hi; omega
  · intro i' hi; omega
  · intro i' hi; omega

end DamerauOSA

namespace Helpers

theorem suffixLoop_spec (s1 s2 : List Char) : ∀ n m : Nat, n ≤ m →
    (suffixLoop s1 s2 n m).1 ≤ n ∧
    (suffixLoop s1 s2 n m).2 + n = m + (suffixLoop s1 s2 n m).1 ∧
    (∀ u, u < n - (suffixLoop s1 s2 n m).1 →
      charAt s1 ((suffixLoop s1 s2 n m).1 + u) = charAt s2 ((suffixLoop s1 s2 n m).2 + u)) ∧
    ((suffixLoop s1 s2 n m).1 ≠ 0 →
      charAt s1 ((suffixLoop s1 s2 n m).1 - 1) ≠ charAt s2 ((suffixLoop s1 s2 n m).2 - 1)) := by
  intro n
  induction n with
  | zero => intro m _; simp [suffixLoop]
  | succ n ih =>
    intro m hm
    by_cases h : charAt s1 n = charAt s2 (m - 1)
    · have e : suffixLoop s1 s2 (n + 1) m = suffixLoop s1 s2 n (m - 1) := by
        simp [suffixLoop, h]
      rw [e]
      obtain ⟨h1, h2, h3, h4⟩ := ih (m - 1) (by omega)
      refine ⟨by omega, by omega, ?_, h4⟩
      intro u hu
      by_cases hu' : u < n - (suffixLoop s1 s2 n (m - 1)).1
      · exact h3 u hu'
      · have e1 : (suffixLoop s1 s2 n (m - 1)).1 + u = n := by omega
        have e2 : (suffixLoop s1 s2 n (m - 1)).2 + u = m - 1 := by omega
        rw [e1, e2]; exact h
    · have e : suffixLoop s1 s2 (n + 1) m = (n + 1, m) := by
        simp [suffixLoop, h]
      rw [e]
      refine ⟨le_refl _, rfl, ?_, ?_⟩
      · intro u hu; simp at hu
      · intro _; simpa using h

theorem prefixLoop_spec (s1 s2 : List Char) (len1 : Nat) : ∀ fuel start : Nat,
    start ≤ len1 → len1 ≤ start + fuel →
    start ≤ prefixLoop s1 s2 len1 fuel start ∧ prefixLoop s1 s2 len1 fuel start ≤ len1 ∧
    (∀ u, start ≤ u → u < prefixLoop s1 s2 len1 fuel start → charAt s1 u = charAt s2 u) ∧
    (prefixLoop s1 s2 len1 fuel start ≠ len1 →
      charAt s1 (prefixLoop s1 s2 len1 fuel start) ≠
        charAt s2 (prefixLoop s1 s2 len1 fuel start)) := by
  intro fuel
  induction fuel with
  | zero =>
    intro start h1 h2
    have : start = len1 := by omega
    subst this
    refine ⟨le_refl _, le_refl _, ?_, ?_⟩
    · intro u hu1 hu2
      simp only [prefixLoop] at hu2
      omega
    · intro hc
      simp only [prefixLoop] at hc
      exact absurd rfl hc
  | succ fuel ih =>
    intro start h1 h2
    by_cases h : start ≠ len1 ∧ charAt s1 start = charAt s2 start
    · have e : prefixLoop s1 s2 len1 (fuel + 1) start = prefixLoop s1 s2 len1 fuel (start + 1) := by
        simp only [prefixLoop, if_pos h]
      rw [e]
      obtain ⟨a1, a2, a3, a4⟩ := ih (start + 1) (by omega) (by omega)
      refine ⟨by omega, a2, ?_, a4⟩
      intro u hu1 hu2
      by_cases hu : u = start
      · rw [hu]; exact h.2
      · exact a3 u (by omega) hu2
    · have e : prefixLoop s1 s2 len1 (fuel + 1) start = start := by
        simp only [prefixLoop, if_neg h]
      rw [e]
      refine ⟨le_refl _, h1, ?_, ?_⟩
      · intro u hu1 hu2; omega
      · intro hs hc; exact h ⟨hs, hc⟩

theorem PrefixSuffixPrep_spec (s1 s2 : List Char) (h : s1.length ≤ s2.length) :
    PrepSpec s1 s2 (PrefixSuffixPrep s1 s2).1 (PrefixSuffixPrep s1 s2).2.1
      (PrefixSuffixPrep s1 s2).2.2 := by
  obtain ⟨a1, a2, a3, a4⟩ := suffixLoop_spec s1 s2 s1.length s2.length h
  obtain ⟨b1, b2, b3, b4⟩ := prefixLoop_spec s1 s2 (suffixLoop s1 s2 s1.length s2.length).1
    (suffixLoop s1 s2 s1.length s2.length).1 0 (Nat.zero_le _) (by omega)
  have e : PrefixSuffixPrep s1 s2 =
      ((suffixLoop s1 s2 s1.length s2.length).1 -
          prefixLoop s1 s2 (suffixLoop s1 s2 s1.length s2.length).1
            (suffixLoop s1 s2 s1.length s2.length).1 0,
        (suffixLoop s1 s2 s1.length s2.length).2 -
          prefixLoop s1 s2 (suffixLoop s1 s2 s1.length s2.length).1
            (suffixLoop s1 s2 s1.length s2.length).1 0,
        prefixLoop s1 s2 (suffixLoop s1 s2 s1.length s2.length).1
          (suffixLoop s1 s2 s1.length s2.length).1 0) := by
    unfold PrefixSuffixPrep
    simp only []
    split_ifs with h0
    · rfl
    · have h0' : prefixLoop s1 s2 (suffixLoop s1 s2 s1.length s2.length).1
          (suffixLoop s1 s2 s1.length s2.length).1 0 = 0 := by
        simpa using h0
      rw [h0']; rfl
  rw [e]
  generalize suffixLoop s1 s2 s1.length s2.length = r at *
  generalize prefixLoop s1 s2 r.1 r.1 0 = st at *
  constructor
  · show st + (r.1 - st) ≤ s1.length
    omega
  · show r.2 - st + s1.length = r.1 - st + s2.length
    omega
  · exact fun u hu => b3 u (Nat.zero_le _) hu
  · intro u hu
    show charAt s1 (st + (r.1 - st) + u) = charAt s2 (st + (r.2 - st) + u)
    have e1 : st + (r.1 - st) + u = r.1 + u := by omega
    have e2 : st + (r.2 - st) + u = r.2 + u := by omega
    rw [e1, e2]
    exact a3 u (by
      have : st + (r.1 - st) = r.1 := by omega
      simp only [] at hu
      omega)
  · intro hl
    exact b4 (by
      simp only [] at hl
      omega)
  · intro hl
    show charAt s1 (st + (r.1 - st) - 1) ≠ charAt s2 (st + (r.2 - st) - 1)
    have e1 : st + (r.1 - st) - 1 = r.1 - 1 := by omega
    have e2 : st + (r.2 - st) - 1 = r.2 - 1 := by omega
    rw [e1, e2]
    exact a4 (by
      simp only [] at hl
      omega)

end Helpers

/-- Trimming the common prefix and suffix does not change the reference distance. -/
theorem osaTable_trim (s1 s2 : List Char) (len1 len2 start : Nat)
    (h : Helpers.PrepSpec s1 s2 len1 len2 start) :
    osaTable (window s1 start) (window s2 start) len1 len2 = osaDistance s1 s2 := by
  unfold osaDistance
  have e1 : s1.length = start + len1 + (s1.length - (start + len1)) := by
    have := h.bound; omega
  have e2 : s2.length = start + len2 + (s1.length - (start + len1)) := by
    have := h.bound; have := h.diff; omega
  rw [e1, e2]
  generalize s1.length - (start + len1) = k at *
  rw [osaTable_drop_suffix (charAt s1) (charAt s2) (start + len1) (start + len2) k
    (fun u hu => h.suf u (by omega))]
  rw [osaTable_shift start (charAt s1) (charAt s2) h.pre len1 len2]
  rfl

namespace DamerauOSA

theorem grow_spec (this : DamerauOSA) (h : this.Sized) (len2 : Nat) :
    len2 ≤ (this.grow len2).baseChar1Costs.length ∧
    len2 ≤ (this.grow len2).basePrevChar1Costs.length ∧ (this.grow len2).Sized := by
  unfold grow Sized at *
  split_ifs with hc
  · simp
  · exact ⟨by omega, by omega, h⟩

theorem prep_spec (s1 s2 : List Char) (hlen : s1.length ≤ s2.length) (len1 len2 start : Nat)
    (hp : Helpers.PrefixSuffixPrep s1 s2 = (len1, len2, start)) :
    Helpers.PrepSpec s1 s2 len1 len2 start := by
  have spec := Helpers.PrefixSuffixPrep_spec s1 s2 hlen
  rw [hp] at spec
  exact spec

/-- The part of both `Distance` methods after the swap, without a bound. -/
theorem core_after_prep (this : DamerauOSA) (h : this.Sized) (s1 s2 : List Char)
    (hlen : s1.length ≤ s2.length) (len1 len2 start : Nat)
    (hp : Helpers.PrefixSuffixPrep s1 s2 = (len1, len2, start)) (h1 : len1 ≠ 0) :
    DistanceCore s1 s2 len1 len2 start (this.grow len2).baseChar1Costs
      (this.grow len2).basePrevChar1Costs = (osaDistance s1 s2 : Int) := by
  have spec := prep_spec s1 s2 hlen len1 len2 start hp
  obtain ⟨g1, g2, -⟩ := grow_spec this h len2
  have hd := spec.diff
  rw [DistanceCore_eq s1 s2 len1 len2 start _ _ (by omega) (by omega) g1 g2,
    osaTable_trim s1 s2 len1 len2 start spec]

end DamerauOSA

theorem osaDistance_symm (a b : List Char) : osaDistance a b = osaDistance b a := by
  unfold osaDistance; exact osaTable_symm _ _ _ _

theorem osaDistance_nil_left (b : List Char) : osaDistance [] b = b.length := by
  unfold osaDistance; simp [osaTable_zero_left]

theorem osaDistance_nil_right (a : List Char) : osaDistance a [] = a.length := by
  unfold osaDistance; simp [osaTable_zero_right]

theorem osaDistance_le_max (a b : List Char) : osaDistance a b ≤ max a.length b.length := by
  unfold osaDistance; exact osaTable_le_max _ _ _ _

theorem osaDistance_lower (a b : List Char) :
    a.length ≤ osaDistance a b + b.length ∧ b.length ≤ osaDistance a b + a.length := by
  unfold osaDistance; exact osaTable_lower _ _ _ _

theorem osaTable_eq_zero (f g : Nat → Char) (i j : Nat) :
    osaTable f g i j = 0 ↔ i = j ∧ ∀ u, u < i → f u = g u := by
  constructor
  · induction i, j using table_induction with
    | h0 j => rw [osaTable_zero_left]; intro h; subst h; exact ⟨rfl, fun u hu => by omega⟩
    | h1 i => rw [osaTable_zero_right]; intro h; omega
    | hs i j ih1 ih2 ih3 ih4 =>
      intro h
      rcases osaTable_attained f g i j with e | e | e | ⟨-, -, -, -, e⟩
      · by_cases hc : f i = g j
        · rw [if_pos hc] at e
          obtain ⟨rfl, hu⟩ := ih1 (by omega)
          refine ⟨rfl, fun u hu' => ?_⟩
          by_cases e' : u = i
          · rw [e']; exact hc
          · exact hu u (by omega)
        · rw [if_neg hc] at e; omega
      · omega
      · omega
      · omega
  · rintro ⟨rfl, h⟩
    have := osaTable_drop_suffix f g 0 0 i (fun u hu => by simpa using h u hu)
    simp only [Nat.zero_add] at this
    rw [this, osaTable_zero_left]

theorem charAt_eq_getElem (s : List Char) (u : Nat) (h : u < s.length) : charAt s u = s[u] := by
  simp [charAt, List.getD_eq_getElem?_getD, List.getElem?_eq_getElem h]

theorem osaDistance_eq_zero (a b : List Char) : osaDistance a b = 0 ↔ a = b := by
  unfold osaDistance
  rw [osaTable_eq_zero]
  constructor
  · rintro ⟨hl, h⟩
    apply List.ext_getElem hl
    intro n h1 h2
    rw [← charAt_eq_getElem a n h1, ← charAt_eq_getElem b n h2]
    exact h n h1
  · rintro rfl
    exact ⟨rfl, fun _ _ => rfl⟩

namespace DamerauOSA

/-- Method `DamerauOSA::Distance(string1, string2)` returns the reference distance. -/
theorem Distance_fst (this : DamerauOSA) (h : this.Sized) (a b : List Char) :
    (this.Distance a b).1 = (osaDistance a b : Int) := by
  unfold Distance
  by_cases ha : a.isEmpty
  · rw [if_pos ha]
    have : a = [] := by simpa using ha
    subst this
    rw [osaDistance_nil_left]
  · rw [if_neg ha]
    by_cases hb : b.isEmpty
    · rw [if_pos hb]
      have : b = [] := by simpa using hb
      subst this
      rw [osaDistance_nil_right]
    · rw [if_neg hb]
      by_cases hsw : a.length > b.length
      · simp only [if_pos hsw]
        rw [osaDistance_symm a b]
        rcases hp : Helpers.PrefixSuffixPrep b a with ⟨len1, len2, start⟩
        simp only []
        have spec := prep_spec b a (by omega) len1 len2 start hp
        by_cases h1 : len1 = 0
        · rw [if_pos h1]
          subst h1
          rw [← osaTable_trim b a 0 len2 start spec, osaTable_zero_left]
        · rw [if_neg h1]
          exact core_after_prep this h b a (by omega) len1 len2 start hp h1
      · simp only [if_neg hsw]
        rcases hp : Helpers.PrefixSuffixPrep a b with ⟨len1, len2, start⟩
        simp only []
        have spec := prep_spec a b (by omega) len1 len2 start hp
        by_cases h1 : len1 = 0
        · rw [if_pos h1]
          subst h1
          rw [← osaTable_trim a b 0 len2 start spec, osaTable_zero_left]
        · rw [if_neg h1]
          exact core_after_prep this h a b (by omega) len1 len2 start hp h1

/-- The part of `Distance(string1, string2, maxDistance)` after the swap: the reference
distance when it is at most `iMaxDistance`, and `-1` otherwise. -/
theorem bounded_after_swap (this : DamerauOSA) (h : this.Sized) (s1 s2 : List Char)
    (hlen : s1.length ≤ s2.length) (k : Int) (hk : 0 < k) (r : Int × DamerauOSA)
    (hr : r =
      (let iMaxDistance : Int := if k ≤ INT_MAX then k else INT_MAX
      if ((s2.length - s1.length : Nat) : Int) > iMaxDistance then (-1, this)
      else
        let (len1, len2, start) := Helpers.PrefixSuffixPrep s1 s2
        if len1 = 0 then ((if (len2 : Int) ≤ iMaxDistance then (len2 : Int) else -1), this)
        else
          let this := this.grow len2
          if iMaxDistance < (len2 : Int) then
            (DistanceCoreMax s1 s2 len1 len2 start iMaxDistance this.baseChar1Costs
              this.basePrevChar1Costs, this)
          else
            (DistanceCore s1 s2 len1 len2 start this.baseChar1Costs this.basePrevChar1Costs,
              this))) :
    r.1 = if (osaDistance s1 s2 : Int) ≤ (if k ≤ INT_MAX then k else INT_MAX) then
      (osaDistance s1 s2 : Int) else -1 := by
  subst hr
  have hI : INT_MAX = 2147483647 := rfl
  have hlow := (osaDistance_lower s1 s2).2
  simp only []
  generalize hM : (if k ≤ INT_MAX then k else INT_MAX) = M
  have hM0 : 0 < M := by rw [← hM]; split_ifs <;> omega
  by_cases hgap : ((s2.length - s1.length : Nat) : Int) > M
  · rw [if_pos hgap, if_neg (by omega)]
  · rw [if_neg hgap]
    rcases hp : Helpers.PrefixSuffixPrep s1 s2 with ⟨len1, len2, start⟩
    simp only []
    have spec := prep_spec s1 s2 hlen len1 len2 start hp
    have hd := spec.diff
    have hb := spec.bound
    have htrim := osaTable_trim s1 s2 len1 len2 start spec
    by_cases h1 : len1 = 0
    · rw [if_pos h1]
      subst h1
      rw [osaTable_zero_left] at htrim
      rw [← htrim]
    · rw [if_neg h1]
      obtain ⟨g1, g2, -⟩ := grow_spec this h len2
      by_cases hb' : M < (len2 : Int)
      · rw [if_pos hb']
        show DistanceCoreMax s1 s2 len1 len2 start _ _ _ = _
        rw [DistanceCoreMax_eq s1 s2 len1 len2 start _ _ _ (by omega) (by omega)
          (by omega) hb' (by omega) (spec.first h1) g1 g2, htrim]
      · rw [if_neg hb']
        show DistanceCore s1 s2 len1 len2 start _ _ = _
        rw [DistanceCore_eq s1 s2 len1 len2 start _ _ (by omega) (by omega) g1 g2, htrim]
        have hmax := osaTable_le_max (window s1 start) (window s2 start) len1 len2
        rw [htrim] at hmax
        rw [if_pos (by omega)]

/-- Method `DamerauOSA::Distance(string1, string2, maxDistance)` for a bound `k ≥ 0`: the result
is the reference distance `d` if `d ≤ min(k, INT_MAX)`, and `-1` otherwise, except that an
empty argument is compared with `k` itself. -/
theorem DistanceMax_cases (this : DamerauOSA) (h : this.Sized) (a b : List Char) (k : Int)
    (hk : 0 ≤ k) :
    (this.DistanceMax a b k).1 =
      if (osaDistance a b : Int) ≤ (if a = [] ∨ b = [] ∨ k ≤ INT_MAX then k else INT_MAX) then
        (osaDistance a b : Int) else -1 := by
  unfold DistanceMax
  by_cases he : a.isEmpty ∨ b.isEmpty
  · rw [if_pos he]
    have he' : a = [] ∨ b = [] := by simpa using he
    have e0 : (if a = [] ∨ b = [] ∨ k ≤ INT_MAX then k else INT_MAX) = k :=
      if_pos (by tauto)
    rw [e0]
    show Helpers.NullDistanceResults a b k = _
    unfold Helpers.NullDistanceResults
    by_cases ha0 : a.isEmpty
    · have : a = [] := by simpa using ha0
      subst this
      rw [osaDistance_nil_left]
      by_cases hb0 : b.isEmpty
      · have : b = [] := by simpa using hb0
        subst this
        simp [hk]
      · simp only [List.isEmpty_nil, if_true, if_neg hb0]
    · have hb0 : b.isEmpty := by tauto
      have : b = [] := by simpa using hb0
      subst this
      rw [osaDistance_nil_right, if_neg ha0]
  · rw [if_neg he]
    have he' : ¬ (a = [] ∨ b = []) := by simpa using he
    have hI : INT_MAX = 2147483647 := rfl
    by_cases hk0 : k ≤ 0
    · have e0 : (if a = [] ∨ b = [] ∨ k ≤ INT_MAX then k else INT_MAX) = k :=
        if_pos (by right; right; omega)
      rw [if_pos hk0, e0]
      have hz := osaDistance_eq_zero a b
      have hk' : k = 0 := by omega
      subst hk'
      by_cases hab : a = b
      · have := hz.2 hab
        simp only [if_pos hab, this]; simp
      · have : osaDistance a b ≠ 0 := fun c => hab (hz.1 c)
        simp only [if_neg hab]
        rw [if_neg (by omega)]
    · rw [if_neg hk0]
      have e : (if a = [] ∨ b = [] ∨ k ≤ INT_MAX then k else INT_MAX) =
          (if k ≤ INT_MAX then k else INT_MAX) := by
        by_cases hki : k ≤ INT_MAX
        · rw [if_pos hki, if_pos (by tauto)]
        · rw [if_neg hki, if_neg (by tauto)]
      rw [e]
      by_cases hsw : a.length > b.length
      · simp only [if_pos hsw]
        rw [osaDistance_symm a b]
        exact bounded_after_swap this h b a (by omega) k (by omega) _ rfl
      · simp only [if_neg hsw]
        exact bounded_after_swap this h a b (by omega) k (by omega) _ rfl

/-- Method `DamerauOSA::Distance(string1, string2, maxDistance)` returns the reference distance
when it is within the bound and `-1` otherwise. -/
theorem DistanceMax_fst (this : DamerauOSA) (h : this.Sized) (a b : List Char) (k : Int)
    (hk : 0 ≤ k) (ha : (a.length : Int) ≤ INT_MAX) (hb : (b.length : Int) ≤ INT_MAX) :
    (this.DistanceMax a b k).1 =
      if (osaDistance a b : Int) ≤ k then (osaDistance a b : Int) else -1 := by
  rw [DistanceMax_cases this h a b k hk]
  have hmax := osaDistance_le_max a b
  have hI : INT_MAX = 2147483647 := rfl
  by_cases hc : a = [] ∨ b = [] ∨ k ≤ INT_MAX
  · rw [if_pos hc]
  · rw [if_neg hc, if_pos (by omega), if_pos (by omega)]

end DamerauOSA

theorem rd_set (l : List Int) (j t : Nat) (x : Int) :
    rd (l.set j x) t = if t = j ∧ j < l.length then x else rd l t := by
  by_cases h : t = j
  · subst h
    by_cases hl : t < l.length
    · rw [rd_set_eq _ _ _ hl, if_pos ⟨rfl, hl⟩]
    · rw [List.set_eq_of_length_le (by omega), if_neg (by omega)]
  · rw [rd_set_ne _ _ _ _ h, if_neg (by tauto)]

theorem rd_nonneg_of_mem (l : List Int) (h : ∀ x ∈ l, 0 ≤ x) (t : Nat) : 0 ≤ rd l t := by
  unfold rd
  rw [List.getD_eq_getElem?_getD]
  by_cases ht : t < l.length
  · rw [List.getElem?_eq_getElem ht]
    exact h _ (List.getElem_mem ht)
  · rw [List.getElem?_eq_none (by omega)]
    simp

theorem mem_nonneg_of_rd (l : List Int) (h : ∀ t, 0 ≤ rd l t) : ∀ x ∈ l, 0 ≤ x := by
  intro x hx
  obtain ⟨n, hn, rfl⟩ := List.getElem_of_mem hx
  have := h n
  unfold rd at this
  rw [List.getD_eq_getElem?_getD, List.getElem?_eq_getElem hn] at this
  simpa using this

namespace Levenshtein

section Proj
variable (string2 : List Char) (offset : Nat) (char1 : Char) (j : Nat) (v : Inner)

theorem lev_innerBody_char1Costs :
    (innerBody string2 offset char1 j v).char1Costs =
      v.char1Costs.set j (levCost char1 (charAt string2 (offset + j)) v.leftCharCost
        v.aboveCharCost (rd v.char1Costs j)) := rfl

theorem lev_innerBody_currentCharCost :
    (innerBody string2 offset char1 j v).currentCharCost =
      levCost char1 (charAt string2 (offset + j)) v.leftCharCost v.aboveCharCost
        (rd v.char1Costs j) := rfl

theorem lev_innerBody_leftCharCost :
    (innerBody string2 offset char1 j v).leftCharCost = rd v.char1Costs j := rfl

theorem lev_innerBody_aboveCharCost :
    (innerBody string2 offset char1 j v).aboveCharCost =
      levCost char1 (charAt string2 (offset + j)) v.leftCharCost v.aboveCharCost
        (rd v.char1Costs j) := rfl

end Proj

theorem levCost_nonneg (char1 char2 : Char) (diag above left : Int) (hd : 0 ≤ diag)
    (ha : 0 ≤ above) (hl : 0 ≤ left) :
    0 ≤ levCost char1 char2 diag above left ∧
      (char2 ≠ char1 → 1 ≤ levCost char1 char2 diag above left) := by
  unfold levCost
  simp only []
  split_ifs <;> simp_all <;> omega

theorem levCost_le_diag (char1 char2 : Char) (diag above left : Int) :
    levCost char1 char2 diag above left ≤ diag + 1 := by
  unfold levCost
  simp only []
  split_ifs <;> omega

theorem levCost_le_above (char1 char2 : Char) (diag above left : Int) (h : char2 ≠ char1) :
    levCost char1 char2 diag above left ≤ above + 1 := by
  unfold levCost
  simp only []
  split_ifs <;> omega

theorem lev_row_nonneg (string1 string2 : List Char) (offset i jS count : Nat) (o : Outer)
    (h : ∀ t, 0 ≤ rd o.char1Costs t) (hc : 0 ≤ o.currentCharCost) :
    (row string1 string2 offset i jS count o).char1Costs.length = o.char1Costs.length ∧
    (∀ t, 0 ≤ rd (row string1 string2 offset i jS count o).char1Costs t) ∧
    0 ≤ (row string1 string2 offset i jS count o).currentCharCost ∧
    (∀ j', count = j' + 1 →
      charAt string2 (offset + (jS + j')) ≠ charAt string1 (offset + i) →
      1 ≤ (row string1 string2 offset i jS count o).currentCharCost) := by
  have key := forLoop_inv (innerBody string2 offset (charAt string1 (offset + i)))
    (fun j v => NonNeg string2 offset (charAt string1 (offset + i)) jS o.char1Costs j v)
    count jS
    { char1Costs := o.char1Costs
      currentCharCost := o.currentCharCost
      leftCharCost := (i : Int)
      aboveCharCost := (i : Int) }
    { len := rfl, all := h, cur := hc, left := by simp, above := by simp
      pos := fun j' hj hj' => by omega }
    (by
      intro j v h1 h2 inv
      have hn := levCost_nonneg (charAt string1 (offset + i)) (charAt string2 (offset + j))
        v.leftCharCost v.aboveCharCost (rd v.char1Costs j) inv.left inv.above (inv.all j)
      constructor
      · rw [lev_innerBody_char1Costs]; simp [inv.len]
      · intro t
        rw [lev_innerBody_char1Costs, rd_set]
        split_ifs
        · exact hn.1
        · exact inv.all t
      · rw [lev_innerBody_currentCharCost]; exact hn.1
      · rw [lev_innerBody_leftCharCost]; exact inv.all j
      · rw [lev_innerBody_aboveCharCost]; exact hn.1
      · intro j' hj hj' hne
        obtain rfl : j' = j := by omega
        rw [lev_innerBody_currentCharCost]
        exact hn.2 hne)
  refine ⟨key.len, key.all, key.cur, ?_⟩
  intro j' hj hne
  exact key.pos (jS + j') (by omega) (by omega) hne

theorem lev_row_upper (string1 string2 : List Char) (offset len2 i : Nat) (o : Outer)
    (h2 : 1 ≤ len2) (h : UpOuter string1 string2 offset len2 i o) :
    UpOuter string1 string2 offset len2 (i + 1) (row string1 string2 offset i 0 len2 o) := by
  have key := forLoop_inv (innerBody string2 offset (charAt string1 (offset + i)))
    (fun j v => UpInv string1 string2 offset i o.char1Costs j v) len2 0
    { char1Costs := o.char1Costs
      currentCharCost := o.currentCharCost
      leftCharCost := (i : Int)
      aboveCharCost := (i : Int) }
    { len := rfl
      cIn := fun t ht => by omega
      cOut := fun t _ => rfl
      left := by simp
      above := by simp
      cur := fun hj => absurd rfl hj }
    (by
      intro j v _ hj inv
      have hjl : j < v.char1Costs.length := by rw [inv.len]; have := h.len; omega
      have hnew : (j ≠ i + 1 ∨ charAt string2 (offset + j) ≠ charAt string1 (offset + i)) →
          levCost (charAt string1 (offset + i)) (charAt string2 (offset + j)) v.leftCharCost
            v.aboveCharCost (rd v.char1Costs j) ≤ max ((i : Int) + 1) ((j : Int) + 1) := by
        intro hc
        by_cases hji : j = i + 1
        · have hne : charAt string2 (offset + j) ≠ charAt string1 (offset + i) := by tauto
          have h1 := levCost_le_above (charAt string1 (offset + i))
            (charAt string2 (offset + j)) v.leftCharCost v.aboveCharCost (rd v.char1Costs j) hne
          have h3 := inv.cIn (j - 1) (by omega) (Or.inl (by omega))
          have h2 : v.aboveCharCost = rd v.char1Costs (j - 1) := by
            rw [inv.above, if_neg (by omega)]
          rw [← h2] at h3
          omega
        · have h1 := levCost_le_diag (charAt string1 (offset + i))
            (charAt string2 (offset + j)) v.leftCharCost v.aboveCharCost (rd v.char1Costs j)
          by_cases hj0 : j = 0
          · have h2 : v.leftCharCost = (i : Int) := by rw [inv.left, if_pos hj0]
            omega
          · have h2 : v.leftCharCost = rd o.char1Costs (j - 1) := by
              rw [inv.left, if_neg hj0]
            have h3 := h.all (j - 1) (by omega) (Or.inl (by omega))
            rw [← h2] at h3
            omega
      constructor
      · rw [lev_innerBody_char1Costs]; simp [inv.len]
      · intro t ht hc
        rw [lev_innerBody_char1Costs, rd_set]
        by_cases e : t = j
        · subst e
          rw [if_pos ⟨rfl, hjl⟩]
          exact hnew hc
        · rw [if_neg (by tauto)]
          exact inv.cIn t (by omega) hc
      · intro t ht
        rw [lev_innerBody_char1Costs, rd_set, if_neg (by omega)]
        exact inv.cOut t (by omega)
      · rw [lev_innerBody_leftCharCost, if_neg (by omega)]
        simp only [Nat.add_sub_cancel]
        exact inv.cOut j (le_refl _)
      · rw [lev_innerBody_aboveCharCost, lev_innerBody_char1Costs, if_neg (by omega)]
        simp only [Nat.add_sub_cancel]
        rw [rd_set, if_pos ⟨rfl, hjl⟩]
      · intro _
        rw [lev_innerBody_currentCharCost, lev_innerBody_char1Costs]
        simp only [Nat.add_sub_cancel]
        rw [rd_set, if_pos ⟨rfl, hjl⟩])
  simp only [Nat.zero_add] at key
  constructor
  · show len2 ≤ List.length (Inner.char1Costs _)
    rw [key.len]; exact h.len
  · intro t ht hc
    have := key.cIn t ht (by
      rcases hc with hc | ⟨i', hi', hc⟩
      · exact Or.inl hc
      · obtain rfl : i' = i := by omega
        exact Or.inr hc)
    push_cast
    exact this
  · intro i' _
    exact key.cur (by omega)

/-- The writes of `for (int j = 0; j < n;) char1Costs[j] = ++j;`: element `t` receives
`t` for `1 ≤ t ≤ n`. -/
theorem initLoop_writes (n : Nat) (c : List Int) :
    (forLoop (fun j c => c.set (j + 1) ((j : Int) + 1)) n 0 c).length = c.length ∧
    ∀ t, rd (forLoop (fun j c => c.set (j + 1) ((j : Int) + 1)) n 0 c) t =
      if 1 ≤ t ∧ t ≤ n ∧ t < c.length then (t : Int) else rd c t := by
  have key : ∀ (n first : Nat) (c : List Int),
      (forLoop (fun j c => c.set (j + 1) ((j : Int) + 1)) n first c).length = c.length ∧
      ∀ t, rd (forLoop (fun j c => c.set (j + 1) ((j : Int) + 1)) n first c) t =
        if first + 1 ≤ t ∧ t ≤ first + n ∧ t < c.length then (t : Int) else rd c t := by
    intro n
    induction n with
    | zero =>
      intro first c
      refine ⟨rfl, fun t => ?_⟩
      rw [if_neg (by omega)]; rfl
    | succ n ih =>
      intro first c
      obtain ⟨h1, h2⟩ := ih (first + 1) (c.set (first + 1) ((first : Int) + 1))
      refine ⟨by simpa [forLoop] using h1, fun t => ?_⟩
      show rd (forLoop _ n (first + 1) (c.set (first + 1) ((first : Int) + 1))) t = _
      rw [h2 t, rd_set]
      simp only [List.length_set]
      by_cases e : t = first + 1
      · subst e
        by_cases hl : first + 1 < c.length
        · rw [if_neg (by omega), if_pos ⟨rfl, hl⟩, if_pos ⟨by omega, by omega, hl⟩]
          push_cast; rfl
        · rw [if_neg (by omega), if_neg (by omega), if_neg (by omega)]
      · by_cases hc : first + 1 + 1 ≤ t ∧ t ≤ first + 1 + n ∧ t < c.length
        · rw [if_pos hc, if_pos ⟨by omega, by omega, hc.2.2⟩]
        · rw [if_neg hc, if_neg (by tauto), if_neg (by omega)]
  obtain ⟨h1, h2⟩ := key n 0 c
  refine ⟨h1, fun t => ?_⟩
  rw [h2 t]
  simp only [Nat.zero_add]

theorem initLoop_aux (n : Nat) :
    ∀ (first : Nat) (c : List Int),
      forLoop (fun j (c : Option (List Int)) => c.bind (fun c =>
        if j + 1 < c.length then some (c.set (j + 1) ((j : Int) + 1)) else none))
        n first (some c) =
      if first + n < c.length ∨ n = 0 then
        some (forLoop (fun j c => c.set (j + 1) ((j : Int) + 1)) n first c)
      else none := by
  induction n with
  | zero =>
    intro first c
    rw [if_pos (Or.inr rfl)]
    rfl
  | succ n ih =>
    intro first c
    have hnone : ∀ (m f : Nat),
        forLoop (fun j (c : Option (List Int)) => c.bind (fun c =>
          if j + 1 < c.length then some (c.set (j + 1) ((j : Int) + 1)) else none))
          m f none = none := by
      intro m
      induction m with
      | zero => intro f; rfl
      | succ m ihm => intro f; exact ihm (f + 1)
    show forLoop _ n (first + 1)
      (if first + 1 < c.length then some (c.set (first + 1) ((first : Int) + 1)) else none) = _
    by_cases h : first + 1 < c.length
    · rw [if_pos h, ih (first + 1) (c.set (first + 1) ((first : Int) + 1))]
      rw [List.length_set]
      by_cases h2 : first + 1 + n < c.length ∨ n = 0
      · rw [if_pos h2, if_pos (Or.inl (by omega))]
        rfl
      · rw [if_neg h2, if_neg (by omega)]
    · rw [if_neg h, hnone, if_neg (by omega)]

/-- The loop `for (int j = 0; j < n;) char1Costs[j] = ++j;` leaves the vector exactly when
it runs (`n > 0`) on a vector of at most `n` elements; otherwise it makes the `n` writes. -/
theorem initLoop_eq (n : Nat) (c : List Int) :
    initLoop n c = if n < c.length ∨ n = 0 then
      some (forLoop (fun j c => c.set (j + 1) ((j : Int) + 1)) n 0 c) else none := by
  unfold initLoop
  rw [initLoop_aux n 0 c, Nat.zero_add]

theorem initLoop_none (n : Nat) (c : List Int) :
    initLoop n c = none ↔ (0 < n ∧ c.length ≤ n) := by
  rw [initLoop_eq]
  by_cases h : n < c.length ∨ n = 0
  · rw [if_pos h]
    constructor
    · intro h2; cases h2
    · intro h2; omega
  · rw [if_neg h]
    exact ⟨fun _ => by omega, fun _ => rfl⟩

theorem initLoop_some (n : Nat) (c : List Int) (h : n < c.length ∨ n = 0) :
    ∃ c1, initLoop n c = some c1 := by
  rw [initLoop_eq, if_pos h]
  exact ⟨_, rfl⟩

/-- The vector after `for (int j = 0; j < n;) char1Costs[j] = ++j;`, when the loop stays
inside the vector. -/
theorem initLoop_spec (n : Nat) (c c1 : List Int) (h : initLoop n c = some c1) :
    (n < c.length ∨ n = 0) ∧ c1.length = c.length ∧
    ∀ t, rd c1 t = if 1 ≤ t ∧ t ≤ n ∧ t < c.length then (t : Int) else rd c t := by
  rw [initLoop_eq] at h
  by_cases hc : n < c.length ∨ n = 0
  · rw [if_pos hc] at h
    obtain rfl := Option.some.inj h
    exact ⟨hc, initLoop_writes n c⟩
  · rw [if_neg hc] at h
    cases h

theorem offset_eq (start : Nat) : (if start = 0 then 0 else start) = start := by
  split_ifs with h
  · exact h.symm
  · rfl

theorem lev_core_eq (s1 s2 : List Char) (len1 len2 start : Nat) (c : List Int)
    (r : Int × List Int) (h : DistanceCore s1 s2 len1 len2 start c = some r) :
    ∃ c1, initLoop len2 c = some c1 ∧
      r = ((forLoop (fun i o => row s1 s2 start i 0 len2 o) len1 0
            { char1Costs := c1, currentCharCost := 0 }).currentCharCost,
          (forLoop (fun i o => row s1 s2 start i 0 len2 o) len1 0
            { char1Costs := c1, currentCharCost := 0 }).char1Costs) := by
  unfold DistanceCore at h
  simp only [offset_eq] at h
  cases hi : initLoop len2 c with
  | none => rw [hi] at h; cases h
  | some c1 =>
    rw [hi] at h
    exact ⟨c1, rfl, (Option.some.inj h).symm⟩

/-- The core without a bound returns a value exactly when its first loop stays inside the
vector: on a vector of more than `len2` elements (or with `len2 = 0`). -/
theorem lev_core_none (s1 s2 : List Char) (len1 len2 start : Nat) (c : List Int) :
    DistanceCore s1 s2 len1 len2 start c = none ↔ (0 < len2 ∧ c.length ≤ len2) := by
  unfold DistanceCore
  rw [Option.map_eq_none', initLoop_none]

theorem lev_core_some (s1 s2 : List Char) (len1 len2 start : Nat) (c : List Int)
    (h : len2 < c.length ∨ len2 = 0) : ∃ r, DistanceCore s1 s2 len1 len2 start c = some r := by
  cases hr : DistanceCore s1 s2 len1 len2 start c with
  | none => rw [lev_core_none] at hr; omega
  | some r => exact ⟨r, rfl⟩

/-- Value of the core without a bound, when it returns one: positive and at most `len2`,
for every content of the vector whose elements are not negative. -/
theorem lev_core_bounds (s1 s2 : List Char) (len1 len2 start : Nat) (c : List Int)
    (h1 : 1 ≤ len1) (h12 : len1 ≤ len2) (hc : len2 ≤ c.length)
    (hlast : charAt s1 (start + (len1 - 1)) ≠ charAt s2 (start + (len2 - 1)))
    (r : Int × List Int) (hret : DistanceCore s1 s2 len1 len2 start c = some r) :
    r.1 ≤ len2 ∧ ((∀ t, 0 ≤ rd c t) → 1 ≤ r.1 ∧ ∀ t, 0 ≤ rd r.2 t) := by
  obtain ⟨c1, hi, rfl⟩ := lev_core_eq s1 s2 len1 len2 start c r hret
  obtain ⟨-, hl, hr⟩ := initLoop_spec len2 c c1 hi
  obtain ⟨i', hi'⟩ : ∃ i', len1 = i' + 1 := ⟨len1 - 1, by omega⟩
  constructor
  · have key := forLoop_inv (fun i o => row s1 s2 start i 0 len2 o)
      (fun i o => UpOuter s1 s2 start len2 i o) len1 0
      { char1Costs := c1, currentCharCost := 0 }
      { len := by show len2 ≤ c1.length; rw [hl]; exact hc
        all := by
          intro t ht hcnd
          show rd c1 t ≤ _
          have ht0 : t ≠ 0 := by
            rcases hcnd with h | ⟨i', hi', -⟩
            · exact h
            · omega
          rw [hr t, if_pos ⟨by omega, by omega, by omega⟩]
          omega
        cur := fun i' hi' => by omega }
      (fun i o _ _ inv => lev_row_upper s1 s2 start len2 i o (by omega) inv)
    simp only [Nat.zero_add] at key
    have hcur := key.cur i' hi'
    have hb := key.all (len2 - 1) (by omega) (Or.inr ⟨i', hi', by
      have e : i' = len1 - 1 := by omega
      rw [e]; exact fun c => hlast c.symm⟩)
    show Outer.currentCharCost _ ≤ _
    rw [hcur]
    omega
  · intro hnn
    have key := forLoop_inv (fun i o => row s1 s2 start i 0 len2 o)
      (fun i o => (∀ t, 0 ≤ rd o.char1Costs t) ∧ 0 ≤ o.currentCharCost ∧
        ∀ i', i = i' + 1 → charAt s2 (start + (len2 - 1)) ≠ charAt s1 (start + i') →
          1 ≤ o.currentCharCost) len1 0
      { char1Costs := c1, currentCharCost := 0 }
      ⟨by
        intro t
        show 0 ≤ rd c1 t
        rw [hr t]
        split_ifs
        · omega
        · exact hnn t, le_refl _, fun i' hi' => by omega⟩
      (by
        intro i o _ _ inv
        obtain ⟨-, a2, a3, a4⟩ := lev_row_nonneg s1 s2 start i 0 len2 o inv.1 inv.2.1
        refine ⟨a2, a3, ?_⟩
        intro i'' hi'' hne
        obtain rfl : i'' = i := by omega
        apply a4 (len2 - 1) (by omega)
        rw [Nat.zero_add]
        exact hne)
    simp only [Nat.zero_add] at key
    refine ⟨key.2.2 i' hi' (by
      have e : i' = len1 - 1 := by omega
      rw [e]; exact fun c => hlast c.symm), key.1⟩

end Levenshtein

theorem prepSpec_self (a : List Char) (len1 len2 start : Nat)
    (h : Helpers.PrepSpec a a len1 len2 start) : len1 = 0 ∧ len2 = 0 := by
  have hd := h.diff
  have e : len2 = len1 := by omega
  subst e
  by_cases h0 : len2 = 0
  · exact ⟨h0, h0⟩
  · exact absurd rfl (h.last h0)

theorem prepSpec_zero (s1 s2 : List Char) (start : Nat)
    (h : Helpers.PrepSpec s1 s2 0 0 start) : s1 = s2 := by
  have hd := h.diff
  have hb := h.bound
  apply List.ext_getElem (by omega)
  intro n h1 h2
  rw [← charAt_eq_getElem s1 n h1, ← charAt_eq_getElem s2 n h2]
  by_cases hn : n < start
  · exact h.pre n hn
  · have := h.suf (n - start) (by omega)
    have e : start + 0 + (n - start) = n := by omega
    rw [e] at this
    exact this

namespace Levenshtein

theorem lev_grow_spec (this : Levenshtein) (len2 : Nat) :
    len2 ≤ (this.grow len2).baseChar1Costs.length ∧
    (this.NonNegBuf → ∀ t, 0 ≤ rd (this.grow len2).baseChar1Costs t) := by
  unfold grow
  split_ifs with h
  · exact ⟨h, fun hn => rd_nonneg_of_mem _ hn⟩
  · refine ⟨by simp, fun _ t => ?_⟩
    rw [rd_replicate]

theorem lev_rowsMax_range (string1 string2 : List Char) (len2 offset : Nat)
    (M lenDiff jStartOffset : Int) (hM : 0 ≤ M) :
    ∀ (n i jStart : Nat) (jEnd : Int) (o : Outer), (∀ t, 0 ≤ rd o.char1Costs t) →
      0 ≤ o.currentCharCost →
      ((rowsMax string1 string2 len2 offset M lenDiff jStartOffset n i jStart jEnd o).1 = -1 ∨
        (0 ≤ (rowsMax string1 string2 len2 offset M lenDiff jStartOffset n i jStart jEnd o).1 ∧
          (rowsMax string1 string2 len2 offset M lenDiff jStartOffset n i jStart jEnd o).1
            ≤ M)) ∧
      ∀ t, 0 ≤ rd (rowsMax string1 string2 len2 offset M lenDiff jStartOffset n i jStart
        jEnd o).2 t := by
  intro n
  induction n with
  | zero =>
    intro i jStart jEnd o h1 h2
    simp only [rowsMax]
    refine ⟨?_, h1⟩
    split_ifs <;> omega
  | succ n ih =>
    intro i jStart jEnd o h1 h2
    simp only [rowsMax]
    generalize (jStart + (if (i : Int) > jStartOffset then 1 else 0)) = jS
    generalize (jEnd + (if jEnd < (len2 : Int) then 1 else 0)) = jE
    obtain ⟨-, a2, a3, -⟩ := lev_row_nonneg string1 string2 offset i jS
      (jE - (jS : Int)).toNat o h1 h2
    by_cases hab : rd (row string1 string2 offset i jS (jE - (jS : Int)).toNat o).char1Costs
        ((i : Int) + lenDiff).toNat > M
    · rw [if_pos hab]; exact ⟨Or.inl rfl, a2⟩
    · rw [if_neg hab]; exact ih _ _ _ _ a2 a3

theorem lev_coreMax_eq (s1 s2 : List Char) (len1 len2 start : Nat) (M : Int)
    (c : List Int) (r : Int × List Int)
    (h : DistanceCoreMax s1 s2 len1 len2 start M c = some r) :
    ∃ c1, initLoop M.toNat c = some c1 ∧
      r = rowsMax s1 s2 len2 start M ((len2 : Int) - (len1 : Int))
        (M - ((len2 : Int) - (len1 : Int))) len1 0 0 M
        { char1Costs := forLoop (fun j c => c.set j (M + 1)) (len2 - M.toNat) M.toNat c1
          currentCharCost := 0 } := by
  unfold DistanceCoreMax at h
  simp only [offset_eq] at h
  cases hi : initLoop M.toNat c with
  | none => rw [hi] at h; cases h
  | some c1 =>
    rw [hi] at h
    exact ⟨c1, rfl, (Option.some.inj h).symm⟩

/-- The core with a bound returns a value exactly when its first loop stays inside the
vector: on a vector of more than `maxDistance` elements (or with `maxDistance ≤ 0`). -/
theorem lev_coreMax_none (s1 s2 : List Char) (len1 len2 start : Nat) (M : Int)
    (c : List Int) :
    DistanceCoreMax s1 s2 len1 len2 start M c = none ↔ (0 < M.toNat ∧ c.length ≤ M.toNat) := by
  unfold DistanceCoreMax
  rw [Option.map_eq_none', initLoop_none]

theorem lev_coreMax_some (s1 s2 : List Char) (len1 len2 start : Nat) (M : Int)
    (c : List Int) (h : M < (c.length : Int)) :
    ∃ r, DistanceCoreMax s1 s2 len1 len2 start M c = some r := by
  cases hr : DistanceCoreMax s1 s2 len1 len2 start M c with
  | none => rw [lev_coreMax_none] at hr; omega
  | some r => exact ⟨r, rfl⟩

theorem lev_coreMax_range (s1 s2 : List Char) (len1 len2 start : Nat) (M : Int)
    (c : List Int) (hM : 0 ≤ M) (hc : ∀ t, 0 ≤ rd c t) (r : Int × List Int)
    (hret : DistanceCoreMax s1 s2 len1 len2 start M c = some r) :
    (r.1 = -1 ∨ (0 ≤ r.1 ∧ r.1 ≤ M)) ∧ ∀ t, 0 ≤ rd r.2 t := by
  obtain ⟨c1, hi, rfl⟩ := lev_coreMax_eq s1 s2 len1 len2 start M c r hret
  obtain ⟨-, -, hr⟩ := initLoop_spec M.toNat c c1 hi
  apply lev_rowsMax_range _ _ _ _ _ _ _ hM
  · intro t
    show 0 ≤ rd (forLoop _ _ _ c1) t
    rw [(DamerauOSA.fill_loop (M + 1) (len2 - M.toNat) M.toNat c1).2 t, hr t]
    split_ifs
    · omega
    · omega
    · exact hc t
  · exact le_refl _

/-- Method `Levenshtein::Distance(string1, string2)` on non-empty strings, in terms of the
strings `s1`, `s2` after the swap and of the result of `PrefixSuffixPrep`. -/
theorem lev_Distance_unfold (this : Levenshtein) (a b : List Char) (ha : a ≠ []) (hb : b ≠ [])
    (len1 len2 start : Nat)
    (hp : Helpers.PrefixSuffixPrep (if a.length > b.length then b else a)
      (if a.length > b.length then a else b) = (len1, len2, start)) :
    this.Distance a b =
      if len1 = 0 then some ((len2 : Int), this)
      else
        (DistanceCore (if a.length > b.length then b else a)
            (if a.length > b.length then a else b) len1 len2 start
            (this.grow len2).baseChar1Costs).map
          (fun r => (r.1, { baseChar1Costs := r.2 })) := by
  unfold Distance
  rw [if_neg (by simpa using ha), if_neg (by simpa using hb)]
  simp only [hp]

theorem lev_Distance_nil_left (this : Levenshtein) (b : List Char) :
    this.Distance [] b = some ((b.length : Int), this) := rfl

theorem lev_Distance_nil_right (this : Levenshtein) (a : List Char) :
    this.Distance a [] = some ((a.length : Int), this) := by
  cases a with
  | nil => rfl
  | cons x xs => rfl

theorem lev_core_after_prep (this : Levenshtein) (s1 s2 : List Char)
    (hlen : s1.length ≤ s2.length) (len1 len2 start : Nat)
    (hp : Helpers.PrefixSuffixPrep s1 s2 = (len1, len2, start)) (h1 : len1 ≠ 0)
    (r : Int × List Int)
    (hret : DistanceCore s1 s2 len1 len2 start (this.grow len2).baseChar1Costs = some r) :
    r.1 ≤ len2 ∧ (len2 : Int) ≤ s2.length ∧
    (this.NonNegBuf → 1 ≤ r.1 ∧ ∀ t, 0 ≤ rd r.2 t) := by
  have spec := DamerauOSA.prep_spec s1 s2 hlen len1 len2 start hp
  have hd := spec.diff
  have hb := spec.bound
  have hlast := spec.last h1
  have e1 : start + len1 - 1 = start + (len1 - 1) := by omega
  have e2 : start + len2 - 1 = start + (len2 - 1) := by omega
  rw [e1, e2] at hlast
  obtain ⟨b1, b2⟩ := lev_core_bounds s1 s2 len1 len2 start (this.grow len2).baseChar1Costs
    (by omega) (by omega) (lev_grow_spec this len2).1 hlast r hret
  exact ⟨b1, by omega, fun hn => b2 ((lev_grow_spec this len2).2 hn)⟩

/-- A value returned by `Levenshtein::Distance(string1, string2)` is at most the larger
length, whatever the cost buffer holds. -/
theorem lev_Distance_le_max (this : Levenshtein) (a b : List Char) (r : Int × Levenshtein)
    (hret : this.Distance a b = some r) :
    r.1 ≤ max (a.length : Int) (b.length : Int) := by
  by_cases ha : a = []
  · subst ha
    rw [lev_Distance_nil_left] at hret
    obtain rfl := Option.some.inj hret
    show (b.length : Int) ≤ _; simp
  by_cases hb : b = []
  · subst hb
    rw [lev_Distance_nil_right] at hret
    obtain rfl := Option.some.inj hret
    show (a.length : Int) ≤ _; simp
  rcases hp : Helpers.PrefixSuffixPrep (if a.length > b.length then b else a)
    (if a.length > b.length then a else b) with ⟨len1, len2, start⟩
  rw [lev_Distance_unfold this a b ha hb len1 len2 start hp] at hret
  have hs : (if a.length > b.length then b else a).length ≤
      (if a.length > b.length then a else b).length := by split_ifs <;> omega
  have hm : ((if a.length > b.length then a else b).length : Int) ≤
      max (a.length : Int) (b.length : Int) := by split_ifs <;> omega
  have spec := DamerauOSA.prep_spec _ _ hs len1 len2 start hp
  have hd := spec.diff
  have hbd := spec.bound
  by_cases h1 : len1 = 0
  · rw [if_pos h1] at hret
    obtain rfl := Option.some.inj hret
    show (len2 : Int) ≤ _; omega
  · rw [if_neg h1] at hret
    obtain ⟨rc, hrc, rfl⟩ := Option.map_eq_some'.1 hret
    obtain ⟨c1, c2, -⟩ := lev_core_after_prep this _ _ hs len1 len2 start hp h1 rc hrc
    show rc.1 ≤ _
    omega

/-- A value returned by `Levenshtein::Distance(string1, string2)` is `0` for equal strings
and positive for different ones, on an instance whose buffer holds no negative number. -/
theorem lev_Distance_zero_iff (this : Levenshtein) (hn : this.NonNegBuf) (a b : List Char)
    (r : Int × Levenshtein) (hret : this.Distance a b = some r) :
    (r.1 = 0 ↔ a = b) ∧ (a ≠ b → 0 < r.1) := by
  have key : (a = b → r.1 = 0) ∧ (a ≠ b → 0 < r.1) := by
    by_cases ha : a = []
    · subst ha
      rw [lev_Distance_nil_left] at hret
      obtain rfl := Option.some.inj hret
      constructor
      · intro h; subst h; rfl
      · intro h
        show 0 < (b.length : Int)
        have := List.length_pos.2 (fun c => h c.symm)
        omega
    have hal := List.length_pos.2 ha
    by_cases hb : b = []
    · subst hb
      rw [lev_Distance_nil_right] at hret
      obtain rfl := Option.some.inj hret
      exact ⟨fun h => absurd h ha, fun _ => by show 0 < (a.length : Int); omega⟩
    rcases hp : Helpers.PrefixSuffixPrep (if a.length > b.length then b else a)
      (if a.length > b.length then a else b) with ⟨len1, len2, start⟩
    rw [lev_Distance_unfold this a b ha hb len1 len2 start hp] at hret
    have hs : (if a.length > b.length then b else a).length ≤
        (if a.length > b.length then a else b).length := by split_ifs <;> omega
    have heq : a = b ↔ (if a.length > b.length then b else a) =
        (if a.length > b.length then a else b) := by
      split_ifs
      · exact ⟨fun h => h.symm, fun h => h.symm⟩
      · exact Iff.rfl
    have spec := DamerauOSA.prep_spec _ _ hs len1 len2 start hp
    constructor
    · intro h
      rw [heq] at h
      rw [← h] at spec
      obtain ⟨rfl, rfl⟩ := prepSpec_self _ len1 len2 start spec
      rw [if_pos rfl] at hret
      obtain rfl := Option.some.inj hret
      rfl
    · intro h
      by_cases h1 : len1 = 0
      · rw [if_pos h1] at hret
        obtain rfl := Option.some.inj hret
        subst h1
        show 0 < (len2 : Int)
        by_cases h2 : len2 = 0
        · subst h2
          exact absurd (heq.2 (prepSpec_zero _ _ start spec)) h
        · omega
      · rw [if_neg h1] at hret
        obtain ⟨rc, hrc, rfl⟩ := Option.map_eq_some'.1 hret
        have := ((lev_core_after_prep this _ _ hs len1 len2 start hp h1 rc hrc).2.2 hn).1
        show 0 < rc.1
        omega
  refine ⟨⟨fun h => ?_, key.1⟩, key.2⟩
  by_contra hab
  have := key.2 hab
  omega

/-- The buffer handed to a core has more than `len2` elements exactly when the buffer of
the instance has. -/
theorem lev_grow_lt (this : Levenshtein) (len2 : Nat) :
    len2 < (this.grow len2).baseChar1Costs.length ↔ len2 < this.baseChar1Costs.length := by
  unfold grow
  split_ifs with h
  · exact Iff.rfl
  · simp only [List.length_replicate]
    omega

/-- Method `Levenshtein::Distance(string1, string2)` returns a value exactly when the prefix and
suffix trimming exhausts a string or the buffer of the instance has more than `len2`
elements; otherwise its core writes outside the vector. -/
theorem lev_Distance_none (this : Levenshtein) (a b : List Char) (len1 len2 start : Nat)
    (hp : Helpers.PrefixSuffixPrep (if a.length > b.length then b else a)
      (if a.length > b.length then a else b) = (len1, len2, start)) :
    this.Distance a b = none ↔
      (a ≠ [] ∧ b ≠ [] ∧ len1 ≠ 0 ∧ this.baseChar1Costs.length ≤ len2) := by
  by_cases ha : a = []
  · subst ha
    rw [lev_Distance_nil_left]
    exact ⟨fun h => (by cases h), fun h => absurd rfl h.1⟩
  by_cases hb : b = []
  · subst hb
    rw [lev_Distance_nil_right]
    exact ⟨fun h => (by cases h), fun h => absurd rfl h.2.1⟩
  rw [lev_Distance_unfold this a b ha hb len1 len2 start hp]
  have hs : (if a.length > b.length then b else a).length ≤
      (if a.length > b.length then a else b).length := by split_ifs <;> omega
  have spec := DamerauOSA.prep_spec _ _ hs len1 len2 start hp
  have hd := spec.diff
  by_cases h1 : len1 = 0
  · rw [if_pos h1]
    exact ⟨fun h => (by cases h), fun h => absurd h1 h.2.2.1⟩
  · rw [if_neg h1, Option.map_eq_none', lev_core_none]
    have := lev_grow_lt this len2
    constructor
    · intro h
      exact ⟨ha, hb, h1, by omega⟩
    · intro h
      exact ⟨by omega, by omega⟩

/-- On an instance whose buffer is longer than both strings `Levenshtein::Distance(string1,
string2)` returns a value. -/
theorem lev_Distance_some (this : Levenshtein) (a b : List Char)
    (h : max a.length b.length < this.baseChar1Costs.length) :
    ∃ r, this.Distance a b = some r := by
  rcases hp : Helpers.PrefixSuffixPrep (if a.length > b.length then b else a)
    (if a.length > b.length then a else b) with ⟨len1, len2, start⟩
  cases hr : this.Distance a b with
  | some r => exact ⟨r, rfl⟩
  | none =>
    rw [lev_Distance_none this a b len1 len2 start hp] at hr
    have hs : (if a.length > b.length then b else a).length ≤
        (if a.length > b.length then a else b).length := by split_ifs <;> omega
    have hm : (if a.length > b.length then a else b).length ≤ max a.length b.length := by
      split_ifs <;> omega
    have spec := DamerauOSA.prep_spec _ _ hs len1 len2 start hp
    have hbd := spec.bound
    have hd := spec.diff
    omega

/-- Method `Levenshtein::Distance(string1, string2, maxDistance)` on non-empty strings and a
positive bound, in terms of the result of `PrefixSuffixPrep`. -/
theorem lev_DistanceMax_unfold (this : Levenshtein) (a b : List Char) (k : Int) (ha : a ≠ [])
    (hb : b ≠ []) (hk : 0 < k) (len1 len2 start : Nat)
    (hp : Helpers.PrefixSuffixPrep (if a.length > b.length then b else a)
      (if a.length > b.length then a else b) = (len1, len2, start)) :
    this.DistanceMax a b k =
      if (((if a.length > b.length then a else b).length -
          (if a.length > b.length then b else a).length : Nat) : Int) >
          (if k ≤ INT_MAX then k else INT_MAX) then some (-1, this)
      else if len1 = 0 then
        some ((if (len2 : Int) ≤ (if k ≤ INT_MAX then k else INT_MAX) then (len2 : Int)
          else -1), this)
      else if (if k ≤ INT_MAX then k else INT_MAX) < (len2 : Int) then
        (DistanceCoreMax (if a.length > b.length then b else a)
            (if a.length > b.length then a else b) len1 len2 start
            (if k ≤ INT_MAX then k else INT_MAX) (this.grow len2).baseChar1Costs).map
          (fun r => (r.1, { baseChar1Costs := r.2 }))
      else
        (DistanceCore (if a.length > b.length then b else a)
            (if a.length > b.length then a else b) len1 len2 start
            (this.grow len2).baseChar1Costs).map
          (fun r => (r.1, { baseChar1Costs := r.2 })) := by
  unfold DistanceMax
  rw [if_neg (by simpa using And.intro ha hb), if_neg (by omega)]
  simp only [hp]

theorem lev_DistanceMax_null (this : Levenshtein) (a b : List Char) (k : Int)
    (he : a = [] ∨ b = []) :
    this.DistanceMax a b k = some (Helpers.NullDistanceResults a b k, this) := by
  unfold DistanceMax; rw [if_pos (by simpa using he)]

theorem lev_DistanceMax_nonpos (this : Levenshtein) (a b : List Char) (k : Int)
    (ha : a ≠ []) (hb : b ≠ []) (hk0 : k ≤ 0) :
    this.DistanceMax a b k = some ((if a = b then 0 else -1), this) := by
  unfold DistanceMax; rw [if_neg (by simpa using And.intro ha hb), if_pos hk0]

theorem nullDistance_range (a b : List Char) (k : Int) (hk : 0 ≤ k) :
    Helpers.NullDistanceResults a b k = -1 ∨
      (0 ≤ Helpers.NullDistanceResults a b k ∧ Helpers.NullDistanceResults a b k ≤ k) := by
  unfold Helpers.NullDistanceResults
  split_ifs <;> omega

/-- A value returned by `Levenshtein::Distance(string1, string2, maxDistance)` is `-1` or
a number from `0` to the bound (on an instance whose buffer holds no negative number). -/
theorem lev_DistanceMax_range (this : Levenshtein) (hn : this.NonNegBuf) (a b : List Char)
    (k : Int) (hk : 0 ≤ k) (r : Int × Levenshtein) (hret : this.DistanceMax a b k = some r) :
    r.1 = -1 ∨ (0 ≤ r.1 ∧ r.1 ≤ k) := by
  by_cases he : a = [] ∨ b = []
  · rw [lev_DistanceMax_null this a b k he] at hret
    obtain rfl := Option.some.inj hret
    exact nullDistance_range a b k hk
  have ha : a ≠ [] := by tauto
  have hb : b ≠ [] := by tauto
  by_cases hk0 : k ≤ 0
  · rw [lev_DistanceMax_nonpos this a b k ha hb hk0] at hret
    obtain rfl := Option.some.inj hret
    show (if a = b then (0 : Int) else -1) = -1 ∨ _
    split_ifs <;> omega
  rcases hp : Helpers.PrefixSuffixPrep (if a.length > b.length then b else a)
    (if a.length > b.length then a else b) with ⟨len1, len2, start⟩
  rw [lev_DistanceMax_unfold this a b k ha hb (by omega) len1 len2 start hp] at hret
  have hI : INT_MAX = 2147483647 := rfl
  have hs : (if a.length > b.length then b else a).length ≤
      (if a.length > b.length then a else b).length := by split_ifs <;> omega
  generalize hM : (if k ≤ INT_MAX then k else INT_MAX) = M at hret
  have hM0 : 0 < M ∧ M ≤ k := by rw [← hM]; split_ifs <;> omega
  by_cases hgap : (((if a.length > b.length then a else b).length -
      (if a.length > b.length then b else a).length : Nat) : Int) > M
  · rw [if_pos hgap] at hret
    obtain rfl := Option.some.inj hret
    exact Or.inl rfl
  rw [if_neg hgap] at hret
  by_cases h1 : len1 = 0
  · rw [if_pos h1] at hret
    obtain rfl := Option.some.inj hret
    show (if (len2 : Int) ≤ M then (len2 : Int) else -1) = -1 ∨ _
    split_ifs <;> omega
  rw [if_neg h1] at hret
  by_cases hb' : M < (len2 : Int)
  · rw [if_pos hb'] at hret
    obtain ⟨rc, hrc, rfl⟩ := Option.map_eq_some'.1 hret
    have := (lev_coreMax_range (if a.length > b.length then b else a)
      (if a.length > b.length then a else b) len1 len2 start M (this.grow len2).baseChar1Costs
      (by omega) ((lev_grow_spec this len2).2 hn) rc hrc).1
    show rc.1 = -1 ∨ _
    omega
  · rw [if_neg hb'] at hret
    obtain ⟨rc, hrc, rfl⟩ := Option.map_eq_some'.1 hret
    obtain ⟨c1, -, c3⟩ := lev_core_after_prep this _ _ hs len1 len2 start hp h1 rc hrc
    have := (c3 hn).1
    show rc.1 = -1 ∨ _
    omega

/-- Method `Levenshtein::Distance(a, a, maxDistance)` returns `0` for every bound `k ≥ 0` and
leaves the instance as it is. -/
theorem lev_DistanceMax_self (this : Levenshtein) (a : List Char) (k : Int) :
    this.DistanceMax a a k = some (0, this) := by
  by_cases ha : a = []
  · subst ha
    unfold DistanceMax
    simp [Helpers.NullDistanceResults]
  by_cases hk0 : k ≤ 0
  · rw [lev_DistanceMax_nonpos this a a k ha ha hk0]; simp
  rcases hp : Helpers.PrefixSuffixPrep (if a.length > a.length then a else a)
    (if a.length > a.length then a else a) with ⟨len1, len2, start⟩
  rw [lev_DistanceMax_unfold this a a k ha ha (by omega) len1 len2 start hp]
  have hI : INT_MAX = 2147483647 := rfl
  have e : (if a.length > a.length then a else a) = a := by simp
  rw [e] at hp ⊢
  have spec := DamerauOSA.prep_spec a a (le_refl _) len1 len2 start hp
  obtain ⟨rfl, rfl⟩ := prepSpec_self a len1 len2 start spec
  generalize hM : (if k ≤ INT_MAX then k else INT_MAX) = M
  have hM0 : 0 < M := by rw [← hM]; split_ifs <;> omega
  rw [if_neg (by simp; omega), if_pos rfl]
  show some ((if ((0 : Nat) : Int) ≤ M then ((0 : Nat) : Int) else -1), this) = _
  rw [if_pos (by simp; omega)]
  rfl

/-- Method `Levenshtein::Distance(string1, string2, maxDistance)` returns no value exactly when
it reaches the core without a bound on an instance whose buffer has at most `len2`
elements; the core with a bound stays inside the vector. -/
theorem lev_DistanceMax_none (this : Levenshtein) (a b : List Char) (k : Int)
    (len1 len2 start : Nat)
    (hp : Helpers.PrefixSuffixPrep (if a.length > b.length then b else a)
      (if a.length > b.length then a else b) = (len1, len2, start)) :
    this.DistanceMax a b k = none ↔
      (a ≠ [] ∧ b ≠ [] ∧ 0 < k ∧ len1 ≠ 0 ∧
        (len2 : Int) ≤ (if k ≤ INT_MAX then k else INT_MAX) ∧
        this.baseChar1Costs.length ≤ len2) := by
  by_cases he : a = [] ∨ b = []
  · rw [lev_DistanceMax_null this a b k he]
    exact ⟨fun h => (by cases h), fun h => by tauto⟩
  have ha : a ≠ [] := by tauto
  have hb : b ≠ [] := by tauto
  by_cases hk0 : k ≤ 0
  · rw [lev_DistanceMax_nonpos this a b k ha hb hk0]
    exact ⟨fun h => (by cases h), fun h => by omega⟩
  rw [lev_DistanceMax_unfold this a b k ha hb (by omega) len1 len2 start hp]
  have hI : INT_MAX = 2147483647 := rfl
  have hs : (if a.length > b.length then b else a).length ≤
      (if a.length > b.length then a else b).length := by split_ifs <;> omega
  have spec := DamerauOSA.prep_spec _ _ hs len1 len2 start hp
  have hd := spec.diff
  have hbd := spec.bound
  generalize hM : (if k ≤ INT_MAX then k else INT_MAX) = M
  have hM0 : 0 < M ∧ M ≤ k := by rw [← hM]; split_ifs <;> omega
  by_cases hgap : (((if a.length > b.length then a else b).length -
      (if a.length > b.length then b else a).length : Nat) : Int) > M
  · rw [if_pos hgap]
    refine ⟨fun h => (by cases h), fun h => ?_⟩
    exfalso
    omega
  rw [if_neg hgap]
  by_cases h1 : len1 = 0
  · rw [if_pos h1]
    exact ⟨fun h => (by cases h), fun h => absurd h1 h.2.2.2.1⟩
  rw [if_neg h1]
  have hg := lev_grow_lt this len2
  have hg2 := (lev_grow_spec this len2).1
  by_cases hb' : M < (len2 : Int)
  · rw [if_pos hb', Option.map_eq_none', lev_coreMax_none]
    constructor
    · intro h; omega
    · intro h; omega
  · rw [if_neg hb', Option.map_eq_none', lev_core_none]
    constructor
    · intro h
      exact ⟨ha, hb, by omega, h1, by omega, by omega⟩
    · intro h
      exact ⟨by omega, by omega⟩

/-- On an instance whose buffer is longer than both strings `Levenshtein::Distance(string1,
string2, maxDistance)` returns a value. -/
theorem lev_DistanceMax_some (this : Levenshtein) (a b : List Char) (k : Int)
    (h : max a.length b.length < this.baseChar1Costs.length) :
    ∃ r, this.DistanceMax a b k = some r := by
  rcases hp : Helpers.PrefixSuffixPrep (if a.length > b.length then b else a)
    (if a.length > b.length then a else b) with ⟨len1, len2, start⟩
  cases hr : this.DistanceMax a b k with
  | some r => exact ⟨r, rfl⟩
  | none =>
    rw [lev_DistanceMax_none this a b k len1 len2 start hp] at hr
    have hs : (if a.length > b.length then b else a).length ≤
        (if a.length > b.length then a else b).length := by split_ifs <;> omega
    have hm : (if a.length > b.length then a else b).length ≤ max a.length b.length := by
      split_ifs <;> omega
    have spec := DamerauOSA.prep_spec _ _ hs len1 len2 start hp
    have hbd := spec.bound
    have hd := spec.diff
    omega

end Levenshtein

namespace DamerauOSA

/-- Method `DamerauOSA::Distance(string1, string2, maxDistance)` returns `-1` or a number from
`0` to the bound. -/
theorem osa_DistanceMax_range (this : DamerauOSA) (h : this.Sized) (a b : List Char)
    (k : Int) (hk : 0 ≤ k) :
    (this.DistanceMax a b k).1 = -1 ∨
      (0 ≤ (this.DistanceMax a b k).1 ∧ (this.DistanceMax a b k).1 ≤ k) := by
  rw [DistanceMax_cases this h a b k hk]
  have hI : INT_MAX = 2147483647 := rfl
  split_ifs <;> omega

/-- Method `DamerauOSA::Distance(a, a, maxDistance)` is `0` for every bound `k ≥ 0`. -/
theorem osa_DistanceMax_self (this : DamerauOSA) (h : this.Sized) (a : List Char) (k : Int)
    (hk : 0 ≤ k) : (this.DistanceMax a a k).1 = 0 := by
  rw [DistanceMax_cases this h a a k hk, (osaDistance_eq_zero a a).2 rfl]
  have hI : INT_MAX = 2147483647 := rfl
  have h0 : ((0 : Nat) : Int) ≤ (if a = [] ∨ a = [] ∨ k ≤ INT_MAX then k else INT_MAX) := by
    split_ifs <;> omega
  rw [if_pos h0]
  rfl

end DamerauOSA

theorem charAt_set (l : List Char) (j u : Nat) (x : Char) :
    charAt (l.set j x) u = if u = j ∧ j < l.length then x else charAt l u := by
  unfold charAt
  rw [List.getD_eq_getElem?_getD, List.getD_eq_getElem?_getD, List.getElem?_set]
  by_cases h : j = u
  · subst h
    by_cases hl : j < l.length
    · simp [hl]
    · simp [hl, List.getElem?_eq_none (not_lt.1 hl)]
  · rw [if_neg h, if_neg (by intro c; exact h c.1.symm)]

theorem charAt_swapAdjacent (s : List Char) (i u : Nat) (hi : i + 1 < s.length) :
    charAt (swapAdjacent s i) u =
      if u = i then charAt s (i + 1) else if u = i + 1 then charAt s i else charAt s u := by
  unfold swapAdjacent
  rw [charAt_set, charAt_set]
  simp only [List.length_set]
  by_cases h1 : u = i + 1
  · rw [if_pos ⟨h1, hi⟩, if_neg (by omega), if_pos h1]
  · rw [if_neg (by tauto), if_neg h1]
    by_cases h2 : u = i
    · rw [if_pos ⟨h2, by omega⟩, if_pos h2]
    · rw [if_neg (by tauto), if_neg h2]

theorem length_swapAdjacent (s : List Char) (i : Nat) : (swapAdjacent s i).length = s.length := by
  simp [swapAdjacent]

/-- Exchanging two different adjacent characters gives a string at reference distance 1. -/
theorem osaDistance_swapAdjacent (s : List Char) (i : Nat) (hi : i + 1 < s.length)
    (hne : charAt s i ≠ charAt s (i + 1)) : osaDistance s (swapAdjacent s i) = 1 := by
  unfold osaDistance
  rw [length_swapAdjacent]
  obtain ⟨t, ht⟩ : ∃ t, s.length = i + 2 + t := ⟨s.length - (i + 2), by omega⟩
  rw [ht, osaTable_drop_suffix _ _ (i + 2) (i + 2) t (by
    intro u _
    rw [charAt_swapAdjacent s i _ hi, if_neg (by omega), if_neg (by omega)])]
  have e := osaTable_shift i (charAt s) (charAt (swapAdjacent s i)) (by
    intro u hu
    rw [charAt_swapAdjacent s i _ hi, if_neg (by omega), if_neg (by omega)]) 2 2
  rw [e]
  have f0 : charAt (swapAdjacent s i) (i + 0) = charAt s (i + 1) := by
    rw [charAt_swapAdjacent s i _ hi, if_pos (Nat.add_zero i)]
  have f1 : charAt (swapAdjacent s i) (i + 1) = charAt s i := by
    rw [charAt_swapAdjacent s i _ hi, if_neg (by omega), if_pos rfl]
  have hle := osaTable_le_trans (fun u => charAt s (i + u))
    (fun u => charAt (swapAdjacent s i) (i + u)) 0 0
    (by show charAt s (i + (0 + 1)) = charAt (swapAdjacent s i) (i + 0); rw [f0])
    (by show charAt s (i + 0) = charAt (swapAdjacent s i) (i + (0 + 1)); rw [f1]; rfl)
  rw [osaTable_zero_left] at hle
  have hpos := osaTable_pos (fun u => charAt s (i + u))
    (fun u => charAt (swapAdjacent s i) (i + u))
    (by show charAt s (i + 0) ≠ charAt (swapAdjacent s i) (i + 0); rw [f0]; exact hne) 2 2
    (by omega)
  have e2 : (0 : Nat) + 1 + 1 = 2 := rfl
  rw [e2] at hle
  omega

namespace DamerauOSA

/-- The buffers of a `DamerauOSA` instance keep the same size through `Distance`. -/
theorem sized_Distance (this : DamerauOSA) (h : this.Sized) (a b : List Char) :
    (this.Distance a b).2.Sized := by
  unfold Distance
  split_ifs
  · exact h
  · exact h
  all_goals
    simp only []
    split_ifs
    · exact h
    · exact (grow_spec this h _).2.2

/-- The buffers of a `DamerauOSA` instance keep the same size through the bounded
`Distance`. -/
theorem sized_DistanceMax (this : DamerauOSA) (h : this.Sized) (a b : List Char) (k : Int) :
    (this.DistanceMax a b k).2.Sized := by
  unfold DistanceMax
  split_ifs
  all_goals simp only []
  all_goals try split_ifs
  all_goals first | exact h | exact (grow_spec this h _).2.2

theorem sized_newExpected (n : Int) (d : DamerauOSA) (h : newExpected n = Except.ok d) :
    d.Sized := by
  unfold newExpected at h
  split_ifs at h
  cases h
  rfl

end DamerauOSA

namespace Levenshtein

/-- No element of the buffer of a `Levenshtein` instance becomes negative through
`Distance`. -/
theorem nonNeg_Distance (this : Levenshtein) (h : this.NonNegBuf) (a b : List Char)
    (r : Int × Levenshtein) (hret : this.Distance a b = some r) : r.2.NonNegBuf := by
  by_cases ha : a = []
  · subst ha
    rw [lev_Distance_nil_left] at hret
    obtain rfl := Option.some.inj hret
    exact h
  by_cases hb : b = []
  · subst hb
    rw [lev_Distance_nil_right] at hret
    obtain rfl := Option.some.inj hret
    exact h
  rcases hp : Helpers.PrefixSuffixPrep (if a.length > b.length then b else a)
    (if a.length > b.length then a else b) with ⟨len1, len2, start⟩
  rw [lev_Distance_unfold this a b ha hb len1 len2 start hp] at hret
  have hs : (if a.length > b.length then b else a).length ≤
      (if a.length > b.length then a else b).length := by split_ifs <;> omega
  by_cases h1 : len1 = 0
  · rw [if_pos h1] at hret
    obtain rfl := Option.some.inj hret
    exact h
  · rw [if_neg h1] at hret
    obtain ⟨rc, hrc, rfl⟩ := Option.map_eq_some'.1 hret
    exact mem_nonneg_of_rd _
      ((lev_core_after_prep this _ _ hs len1 len2 start hp h1 rc hrc).2.2 h).2

/-- No element of the buffer of a `Levenshtein` instance becomes negative through the
bounded `Distance`. -/
theorem nonNeg_DistanceMax (this : Levenshtein) (h : this.NonNegBuf) (a b : List Char)
    (k : Int) (r : Int × Levenshtein) (hret : this.DistanceMax a b k = some r) :
    r.2.NonNegBuf := by
  by_cases he : a = [] ∨ b = []
  · rw [lev_DistanceMax_null this a b k he] at hret
    obtain rfl := Option.some.inj hret
    exact h
  have ha : a ≠ [] := by tauto
  have hb : b ≠ [] := by tauto
  by_cases hk0 : k ≤ 0
  · rw [lev_DistanceMax_nonpos this a b k ha hb hk0] at hret
    obtain rfl := Option.some.inj hret
    exact h
  rcases hp : Helpers.PrefixSuffixPrep (if a.length > b.length then b else a)
    (if a.length > b.length then a else b) with ⟨len1, len2, start⟩
  rw [lev_DistanceMax_unfold this a b k ha hb (by omega) len1 len2 start hp] at hret
  have hI : INT_MAX = 2147483647 := rfl
  have hs : (if a.length > b.length then b else a).length ≤
      (if a.length > b.length then a else b).length := by split_ifs <;> omega
  generalize hM : (if k ≤ INT_MAX then k else INT_MAX) = M at hret
  have hM0 : 0 < M := by rw [← hM]; split_ifs <;> omega
  by_cases hgap : (((if a.length > b.length then a else b).length -
      (if a.length > b.length then b else a).length : Nat) : Int) > M
  · rw [if_pos hgap] at hret
    obtain rfl := Option.some.inj hret
    exact h
  rw [if_neg hgap] at hret
  by_cases h1 : len1 = 0
  · rw [if_pos h1] at hret
    obtain rfl := Option.some.inj hret
    exact h
  rw [if_neg h1] at hret
  by_cases hb' : M < (len2 : Int)
  · rw [if_pos hb'] at hret
    obtain ⟨rc, hrc, rfl⟩ := Option.map_eq_some'.1 hret
    exact mem_nonneg_of_rd _ (lev_coreMax_range _ _ len1 len2 start M _ (by omega)
      ((lev_grow_spec this len2).2 h) rc hrc).2
  · rw [if_neg hb'] at hret
    obtain ⟨rc, hrc, rfl⟩ := Option.map_eq_some'.1 hret
    exact mem_nonneg_of_rd _
      ((lev_core_after_prep this _ _ hs len1 len2 start hp h1 rc hrc).2.2 h).2

theorem nonNeg_newExpected (n : Int) (l : Levenshtein) (h : newExpected n = Except.ok l) :
    l.NonNegBuf := by
  unfold newExpected at h
  split_ifs at h
  cases h
  intro x hx
  have := List.eq_of_mem_replicate hx
  omega

end Levenshtein

/-- C1: for every bound `k ≥ 0` (and strings whose lengths fit the source's `int`),
`DamerauOSA::Distance(a, b, k)` returns the optimal-string-alignment distance `d` of `a`
and `b` when `d ≤ k`, and returns `-1` exactly when `d > k`. -/
theorem damerau_distanceMax_contract (this : DamerauOSA) (h : this.Sized) (a b : List Char)
    (k : Int) (hk : 0 ≤ k) (ha : (a.length : Int) ≤ INT_MAX) (hb : (b.length : Int) ≤ INT_MAX) :
    ((osaDistance a b : Int) ≤ k → (this.DistanceMax a b k).1 = (osaDistance a b : Int)) ∧
    ((this.DistanceMax a b k).1 = -1 ↔ k < (osaDistance a b : Int)) := by
  rw [DamerauOSA.DistanceMax_fst this h a b k hk ha hb]
  constructor
  · intro hle; rw [if_pos hle]
  · by_cases hle : (osaDistance a b : Int) ≤ k
    · rw [if_pos hle]
      constructor
      · intro h1; omega
      · intro h1; omega
    · rw [if_neg hle]
      constructor
      · intro _; omega
      · intro _; rfl

theorem damerau_distanceMax_contract_witness :
    DamerauOSA.new.Sized ∧ (0 : Int) ≤ 2 ∧
    ((['c', 'a'] : List Char).length : Int) ≤ INT_MAX ∧
    ((['a', 'b', 'c'] : List Char).length : Int) ≤ INT_MAX ∧
    (((osaDistance ['c', 'a'] ['a', 'b', 'c'] : Int) ≤ 2 →
        (DamerauOSA.new.DistanceMax ['c', 'a'] ['a', 'b', 'c'] 2).1 =
          (osaDistance ['c', 'a'] ['a', 'b', 'c'] : Int)) ∧
      ((DamerauOSA.new.DistanceMax ['c', 'a'] ['a', 'b', 'c'] 2).1 = -1 ↔
        2 < (osaDistance ['c', 'a'] ['a', 'b', 'c'] : Int))) :=
  ⟨rfl, by decide, by decide, by decide,
    damerau_distanceMax_contract DamerauOSA.new rfl ['c', 'a'] ['a', 'b', 'c'] 2 (by decide)
      (by decide) (by decide)⟩

/-- C2: `DamerauOSA::Distance(a, b)` (no bound) equals the optimal-string-alignment
distance of `a` and `b` given by the reference recurrence, for all strings, the empty ones
and those with a common prefix or suffix included. -/
theorem damerau_distance_eq_reference (this : DamerauOSA) (h : this.Sized) (a b : List Char) :
    (this.Distance a b).1 = (osaDistance a b : Int) :=
  DamerauOSA.Distance_fst this h a b

theorem damerau_distance_eq_reference_witness :
    DamerauOSA.new.Sized ∧
    (DamerauOSA.new.Distance ['c', 'a'] ['a', 'b', 'c']).1 =
      (osaDistance ['c', 'a'] ['a', 'b', 'c'] : Int) :=
  ⟨rfl, damerau_distance_eq_reference DamerauOSA.new rfl ['c', 'a'] ['a', 'b', 'c']⟩

/-- C3: on the instance made by `Levenshtein(3)`, `Levenshtein::Distance("a", "bb")`
returns `1`, while the classic Levenshtein distance of the two strings is `2`. -/
theorem levenshtein_distance_a_bb :
    Levenshtein.newExpected 3 = Except.ok { baseChar1Costs := [0, 0, 0] } ∧
    (Levenshtein.Distance { baseChar1Costs := [0, 0, 0] } ['a'] ['b', 'b']).map Prod.fst =
      some 1 ∧
    levDistance ['a'] ['b', 'b'] = 2 := by
  refine ⟨rfl, by decide, ?_⟩
  simp [levDistance, levTable, charAt]

/-- C4: on the instance made by `Levenshtein(4)`, `Levenshtein::Distance("a", "bab")`
returns `1`, which is within the bound `1`, but `Levenshtein::Distance("a", "bab", 1)`
returns `-1`. -/
theorem levenshtein_bounded_a_bab :
    Levenshtein.newExpected 4 = Except.ok { baseChar1Costs := [0, 0, 0, 0] } ∧
    (Levenshtein.Distance { baseChar1Costs := [0, 0, 0, 0] } ['a'] ['b', 'a', 'b']).map
      Prod.fst = some 1 ∧
    (Levenshtein.DistanceMax { baseChar1Costs := [0, 0, 0, 0] } ['a'] ['b', 'a', 'b'] 1).map
      Prod.fst = some (-1) := by
  refine ⟨rfl, by decide, by decide⟩

theorem newLevenshtein_nonNeg : Levenshtein.new.NonNegBuf := by
  intro x hx
  simp [Levenshtein.new] at hx

/-- C5: the range of the bounded distance fails in `Levenshtein`. The call
`Distance("a", "b", 5)` on the instance made by `Levenshtein()` returns no value: it runs
the core without a bound on a vector of one element, and the first loop of the core
writes element `1` of it. Wherever a value is returned it is in the range: for every
bound `k ≥ 0`, `DamerauOSA::Distance(a, b, k)` is `-1` or a number from `0` to `k`, and so
is every value returned by `Levenshtein::Distance(a, b, k)`, which returns one on every
instance whose buffer is longer than both strings. -/
theorem levenshtein_distanceMax_no_value :
    Helpers.PrefixSuffixPrep ['a'] ['b'] = (1, 1, 0) ∧
    Levenshtein.new.DistanceMax ['a'] ['b'] 5 = none ∧
    (∀ (d : DamerauOSA) (a b : List Char) (k : Int), d.Sized → 0 ≤ k →
      ((d.DistanceMax a b k).1 = -1 ∨
        (0 ≤ (d.DistanceMax a b k).1 ∧ (d.DistanceMax a b k).1 ≤ k))) ∧
    (∀ (l : Levenshtein) (a b : List Char) (k : Int) (r : Int × Levenshtein),
      l.NonNegBuf → 0 ≤ k → l.DistanceMax a b k = some r →
        (r.1 = -1 ∨ (0 ≤ r.1 ∧ r.1 ≤ k))) ∧
    (∀ (l : Levenshtein) (a b : List Char) (k : Int),
      max a.length b.length < l.baseChar1Costs.length → ∃ r, l.DistanceMax a b k = some r) :=
  ⟨by decide, rfl,
    fun d a b k hd hk => DamerauOSA.osa_DistanceMax_range d hd a b k hk,
    fun l a b k r hl hk hr => Levenshtein.lev_DistanceMax_range l hl a b k hk r hr,
    fun l a b k h => Levenshtein.lev_DistanceMax_some l a b k h⟩

/-- C6: `Distance(a, b) = 0` exactly for `a = b` fails in `Levenshtein`. The call
`Distance("ab", "ac")` on the instance made by `Levenshtein()` returns no value: after the
common prefix is removed the core runs on a vector of one element and its first loop
writes element `1` of it. Wherever a value is returned the property holds: for
`DamerauOSA`, and for every value returned by `Levenshtein::Distance(a, b)`, the value is `0`
if and only if `a = b` and is positive otherwise; `Distance(a, a, k)` returns `0` for every
bound; `Levenshtein::Distance(a, b)` returns a value on every instance whose buffer is
longer than both strings. -/
theorem levenshtein_distance_no_value_ab_ac :
    Helpers.PrefixSuffixPrep ['a', 'b'] ['a', 'c'] = (1, 1, 1) ∧
    Levenshtein.new.Distance ['a', 'b'] ['a', 'c'] = none ∧
    (∀ (d : DamerauOSA) (a b : List Char) (k : Int), d.Sized → 0 ≤ k →
      (((d.Distance a b).1 = 0 ↔ a = b) ∧ (a ≠ b → 0 < (d.Distance a b).1) ∧
        (d.DistanceMax a a k).1 = 0)) ∧
    (∀ (l : Levenshtein) (a b : List Char) (r : Int × Levenshtein),
      l.NonNegBuf → l.Distance a b = some r → ((r.1 = 0 ↔ a = b) ∧ (a ≠ b → 0 < r.1))) ∧
    (∀ (l : Levenshtein) (a : List Char) (k : Int), l.DistanceMax a a k = some (0, l)) ∧
    (∀ (l : Levenshtein) (a b : List Char),
      max a.length b.length < l.baseChar1Costs.length → ∃ r, l.Distance a b = some r) := by
  refine ⟨by decide, rfl, ?_,
    fun l a b r hl hr => Levenshtein.lev_Distance_zero_iff l hl a b r hr,
    fun l a k => Levenshtein.lev_DistanceMax_self l a k,
    fun l a b h => Levenshtein.lev_Distance_some l a b h⟩
  intro d a b k hd hk
  have hz := osaDistance_eq_zero a b
  refine ⟨?_, ?_, DamerauOSA.osa_DistanceMax_self d hd a k hk⟩
  · rw [DamerauOSA.Distance_fst d hd a b, ← hz]
    omega
  · intro hab
    rw [DamerauOSA.Distance_fst d hd a b]
    have : osaDistance a b ≠ 0 := fun c => hab (hz.1 c)
    omega

/-- C7: on the instance made by `Levenshtein(4)`, `Levenshtein::Distance("aab", "baa")`
returns `1` but `Levenshtein::Distance("baa", "aab")` returns `2`; with the bound `1` the
two calls return `1` and `-1`. -/
theorem levenshtein_distance_aab_baa :
    Levenshtein.newExpected 4 = Except.ok { baseChar1Costs := [0, 0, 0, 0] } ∧
    (Levenshtein.Distance { baseChar1Costs := [0, 0, 0, 0] } ['a', 'a', 'b']
      ['b', 'a', 'a']).map Prod.fst = some 1 ∧
    (Levenshtein.Distance { baseChar1Costs := [0, 0, 0, 0] } ['b', 'a', 'a']
      ['a', 'a', 'b']).map Prod.fst = some 2 ∧
    (Levenshtein.DistanceMax { baseChar1Costs := [0, 0, 0, 0] } ['a', 'a', 'b']
      ['b', 'a', 'a'] 1).map Prod.fst = some 1 ∧
    (Levenshtein.DistanceMax { baseChar1Costs := [0, 0, 0, 0] } ['b', 'a', 'a']
      ['a', 'a', 'b'] 1).map Prod.fst = some (-1) := by
  refine ⟨rfl, by decide, by decide, by decide, by decide⟩

/-- C8: the bound `Distance(a, b) ≤ max(|a|, |b|)` fails in `Levenshtein`. The call
`Distance("ca", "abc")` on the instance made by `Levenshtein()` returns no value: the core
runs on a vector of three elements and its first loop writes element `3` of it. Wherever
a value is returned the bound holds: for `DamerauOSA`, and for every value returned by
`Levenshtein::Distance(a, b)`, whatever the buffer holds; `Levenshtein::Distance(a, b)`
returns a value on every instance whose buffer is longer than both strings. -/
theorem levenshtein_distance_no_value_ca_abc :
    Helpers.PrefixSuffixPrep ['c', 'a'] ['a', 'b', 'c'] = (2, 3, 0) ∧
    Levenshtein.new.Distance ['c', 'a'] ['a', 'b', 'c'] = none ∧
    (∀ (d : DamerauOSA) (a b : List Char), d.Sized →
      (d.Distance a b).1 ≤ max (a.length : Int) (b.length : Int)) ∧
    (∀ (l : Levenshtein) (a b : List Char) (r : Int × Levenshtein),
      l.Distance a b = some r → r.1 ≤ max (a.length : Int) (b.length : Int)) ∧
    (∀ (l : Levenshtein) (a b : List Char),
      max a.length b.length < l.baseChar1Costs.length → ∃ r, l.Distance a b = some r) := by
  refine ⟨by decide, rfl, ?_,
    fun l a b r hr => Levenshtein.lev_Distance_le_max l a b r hr,
    fun l a b h => Levenshtein.lev_Distance_some l a b h⟩
  intro d a b hd
  rw [DamerauOSA.Distance_fst d hd a b]
  have := osaDistance_le_max a b
  omega

/-- C9: for every string `s` and every position `i` with `s[i] ≠ s[i+1]`,
`DamerauOSA::Distance(s, s') = 1`, where `s'` is `s` with the characters at positions `i`
and `i + 1` exchanged; the same value is returned with every bound `k ≥ 1`. -/
theorem damerau_distance_swapAdjacent (this : DamerauOSA) (h : this.Sized) (s : List Char)
    (i : Nat) (hi : i + 1 < s.length) (hne : charAt s i ≠ charAt s (i + 1)) :
    (this.Distance s (swapAdjacent s i)).1 = 1 ∧
    ∀ k : Int, 1 ≤ k → (s.length : Int) ≤ INT_MAX →
      (this.DistanceMax s (swapAdjacent s i) k).1 = 1 := by
  have e := osaDistance_swapAdjacent s i hi hne
  constructor
  · rw [DamerauOSA.Distance_fst this h, e]; rfl
  · intro k hk hs
    rw [DamerauOSA.DistanceMax_fst this h s (swapAdjacent s i) k (by omega) hs
      (by rw [length_swapAdjacent]; exact hs), e, if_pos (by omega)]
    rfl

theorem damerau_distance_swapAdjacent_witness :
    DamerauOSA.new.Sized ∧ 0 + 1 < (['a', 'b'] : List Char).length ∧
    charAt ['a', 'b'] 0 ≠ charAt ['a', 'b'] (0 + 1) ∧
    swapAdjacent ['a', 'b'] 0 = ['b', 'a'] ∧
    ((DamerauOSA.new.Distance ['a', 'b'] (swapAdjacent ['a', 'b'] 0)).1 = 1 ∧
      ∀ k : Int, 1 ≤ k → ((['a', 'b'] : List Char).length : Int) ≤ INT_MAX →
        (DamerauOSA.new.DistanceMax ['a', 'b'] (swapAdjacent ['a', 'b'] 0) k).1 = 1) :=
  ⟨rfl, by decide, by decide, by decide,
    damerau_distance_swapAdjacent DamerauOSA.new rfl ['a', 'b'] 0 (by decide) (by decide)⟩

/-- C10: on the instance made by `Levenshtein(3)`, `Levenshtein::Distance("ab", "ba")`
returns `1`, not `2`. On the instance made by `Levenshtein()` the call with the bound `1`
returns `1` as well (the distance `2` is above the bound), and the call without a bound
returns no value: its core writes outside the vector the call has made. -/
theorem levenshtein_distance_ab_ba :
    Levenshtein.newExpected 3 = Except.ok { baseChar1Costs := [0, 0, 0] } ∧
    (Levenshtein.Distance { baseChar1Costs := [0, 0, 0] } ['a', 'b'] ['b', 'a']).map
      Prod.fst = some 1 ∧
    (Levenshtein.new.DistanceMax ['a', 'b'] ['b', 'a'] 1).map Prod.fst = some 1 ∧
    Levenshtein.new.Distance ['a', 'b'] ['b', 'a'] = none ∧
    swapAdjacent ['a', 'b'] 0 = ['b', 'a'] ∧
    levDistance ['a', 'b'] ['b', 'a'] = 2 := by
  refine ⟨rfl, by decide, by decide, rfl, by decide, ?_⟩
  simp [levDistance, levTable, charAt]

theorem nullDistance_nil_left (s : List Char) (k : Int) (hk : 0 ≤ k) :
    Helpers.NullDistanceResults [] s k =
      if (s.length : Int) ≤ k then (s.length : Int) else -1 := by
  unfold Helpers.NullDistanceResults
  cases s with
  | nil => simp [hk]
  | cons c t => simp

theorem nullDistance_nil_right (s : List Char) (k : Int) (hk : 0 ≤ k) :
    Helpers.NullDistanceResults s [] k =
      if (s.length : Int) ≤ k then (s.length : Int) else -1 := by
  unfold Helpers.NullDistanceResults
  cases s with
  | nil => simp [hk]
  | cons c t => simp

/-- The value of `DamerauOSA::Distance(a, b)` is the same on all instances. -/
theorem damerau_distance_any_instance (d1 d2 : DamerauOSA) (h1 : d1.Sized) (h2 : d2.Sized)
    (a b : List Char) (k : Int) (hk : 0 ≤ k) :
    (d1.Distance a b).1 = (d2.Distance a b).1 ∧
    (d1.DistanceMax a b k).1 = (d2.DistanceMax a b k).1 := by
  rw [DamerauOSA.Distance_fst d1 h1, DamerauOSA.Distance_fst d2 h2,
    DamerauOSA.DistanceMax_cases d1 h1 a b k hk, DamerauOSA.DistanceMax_cases d2 h2 a b k hk]
  exact ⟨rfl, rfl⟩

/-- C11: on every instance, `DamerauOSA::Distance("ca", "abc")` and
`DamerauOSA::Distance("abc", "ca")` return `3`, `Distance("ca", "abc", 2)` returns `-1` and
`Distance("ca", "abc", 3)` returns `3`. -/
theorem damerau_distance_ca_abc (this : DamerauOSA) (h : this.Sized) :
    (this.Distance ['c', 'a'] ['a', 'b', 'c']).1 = 3 ∧
    (this.Distance ['a', 'b', 'c'] ['c', 'a']).1 = 3 ∧
    (this.DistanceMax ['c', 'a'] ['a', 'b', 'c'] 2).1 = -1 ∧
    (this.DistanceMax ['c', 'a'] ['a', 'b', 'c'] 3).1 = 3 := by
  have e1 : osaDistance ['c', 'a'] ['a', 'b', 'c'] = 3 := by
    simp [osaDistance, osaTable, charAt]
  have e2 : osaDistance ['a', 'b', 'c'] ['c', 'a'] = 3 := by
    rw [osaDistance_symm]; exact e1
  refine ⟨?_, ?_, ?_, ?_⟩
  · rw [DamerauOSA.Distance_fst this h, e1]; rfl
  · rw [DamerauOSA.Distance_fst this h, e2]; rfl
  · rw [DamerauOSA.DistanceMax_fst this h _ _ 2 (by decide) (by decide) (by decide), e1]
    decide
  · rw [DamerauOSA.DistanceMax_fst this h _ _ 3 (by decide) (by decide) (by decide), e1]
    decide

theorem damerau_distance_ca_abc_witness :
    DamerauOSA.new.Sized ∧
    ((DamerauOSA.new.Distance ['c', 'a'] ['a', 'b', 'c']).1 = 3 ∧
      (DamerauOSA.new.Distance ['a', 'b', 'c'] ['c', 'a']).1 = 3 ∧
      (DamerauOSA.new.DistanceMax ['c', 'a'] ['a', 'b', 'c'] 2).1 = -1 ∧
      (DamerauOSA.new.DistanceMax ['c', 'a'] ['a', 'b', 'c'] 3).1 = 3) :=
  ⟨rfl, damerau_distance_ca_abc DamerauOSA.new rfl⟩

/-- C12: for both kernels, every string `s` and every bound `k ≥ 0`, `Distance("", s, k)`
and `Distance(s, "", k)` return `|s|` if `|s| ≤ k` and `-1` otherwise, and `Distance("", s)`
and `Distance(s, "")` return `|s|`. -/
theorem distance_empty_string (d : DamerauOSA) (l : Levenshtein) (s : List Char) (k : Int)
    (hk : 0 ≤ k) :
    ((d.DistanceMax [] s k).1 = (if (s.length : Int) ≤ k then (s.length : Int) else -1) ∧
      (d.DistanceMax s [] k).1 = (if (s.length : Int) ≤ k then (s.length : Int) else -1) ∧
      (d.Distance [] s).1 = (s.length : Int) ∧ (d.Distance s []).1 = (s.length : Int)) ∧
    (l.DistanceMax [] s k =
        some ((if (s.length : Int) ≤ k then (s.length : Int) else -1), l) ∧
      l.DistanceMax s [] k =
        some ((if (s.length : Int) ≤ k then (s.length : Int) else -1), l) ∧
      l.Distance [] s = some ((s.length : Int), l) ∧
      l.Distance s [] = some ((s.length : Int), l)) := by
  have hl := nullDistance_nil_left s k hk
  have hr := nullDistance_nil_right s k hk
  refine ⟨⟨?_, ?_, ?_, ?_⟩, ⟨?_, ?_, ?_, ?_⟩⟩
  · unfold DamerauOSA.DistanceMax
    rw [if_pos (show ([] : List Char).isEmpty = true ∨ s.isEmpty = true from Or.inl rfl)]
    exact hl
  · unfold DamerauOSA.DistanceMax
    rw [if_pos (show s.isEmpty = true ∨ ([] : List Char).isEmpty = true from Or.inr rfl)]
    exact hr
  · unfold DamerauOSA.Distance; rw [if_pos (show ([] : List Char).isEmpty = true from rfl)]
  · unfold DamerauOSA.Distance
    cases s with
    | nil => rfl
    | cons c t => rw [if_neg (by simp), if_pos (show ([] : List Char).isEmpty = true from rfl)]
  · rw [Levenshtein.lev_DistanceMax_null l [] s k (Or.inl rfl), hl]
  · rw [Levenshtein.lev_DistanceMax_null l s [] k (Or.inr rfl), hr]
  · exact Levenshtein.lev_Distance_nil_left l s
  · exact Levenshtein.lev_Distance_nil_right l s

theorem distance_empty_string_witness :
    (0 : Int) ≤ 1 ∧
    (((DamerauOSA.new.DistanceMax [] ['a', 'b'] 1).1 =
        (if ((['a', 'b'] : List Char).length : Int) ≤ 1 then
          ((['a', 'b'] : List Char).length : Int) else -1) ∧
      (DamerauOSA.new.DistanceMax ['a', 'b'] [] 1).1 =
        (if ((['a', 'b'] : List Char).length : Int) ≤ 1 then
          ((['a', 'b'] : List Char).length : Int) else -1) ∧
      (DamerauOSA.new.Distance [] ['a', 'b']).1 = ((['a', 'b'] : List Char).length : Int) ∧
      (DamerauOSA.new.Distance ['a', 'b'] []).1 = ((['a', 'b'] : List Char).length : Int)) ∧
    (Levenshtein.new.DistanceMax [] ['a', 'b'] 1 =
        some ((if ((['a', 'b'] : List Char).length : Int) ≤ 1 then
          ((['a', 'b'] : List Char).length : Int) else -1), Levenshtein.new) ∧
      Levenshtein.new.DistanceMax ['a', 'b'] [] 1 =
        some ((if ((['a', 'b'] : List Char).length : Int) ≤ 1 then
          ((['a', 'b'] : List Char).length : Int) else -1), Levenshtein.new) ∧
      Levenshtein.new.Distance [] ['a', 'b'] =
        some (((['a', 'b'] : List Char).length : Int), Levenshtein.new) ∧
      Levenshtein.new.Distance ['a', 'b'] [] =
        some (((['a', 'b'] : List Char).length : Int), Levenshtein.new))) :=
  ⟨by decide, distance_empty_string DamerauOSA.new Levenshtein.new ['a', 'b'] 1 (by decide)⟩

/-- C13: two instances made by `Levenshtein(3)`, one of them used before for
`Distance("a", "b")`, return different values for `Distance("a", "bb")`: `1` on the unused
instance and `2` on the used one; with the bound `2` they return `1` and `2` as well. -/
theorem levenshtein_distance_depends_on_history :
    Levenshtein.newExpected 3 = Except.ok { baseChar1Costs := [0, 0, 0] } ∧
    (Levenshtein.Distance { baseChar1Costs := [0, 0, 0] } ['a'] ['b']).map
      (fun r => r.2.baseChar1Costs) = some [1, 1, 0] ∧
    (Levenshtein.Distance { baseChar1Costs := [0, 0, 0] } ['a'] ['b', 'b']).map Prod.fst =
      some 1 ∧
    (Levenshtein.Distance { baseChar1Costs := [1, 1, 0] } ['a'] ['b', 'b']).map Prod.fst =
      some 2 ∧
    (Levenshtein.DistanceMax { baseChar1Costs := [0, 0, 0] } ['a'] ['b', 'b'] 2).map
      Prod.fst = some 1 ∧
    (Levenshtein.DistanceMax { baseChar1Costs := [1, 1, 0] } ['a'] ['b', 'b'] 2).map
      Prod.fst = some 2 := by
  refine ⟨rfl, by decide, by decide, by decide, by decide, by decide⟩

theorem xstringCompare_range (a b : List Char) :
    xstringCompare a b = -1 ∨ xstringCompare a b = 0 ∨ xstringCompare a b = 1 := by
  induction a generalizing b with
  | nil => cases b <;> simp [xstringCompare]
  | cons x xs ih =>
    cases b with
    | nil => simp [xstringCompare]
    | cons y ys =>
      simp only [xstringCompare]
      split_ifs
      · exact Or.inl rfl
      · exact Or.inr (Or.inr rfl)
      · exact ih ys

theorem xstringCompare_neg_iff (a b : List Char) :
    xstringCompare a b < 0 ↔ List.Lex (fun c d => c < d) a b := by
  induction a generalizing b with
  | nil =>
    cases b with
    | nil =>
      simp only [xstringCompare]
      exact ⟨fun h => absurd h (by decide), fun h => by cases h⟩
    | cons y ys =>
      simp only [xstringCompare]
      exact ⟨fun _ => List.Lex.nil, fun _ => by decide⟩
  | cons x xs ih =>
    cases b with
    | nil =>
      simp only [xstringCompare]
      exact ⟨fun h => absurd h (by decide), fun h => by cases h⟩
    | cons y ys =>
      simp only [xstringCompare]
      by_cases h1 : x < y
      · rw [if_pos h1]
        exact ⟨fun _ => List.Lex.rel h1, fun _ => by decide⟩
      · rw [if_neg h1]
        by_cases h2 : y < x
        · rw [if_pos h2]
          constructor
          · intro h; exact absurd h (by decide)
          · intro h
            cases h with
            | cons h3 => exact absurd h2 (lt_irrefl _)
            | rel h3 => exact absurd h3 h1
        · rw [if_neg h2]
          have hxy : x = y := le_antisymm (not_lt.1 h2) (not_lt.1 h1)
          subst hxy
          constructor
          · intro h; exact List.Lex.cons ((ih ys).1 h)
          · intro h
            cases h with
            | cons h3 => exact (ih ys).2 h3
            | rel h3 => exact absurd h3 h1

theorem compareTo_neg_iff (x y : SuggestItem) :
    x.CompareTo y < 0 ↔
      (x.distance < y.distance ∨ (x.distance = y.distance ∧ y.count < x.count) ∨
        (x.distance = y.distance ∧ x.count = y.count ∧
          List.Lex (fun c d => c < d) x.term y.term)) := by
  unfold SuggestItem.CompareTo Helpers.CompareTo
  have hs := xstringCompare_neg_iff x.term y.term
  simp only []
  by_cases h1 : x.distance = y.distance
  · rw [if_pos h1, if_neg (by simp)]
    by_cases h2 : y.count = x.count
    · rw [if_pos h2, if_neg (by simp), hs]
      constructor
      · intro h; exact Or.inr (Or.inr ⟨h1, h2.symm, h⟩)
      · rintro (h | h | h)
        · omega
        · omega
        · exact h.2.2
    · rw [if_neg h2]
      by_cases h3 : y.count > x.count
      · rw [if_pos h3, if_pos (by decide)]
        constructor
        · intro h; exact absurd h (by decide)
        · rintro (h | h | h)
          · omega
          · omega
          · omega
      · rw [if_neg h3, if_pos (by decide)]
        constructor
        · intro _; exact Or.inr (Or.inl ⟨h1, by omega⟩)
        · intro _; decide
  · rw [if_neg h1]
    by_cases h2 : x.distance > y.distance
    · rw [if_pos h2, if_pos (by decide)]
      constructor
      · intro h; exact absurd h (by decide)
      · rintro (h | h | h)
        · omega
        · omega
        · omega
    · rw [if_neg h2, if_pos (by decide)]
      constructor
      · intro _; exact Or.inl (by omega)
      · intro _; decide

/-- C14: `SuggestItem::compare(x, y)` is true if and only if `x.distance < y.distance`, or
the distances are equal and `x.count > y.count`, or distances and counts are equal and
`x.term` is lexicographically smaller than `y.term`; `x.CompareTo(y)` is negative in
exactly those cases. -/
theorem suggestItem_compare_iff (x y : SuggestItem) :
    (SuggestItem.compare x y = true ↔
      (x.distance < y.distance ∨ (x.distance = y.distance ∧ y.count < x.count) ∨
        (x.distance = y.distance ∧ x.count = y.count ∧
          List.Lex (fun c d => c < d) x.term y.term))) ∧
    (x.CompareTo y < 0 ↔
      (x.distance < y.distance ∨ (x.distance = y.distance ∧ y.count < x.count) ∨
        (x.distance = y.distance ∧ x.count = y.count ∧
          List.Lex (fun c d => c < d) x.term y.term))) := by
  refine ⟨?_, compareTo_neg_iff x y⟩
  rw [← compareTo_neg_iff x y]
  unfold SuggestItem.compare
  by_cases h : x.CompareTo y < 0
  · rw [if_pos h]; exact ⟨fun _ => h, fun _ => rfl⟩
  · rw [if_neg h]; exact ⟨fun c => (by cases c), fun c => absurd c h⟩

theorem toUnsigned_of_nonneg (i : Int) (h0 : 0 ≤ i) (h1 : i < 4294967296) :
    toUnsigned i = i.toNat := by
  unfold toUnsigned; congr 1; omega

theorem vget?_natCast {α : Type} (v : List α) (k : Nat) : vget? v (k : Int) = v[k]? := by
  unfold vget?
  rw [if_pos (Int.ofNat_nonneg k), Int.toNat_ofNat]

theorem vset?_natCast {α : Type} (v : List α) (k : Nat) (x : α) (h : k < v.length) :
    vset? v (k : Int) x = some (v.set k x) := by
  unfold vset?
  rw [Int.toNat_ofNat, if_pos ⟨Int.ofNat_nonneg k, h⟩]

theorem toInt_of_lt (n : Nat) (h : n < 2147483648) : toInt n = (n : Int) := by
  unfold toInt
  have e : n % 4294967296 = n := Nat.mod_eq_of_lt (by omega)
  rw [e, if_pos h]

namespace ChunkArray

variable {T : Type}

theorem Row_eq (n : Nat) (h : n < 4294967296) : Row n = ((n / 4096 : Nat) : Int) := by
  unfold Row DivShift
  rw [Nat.shiftRight_eq_div_pow n 12]
  apply toInt_of_lt
  have : (2 : Nat) ^ 12 = 4096 := by norm_num
  rw [this]; omega

theorem Col_eq (n : Nat) : Col n = ((n % 4096 : Nat) : Int) := by
  unfold Col
  have e : toUnsigned (ChunkSize - 1) = 2 ^ 12 - 1 := by decide
  rw [e, Nat.and_pow_two_sub_one_eq_mod n 12]
  have : (2 : Nat) ^ 12 = 4096 := by norm_num
  rw [this]
  apply toInt_of_lt
  omega

theorem At_eq_get? (c : ChunkArray T) (n : Nat) (h : n < 4294967296) : c.At n = c.get? n := by
  unfold At get?
  rw [Row_eq n h, Col_eq n, vget?_natCast]
  cases c.Values[n / 4096]? with
  | none => rfl
  | some chunk => exact vget?_natCast chunk _

end ChunkArray

/-- C16: for every index `i` with `0 ≤ i < 2^31`, `ChunkArray::Row(i) = i / 4096` and
`ChunkArray::Col(i) = i mod 4096`, hence `Row(i) * 4096 + Col(i) = i` and
`0 ≤ Col(i) < 4096`. -/
theorem chunkArray_row_col (i : Int) (h0 : 0 ≤ i) (h1 : i < 2147483648) :
    ChunkArray.Row (toUnsigned i) = i / 4096 ∧ ChunkArray.Col (toUnsigned i) = i % 4096 ∧
    ChunkArray.Row (toUnsigned i) * 4096 + ChunkArray.Col (toUnsigned i) = i ∧
    0 ≤ ChunkArray.Col (toUnsigned i) ∧ ChunkArray.Col (toUnsigned i) < 4096 := by
  have hu := toUnsigned_of_nonneg i h0 (by omega)
  rw [hu, ChunkArray.Row_eq i.toNat (by omega), ChunkArray.Col_eq i.toNat]
  omega

theorem chunkArray_row_col_witness :
    (0 : Int) ≤ 10000 ∧ (10000 : Int) < 2147483648 ∧
    (ChunkArray.Row (toUnsigned 10000) = 10000 / 4096 ∧
      ChunkArray.Col (toUnsigned 10000) = 10000 % 4096 ∧
      ChunkArray.Row (toUnsigned 10000) * 4096 + ChunkArray.Col (toUnsigned 10000) = 10000 ∧
      0 ≤ ChunkArray.Col (toUnsigned 10000) ∧ ChunkArray.Col (toUnsigned 10000) < 4096) :=
  ⟨by decide, by decide, chunkArray_row_col 10000 (by decide) (by decide)⟩

theorem length_vresize {α : Type} (v : List α) (n : Nat) (d : α) :
    (vresize v n d).length = n := by
  unfold vresize
  rw [List.length_append, List.length_take, List.length_replicate]
  omega

namespace ChunkArray

variable {T : Type}

theorem chunkSize_toNat : ChunkSize.toNat = 4096 := rfl

theorem capacity_cases (c : ChunkArray T) (hI : c.Inv) :
    (c.Count = c.Capacity ∧ c.Count = (c.Values.length : Int) * 4096) ∨
    (c.Count ≠ c.Capacity ∧ c.Count < (c.Values.length : Int) * 4096) := by
  have h1 := hI.count_le
  have h2 := hI.count_max
  have h3 := hI.capacity_max
  have h4 := hI.count_nonneg
  have hI : INT_MAX = 2147483647 := rfl
  unfold Capacity toInt
  rw [chunkSize_toNat]
  split_ifs with h <;> omega

theorem inv_new : (ChunkArray.new : ChunkArray T).Inv :=
  { chunks := fun chunk h => by cases h
    count_nonneg := le_refl _
    count_le := by simp [ChunkArray.new]
    count_max := by show (0 : Int) ≤ 2147483647; omega
    capacity_max := by simp [ChunkArray.new] }

theorem Reserve_new [Inhabited T] (n : Int) (hn0 : 0 ≤ n) (hn : n + 4096 ≤ INT_MAX) :
    ∃ r, (ChunkArray.new : ChunkArray T).Reserve n = some r ∧ r.Inv ∧ r.Count = 0 := by
  have hI : INT_MAX = 2147483647 := rfl
  have hC : ChunkSize = 4096 := rfl
  have hd : Int.tdiv (n + 4096 - 1) 4096 = (n + 4096 - 1) / 4096 :=
    Int.tdiv_eq_ediv (by omega) (by decide)
  unfold Reserve
  rw [hC, if_neg (by omega)]
  simp only []
  rw [hd, if_neg (by omega)]
  refine ⟨_, rfl, ?_, rfl⟩
  refine
    { chunks := ?_, count_nonneg := le_refl _, count_le := ?_,
      count_max := by show (0 : Int) ≤ 2147483647; omega, capacity_max := ?_ }
  · intro chunk hc
    simp only [List.mem_map] at hc
    obtain ⟨a, _, rfl⟩ := hc
    exact length_vresize _ _ _
  · show (0 : Int) ≤ _
    omega
  · show ((List.length (List.map _ _) : Nat) : Int) * 4096 ≤ 2147483648
    rw [List.length_map, length_vresize]
    omega

theorem get?_set_values (V : List (List T)) (n : Int) (r q : Nat) (chunk : List T) (v : T)
    (hr : V[r]? = some chunk) (hq : q < chunk.length) (k : Nat) :
    get? { Values := V.set r (chunk.set q v), Count := n } k =
      if k / 4096 = r ∧ k % 4096 = q then some v else get? { Values := V, Count := n } k := by
  have hrl : r < V.length := by
    by_contra hc
    rw [List.getElem?_eq_none (by omega)] at hr
    cases hr
  unfold get?
  simp only []
  rw [List.getElem?_set]
  by_cases h1 : r = k / 4096
  · rw [if_pos h1, if_pos hrl]
    simp only []
    rw [List.getElem?_set, ← h1, hr]
    simp only []
    by_cases h2 : q = k % 4096
    · rw [if_pos h2, if_pos hq, if_pos ⟨trivial, h2.symm⟩]
    · rw [if_neg h2, if_neg (fun h => h2 h.2.symm)]
  · rw [if_neg h1, if_neg (fun h => h1 h.1.symm)]

theorem chunkAdd_spec [Inhabited T] (c : ChunkArray T) (hI : c.Inv)
    (hlt : c.Count < INT_MAX) (v : T) :
    ∃ c1, c.Add v = some (c.Count, c1) ∧ c1.Inv ∧ c1.Count = c.Count + 1 ∧
      c1.get? c.Count.toNat = some v ∧
      ∀ k : Nat, (k : Int) < c.Count → c1.get? k = c.get? k := by
  have hmax : INT_MAX = 2147483647 := rfl
  have h0 := hI.count_nonneg
  have hcap := hI.capacity_max
  obtain ⟨m, hm⟩ : ∃ m : Nat, c.Count = (m : Int) := ⟨c.Count.toNat, by omega⟩
  have hu : toUnsigned c.Count = m := by
    rw [toUnsigned_of_nonneg c.Count h0 (by omega), hm]; rfl
  have hrow : Row m = ((m / 4096 : Nat) : Int) := Row_eq m (by omega)
  have hcol : Col m = ((m % 4096 : Nat) : Int) := Col_eq m
  -- the chunks after the test `Count == Capacity()`
  obtain ⟨V, hV, hVlen, hVchunks, hVold, hVcap⟩ :
      ∃ V : List (List T),
        (if c.Count = c.Capacity then
            c.Values ++ [vresize [] ChunkSize.toNat (default : T)] else c.Values) = V ∧
        m / 4096 < V.length ∧ (∀ chunk ∈ V, chunk.length = 4096) ∧
        (∀ j, j < c.Values.length → V[j]? = c.Values[j]?) ∧
        (V.length : Int) * 4096 ≤ 2147483648 := by
    rcases capacity_cases c hI with ⟨e1, e2⟩ | ⟨e1, e2⟩
    · refine ⟨_, if_pos e1, ?_, ?_, ?_, ?_⟩
      · rw [List.length_append, List.length_singleton]; omega
      · intro chunk hc
        rcases List.mem_append.1 hc with h | h
        · exact hI.chunks chunk h
        · rw [List.mem_singleton.1 h]; exact length_vresize _ _ _
      · intro j hj
        rw [List.getElem?_append, if_pos hj]
      · rw [List.length_append, List.length_singleton]; push_cast; omega
    · refine ⟨_, if_neg e1, ?_, hI.chunks, fun _ _ => rfl, hcap⟩
      omega
  obtain ⟨chunk, hchunk⟩ : ∃ chunk, V[m / 4096]? = some chunk :=
    ⟨V[m / 4096], List.getElem?_eq_getElem hVlen⟩
  have hcl : chunk.length = 4096 := hVchunks chunk (List.getElem?_mem hchunk)
  have hq : m % 4096 < chunk.length := by rw [hcl]; exact Nat.mod_lt _ (by decide)
  have hadd : c.Add v = some (c.Count,
      { Values := V.set (m / 4096) (chunk.set (m % 4096) v), Count := c.Count + 1 }) := by
    unfold Add
    simp only []
    rw [hV, hu, hrow, hcol, vget?_natCast, hchunk]
    simp only []
    rw [vset?_natCast _ _ _ hq]
    simp only []
    rw [vset?_natCast _ _ _ hVlen]
    simp only []
    rw [if_pos hlt]
  refine ⟨_, hadd, ?_, rfl, ?_, ?_⟩
  · refine
      { chunks := ?_, count_nonneg := ?_, count_le := ?_, count_max := ?_,
        capacity_max := ?_ }
    · intro ch hc
      rcases List.mem_or_eq_of_mem_set hc with h | h
      · exact hVchunks ch h
      · rw [h, List.length_set]; exact hcl
    · show 0 ≤ c.Count + 1
      omega
    · show c.Count + 1 ≤ ((List.length (List.set _ _ _) : Nat) : Int) * 4096
      rw [List.length_set]
      have := Nat.div_add_mod m 4096
      have := Nat.mod_lt m (show 4096 > 0 by decide)
      omega
    · show c.Count + 1 ≤ INT_MAX
      omega
    · show ((List.length (List.set _ _ _) : Nat) : Int) * 4096 ≤ 2147483648
      rw [List.length_set]
      exact hVcap
  · rw [get?_set_values V _ _ _ chunk v hchunk hq, hm]
    exact if_pos ⟨rfl, rfl⟩
  · intro k hk
    rw [get?_set_values V _ _ _ chunk v hchunk hq]
    have hkm : k < m := by omega
    rw [if_neg]
    · unfold get?
      simp only []
      rw [hVold]
      have := hI.count_le
      omega
    · intro h
      have := Nat.div_add_mod m 4096
      have := Nat.div_add_mod k 4096
      omega

theorem chunkAddAll_spec [Inhabited T] (vs : List T) :
    ∀ (c : ChunkArray T), c.Inv → c.Count + (vs.length : Int) ≤ INT_MAX →
      ∃ c2, c.addAll vs =
          some ((List.range vs.length).map (fun i : Nat => c.Count + (i : Int)), c2) ∧
        c2.Inv ∧ c2.Count = c.Count + (vs.length : Int) ∧
        (∀ k, k < vs.length → c2.get? (c.Count.toNat + k) = vs[k]?) ∧
        ∀ k : Nat, (k : Int) < c.Count → c2.get? k = c.get? k := by
  induction vs with
  | nil =>
    intro c hI _
    refine ⟨c, rfl, hI, by simp, ?_, fun _ _ => rfl⟩
    intro k hk
    cases hk
  | cons v vs ih =>
    intro c hI hm
    have h0 := hI.count_nonneg
    have hlen : ((v :: vs).length : Int) = (vs.length : Int) + 1 := by
      rw [List.length_cons]; push_cast; rfl
    obtain ⟨c1, e1, hI1, hc1, hg1, hold1⟩ := chunkAdd_spec c hI (by omega) v
    obtain ⟨c2, e2, hI2, hc2, hg2, hold2⟩ := ih c1 hI1 (by omega)
    refine ⟨c2, ?_, hI2, by omega, ?_, ?_⟩
    · unfold addAll
      rw [e1]
      simp only []
      rw [e2]
      simp only []
      have hl : List.map (fun i : Nat => c.Count + (i : Int)) (List.range (vs.length + 1)) =
          c.Count :: List.map (fun i : Nat => c1.Count + (i : Int)) (List.range vs.length) := by
        rw [List.range_succ_eq_map, List.map_cons, List.map_map]
        congr 1
        · simp
        · apply List.map_congr_left
          intro i _
          simp only [Function.comp]
          rw [hc1]; push_cast; omega
      rw [List.length_cons, hl]
    · intro k hk
      cases k with
      | zero =>
        rw [Nat.add_zero, hold2 _ (by omega), hg1, List.getElem?_cons_zero]
      | succ k =>
        have hk2 : k < vs.length := by
          rw [List.length_cons] at hk; omega
        have := hg2 k hk2
        rw [List.getElem?_cons_succ, ← this]
        congr 1
        omega
    · intro k hk
      rw [hold2 k (by omega), hold1 k hk]

end ChunkArray

/-- C15: on a fresh `ChunkArray`, also after `Reserve(n)` with `n ≥ 0` (and
`n + ChunkSize` in the range of `int`), for every sequence of values `v0 .. v(m-1)` (with
`m ≤ INT_MAX`) added with `Add`, the `k`-th `Add` returns `k`, `Count` is `m` afterwards,
and `At(k)` is `vk` for every `k < m`. -/
theorem chunkArray_add_at {T : Type} [Inhabited T] (n : Int) (hn0 : 0 ≤ n)
    (hn : n + 4096 ≤ INT_MAX) (vs : List T) (hm : (vs.length : Int) ≤ INT_MAX) :
    ∃ r, (ChunkArray.new : ChunkArray T).Reserve n = some r ∧
      ∀ c0 : ChunkArray T, c0 = ChunkArray.new ∨ c0 = r →
        ∃ c, c0.addAll vs = some ((List.range vs.length).map (fun k : Nat => (k : Int)), c) ∧
          c.Count = (vs.length : Int) ∧ ∀ k, k < vs.length → c.At k = vs[k]? := by
  obtain ⟨r, hr, hIr, hcr⟩ := ChunkArray.Reserve_new (T := T) n hn0 hn
  refine ⟨r, hr, ?_⟩
  have key : ∀ c0 : ChunkArray T, c0.Inv → c0.Count = 0 →
      ∃ c, c0.addAll vs = some ((List.range vs.length).map (fun k : Nat => (k : Int)), c) ∧
        c.Count = (vs.length : Int) ∧ ∀ k, k < vs.length → c.At k = vs[k]? := by
    intro c0 hI h0
    obtain ⟨c, e, _, hc, hg, _⟩ := ChunkArray.chunkAddAll_spec vs c0 hI (by rw [h0]; omega)
    refine ⟨c, ?_, by rw [hc, h0]; omega, ?_⟩
    · rw [e, h0]
      congr 2
      apply List.map_congr_left
      intro i _
      omega
    · intro k hk
      have hI : INT_MAX = 2147483647 := rfl
      rw [ChunkArray.At_eq_get? c k (by omega), ← hg k hk, h0]
      congr 1
      omega
  rintro c0 (rfl | rfl)
  · exact key _ ChunkArray.inv_new rfl
  · exact key _ hIr hcr

theorem chunkArray_add_at_witness :
    (0 : Int) ≤ 5000 ∧ (5000 : Int) + 4096 ≤ INT_MAX ∧
    ((([7, 8, 9] : List Nat).length : Nat) : Int) ≤ INT_MAX ∧
    ∃ r, (ChunkArray.new : ChunkArray Nat).Reserve 5000 = some r ∧
      ∀ c0 : ChunkArray Nat, c0 = ChunkArray.new ∨ c0 = r →
        ∃ c, c0.addAll [7, 8, 9] =
            some ((List.range ([7, 8, 9] : List Nat).length).map (fun k : Nat => (k : Int)), c) ∧
          c.Count = ((([7, 8, 9] : List Nat).length : Nat) : Int) ∧
          ∀ k, k < ([7, 8, 9] : List Nat).length → c.At k = ([7, 8, 9] : List Nat)[k]? :=
  ⟨by decide, by decide, by decide,
    chunkArray_add_at 5000 (by decide) (by decide) [7, 8, 9] (by decide)⟩

namespace Dictionary

variable {V : Type}

theorem find_set_self (d : List (Int × V)) (key : Int) (value : V) :
    find (set d key value) key = some value := by
  induction d with
  | nil => simp [set, find]
  | cons p rest ih =>
    obtain ⟨k, v⟩ := p
    unfold set
    by_cases h : k = key
    · rw [if_pos h]; unfold find; rw [if_pos h]
    · rw [if_neg h]; unfold find; rw [if_neg h]; exact ih

theorem find_set_ne (d : List (Int × V)) (key : Int) (value : V) (key2 : Int)
    (hne : key2 ≠ key) : find (set d key value) key2 = find d key2 := by
  induction d with
  | nil =>
    unfold set find
    rw [if_neg (fun h => hne h.symm)]
    rfl
  | cons p rest ih =>
    obtain ⟨k, v⟩ := p
    unfold set
    by_cases h : k = key
    · rw [if_pos h]
      unfold find
      rw [if_neg (by rw [h]; exact fun c => hne c.symm),
        if_neg (by rw [h]; exact fun c => hne c.symm)]
    · rw [if_neg h]
      unfold find
      by_cases h2 : k = key2
      · rw [if_pos h2, if_pos h2]
      · rw [if_neg h2, if_neg h2]; exact ih

theorem find_eq_none_iff (d : List (Int × V)) (key : Int) :
    find d key = none ↔ key ∉ d.map Prod.fst := by
  induction d with
  | nil => simp [find]
  | cons p rest ih =>
    obtain ⟨k, v⟩ := p
    unfold find
    by_cases h : k = key
    · rw [if_pos h]; simp [h]
    · rw [if_neg h, ih]
      simp only [List.map_cons, List.mem_cons, not_or]
      exact ⟨fun h2 => ⟨fun c => h c.symm, h2⟩, fun h2 => h2.2⟩

theorem keys_set (d : List (Int × V)) (key : Int) (value : V) :
    (set d key value).map Prod.fst =
      if key ∈ d.map Prod.fst then d.map Prod.fst else d.map Prod.fst ++ [key] := by
  induction d with
  | nil => simp [set]
  | cons p rest ih =>
    obtain ⟨k, v⟩ := p
    unfold set
    by_cases h : k = key
    · rw [if_pos h]; simp [h]
    · rw [if_neg h, List.map_cons, ih]
      by_cases h2 : key ∈ rest.map Prod.fst
      · rw [if_pos h2, if_pos (by simp only [List.map_cons, List.mem_cons]; exact Or.inr h2)]
        rfl
      · rw [if_neg h2, if_neg (by
          simp only [List.map_cons, List.mem_cons, not_or]
          exact ⟨fun c => h c.symm, h2⟩)]
        rfl

theorem nodup_keys_set (d : List (Int × V)) (key : Int) (value : V)
    (h : (d.map Prod.fst).Nodup) : ((set d key value).map Prod.fst).Nodup := by
  rw [keys_set]
  by_cases h2 : key ∈ d.map Prod.fst
  · rw [if_pos h2]; exact h
  · rw [if_neg h2]
    rw [List.nodup_append]
    refine ⟨h, List.nodup_singleton _, ?_⟩
    intro a ha hb
    rw [List.mem_singleton] at hb
    subst hb
    exact h2 ha

end Dictionary

namespace SuggestionStage

theorem walk_neg (N : ChunkArray Node) (fuel : Nat) (next : Int) (acc : List (List Char))
    (h : next < 0) : walk N fuel next acc = some acc := by
  cases fuel <;> (unfold walk; rw [if_neg (by omega)])

theorem walk_step (N : ChunkArray Node) (fuel : Nat) (next : Int) (acc : List (List Char))
    (h0 : 0 ≤ next) (h1 : next < 2147483648) (node : Node)
    (hat : N.get? next.toNat = some node) :
    walk N (fuel + 1) next acc = walk N fuel node.next (acc ++ [node.suggestion]) := by
  conv_lhs => unfold walk
  rw [if_pos h0, toUnsigned_of_nonneg next h0 (by omega),
    ChunkArray.At_eq_get? N _ (by omega), hat]

theorem walk_agree (N1 N2 : ChunkArray Node) (B : Int) (hB : B ≤ 2147483648)
    (hag : ∀ k : Nat, (k : Int) < B → N2.get? k = N1.get? k)
    (hnext : ∀ k : Nat, (k : Int) < B →
      ∃ node, N1.get? k = some node ∧ node.next < (k : Int)) :
    ∀ (fuel : Nat) (next : Int) (acc : List (List Char)), next < B →
      walk N2 fuel next acc = walk N1 fuel next acc := by
  intro fuel
  induction fuel with
  | zero =>
    intro next acc _
    unfold walk
    rfl
  | succ fuel ih =>
    intro next acc hlt
    by_cases h0 : 0 ≤ next
    · obtain ⟨node, hn, hlt2⟩ := hnext next.toNat (by omega)
      rw [walk_step N1 fuel next acc h0 (by omega) node hn,
        walk_step N2 fuel next acc h0 (by omega) node (by rw [hag _ (by omega)]; exact hn)]
      exact ih _ _ (by omega)
    · rw [walk_neg _ _ _ _ (by omega), walk_neg _ _ _ _ (by omega)]

theorem walk_total (N : ChunkArray Node) (B : Int) (hB : B ≤ 2147483648)
    (hnext : ∀ k : Nat, (k : Int) < B →
      ∃ node, N.get? k = some node ∧ node.next < (k : Int)) :
    ∀ (b : Nat) (next : Int), next < (b : Int) → next < B →
      ∃ l, ∀ fuel, b ≤ fuel → ∀ acc, walk N fuel next acc = some (acc ++ l) := by
  intro b
  induction b with
  | zero =>
    intro next h1 _
    refine ⟨[], fun fuel _ acc => ?_⟩
    rw [walk_neg _ _ _ _ (by omega), List.append_nil]
  | succ b ih =>
    intro next h1 h2
    by_cases h0 : 0 ≤ next
    · obtain ⟨node, hn, hlt2⟩ := hnext next.toNat (by omega)
      obtain ⟨l, hl⟩ := ih node.next (by omega) (by omega)
      refine ⟨node.suggestion :: l, fun fuel hf acc => ?_⟩
      obtain ⟨f, rfl⟩ : ∃ f, fuel = f + 1 := ⟨fuel - 1, by omega⟩
      rw [walk_step N f next acc h0 (by omega) node hn, hl f (by omega),
        List.append_assoc]
      rfl
    · refine ⟨[], fun fuel _ acc => ?_⟩
      rw [walk_neg _ _ _ _ (by omega), List.append_nil]

theorem oldEntry_first (s : SuggestionStage) (hI : s.Inv) (h : Int) :
    (oldEntry s h).first < s.Nodes.Count := by
  unfold oldEntry
  cases hf : Dictionary.find s.Deletes h with
  | none =>
    simp only []
    have := hI.nodes.count_nonneg
    omega
  | some e => exact (hI.first h e hf).2

theorem staged_eq_walk (s : SuggestionStage) (fuel : Nat) (h : Int) :
    s.staged fuel h = walk s.Nodes fuel (oldEntry s h).first [] := by
  unfold staged oldEntry
  cases Dictionary.find s.Deletes h with
  | none => simp only []; rw [walk_neg _ _ _ _ (by decide)]
  | some e => rfl

theorem Add_eq (s : SuggestionStage) (h : Int) (w : List Char) :
    s.Add h w =
      match s.Nodes.Add { suggestion := w, next := (oldEntry s h).first } with
      | none => none
      | some r =>
        some { Deletes := Dictionary.set s.Deletes h
                 { count := (oldEntry s h).count + 1, first := s.Nodes.Count }
               Nodes := r.2 } := rfl

theorem stageAdd_spec (s : SuggestionStage) (hI : s.Inv) (hlt : s.Nodes.Count < INT_MAX)
    (h : Int) (w : List Char) :
    ∃ s1, s.Add h w = some s1 ∧ s1.Inv ∧ s1.Nodes.Count = s.Nodes.Count + 1 ∧
      (∀ fuel : Nat, s.Nodes.Count < (fuel : Int) →
        ∃ l, s.staged fuel h = some l ∧ s1.staged fuel h = some (w :: l)) ∧
      (∀ (fuel : Nat) (h2 : Int), h2 ≠ h → s1.staged fuel h2 = s.staged fuel h2) ∧
      ∀ h2, (Dictionary.find s1.Deletes h2).isSome ↔
        (h2 = h ∨ (Dictionary.find s.Deletes h2).isSome) := by
  have hmax : INT_MAX = 2147483647 := rfl
  have hc0 := hI.nodes.count_nonneg
  have hnx := oldEntry_first s hI h
  obtain ⟨c1, e1, hI1, hc1, hg1, hold1⟩ :=
    ChunkArray.chunkAdd_spec s.Nodes hI.nodes hlt
      ({ suggestion := w, next := (oldEntry s h).first } : Node)
  have hadd : s.Add h w = some
      { Deletes := Dictionary.set s.Deletes h
          { count := (oldEntry s h).count + 1, first := s.Nodes.Count }
        Nodes := c1 } := by
    rw [Add_eq, e1]
  have hfind_ne : ∀ h2, h2 ≠ h →
      Dictionary.find (Dictionary.set s.Deletes h
        ({ count := (oldEntry s h).count + 1, first := s.Nodes.Count } : Entry)) h2 =
      Dictionary.find s.Deletes h2 := fun h2 hne => Dictionary.find_set_ne _ _ _ _ hne
  have hagree : ∀ (fuel : Nat) (next : Int) (acc : List (List Char)),
      next < s.Nodes.Count → walk c1 fuel next acc = walk s.Nodes fuel next acc :=
    walk_agree s.Nodes c1 s.Nodes.Count (by omega) hold1 hI.next
  refine ⟨_, hadd, ?_, hc1, ?_, ?_, ?_⟩
  · refine { nodes := hI1, keys := Dictionary.nodup_keys_set _ _ _ hI.keys, first := ?_,
             next := ?_ }
    · intro h2 e2 hf
      show 0 ≤ e2.first ∧ e2.first < c1.Count
      by_cases hh : h2 = h
      · subst hh
        rw [show Dictionary.find (Dictionary.set s.Deletes h2 _) h2 = _ from
          Dictionary.find_set_self _ _ _] at hf
        cases hf
        show 0 ≤ s.Nodes.Count ∧ s.Nodes.Count < c1.Count
        omega
      · rw [show Dictionary.find (Dictionary.set s.Deletes h _) h2 = _ from
          hfind_ne h2 hh] at hf
        have := hI.first h2 e2 hf
        omega
    · intro k hk
      show ∃ node, c1.get? k = some node ∧ node.next < (k : Int)
      have hk2 : (k : Int) < s.Nodes.Count + 1 := by rw [← hc1]; exact hk
      by_cases hkc : (k : Int) < s.Nodes.Count
      · rw [hold1 k hkc]; exact hI.next k hkc
      · have hk3 : s.Nodes.Count.toNat = k := by omega
        rw [← hk3, hg1]
        exact ⟨_, rfl, by show (oldEntry s h).first < _; omega⟩
  · intro fuel hf
    obtain ⟨l, hl⟩ := walk_total s.Nodes s.Nodes.Count (by omega) hI.next
      s.Nodes.Count.toNat (oldEntry s h).first (by omega) hnx
    refine ⟨l, ?_, ?_⟩
    · rw [staged_eq_walk, hl fuel (by omega)]; rfl
    · obtain ⟨f, rfl⟩ : ∃ f, fuel = f + 1 := ⟨fuel - 1, by omega⟩
      unfold staged
      rw [show Dictionary.find (Dictionary.set s.Deletes h _) h = _ from
        Dictionary.find_set_self _ _ _]
      show walk c1 (f + 1) s.Nodes.Count [] = _
      rw [walk_step c1 f s.Nodes.Count [] hc0 (by omega) _ hg1]
      show walk c1 f (oldEntry s h).first ([] ++ [w]) = _
      rw [hagree f _ _ hnx, hl f (by omega)]
      rfl
  · intro fuel h2 hne
    unfold staged
    rw [show Dictionary.find (Dictionary.set s.Deletes h _) h2 = _ from hfind_ne h2 hne]
    cases hf : Dictionary.find s.Deletes h2 with
    | none => rfl
    | some e =>
      show walk c1 fuel e.first [] = walk s.Nodes fuel e.first []
      exact hagree fuel _ _ (hI.first h2 e hf).2
  · intro h2
    by_cases hh : h2 = h
    · subst hh
      rw [show Dictionary.find (Dictionary.set s.Deletes h2 _) h2 = _ from
        Dictionary.find_set_self _ _ _]
      simp
    · rw [show Dictionary.find (Dictionary.set s.Deletes h _) h2 = _ from hfind_ne h2 hh]
      simp [hh]

theorem inv_empty (c : ChunkArray Node) (hc : c.Inv) (h0 : c.Count = 0) :
    Inv { Deletes := [], Nodes := c } :=
  { nodes := hc
    keys := List.nodup_nil
    first := fun h e hf => by cases hf
    next := fun k hk => by
      have : (k : Int) < 0 := by rw [← h0]; exact hk
      omega }

theorem new_spec (n : Int) (hn0 : 0 ≤ n) (hn : n * 2 + 4096 ≤ INT_MAX) :
    ∃ s, SuggestionStage.new n = some s ∧ s.Inv ∧ s.Nodes.Count = 0 ∧ s.Deletes = [] := by
  have hmax : INT_MAX = 2147483647 := rfl
  obtain ⟨r, hr, hI, hc⟩ := ChunkArray.Reserve_new (T := Node) (n * 2) (by omega) hn
  refine ⟨{ Deletes := [], Nodes := r }, ?_, inv_empty r hI hc, hc, rfl⟩
  unfold SuggestionStage.new
  rw [if_neg (by omega), if_neg (by omega), hr]

end SuggestionStage

/-- C17: `SuggestionStage::Add(h, w)` prepends: on a well-formed stage the call returns,
the list staged for `h` afterwards is `w` followed by the list staged for `h` before
(which is empty when `h` was not staged), and the lists of all other hashes are as
before. -/
theorem suggestionStage_add_prepends (s : SuggestionStage) (hI : s.Inv)
    (hlt : s.Nodes.Count < INT_MAX) (h : Int) (w : List Char) (fuel : Nat)
    (hf : s.Nodes.Count < (fuel : Int)) :
    ∃ s1 l, s.Add h w = some s1 ∧ s.staged fuel h = some l ∧
      s1.staged fuel h = some (w :: l) ∧
      (Dictionary.find s.Deletes h = none → l = []) ∧
      ∀ h2, h2 ≠ h → s1.staged fuel h2 = s.staged fuel h2 := by
  obtain ⟨s1, hadd, _, _, hl, hother, _⟩ := SuggestionStage.stageAdd_spec s hI hlt h w
  obtain ⟨l, h1, h2⟩ := hl fuel hf
  refine ⟨s1, l, hadd, h1, h2, ?_, fun h2 hne => hother fuel h2 hne⟩
  intro hnone
  unfold SuggestionStage.staged at h1
  rw [hnone] at h1
  simp only [Option.some.injEq] at h1
  exact h1.symm

theorem suggestionStage_add_prepends_witness :
    SuggestionStage.Inv { Deletes := [], Nodes := ChunkArray.new } ∧
    (ChunkArray.new : ChunkArray Node).Count < INT_MAX ∧
    (ChunkArray.new : ChunkArray Node).Count < ((1 : Nat) : Int) ∧
    ∃ s1 l, SuggestionStage.Add { Deletes := [], Nodes := ChunkArray.new } 5 ['a'] = some s1 ∧
      SuggestionStage.staged { Deletes := [], Nodes := ChunkArray.new } 1 5 = some l ∧
      s1.staged 1 5 = some (['a'] :: l) ∧
      (Dictionary.find
        (SuggestionStage.Deletes { Deletes := [], Nodes := ChunkArray.new }) 5 = none →
          l = []) ∧
      ∀ h2, h2 ≠ 5 → s1.staged 1 h2 =
        SuggestionStage.staged { Deletes := [], Nodes := ChunkArray.new } 1 h2 :=
  ⟨SuggestionStage.inv_empty _ ChunkArray.inv_new rfl, by decide, by decide,
    suggestionStage_add_prepends { Deletes := [], Nodes := ChunkArray.new }
      (SuggestionStage.inv_empty _ ChunkArray.inv_new rfl) (by decide) 5 ['a'] 1 (by decide)⟩

namespace Dictionary

variable {V : Type}

theorem find_cons (k : Int) (v : V) (rest : List (Int × V)) (key : Int) :
    find ((k, v) :: rest) key = if k = key then some v else find rest key := rfl

theorem find_of_mem (d : List (Int × V)) (hn : (d.map Prod.fst).Nodup) (k : Int) (v : V)
    (hm : (k, v) ∈ d) : find d k = some v := by
  induction d with
  | nil => cases hm
  | cons p rest ih =>
    obtain ⟨k2, v2⟩ := p
    rw [List.map_cons, List.nodup_cons] at hn
    unfold find
    rcases List.mem_cons.1 hm with h | h
    · cases h
      rw [if_pos rfl]
    · have : k2 ≠ k := by
        intro c
        subst c
        exact hn.1 (List.mem_map.2 ⟨(k2, v), h, rfl⟩)
      rw [if_neg this]
      exact ih hn.2 h

end Dictionary

namespace SuggestionStage

theorem commitLoop_spec (N : ChunkArray Node) (fuel : Nat) (chain : Int → List (List Char)) :
    ∀ (D : List (Int × Entry)), (D.map Prod.fst).Nodup →
      (∀ k e, (k, e) ∈ D → ∀ acc, walk N fuel e.first acc = some (acc ++ chain e.first)) →
      ∀ p : List (Int × List (List Char)),
        ∃ p2, commitLoop N fuel D p = some p2 ∧
          ∀ h, Dictionary.find p2 h =
            match Dictionary.find D h with
            | none => Dictionary.find p h
            | some e => some ((Dictionary.find p h).getD [] ++ chain e.first) := by
  intro D
  induction D with
  | nil =>
    intro _ _ p
    exact ⟨p, rfl, fun h => rfl⟩
  | cons q rest ih =>
    obtain ⟨k, e⟩ := q
    intro hn hw p
    rw [List.map_cons, List.nodup_cons] at hn
    have hw1 := hw k e (List.mem_cons_self _ _)
    have hstep : commitLoop N fuel ((k, e) :: rest) p =
        commitLoop N fuel rest
          (Dictionary.set p k ((Dictionary.find p k).getD [] ++ chain e.first)) := by
      conv_lhs => unfold commitLoop
      cases Dictionary.find p k with
      | none => simp only [Option.getD_none]; rw [hw1]
      | some x => simp only [Option.getD_some]; rw [hw1]
    obtain ⟨p2, h1, h2⟩ := ih hn.2 (fun k2 e2 hm => hw k2 e2 (List.mem_cons_of_mem _ hm))
      (Dictionary.set p k ((Dictionary.find p k).getD [] ++ chain e.first))
    refine ⟨p2, ?_, ?_⟩
    · rw [hstep]
      exact h1
    · intro h
      rw [h2 h]
      by_cases hk : k = h
      · subst hk
        have hnone : Dictionary.find rest k = none :=
          (Dictionary.find_eq_none_iff rest k).2 hn.1
        rw [hnone]
        simp only []
        rw [Dictionary.find_set_self, Dictionary.find_cons, if_pos rfl]
      · rw [Dictionary.find_set_ne _ _ _ _ (fun c => hk c.symm), Dictionary.find_cons,
          if_neg hk]

theorem commitTo_spec (s : SuggestionStage) (hI : s.Inv) (fuel : Nat)
    (hf : s.Nodes.Count < (fuel : Int)) (p : List (Int × List (List Char))) :
    ∃ p2, s.CommitTo fuel p = some p2 ∧
      ∀ h, ∃ l, s.staged fuel h = some l ∧
        Dictionary.find p2 h =
          if (Dictionary.find s.Deletes h).isSome then
            some ((Dictionary.find p h).getD [] ++ l)
          else Dictionary.find p h := by
  have hmax : INT_MAX = 2147483647 := rfl
  have hcm := hI.nodes.count_max
  have hc0 := hI.nodes.count_nonneg
  have hw : ∀ k e, (k, e) ∈ s.Deletes → ∀ acc,
      walk s.Nodes fuel e.first acc =
        some (acc ++ (walk s.Nodes fuel e.first []).getD []) := by
    intro k e hm acc
    have hfind := Dictionary.find_of_mem s.Deletes hI.keys k e hm
    obtain ⟨l, hl⟩ := walk_total s.Nodes s.Nodes.Count (by omega) hI.next
      s.Nodes.Count.toNat e.first (by have := (hI.first k e hfind).2; omega)
      (hI.first k e hfind).2
    rw [hl fuel (by omega) acc, hl fuel (by omega) []]
    rfl
  obtain ⟨p2, h1, h2⟩ := commitLoop_spec s.Nodes fuel
    (fun first => (walk s.Nodes fuel first []).getD []) s.Deletes hI.keys hw p
  refine ⟨p2, h1, fun h => ?_⟩
  rw [h2 h]
  unfold staged
  cases hfind : Dictionary.find s.Deletes h with
  | none => exact ⟨[], rfl, rfl⟩
  | some e =>
    obtain ⟨l, hl⟩ := walk_total s.Nodes s.Nodes.Count (by omega) hI.next
      s.Nodes.Count.toNat e.first (by have := (hI.first h e hfind).2; omega)
      (hI.first h e hfind).2
    refine ⟨l, ?_, ?_⟩
    · show walk s.Nodes fuel e.first [] = some l
      rw [hl fuel (by omega) []]; rfl
    · show some (_ ++ (walk s.Nodes fuel e.first []).getD []) = _
      rw [hl fuel (by omega) []]
      rfl

theorem addedFor_cons_self (h : Int) (w : List Char) (rest : List (Int × List Char))
    (l : List (List Char)) :
    addedFor ((h, w) :: rest) h ++ l = addedFor rest h ++ w :: l := by
  unfold addedFor
  rw [List.filter_cons_of_pos (by simp), List.map_cons, List.reverse_cons,
    List.append_assoc]
  rfl

theorem addedFor_cons_ne (h0 h : Int) (w : List Char) (rest : List (Int × List Char))
    (hne : h ≠ h0) : addedFor ((h0, w) :: rest) h = addedFor rest h := by
  unfold addedFor
  rw [List.filter_cons_of_neg (by simpa using fun c => hne c.symm)]

theorem stageAddAll_spec (adds : List (Int × List Char)) :
    ∀ s : SuggestionStage, s.Inv → s.Nodes.Count + (adds.length : Int) ≤ INT_MAX →
      ∃ s2, s.addAll adds = some s2 ∧ s2.Inv ∧
        s2.Nodes.Count = s.Nodes.Count + (adds.length : Int) ∧
        (∀ (fuel : Nat) (h : Int), s2.Nodes.Count < (fuel : Int) →
          ∃ l, s.staged fuel h = some l ∧ s2.staged fuel h = some (addedFor adds h ++ l)) ∧
        ∀ h, (Dictionary.find s2.Deletes h).isSome ↔
          (h ∈ adds.map Prod.fst ∨ (Dictionary.find s.Deletes h).isSome) := by
  induction adds with
  | nil =>
    intro s hI _
    have hmax : INT_MAX = 2147483647 := rfl
    have hcm := hI.nodes.count_max
    refine ⟨s, rfl, hI, by simp, ?_, by simp⟩
    intro fuel h hf
    obtain ⟨p2, _, h2⟩ := commitTo_spec s hI fuel hf []
    obtain ⟨l, hl, _⟩ := h2 h
    exact ⟨l, hl, hl⟩
  | cons q rest ih =>
    obtain ⟨h0, w0⟩ := q
    intro s hI hm
    have hlen : (((h0, w0) :: rest).length : Int) = (rest.length : Int) + 1 := by
      rw [List.length_cons]; push_cast; rfl
    have hc0 := hI.nodes.count_nonneg
    obtain ⟨s1, e1, hI1, hc1, hl1, ho1, hk1⟩ := stageAdd_spec s hI (by omega) h0 w0
    obtain ⟨s2, e2, hI2, hc2, hl2, hk2⟩ := ih s1 hI1 (by omega)
    refine ⟨s2, ?_, hI2, by omega, ?_, ?_⟩
    · unfold addAll
      rw [e1]
      exact e2
    · intro fuel h hf
      obtain ⟨l1, a1, a2⟩ := hl2 fuel h hf
      by_cases hh : h = h0
      · subst hh
        obtain ⟨l, b1, b2⟩ := hl1 fuel (by omega)
        rw [a1] at b2
        cases b2
        exact ⟨l, b1, by rw [a2, addedFor_cons_self]⟩
      · rw [ho1 fuel h hh] at a1
        exact ⟨l1, a1, by rw [a2, addedFor_cons_ne h0 h w0 rest hh]⟩
    · intro h
      rw [hk2 h, hk1 h, List.map_cons, List.mem_cons]
      tauto

/-- A stage made by the constructor, `adds` added to it, and the result committed to the
permanent dictionary `p`: all three calls return, every hash holds its added suggestions,
last one first, and the permanent list of a staged hash is the list it was, followed by
those suggestions. -/
theorem commit_after_adds (n : Int) (hn0 : 0 ≤ n) (hn : n * 2 + 4096 ≤ INT_MAX)
    (adds : List (Int × List Char)) (hm : (adds.length : Int) ≤ INT_MAX)
    (p : List (Int × List (List Char))) (fuel : Nat) (hf : adds.length < fuel) :
    ∃ s0 s p2, SuggestionStage.new n = some s0 ∧ s0.addAll adds = some s ∧
      s.CommitTo fuel p = some p2 ∧
      ∀ h, s.staged fuel h = some (addedFor adds h) ∧
        Dictionary.find p2 h =
          if h ∈ adds.map Prod.fst then
            some ((Dictionary.find p h).getD [] ++ addedFor adds h)
          else Dictionary.find p h := by
  obtain ⟨s0, hnew, hI0, hc0, hd0⟩ := new_spec n hn0 hn
  obtain ⟨s, hs, hI, hc, hl, hk⟩ := stageAddAll_spec adds s0 hI0 (by rw [hc0]; omega)
  have hfuel : s.Nodes.Count < (fuel : Int) := by rw [hc, hc0]; omega
  obtain ⟨p2, hp, hfind⟩ := commitTo_spec s hI fuel hfuel p
  refine ⟨s0, s, p2, hnew, hs, hp, fun h => ?_⟩
  obtain ⟨l0, a1, a2⟩ := hl fuel h hfuel
  have hl0 : l0 = [] := by
    unfold staged at a1
    rw [hd0] at a1
    simp only [Dictionary.find, Option.some.injEq] at a1
    exact a1.symm
  subst hl0
  rw [List.append_nil] at a2
  obtain ⟨l, b1, b2⟩ := hfind h
  rw [a2] at b1
  cases b1
  refine ⟨a2, ?_⟩
  rw [b2]
  have hiff := hk h
  rw [hd0] at hiff
  simp only [Dictionary.find, Option.isSome_none, Bool.false_eq_true, or_false] at hiff
  by_cases hmem : h ∈ adds.map Prod.fst
  · rw [if_pos (hiff.2 hmem), if_pos hmem]
  · rw [if_neg (fun c => hmem (hiff.1 c)), if_neg hmem]

end SuggestionStage

theorem mem_addedFor (adds : List (Int × List Char)) (h : Int) (w : List Char) :
    w ∈ addedFor adds h ↔ (h, w) ∈ adds := by
  unfold addedFor
  rw [List.mem_reverse, List.mem_map]
  constructor
  · rintro ⟨⟨h2, w2⟩, hm, rfl⟩
    rw [List.mem_filter] at hm
    have : h2 = h := by simpa using hm.2
    subst this
    exact hm.1
  · intro hm
    exact ⟨(h, w), List.mem_filter.2 ⟨hm, by simp⟩, rfl⟩

theorem count_addedFor (adds : List (Int × List Char)) (h : Int) (w : List Char) :
    List.count w (addedFor adds h) = List.count (h, w) adds := by
  unfold addedFor
  rw [List.count_reverse]
  induction adds with
  | nil => rfl
  | cons q rest ih =>
    obtain ⟨h2, w2⟩ := q
    by_cases hh : h2 = h
    · subst hh
      rw [List.filter_cons_of_pos (by simp), List.map_cons, List.count_cons, List.count_cons,
        ih]
      by_cases hw : w2 = w
      · subst hw; simp
      · have : ¬ ((h2, w2) = (h2, w)) := fun c => hw (Prod.mk.inj c).2
        simp [hw, this]
    · rw [List.filter_cons_of_neg (by simpa using hh), List.count_cons, ih]
      have : ¬ ((h2, w2) = (h, w)) := fun c => hh (Prod.mk.inj c).1
      simp [this]

/-- C18: for a stage made by the constructor and filled by `Add` calls,
`SuggestionStage::CommitTo(permanent)` returns, and for every staged hash `h` the list
`permanent[h]` afterwards is the list held for `h` before (empty if there was none)
followed by the suggestions staged for `h`, which are stored with the most recently added
one first. -/
theorem suggestionStage_commitTo_appends (n : Int) (hn0 : 0 ≤ n)
    (hn : n * 2 + 4096 ≤ INT_MAX) (adds : List (Int × List Char))
    (hm : (adds.length : Int) ≤ INT_MAX) (p : List (Int × List (List Char))) (fuel : Nat)
    (hf : adds.length < fuel) :
    ∃ s0 s p2, SuggestionStage.new n = some s0 ∧ s0.addAll adds = some s ∧
      s.CommitTo fuel p = some p2 ∧
      ∀ h, h ∈ adds.map Prod.fst →
        s.staged fuel h = some (addedFor adds h) ∧
        Dictionary.find p2 h = some ((Dictionary.find p h).getD [] ++ addedFor adds h) := by
  obtain ⟨s0, s, p2, h1, h2, h3, h4⟩ :=
    SuggestionStage.commit_after_adds n hn0 hn adds hm p fuel hf
  refine ⟨s0, s, p2, h1, h2, h3, fun h hmem => ⟨(h4 h).1, ?_⟩⟩
  rw [(h4 h).2, if_pos hmem]

theorem suggestionStage_commitTo_appends_witness :
    (0 : Int) ≤ 0 ∧ (0 : Int) * 2 + 4096 ≤ INT_MAX ∧
    ((([(5, ['a']), (5, ['b']), (7, ['c'])] : List (Int × List Char)).length : Nat) : Int) ≤
      INT_MAX ∧
    ([(5, ['a']), (5, ['b']), (7, ['c'])] : List (Int × List Char)).length < 4 ∧
    addedFor [(5, ['a']), (5, ['b']), (7, ['c'])] 5 = [['b'], ['a']] ∧
    ∃ s0 s p2, SuggestionStage.new 0 = some s0 ∧
      s0.addAll [(5, ['a']), (5, ['b']), (7, ['c'])] = some s ∧
      s.CommitTo 4 [(5, [['x']])] = some p2 ∧
      ∀ h, h ∈ ([(5, ['a']), (5, ['b']), (7, ['c'])] : List (Int × List Char)).map Prod.fst →
        s.staged 4 h = some (addedFor [(5, ['a']), (5, ['b']), (7, ['c'])] h) ∧
        Dictionary.find p2 h =
          some ((Dictionary.find [(5, [['x']])] h).getD [] ++
            addedFor [(5, ['a']), (5, ['b']), (7, ['c'])] h) :=
  ⟨by decide, by decide, by decide, by decide, by decide,
    suggestionStage_commitTo_appends 0 (by decide) (by decide)
      [(5, ['a']), (5, ['b']), (7, ['c'])] (by decide) [(5, [['x']])] 4 (by decide)⟩

/-- C19: for a stage made by the constructor, filled by `Add` calls and committed, a word
`w` is in `permanent[h]` afterwards if and only if it was there before or some `Add(h, w)`
was made, and it occurs there as often as before plus the number of `Add(h, w)` calls. -/
theorem suggestionStage_commit_membership (n : Int) (hn0 : 0 ≤ n)
    (hn : n * 2 + 4096 ≤ INT_MAX) (adds : List (Int × List Char))
    (hm : (adds.length : Int) ≤ INT_MAX) (p : List (Int × List (List Char))) (fuel : Nat)
    (hf : adds.length < fuel) :
    ∃ s0 s p2, SuggestionStage.new n = some s0 ∧ s0.addAll adds = some s ∧
      s.CommitTo fuel p = some p2 ∧
      ∀ (h : Int) (w : List Char),
        (w ∈ (Dictionary.find p2 h).getD [] ↔
          (w ∈ (Dictionary.find p h).getD [] ∨ (h, w) ∈ adds)) ∧
        List.count w ((Dictionary.find p2 h).getD []) =
          List.count w ((Dictionary.find p h).getD []) + List.count (h, w) adds := by
  obtain ⟨s0, s, p2, h1, h2, h3, h4⟩ :=
    SuggestionStage.commit_after_adds n hn0 hn adds hm p fuel hf
  refine ⟨s0, s, p2, h1, h2, h3, fun h w => ?_⟩
  rw [(h4 h).2]
  by_cases hmem : h ∈ adds.map Prod.fst
  · rw [if_pos hmem, Option.getD_some, List.mem_append, List.count_append, mem_addedFor,
      count_addedFor]
    exact ⟨Iff.rfl, rfl⟩
  · rw [if_neg hmem]
    have hnot : (h, w) ∉ adds := fun c => hmem (List.mem_map.2 ⟨(h, w), c, rfl⟩)
    rw [List.count_eq_zero_of_not_mem hnot]
    exact ⟨⟨fun c => Or.inl c, fun c => c.resolve_right hnot⟩, rfl⟩

theorem suggestionStage_commit_membership_witness :
    (0 : Int) ≤ 0 ∧ (0 : Int) * 2 + 4096 ≤ INT_MAX ∧
    ((([(5, ['a']), (5, ['a']), (7, ['c'])] : List (Int × List Char)).length : Nat) : Int) ≤
      INT_MAX ∧
    ([(5, ['a']), (5, ['a']), (7, ['c'])] : List (Int × List Char)).length < 4 ∧
    ∃ s0 s p2, SuggestionStage.new 0 = some s0 ∧
      s0.addAll [(5, ['a']), (5, ['a']), (7, ['c'])] = some s ∧
      s.CommitTo 4 [(5, [['a']])] = some p2 ∧
      ∀ (h : Int) (w : List Char),
        (w ∈ (Dictionary.find p2 h).getD [] ↔
          (w ∈ (Dictionary.find [(5, [['a']])] h).getD [] ∨
            (h, w) ∈ ([(5, ['a']), (5, ['a']), (7, ['c'])] : List (Int × List Char)))) ∧
        List.count w ((Dictionary.find p2 h).getD []) =
          List.count w ((Dictionary.find [(5, [['a']])] h).getD []) +
            List.count (h, w) [(5, ['a']), (5, ['a']), (7, ['c'])] :=
  ⟨by decide, by decide, by decide, by decide,
    suggestionStage_commit_membership 0 (by decide) (by decide)
      [(5, ['a']), (5, ['a']), (7, ['c'])] (by decide) [(5, [['a']])] 4 (by decide)⟩

namespace DamerauOSA

/-- The value of `Similarity(a, b)`, by cases: where the DP runs it is `ToSimilarity` of
the value of `Distance(a, b)` and the length of the longer string. -/
theorem Similarity_fst (this : DamerauOSA) (a b : List Char) :
    (this.Similarity a b).1 =
      if a = [] then (if b = [] then 1 else 0)
      else if b = [] then 0
      else if (Helpers.PrefixSuffixPrep (if a.length > b.length then b else a)
          (if a.length > b.length then a else b)).1 = 0 then 1
      else Helpers.ToSimilarity (this.Distance a b).1 (max a.length b.length : Nat) := by
  unfold Similarity Distance
  by_cases ha : a = []
  · subst ha
    rw [if_pos rfl, if_pos (show ([] : List Char).isEmpty = true from rfl)]
    cases b <;> rfl
  · have ha2 : ¬ a.isEmpty = true := by simpa using ha
    rw [if_neg ha, if_neg ha2, if_neg ha2]
    by_cases hb : b = []
    · subst hb
      rw [if_pos rfl, if_pos (show ([] : List Char).isEmpty = true from rfl)]
    · have hb2 : ¬ b.isEmpty = true := by simpa using hb
      rw [if_neg hb, if_neg hb2, if_neg hb2]
      simp only []
      rcases hp : Helpers.PrefixSuffixPrep (if a.length > b.length then b else a)
        (if a.length > b.length then a else b) with ⟨len1, len2, start⟩
      simp only []
      by_cases h0 : len1 = 0
      · rw [if_pos h0, if_pos h0]
      · rw [if_neg h0, if_neg h0, if_neg h0]
        simp only []
        congr 1
        by_cases hlen : a.length > b.length
        · rw [if_pos hlen]; push_cast; omega
        · rw [if_neg hlen]; push_cast; omega

end DamerauOSA

/-- C20: `DamerauOSA::Similarity("a", "ab")` returns `1`, while the distance of the two
strings is `1` and `1 - Distance / max(|s1|, |s2|)` is `1/2`: for `"ab"`, whose trimming
leaves nothing of `"a"`, `Similarity` returns `1` without looking at the distance. -/
theorem damerau_similarity_a_ab :
    (DamerauOSA.new.Similarity ['a'] ['a', 'b']).1 = 1 ∧
    (DamerauOSA.new.Distance ['a'] ['a', 'b']).1 = 1 ∧
    Helpers.PrefixSuffixPrep ['a'] ['a', 'b'] = (0, 1, 1) ∧
    (1 : ℚ) - (((DamerauOSA.new.Distance ['a'] ['a', 'b']).1 : Int) : ℚ) /
      ((max (['a'] : List Char).length (['a', 'b'] : List Char).length : Nat) : ℚ) = 1 / 2 := by
  have hd : (DamerauOSA.new.Distance ['a'] ['a', 'b']).1 = 1 := by decide
  refine ⟨?_, hd, by decide, ?_⟩
  · rw [DamerauOSA.Similarity_fst]
    rw [if_neg (by decide), if_neg (by decide), if_pos (by decide)]
  · rw [hd]
    norm_num

theorem take_eq_of_charAt (s1 s2 : List Char) (n : Nat) (h1 : n ≤ s1.length)
    (h2 : n ≤ s2.length) (h : ∀ u, u < n → charAt s1 u = charAt s2 u) :
    s1.take n = s2.take n := by
  apply List.ext_getElem
  · rw [List.length_take, List.length_take]; omega
  · intro i hi1 hi2
    rw [List.length_take] at hi1
    rw [List.getElem_take, List.getElem_take]
    have := h i (by omega)
    rw [charAt_eq_getElem s1 i (by omega), charAt_eq_getElem s2 i (by omega)] at this
    exact this

theorem drop_eq_of_charAt (s1 s2 : List Char) (n1 n2 : Nat) (h1 : n1 ≤ s1.length)
    (hlen : s1.length + n2 = s2.length + n1)
    (h : ∀ u, u < s1.length - n1 → charAt s1 (n1 + u) = charAt s2 (n2 + u)) :
    s1.drop n1 = s2.drop n2 := by
  apply List.ext_getElem
  · rw [List.length_drop, List.length_drop]; omega
  · intro i hi1 hi2
    rw [List.length_drop] at hi1
    rw [List.getElem_drop, List.getElem_drop]
    have := h i (by omega)
    rw [charAt_eq_getElem s1 (n1 + i) (by omega), charAt_eq_getElem s2 (n2 + i) (by omega)]
      at this
    exact this

/-- C30: for strings with `|s1| ≤ |s2|`, the result `(len1, len2, start)` of
`Helpers::PrefixSuffixPrep` has `len1 ≤ len2`, `start + len1 ≤ |s1|`,
`len2 - len1 = |s2| - |s1|`, the first `start` characters of the two strings are the same,
so are the characters after the first `start + len1` of `s1` and after the first
`start + len2` of `s2`, and, if `len1 > 0`, `s1[start] ≠ s2[start]` and
`s1[start + len1 - 1] ≠ s2[start + len2 - 1]`. -/
theorem prefixSuffixPrep_contract (s1 s2 : List Char) (h : s1.length ≤ s2.length)
    (len1 len2 start : Nat) (hp : Helpers.PrefixSuffixPrep s1 s2 = (len1, len2, start)) :
    len1 ≤ len2 ∧ start + len1 ≤ s1.length ∧
    (len2 : Int) - (len1 : Int) = (s2.length : Int) - (s1.length : Int) ∧
    s1.take start = s2.take start ∧
    s1.drop (start + len1) = s2.drop (start + len2) ∧
    (s1.drop (start + len1)).length = s1.length - start - len1 ∧
    (0 < len1 → charAt s1 start ≠ charAt s2 start ∧
      charAt s1 (start + len1 - 1) ≠ charAt s2 (start + len2 - 1)) := by
  have spec := DamerauOSA.prep_spec s1 s2 h len1 len2 start hp
  have hb := spec.bound
  have hd := spec.diff
  refine ⟨by omega, hb, by omega, ?_, ?_, ?_, ?_⟩
  · exact take_eq_of_charAt s1 s2 start (by omega) (by omega) spec.pre
  · exact drop_eq_of_charAt s1 s2 _ _ hb (by omega) spec.suf
  · rw [List.length_drop]; omega
  · intro h0
    exact ⟨spec.first (by omega), spec.last (by omega)⟩

theorem prefixSuffixPrep_contract_witness :
    (['a', 'b', 'c', 'd'] : List Char).length ≤ (['a', 'x', 'y', 'c', 'd'] : List Char).length ∧
    Helpers.PrefixSuffixPrep ['a', 'b', 'c', 'd'] ['a', 'x', 'y', 'c', 'd'] = (1, 2, 1) ∧
    (1 ≤ 2 ∧ 1 + 1 ≤ (['a', 'b', 'c', 'd'] : List Char).length ∧
    ((2 : Nat) : Int) - ((1 : Nat) : Int) =
      ((['a', 'x', 'y', 'c', 'd'] : List Char).length : Int) -
        ((['a', 'b', 'c', 'd'] : List Char).length : Int) ∧
    (['a', 'b', 'c', 'd'] : List Char).take 1 = (['a', 'x', 'y', 'c', 'd'] : List Char).take 1 ∧
    (['a', 'b', 'c', 'd'] : List Char).drop (1 + 1) =
      (['a', 'x', 'y', 'c', 'd'] : List Char).drop (1 + 2) ∧
    ((['a', 'b', 'c', 'd'] : List Char).drop (1 + 1)).length =
      (['a', 'b', 'c', 'd'] : List Char).length - 1 - 1 ∧
    (0 < 1 → charAt ['a', 'b', 'c', 'd'] 1 ≠ charAt ['a', 'x', 'y', 'c', 'd'] 1 ∧
      charAt ['a', 'b', 'c', 'd'] (1 + 1 - 1) ≠ charAt ['a', 'x', 'y', 'c', 'd'] (1 + 2 - 1))) :=
  ⟨by decide, by decide,
    prefixSuffixPrep_contract ['a', 'b', 'c', 'd'] ['a', 'x', 'y', 'c', 'd'] (by decide) 1 2 1
      (by decide)⟩

namespace DamerauOSA

/-- Method `DamerauOSA::Distance(string1, string2)` on non-empty strings, in terms of the
strings after the swap and of the result of `PrefixSuffixPrep`. -/
theorem osa_Distance_unfold (this : DamerauOSA) (a b : List Char) (ha : a ≠ []) (hb : b ≠ [])
    (len1 len2 start : Nat)
    (hp : Helpers.PrefixSuffixPrep (if a.length > b.length then b else a)
      (if a.length > b.length then a else b) = (len1, len2, start)) :
    this.Distance a b =
      if len1 = 0 then ((len2 : Int), this)
      else
        (DistanceCore (if a.length > b.length then b else a)
            (if a.length > b.length then a else b) len1 len2 start
            (this.grow len2).baseChar1Costs (this.grow len2).basePrevChar1Costs,
          this.grow len2) := by
  unfold Distance
  rw [if_neg (by simpa using ha), if_neg (by simpa using hb)]
  simp only [hp]

/-- Method `DamerauOSA::Distance(string1, string2, maxDistance)` on non-empty strings and a
positive bound, in terms of the strings after the swap and of the result of
`PrefixSuffixPrep`. -/
theorem osa_DistanceMax_unfold (this : DamerauOSA) (a b : List Char) (k : Int) (ha : a ≠ [])
    (hb : b ≠ []) (hk : 0 < k) (len1 len2 start : Nat)
    (hp : Helpers.PrefixSuffixPrep (if a.length > b.length then b else a)
      (if a.length > b.length then a else b) = (len1, len2, start)) :
    this.DistanceMax a b k =
      if (((if a.length > b.length then a else b).length -
          (if a.length > b.length then b else a).length : Nat) : Int) >
          (if k ≤ INT_MAX then k else INT_MAX) then (-1, this)
      else if len1 = 0 then
        ((if (len2 : Int) ≤ (if k ≤ INT_MAX then k else INT_MAX) then (len2 : Int) else -1),
          this)
      else if (if k ≤ INT_MAX then k else INT_MAX) < (len2 : Int) then
        (DistanceCoreMax (if a.length > b.length then b else a)
            (if a.length > b.length then a else b) len1 len2 start
            (if k ≤ INT_MAX then k else INT_MAX) (this.grow len2).baseChar1Costs
            (this.grow len2).basePrevChar1Costs, this.grow len2)
      else
        (DistanceCore (if a.length > b.length then b else a)
            (if a.length > b.length then a else b) len1 len2 start
            (this.grow len2).baseChar1Costs (this.grow len2).basePrevChar1Costs,
          this.grow len2) := by
  unfold DistanceMax
  rw [if_neg (by simp [ha, hb]), if_neg (by omega)]
  simp only [hp]

end DamerauOSA

/-- C23: constructing a `DamerauOSA` or a `Levenshtein` with the expected maximum string
length `n` fails if and only if `n ≤ 0`; for `n > 0` it succeeds and each cost buffer of the
instance has `n` entries. -/
theorem kernel_newExpected (n : Int) :
    ((∃ e, DamerauOSA.newExpected n = Except.error e) ↔ n ≤ 0) ∧
    ((∃ e, Levenshtein.newExpected n = Except.error e) ↔ n ≤ 0) ∧
    (0 < n → ∃ d, DamerauOSA.newExpected n = Except.ok d ∧
      (d.baseChar1Costs.length : Int) = n ∧ (d.basePrevChar1Costs.length : Int) = n) ∧
    (0 < n → ∃ l, Levenshtein.newExpected n = Except.ok l ∧
      (l.baseChar1Costs.length : Int) = n) := by
  unfold DamerauOSA.newExpected Levenshtein.newExpected
  by_cases h : n ≤ 0
  · rw [if_pos h, if_pos h]
    exact ⟨⟨fun _ => h, fun _ => ⟨_, rfl⟩⟩, ⟨fun _ => h, fun _ => ⟨_, rfl⟩⟩,
      fun c => absurd c (by omega), fun c => absurd c (by omega)⟩
  · rw [if_neg h, if_neg h]
    refine ⟨⟨fun ⟨e, he⟩ => (by cases he), fun c => absurd c h⟩,
      ⟨fun ⟨e, he⟩ => (by cases he), fun c => absurd c h⟩, fun _ => ⟨_, rfl, ?_, ?_⟩,
      fun _ => ⟨_, rfl, ?_⟩⟩
    all_goals
      show ((List.length (List.replicate n.toNat (0 : Int)) : Nat) : Int) = n
      rw [List.length_replicate]
      omega

theorem editDistance_new_error (algorithm : Int) :
    (∃ e, EditDistance.new algorithm = Except.error e) ↔
      (algorithm ≠ DamerauOSADistance ∧ algorithm ≠ LevenshteinDistance) := by
  unfold EditDistance.new
  by_cases h1 : algorithm = DamerauOSADistance
  · rw [if_pos h1]
    exact ⟨fun ⟨e, he⟩ => (by cases he), fun c => absurd h1 c.1⟩
  · rw [if_neg h1]
    by_cases h2 : algorithm = LevenshteinDistance
    · rw [if_pos h2]
      exact ⟨fun ⟨e, he⟩ => (by cases he), fun c => absurd h2 c.2⟩
    · rw [if_neg h2]
      exact ⟨fun _ => ⟨h1, h2⟩, fun _ => ⟨_, rfl⟩⟩

theorem editDistance_new_madeWith (algorithm : Int) (e : EditDistance)
    (h : EditDistance.new algorithm = Except.ok e) :
    e.MadeWith algorithm ∧ e.damerauOSADistance = DamerauOSA.new ∧
      e.levenshteinDistance = Levenshtein.new := by
  unfold EditDistance.new at h
  by_cases h1 : algorithm = DamerauOSADistance
  · rw [if_pos h1] at h
    cases h
    exact ⟨⟨rfl, Or.inl ⟨h1, rfl⟩⟩, rfl, rfl⟩
  · rw [if_neg h1] at h
    by_cases h2 : algorithm = LevenshteinDistance
    · rw [if_pos h2] at h
      cases h
      exact ⟨⟨rfl, Or.inr ⟨h2, rfl⟩⟩, rfl, rfl⟩
    · rw [if_neg h2] at h
      cases h

theorem editDistance_compare_damerau (e : EditDistance)
    (h : e.MadeWith DamerauOSADistance) (s1 s2 : List Char) (maxDistance : Int) :
    e.Compare s1 s2 maxDistance =
      some ((e.damerauOSADistance.DistanceMax s1 s2 maxDistance).1,
        EditDistance.mk e.algorithm e.distanceComparer
          (e.damerauOSADistance.DistanceMax s1 s2 maxDistance).2 e.levenshteinDistance) := by
  obtain ⟨-, h2⟩ := h
  have hp : e.distanceComparer = DistanceComparer.damerauOSADistance := by
    rcases h2 with ⟨-, h3⟩ | ⟨h3, -⟩
    · exact h3
    · exact absurd h3 (by decide)
  unfold EditDistance.Compare
  rw [hp]

theorem editDistance_compare_levenshtein (e : EditDistance)
    (h : e.MadeWith LevenshteinDistance) (s1 s2 : List Char) (maxDistance : Int) :
    e.Compare s1 s2 maxDistance =
      (e.levenshteinDistance.DistanceMax s1 s2 maxDistance).map
        (fun r => (r.1, EditDistance.mk e.algorithm e.distanceComparer
          e.damerauOSADistance r.2)) := by
  obtain ⟨-, h2⟩ := h
  have hp : e.distanceComparer = DistanceComparer.levenshteinDistance := by
    rcases h2 with ⟨h3, -⟩ | ⟨-, h3⟩
    · exact absurd h3 (by decide)
    · exact h3
  unfold EditDistance.Compare
  rw [hp]

theorem editDistance_compare_madeWith (algorithm : Int) (e : EditDistance)
    (h : e.MadeWith algorithm) (s1 s2 : List Char) (maxDistance : Int)
    (r : Int × EditDistance) (hr : e.Compare s1 s2 maxDistance = some r) :
    r.2.MadeWith algorithm := by
  unfold EditDistance.Compare at hr
  cases hp : e.distanceComparer with
  | damerauOSADistance =>
    rw [hp] at hr
    obtain rfl := Option.some.inj hr
    rw [← hp]
    exact h
  | levenshteinDistance =>
    rw [hp] at hr
    obtain ⟨rl, -, rfl⟩ := Option.map_eq_some'.1 hr
    rw [← hp]
    exact h

/-- C24: the dispatch of `EditDistance` and what `Compare` returns. Construction fails
exactly for values of `algorithm` other than the two of the enumeration. An object made
with `DamerauOSADistance` has its pointer on the member `damerauOSADistance` and returns
from `Compare` the value of `DamerauOSA::Distance(s1, s2, maxDistance)` on that member, one
made with `LevenshteinDistance` that of `Levenshtein::Distance(s1, s2, maxDistance)` on the
member `levenshteinDistance`, and a `Compare` call leaves the object one made with the same
algorithm. The value is not always the edit distance or `-1`: on the object made by
`EditDistance(LevenshteinDistance)` the call `Compare("ab", "ba", 1)` returns `1`, while the
Levenshtein distance of the two strings is `2`, which is above the bound. -/
theorem editDistance_compare_ab_ba :
    (∀ algorithm, (∃ e, EditDistance.new algorithm = Except.error e) ↔
      (algorithm ≠ DamerauOSADistance ∧ algorithm ≠ LevenshteinDistance)) ∧
    (∀ (algorithm : Int) (e : EditDistance), EditDistance.new algorithm = Except.ok e →
      e.MadeWith algorithm ∧ e.damerauOSADistance = DamerauOSA.new ∧
        e.levenshteinDistance = Levenshtein.new) ∧
    (∀ (e : EditDistance) (s1 s2 : List Char) (maxDistance : Int),
      e.MadeWith DamerauOSADistance →
      e.Compare s1 s2 maxDistance =
        some ((e.damerauOSADistance.DistanceMax s1 s2 maxDistance).1,
          EditDistance.mk e.algorithm e.distanceComparer
            (e.damerauOSADistance.DistanceMax s1 s2 maxDistance).2 e.levenshteinDistance)) ∧
    (∀ (e : EditDistance) (s1 s2 : List Char) (maxDistance : Int),
      e.MadeWith LevenshteinDistance →
      e.Compare s1 s2 maxDistance =
        (e.levenshteinDistance.DistanceMax s1 s2 maxDistance).map
          (fun r => (r.1, EditDistance.mk e.algorithm e.distanceComparer
            e.damerauOSADistance r.2))) ∧
    (∀ (algorithm : Int) (e : EditDistance) (s1 s2 : List Char) (maxDistance : Int)
      (r : Int × EditDistance), e.MadeWith algorithm →
        e.Compare s1 s2 maxDistance = some r → r.2.MadeWith algorithm) ∧
    EditDistance.new LevenshteinDistance =
      Except.ok (EditDistance.mk LevenshteinDistance DistanceComparer.levenshteinDistance
        DamerauOSA.new Levenshtein.new) ∧
    ((EditDistance.mk LevenshteinDistance DistanceComparer.levenshteinDistance
      DamerauOSA.new Levenshtein.new).Compare ['a', 'b'] ['b', 'a'] 1).map Prod.fst =
        some 1 ∧
    levDistance ['a', 'b'] ['b', 'a'] = 2 := by
  refine ⟨editDistance_new_error, editDistance_new_madeWith,
    fun e s1 s2 k h => editDistance_compare_damerau e h s1 s2 k,
    fun e s1 s2 k h => editDistance_compare_levenshtein e h s1 s2 k,
    fun algorithm e s1 s2 k r h hr => editDistance_compare_madeWith algorithm e h s1 s2 k r hr,
    rfl, by decide, ?_⟩
  simp [levDistance, levTable, charAt]

/-- C25: on every instance, `DamerauOSA::Distance("ca", "abc") = 3` is more than
`DamerauOSA::Distance("ca", "ac") + DamerauOSA::Distance("ac", "abc") = 1 + 1`: the
distance does not uphold the triangle inequality. -/
theorem damerau_no_triangle (this : DamerauOSA) (h : this.Sized) :
    (this.Distance ['c', 'a'] ['a', 'b', 'c']).1 = 3 ∧
    (this.Distance ['c', 'a'] ['a', 'c']).1 = 1 ∧
    (this.Distance ['a', 'c'] ['a', 'b', 'c']).1 = 1 ∧
    ∃ a b c : List Char,
      (this.Distance a c).1 > (this.Distance a b).1 + (this.Distance b c).1 := by
  have e1 : osaDistance ['c', 'a'] ['a', 'b', 'c'] = 3 := by
    simp [osaDistance, osaTable, charAt]
  have e2 : osaDistance ['c', 'a'] ['a', 'c'] = 1 := by
    simp [osaDistance, osaTable, charAt]
  have e3 : osaDistance ['a', 'c'] ['a', 'b', 'c'] = 1 := by
    simp [osaDistance, osaTable, charAt]
  have d1 : (this.Distance ['c', 'a'] ['a', 'b', 'c']).1 = 3 := by
    rw [DamerauOSA.Distance_fst this h, e1]; rfl
  have d2 : (this.Distance ['c', 'a'] ['a', 'c']).1 = 1 := by
    rw [DamerauOSA.Distance_fst this h, e2]; rfl
  have d3 : (this.Distance ['a', 'c'] ['a', 'b', 'c']).1 = 1 := by
    rw [DamerauOSA.Distance_fst this h, e3]; rfl
  refine ⟨d1, d2, d3, ['c', 'a'], ['a', 'c'], ['a', 'b', 'c'], ?_⟩
  rw [d1, d2, d3]
  decide

theorem damerau_no_triangle_witness :
    DamerauOSA.new.Sized ∧
    ((DamerauOSA.new.Distance ['c', 'a'] ['a', 'b', 'c']).1 = 3 ∧
      (DamerauOSA.new.Distance ['c', 'a'] ['a', 'c']).1 = 1 ∧
      (DamerauOSA.new.Distance ['a', 'c'] ['a', 'b', 'c']).1 = 1 ∧
      ∃ a b c : List Char,
        (DamerauOSA.new.Distance a c).1 >
          (DamerauOSA.new.Distance a b).1 + (DamerauOSA.new.Distance b c).1) :=
  ⟨rfl, damerau_no_triangle DamerauOSA.new rfl⟩

theorem damerau_similarityMax_error_iff (d : DamerauOSA) (s1 s2 : List Char) (m : ℚ) :
    (∃ e, d.SimilarityMax s1 s2 m = Except.error e) ↔ (m < 0 ∨ m > 1) := by
  unfold DamerauOSA.SimilarityMax
  by_cases h : m < 0 ∨ m > 1
  · rw [if_pos h]
    exact ⟨fun _ => h, fun _ => ⟨_, rfl⟩⟩
  · rw [if_neg h]
    refine ⟨fun ⟨e, he⟩ => ?_, fun c => absurd c h⟩
    exfalso
    revert he
    simp only []
    rcases Helpers.PrefixSuffixPrep _ _ with ⟨len1, len2, start⟩
    simp only []
    split_ifs <;> exact id

theorem levenshtein_similarityMax_error_iff (l : Levenshtein) (s1 s2 : List Char) (m : ℚ) :
    (∃ e, l.SimilarityMax s1 s2 m = Except.error e) ↔ (m < 0 ∨ m > 1) := by
  unfold Levenshtein.SimilarityMax
  by_cases h : m < 0 ∨ m > 1
  · rw [if_pos h]
    exact ⟨fun _ => h, fun _ => ⟨_, rfl⟩⟩
  · rw [if_neg h]
    refine ⟨fun ⟨e, he⟩ => ?_, fun c => absurd c h⟩
    exfalso
    revert he
    simp only []
    rcases Helpers.PrefixSuffixPrep _ _ with ⟨len1, len2, start⟩
    simp only []
    split_ifs <;> exact id

/-- C22: for both kernels and all strings, `Similarity(s1, s2, minSimilarity)` fails if and
only if `minSimilarity < 0` or `minSimilarity > 1`, empty strings included. -/
theorem similarityMax_error_iff (d : DamerauOSA) (l : Levenshtein) (s1 s2 : List Char)
    (minSimilarity : ℚ) :
    ((∃ e, d.SimilarityMax s1 s2 minSimilarity = Except.error e) ↔
      (minSimilarity < 0 ∨ minSimilarity > 1)) ∧
    ((∃ e, l.SimilarityMax s1 s2 minSimilarity = Except.error e) ↔
      (minSimilarity < 0 ∨ minSimilarity > 1)) ∧
    ((∃ e, d.SimilarityMax [] [] minSimilarity = Except.error e) ↔
      (minSimilarity < 0 ∨ minSimilarity > 1)) ∧
    ((∃ e, l.SimilarityMax [] [] minSimilarity = Except.error e) ↔
      (minSimilarity < 0 ∨ minSimilarity > 1)) :=
  ⟨damerau_similarityMax_error_iff d s1 s2 minSimilarity,
    levenshtein_similarityMax_error_iff l s1 s2 minSimilarity,
    damerau_similarityMax_error_iff d [] [] minSimilarity,
    levenshtein_similarityMax_error_iff l [] [] minSimilarity⟩

theorem toDistance_half_two : Helpers.ToDistance (1 / 2) 2 = 1 := by
  unfold Helpers.ToDistance truncToInt
  have e : (((2 : Int) : ℚ)) * (1 - 1 / 2) + 1 / 10000000000 = 10000000001 / 10000000000 := by
    norm_num
  rw [e, if_pos (by norm_num)]
  exact Int.floor_eq_iff.2 ⟨by norm_num, by norm_num⟩

/-- C21: `DamerauOSA::Similarity("a", "ab", 0.5)` returns `1`, while the distance of the
two strings is `1` and their similarity `1 - 1/2` is not lower than `0.5`; and
`DamerauOSA::Similarity("", "a", 0.5)` returns `0`, while the similarity `1 - 1/1 = 0` is
lower than `0.5`. -/
theorem damerau_similarityMax_a_ab :
    DamerauOSA.new.SimilarityMax ['a'] ['a', 'b'] (1 / 2) = Except.ok (1, DamerauOSA.new) ∧
    Helpers.ToDistance (1 / 2) 2 = 1 ∧
    Helpers.PrefixSuffixPrep ['a'] ['a', 'b'] = (0, 1, 1) ∧
    (DamerauOSA.new.Distance ['a'] ['a', 'b']).1 = 1 ∧
    (1 : ℚ) - (((DamerauOSA.new.Distance ['a'] ['a', 'b']).1 : Int) : ℚ) /
      ((max (['a'] : List Char).length (['a', 'b'] : List Char).length : Nat) : ℚ) = 1 / 2 ∧
    DamerauOSA.new.SimilarityMax [] ['a'] (1 / 2) = Except.ok (0, DamerauOSA.new) ∧
    (DamerauOSA.new.Distance [] ['a']).1 = 1 ∧
    (1 : ℚ) - (((DamerauOSA.new.Distance [] ['a']).1 : Int) : ℚ) /
      ((max ([] : List Char).length (['a'] : List Char).length : Nat) : ℚ) < 1 / 2 := by
  have hd : (DamerauOSA.new.Distance ['a'] ['a', 'b']).1 = 1 := by decide
  have hd2 : (DamerauOSA.new.Distance [] ['a']).1 = 1 := by decide
  have hp : Helpers.PrefixSuffixPrep ['a'] ['a', 'b'] = (0, 1, 1) := by decide
  refine ⟨?_, toDistance_half_two, hp, hd, ?_, ?_, hd2, ?_⟩
  · unfold DamerauOSA.SimilarityMax
    rw [if_neg (by norm_num), if_neg (by decide)]
    have e1 : (if (['a'] : List Char).length > (['a', 'b'] : List Char).length then
        (['a', 'b'] : List Char) else ['a']) = ['a'] := by decide
    have e2 : (if (['a'] : List Char).length > (['a', 'b'] : List Char).length then
        (['a'] : List Char) else ['a', 'b']) = ['a', 'b'] := by decide
    simp only [e1, e2]
    have e3 : (((['a', 'b'] : List Char).length : Nat) : Int) = 2 := by decide
    rw [e3, toDistance_half_two, if_neg (by decide), if_neg (by decide), hp]
    rfl
  · rw [hd]; norm_num
  · unfold DamerauOSA.SimilarityMax
    rw [if_neg (by norm_num), if_pos (by decide)]
    unfold Helpers.NullSimilarityResults
    rw [if_neg (by decide), if_pos (by norm_num)]
    norm_num
  · rw [hd2]; norm_num

namespace Dictionary

theorem findWord_setWord_self {V : Type} (m : List (List Char × V)) (k : List Char) (v : V) :
    findWord (setWord m k v) k = some v := by
  induction m with
  | nil => simp [setWord, findWord]
  | cons p rest ih =>
    obtain ⟨k1, v1⟩ := p
    by_cases h : k1 = k
    · simp [setWord, findWord, h]
    · simp [setWord, findWord, h, ih]

theorem findWord_setWord_ne {V : Type} (m : List (List Char × V)) (k : List Char) (v : V)
    (k2 : List Char) (hne : k2 ≠ k) : findWord (setWord m k v) k2 = findWord m k2 := by
  induction m with
  | nil =>
    have : ¬ k = k2 := fun h => hne h.symm
    simp [setWord, findWord, this]
  | cons p rest ih =>
    obtain ⟨k1, v1⟩ := p
    by_cases h : k1 = k
    · subst h
      have : ¬ k1 = k2 := fun h => hne h.symm
      simp [setWord, findWord, this]
    · by_cases h2 : k1 = k2
      · subst h2
        simp [setWord, findWord, h]
      · simp [setWord, findWord, h, h2, ih]

theorem findWord_setWord_isSome {V : Type} (m : List (List Char × V)) (k : List Char) (v : V)
    (k2 : List Char) (h : (findWord (setWord m k v) k2).isSome) :
    k2 = k ∨ (findWord m k2).isSome := by
  by_cases hk : k2 = k
  · exact Or.inl hk
  · rw [findWord_setWord_ne m k v k2 hk] at h
    exact Or.inr h

end Dictionary

namespace ChunkArray

theorem Add_some_lt {T : Type} [Inhabited T] (c : ChunkArray T) (v : T)
    (r : Int × ChunkArray T) (h : c.Add v = some r) : c.Count < INT_MAX := by
  unfold ChunkArray.Add at h
  simp only [] at h
  split at h
  · cases h
  · split at h
    · cases h
    · split at h
      · cases h
      · split at h
        · assumption
        · cases h

end ChunkArray

namespace SuggestionStage

theorem walk_mono (N : ChunkArray Node) :
    ∀ (fuel : Nat) (next : Int) (acc r : List (List Char)),
      walk N fuel next acc = some r → ∀ fuel2, fuel ≤ fuel2 → walk N fuel2 next acc = some r := by
  intro fuel
  induction fuel with
  | zero =>
    intro next acc r h fuel2 _
    unfold walk at h
    by_cases h0 : 0 ≤ next
    · rw [if_pos h0] at h; cases h
    · rw [if_neg h0] at h
      rw [walk_neg _ _ _ _ (by omega)]
      exact h
  | succ fuel ih =>
    intro next acc r h fuel2 hle
    obtain ⟨f2, rfl⟩ : ∃ f2, fuel2 = f2 + 1 := ⟨fuel2 - 1, by omega⟩
    by_cases h0 : 0 ≤ next
    · unfold walk at h ⊢
      rw [if_pos h0] at h ⊢
      cases hat : N.At (toUnsigned next) with
      | none => rw [hat] at h; cases h
      | some node =>
        rw [hat] at h
        exact ih _ _ _ h f2 (by omega)
    · rw [walk_neg _ _ _ _ (by omega)] at h ⊢
      exact h

theorem commitLoop_mono (N : ChunkArray Node) (fuel fuel2 : Nat) (hle : fuel ≤ fuel2) :
    ∀ (ds : List (Int × Entry)) (p p2 : List (Int × List (List Char))),
      commitLoop N fuel ds p = some p2 → commitLoop N fuel2 ds p = some p2 := by
  intro ds
  induction ds with
  | nil =>
    intro p p2 h
    unfold commitLoop at h ⊢
    exact h
  | cons e rest ih =>
    intro p p2 h
    obtain ⟨key, entry⟩ := e
    have hstep : ∀ f, commitLoop N f ((key, entry) :: rest) p =
        match walk N f entry.first ((Dictionary.find p key).getD []) with
        | none => none
        | some suggestions => commitLoop N f rest (Dictionary.set p key suggestions) := by
      intro f
      conv_lhs => unfold commitLoop
      cases Dictionary.find p key <;> rfl
    rw [hstep] at h ⊢
    cases hw : walk N fuel entry.first ((Dictionary.find p key).getD []) with
    | none => rw [hw] at h; cases h
    | some l =>
      rw [hw] at h
      rw [walk_mono N _ _ _ _ hw fuel2 hle]
      exact ih _ _ h

/-- What a `CommitTo` that returns does: lists of the permanent dictionary only grow, and
every staged string is in the list of its hash afterwards. -/
theorem commitTo_covers (s : SuggestionStage) (hI : s.Inv) (fuel : Nat)
    (p p2 : List (Int × List (List Char))) (hc : s.CommitTo fuel p = some p2)
    (h : Int) (w : List Char)
    (hw : w ∈ (Dictionary.find p h).getD [] ∨ s.InStage h w) :
    w ∈ (Dictionary.find p2 h).getD [] := by
  have hc0 := hI.nodes.count_nonneg
  obtain ⟨F, hF1, hF2⟩ : ∃ F : Nat, fuel ≤ F ∧ s.Nodes.Count < (F : Int) :=
    ⟨max fuel (s.Nodes.Count.toNat + 1), le_max_left _ _, by
      have : s.Nodes.Count.toNat + 1 ≤ max fuel (s.Nodes.Count.toNat + 1) := le_max_right _ _
      omega⟩
  obtain ⟨q, hq, hspec⟩ := commitTo_spec s hI F hF2 p
  have hq2 : s.CommitTo F p = some p2 := commitLoop_mono s.Nodes fuel F hF1 _ _ _ hc
  rw [hq2] at hq
  cases hq
  obtain ⟨l, hl, hfind⟩ := hspec h
  rw [hfind]
  cases hd : Dictionary.find s.Deletes h with
  | none =>
    simp only [Option.isSome_none, Bool.false_eq_true, if_false]
    rcases hw with hw | hw
    · exact hw
    · obtain ⟨l2, hl2, hm⟩ := hw F hF2
      unfold staged at hl2
      rw [hd] at hl2
      cases hl2
      cases hm
  | some e =>
    simp only [Option.isSome_some, if_true, Option.getD_some]
    rcases hw with hw | hw
    · exact List.mem_append_left _ hw
    · obtain ⟨l2, hl2, hm⟩ := hw F hF2
      rw [hl] at hl2
      cases hl2
      exact List.mem_append_right _ hm

/-- What an `Add` that returns does to the staged strings. -/
theorem add_inStage (s : SuggestionStage) (hI : s.Inv) (h : Int) (w : List Char)
    (s1 : SuggestionStage) (hadd : s.Add h w = some s1) :
    s1.Inv ∧ (∀ h2 w2, s.InStage h2 w2 → s1.InStage h2 w2) ∧ s1.InStage h w := by
  have hlt : s.Nodes.Count < INT_MAX := by
    rw [Add_eq] at hadd
    cases hn : s.Nodes.Add { suggestion := w, next := (oldEntry s h).first } with
    | none => rw [hn] at hadd; cases hadd
    | some r => exact ChunkArray.Add_some_lt _ _ _ hn
  obtain ⟨s2, h2, hInv, hcount, hst, hother, _⟩ := stageAdd_spec s hI hlt h w
  rw [hadd] at h2
  cases h2
  refine ⟨hInv, ?_, ?_⟩
  · intro h2 w2 hin fuel hf
    have hf2 : s.Nodes.Count < (fuel : Int) := by omega
    obtain ⟨l, hl, hm⟩ := hin fuel hf2
    by_cases he : h2 = h
    · subst he
      obtain ⟨l2, hl2, hl3⟩ := hst fuel hf2
      rw [hl] at hl2
      cases hl2
      exact ⟨w :: l, hl3, List.mem_cons_of_mem _ hm⟩
    · exact ⟨l, by rw [hother fuel h2 he]; exact hl, hm⟩
  · intro fuel hf
    obtain ⟨l, _, hl2⟩ := hst fuel (by omega)
    exact ⟨w :: l, hl2, List.mem_cons_self _ _⟩

end SuggestionStage

namespace SymSpell

theorem recordDirect_mono (GetstringHash : List Char → Int) (key : List Char) :
    ∀ (ds : List (List Char)) (deletes : List (Int × List (List Char))) (h : Int)
      (w : List Char), w ∈ (Dictionary.find deletes h).getD [] →
      w ∈ (Dictionary.find (recordDirect GetstringHash key deletes ds) h).getD [] := by
  intro ds
  induction ds with
  | nil => intro deletes h w hw; exact hw
  | cons d rest ih =>
    intro deletes h w hw
    unfold recordDirect
    apply ih
    by_cases he : h = GetstringHash d
    · subst he
      rw [Dictionary.find_set_self]
      exact List.mem_append_left _ hw
    · rw [Dictionary.find_set_ne _ _ _ _ he]
      exact hw

theorem recordDirect_mem (GetstringHash : List Char → Int) (key : List Char) :
    ∀ (ds : List (List Char)) (deletes : List (Int × List (List Char))) (d : List Char),
      d ∈ ds →
      key ∈ (Dictionary.find (recordDirect GetstringHash key deletes ds)
        (GetstringHash d)).getD [] := by
  intro ds
  induction ds with
  | nil => intro deletes d hd; cases hd
  | cons d0 rest ih =>
    intro deletes d hd
    unfold recordDirect
    rcases List.mem_cons.1 hd with rfl | hd
    · apply recordDirect_mono
      rw [Dictionary.find_set_self]
      exact List.mem_append_right _ (List.mem_singleton.2 rfl)
    · exact ih _ d hd

theorem recordStaged_spec (GetstringHash : List Char → Int) (key : List Char) :
    ∀ (ds : List (List Char)) (s s2 : SuggestionStage), s.Inv →
      recordStaged GetstringHash key s ds = some s2 →
      s2.Inv ∧ (∀ h w, s.InStage h w → s2.InStage h w) ∧
        ∀ d, d ∈ ds → s2.InStage (GetstringHash d) key := by
  intro ds
  induction ds with
  | nil =>
    intro s s2 hI h
    unfold recordStaged at h
    cases h
    exact ⟨hI, fun _ _ hw => hw, fun d hd => by cases hd⟩
  | cons d0 rest ih =>
    intro s s2 hI h
    unfold recordStaged at h
    cases ha : s.Add (GetstringHash d0) key with
    | none => rw [ha] at h; cases h
    | some s1 =>
      rw [ha] at h
      obtain ⟨hI1, hkeep1, hnew1⟩ := SuggestionStage.add_inStage s hI _ _ s1 ha
      obtain ⟨hI2, hkeep2, hnew2⟩ := ih s1 s2 hI1 h
      refine ⟨hI2, fun h w hw => hkeep2 h w (hkeep1 h w hw), ?_⟩
      intro d hd
      rcases List.mem_cons.1 hd with rfl | hd
      · exact hkeep2 _ _ hnew1
      · exact hnew2 d hd

theorem deletesTo_mem_Edits (s : List Char) (k : Nat) (d : List Char)
    (h : DeletesTo s k d) : d ∈ Edits s k := by
  induction h with
  | zero => simp [Edits]
  | succ k e i _ hi ih =>
    unfold Edits
    rw [List.mem_dedup, List.mem_flatMap]
    refine ⟨e, ih, ?_⟩
    unfold deleteOne
    exact List.mem_map.2 ⟨i, List.mem_range.2 hi, rfl⟩

/-- Every generated delete of `Edits` is obtained by the number of deletions of its
layer. -/
theorem deletesTo_of_mem_Edits (s : List Char) :
    ∀ (k : Nat) (d : List Char), d ∈ Edits s k → DeletesTo s k d := by
  intro k
  induction k with
  | zero =>
    intro d hd
    simp [Edits] at hd
    subst hd
    exact DeletesTo.zero
  | succ k ih =>
    intro d hd
    unfold Edits at hd
    rw [List.mem_dedup, List.mem_flatMap] at hd
    obtain ⟨e, he, hd⟩ := hd
    unfold deleteOne at hd
    obtain ⟨i, hi, rfl⟩ := List.mem_map.1 hd
    exact DeletesTo.succ k e i (ih e he) (List.mem_range.1 hi)

theorem deletesTo_mem_EditsPrefix (this : SymSpell) (key : List Char) (k : Nat)
    (d : List Char) (hk : k ≤ this.maxDictionaryEditDistance)
    (h : DeletesTo (key.take (min key.length this.prefixLength)) k d) :
    d ∈ this.EditsPrefix key := by
  unfold EditsPrefix
  simp only []
  rw [List.mem_dedup]
  cases k with
  | zero =>
    cases h
    exact List.mem_append_left _ (List.mem_append_right _ (List.mem_singleton.2 rfl))
  | succ k =>
    apply List.mem_append_right
    rw [List.mem_flatMap]
    exact ⟨k, List.mem_range.2 (by omega), deletesTo_mem_Edits _ _ _ h⟩

theorem covered_step (GetstringHash : List Char → Int) (this this2 : SymSpell)
    (P P2 : Int → List Char → Prop)
    (h1 : this2.maxDictionaryEditDistance = this.maxDictionaryEditDistance)
    (h2 : this2.prefixLength = this.prefixLength)
    (hdel : ∀ h w, w ∈ (Dictionary.find this.deletes h).getD [] →
      w ∈ (Dictionary.find this2.deletes h).getD [])
    (hP : ∀ h w, P h w → P2 h w)
    (hwords : ∀ w, (Dictionary.findWord this2.words w).isSome →
      (Dictionary.findWord this.words w).isSome ∨
        ∀ k d, k ≤ this.maxDictionaryEditDistance →
          DeletesTo (w.take (min w.length this.prefixLength)) k d →
          w ∈ (Dictionary.find this2.deletes (GetstringHash d)).getD [] ∨
            P2 (GetstringHash d) w)
    (hc : Covered GetstringHash this P) : Covered GetstringHash this2 P2 := by
  intro w hw k d hk hd
  rw [h1] at hk
  rw [h2] at hd
  rcases hwords w hw with hold | hnew
  · rcases hc w hold k d hk hd with h | h
    · exact Or.inl (hdel _ _ h)
    · exact Or.inr (hP _ _ h)
  · exact hnew k d hk hd

theorem promote_direct (GetstringHash : List Char → Int) (this : SymSpell) (key : List Char)
    (count : Int) (r : Bool × SymSpell × Option SuggestionStage)
    (h : promote GetstringHash this key count none = some r)
    (P : Int → List Char → Prop) :
    r.2.1.maxDictionaryEditDistance = this.maxDictionaryEditDistance ∧
      r.2.1.prefixLength = this.prefixLength ∧
      (Covered GetstringHash this P → Covered GetstringHash r.2.1 P) := by
  unfold promote at h
  simp only [] at h
  cases h
  refine ⟨rfl, rfl, fun hc => ?_⟩
  refine covered_step GetstringHash this _ P P rfl rfl ?_ (fun _ _ hp => hp) ?_ hc
  · intro h w hw
    exact recordDirect_mono _ _ _ _ _ _ hw
  · intro w hw
    rcases Dictionary.findWord_setWord_isSome _ _ _ _ hw with rfl | hold
    · refine Or.inr (fun k d hk hd => Or.inl ?_)
      exact recordDirect_mem _ _ _ _ d (deletesTo_mem_EditsPrefix _ w k d hk hd)
    · exact Or.inl hold

theorem promote_staged (GetstringHash : List Char → Int) (this : SymSpell) (key : List Char)
    (count : Int) (s : SuggestionStage) (hI : s.Inv)
    (r : Bool × SymSpell × Option SuggestionStage)
    (h : promote GetstringHash this key count (some s) = some r) :
    r.2.1.maxDictionaryEditDistance = this.maxDictionaryEditDistance ∧
      r.2.1.prefixLength = this.prefixLength ∧
      ∃ s2, r.2.2 = some s2 ∧ s2.Inv ∧
        (Covered GetstringHash this s.InStage → Covered GetstringHash r.2.1 s2.InStage) := by
  unfold promote at h
  simp only [] at h
  split at h
  · cases h
  · rename_i s2 hs
    cases h
    obtain ⟨hI2, hkeep, hnew⟩ := recordStaged_spec _ _ _ _ _ hI hs
    refine ⟨rfl, rfl, s2, rfl, hI2, fun hc => ?_⟩
    refine covered_step GetstringHash this _ s.InStage s2.InStage rfl rfl
      (fun _ _ hw => hw) hkeep ?_ hc
    intro w hw
    rcases Dictionary.findWord_setWord_isSome _ _ _ _ hw with rfl | hold
    · refine Or.inr (fun k d hk hd => Or.inr ?_)
      exact hnew d (deletesTo_mem_EditsPrefix _ w k d hk hd)
    · exact Or.inl hold

theorem create_direct (GetstringHash : List Char → Int) (this : SymSpell) (key : List Char)
    (count : Int) (r : Bool × SymSpell × Option SuggestionStage)
    (h : CreateDictionaryEntry GetstringHash this key count none = some r)
    (P : Int → List Char → Prop) :
    r.2.1.maxDictionaryEditDistance = this.maxDictionaryEditDistance ∧
      r.2.1.prefixLength = this.prefixLength ∧
      (Covered GetstringHash this P → Covered GetstringHash r.2.1 P) := by
  unfold CreateDictionaryEntry at h
  split at h
  · rename_i c hc
    cases h
    refine ⟨rfl, rfl, fun hcov => ?_⟩
    refine covered_step GetstringHash this _ P P rfl rfl (fun _ _ hw => hw)
      (fun _ _ hp => hp) ?_ hcov
    intro w hw
    rcases Dictionary.findWord_setWord_isSome _ _ _ _ hw with rfl | hold
    · exact Or.inl (by rw [hc]; rfl)
    · exact Or.inl hold
  · split at h
    · split at h
      · cases h
        refine ⟨rfl, rfl, fun hcov => ?_⟩
        exact covered_step GetstringHash this _ P P rfl rfl (fun _ _ hw => hw)
          (fun _ _ hp => hp) (fun w hw => Or.inl hw) hcov
      · obtain ⟨h1, h2, h3⟩ := promote_direct _ _ _ _ _ h P
        refine ⟨h1, h2, fun hcov => h3 ?_⟩
        exact covered_step GetstringHash this _ P P rfl rfl (fun _ _ hw => hw)
          (fun _ _ hp => hp) (fun w hw => Or.inl hw) hcov
    · split at h
      · cases h
        refine ⟨rfl, rfl, fun hcov => ?_⟩
        exact covered_step GetstringHash this _ P P rfl rfl (fun _ _ hw => hw)
          (fun _ _ hp => hp) (fun w hw => Or.inl hw) hcov
      · exact promote_direct _ _ _ _ _ h P

theorem create_staged (GetstringHash : List Char → Int) (this : SymSpell) (key : List Char)
    (count : Int) (s : SuggestionStage) (hI : s.Inv)
    (r : Bool × SymSpell × Option SuggestionStage)
    (h : CreateDictionaryEntry GetstringHash this key count (some s) = some r) :
    r.2.1.maxDictionaryEditDistance = this.maxDictionaryEditDistance ∧
      r.2.1.prefixLength = this.prefixLength ∧
      ∃ s2, r.2.2 = some s2 ∧ s2.Inv ∧
        (Covered GetstringHash this s.InStage → Covered GetstringHash r.2.1 s2.InStage) := by
  unfold CreateDictionaryEntry at h
  split at h
  · rename_i c hc
    cases h
    refine ⟨rfl, rfl, s, rfl, hI, fun hcov => ?_⟩
    refine covered_step GetstringHash this _ _ _ rfl rfl (fun _ _ hw => hw)
      (fun _ _ hp => hp) ?_ hcov
    intro w hw
    rcases Dictionary.findWord_setWord_isSome _ _ _ _ hw with rfl | hold
    · exact Or.inl (by rw [hc]; rfl)
    · exact Or.inl hold
  · split at h
    · split at h
      · cases h
        refine ⟨rfl, rfl, s, rfl, hI, fun hcov => ?_⟩
        exact covered_step GetstringHash this _ _ _ rfl rfl (fun _ _ hw => hw)
          (fun _ _ hp => hp) (fun w hw => Or.inl hw) hcov
      · obtain ⟨h1, h2, s2, h3, h4, h5⟩ := promote_staged _ _ _ _ s hI _ h
        refine ⟨h1, h2, s2, h3, h4, fun hcov => h5 ?_⟩
        exact covered_step GetstringHash this _ _ _ rfl rfl (fun _ _ hw => hw)
          (fun _ _ hp => hp) (fun w hw => Or.inl hw) hcov
    · split at h
      · cases h
        refine ⟨rfl, rfl, s, rfl, hI, fun hcov => ?_⟩
        exact covered_step GetstringHash this _ _ _ rfl rfl (fun _ _ hw => hw)
          (fun _ _ hp => hp) (fun w hw => Or.inl hw) hcov
      · exact promote_staged _ _ _ _ s hI _ h

/-- A call without a staging buffer returns. -/
theorem create_direct_total (GetstringHash : List Char → Int) (this : SymSpell)
    (key : List Char) (count : Int) :
    (CreateDictionaryEntry GetstringHash this key count none).isSome = true := by
  unfold CreateDictionaryEntry
  split
  · rfl
  · split
    · split
      · rfl
      · rfl
    · split
      · rfl
      · rfl

theorem covered_false_iff (GetstringHash : List Char → Int) (this : SymSpell) :
    Covered GetstringHash this (fun _ _ => False) ↔ IndexInv GetstringHash this := by
  constructor
  · intro h w hw k d hk hd
    rcases h w hw k d hk hd with h | h
    · exact h
    · exact h.elim
  · intro h w hw k d hk hd
    exact Or.inl (h w hw k d hk hd)

theorem committed_cons (clean : Bool) (op : IndexOp) (ops : List IndexOp) :
    committed clean (op :: ops) = committed (committedStep clean op) ops := by
  cases op <;> rfl

theorem step_runInv (GetstringHash : List Char → Int) (fuel : Nat) (a b : Nat)
    (clean : Bool) (st st2 : SymSpell × SuggestionStage) (op : IndexOp)
    (h : step GetstringHash fuel st op = some st2)
    (hinv : RunInv GetstringHash a b clean st) :
    RunInv GetstringHash a b (committedStep clean op) st2 := by
  obtain ⟨this, staging⟩ := st
  obtain ⟨ha, hb, hI, hcov, hclean⟩ := hinv
  simp only [] at ha hb hI hcov hclean
  cases op with
  | create key count =>
    unfold step at h
    simp only [] at h
    split at h
    · cases h
    · rename_i r hr
      cases h
      obtain ⟨h1, h2, h3⟩ := create_direct _ _ _ _ _ hr staging.InStage
      refine ⟨h1.trans ha, h2.trans hb, hI, h3 hcov, fun hc => ?_⟩
      obtain ⟨_, _, h4⟩ := create_direct _ _ _ _ _ hr (fun _ _ => False)
      exact (covered_false_iff _ _).1 (h4 ((covered_false_iff _ _).2 (hclean hc)))
  | createStaged key count =>
    unfold step at h
    simp only [] at h
    split at h
    · cases h
    · rename_i r hr
      cases h
      obtain ⟨h1, h2, s2, h3, h4, h5⟩ := create_staged _ _ _ _ staging hI _ hr
      refine ⟨h1.trans ha, h2.trans hb, ?_, ?_, fun hc => by cases hc⟩
      · show (r.2.2.getD staging).Inv
        rw [h3]; exact h4
      · show Covered GetstringHash r.2.1 (r.2.2.getD staging).InStage
        rw [h3]; exact h5 hcov
  | commit =>
    unfold step at h
    simp only [] at h
    split at h
    · cases h
    · rename_i this2 hr
      cases h
      unfold CommitStaged at hr
      split at hr
      · cases hr
      · rename_i p2 hp
        cases hr
        have hall : IndexInv GetstringHash
            { maxDictionaryEditDistance := this.maxDictionaryEditDistance
              prefixLength := this.prefixLength
              countThreshold := this.countThreshold
              maxDictionaryWordLength := this.maxDictionaryWordLength
              deletes := p2
              words := this.words
              belowThresholdWords := this.belowThresholdWords } := by
          intro w hw k d hk hd
          exact SuggestionStage.commitTo_covers staging hI fuel this.deletes p2 hp _ _
            (hcov w hw k d hk hd)
        exact ⟨ha, hb, hI, fun w hw k d hk hd => Or.inl (hall w hw k d hk hd),
          fun _ => hall⟩
  | purge =>
    unfold step at h
    cases h
    exact ⟨ha, hb, hI, hcov, hclean⟩

theorem run_runInv (GetstringHash : List Char → Int) (fuel : Nat) (a b : Nat) :
    ∀ (ops : List IndexOp) (clean : Bool) (st st2 : SymSpell × SuggestionStage),
      run GetstringHash fuel st ops = some st2 → RunInv GetstringHash a b clean st →
      RunInv GetstringHash a b (committed clean ops) st2 := by
  intro ops
  induction ops with
  | nil =>
    intro clean st st2 h hinv
    unfold run at h
    cases h
    exact hinv
  | cons op rest ih =>
    intro clean st st2 h hinv
    unfold run at h
    split at h
    · cases h
    · rename_i st1 hs
      rw [committed_cons]
      exact ih _ st1 st2 h (step_runInv _ _ _ _ _ _ _ _ hs hinv)

theorem run_direct_total (GetstringHash : List Char → Int) (fuel : Nat) :
    ∀ (ops : List IndexOp) (st : SymSpell × SuggestionStage),
      (∀ op, op ∈ ops → (∃ key count, op = IndexOp.create key count) ∨ op = IndexOp.purge) →
      (run GetstringHash fuel st ops).isSome = true := by
  intro ops
  induction ops with
  | nil => intro st _; rfl
  | cons op rest ih =>
    intro st hops
    obtain ⟨this, staging⟩ := st
    have hrest : ∀ op, op ∈ rest →
        (∃ key count, op = IndexOp.create key count) ∨ op = IndexOp.purge :=
      fun o ho => hops o (List.mem_cons_of_mem _ ho)
    unfold run
    rcases hops op (List.mem_cons_self _ _) with ⟨key, count, rfl⟩ | rfl
    · have ht := create_direct_total GetstringHash this key count
      unfold step
      simp only []
      cases hc : CreateDictionaryEntry GetstringHash this key count none with
      | none => rw [hc] at ht; cases ht
      | some r => exact ih _ hrest
    · unfold step
      exact ih _ hrest

theorem runInv_new (GetstringHash : List Char → Int) (a b : Nat) (countThreshold : Int)
    (staging : SuggestionStage) (hI : staging.Inv) :
    RunInv GetstringHash a b true (SymSpell.new a b countThreshold, staging) := by
  refine ⟨rfl, rfl, hI, ?_, fun _ => ?_⟩
  · intro w hw
    cases hw
  · intro w hw
    cases hw

theorem editsPrefix_congr (this this2 : SymSpell) (key : List Char)
    (h1 : this2.maxDictionaryEditDistance = this.maxDictionaryEditDistance)
    (h2 : this2.prefixLength = this.prefixLength) :
    this2.EditsPrefix key = this.EditsPrefix key := by
  unfold EditsPrefix
  rw [h1, h2]

theorem stagedCost_congr (this this2 : SymSpell)
    (h1 : this2.maxDictionaryEditDistance = this.maxDictionaryEditDistance)
    (h2 : this2.prefixLength = this.prefixLength) :
    ∀ ops, stagedCost this2 ops = stagedCost this ops := by
  intro ops
  induction ops with
  | nil => rfl
  | cons op rest ih =>
    cases op with
    | create key count => unfold stagedCost; exact ih
    | createStaged key count =>
      unfold stagedCost
      rw [ih, editsPrefix_congr this this2 key h1 h2]
    | commit => unfold stagedCost; exact ih
    | purge => unfold stagedCost; exact ih

theorem recordStaged_total (GetstringHash : List Char → Int) (key : List Char) :
    ∀ (ds : List (List Char)) (s : SuggestionStage), s.Inv →
      s.Nodes.Count + (ds.length : Int) ≤ INT_MAX →
      ∃ s2, recordStaged GetstringHash key s ds = some s2 ∧
        s2.Nodes.Count = s.Nodes.Count + (ds.length : Int) := by
  intro ds
  induction ds with
  | nil =>
    intro s _ _
    exact ⟨s, rfl, by simp⟩
  | cons d rest ih =>
    intro s hI hle
    have hlen : ((d :: rest).length : Int) = (rest.length : Int) + 1 := by
      rw [List.length_cons]; push_cast; rfl
    rw [hlen] at hle ⊢
    obtain ⟨s1, hadd, hI1, hc1, _⟩ :=
      SuggestionStage.stageAdd_spec s hI (by omega) (GetstringHash d) key
    obtain ⟨s2, hs2, hc2⟩ := ih s1 hI1 (by omega)
    refine ⟨s2, ?_, by omega⟩
    unfold recordStaged
    rw [hadd]
    exact hs2

theorem promote_staged_total (GetstringHash : List Char → Int) (this : SymSpell)
    (key : List Char) (count : Int) (s : SuggestionStage) (hI : s.Inv)
    (hle : s.Nodes.Count + ((this.EditsPrefix key).length : Int) ≤ INT_MAX) :
    ∃ r s2, promote GetstringHash this key count (some s) = some r ∧ r.2.2 = some s2 ∧
      s2.Nodes.Count ≤ s.Nodes.Count + ((this.EditsPrefix key).length : Int) := by
  obtain ⟨s2, hs2, hc2⟩ :=
    recordStaged_total GetstringHash key (this.EditsPrefix key) s hI hle
  have he : EditsPrefix
      { maxDictionaryEditDistance := this.maxDictionaryEditDistance
        prefixLength := this.prefixLength
        countThreshold := this.countThreshold
        maxDictionaryWordLength := max this.maxDictionaryWordLength key.length
        deletes := this.deletes
        words := Dictionary.setWord this.words key count
        belowThresholdWords := this.belowThresholdWords } key = this.EditsPrefix key := rfl
  unfold promote
  simp only []
  rw [he, hs2]
  exact ⟨_, s2, rfl, rfl, le_of_eq hc2⟩

theorem create_staged_total (GetstringHash : List Char → Int) (this : SymSpell)
    (key : List Char) (count : Int) (s : SuggestionStage) (hI : s.Inv)
    (hle : s.Nodes.Count + ((this.EditsPrefix key).length : Int) ≤ INT_MAX) :
    ∃ r s2, CreateDictionaryEntry GetstringHash this key count (some s) = some r ∧
      r.2.2 = some s2 ∧
      s2.Nodes.Count ≤ s.Nodes.Count + ((this.EditsPrefix key).length : Int) := by
  have hnn : (0 : Int) ≤ ((this.EditsPrefix key).length : Int) := Int.natCast_nonneg _
  unfold CreateDictionaryEntry
  split
  · exact ⟨_, s, rfl, rfl, by omega⟩
  · split
    · split
      · exact ⟨_, s, rfl, rfl, by omega⟩
      · exact promote_staged_total GetstringHash _ key _ s hI hle
    · split
      · exact ⟨_, s, rfl, rfl, by omega⟩
      · exact promote_staged_total GetstringHash _ key _ s hI hle

theorem step_total (GetstringHash : List Char → Int) (fuel : Nat) (a b : Nat)
    (clean : Bool) (st : SymSpell × SuggestionStage) (op : IndexOp)
    (hinv : RunInv GetstringHash a b clean st)
    (hle : st.2.Nodes.Count + (stagedCost st.1 [op] : Int) ≤ INT_MAX)
    (hf : st.2.Nodes.Count < (fuel : Int)) :
    ∃ st2, step GetstringHash fuel st op = some st2 ∧
      st2.2.Nodes.Count ≤ st.2.Nodes.Count + (stagedCost st.1 [op] : Int) := by
  obtain ⟨this, staging⟩ := st
  obtain ⟨ha, hb, hI, hcov, hclean⟩ := hinv
  simp only [] at ha hb hI hcov hclean hle hf ⊢
  cases op with
  | create key count =>
    have ht := create_direct_total GetstringHash this key count
    unfold step
    simp only []
    cases hc : CreateDictionaryEntry GetstringHash this key count none with
    | none => rw [hc] at ht; cases ht
    | some r => exact ⟨_, rfl, by simp [stagedCost]⟩
  | createStaged key count =>
    have hcost : (stagedCost this [IndexOp.createStaged key count] : Int) =
        ((this.EditsPrefix key).length : Int) := by
      simp [stagedCost]
    rw [hcost] at hle ⊢
    obtain ⟨r, s2, hr, hs2, hc2⟩ :=
      create_staged_total GetstringHash this key count staging hI hle
    unfold step
    simp only []
    rw [hr]
    refine ⟨_, rfl, ?_⟩
    show (r.2.2.getD staging).Nodes.Count ≤ _
    rw [hs2]
    exact hc2
  | commit =>
    obtain ⟨p2, hp2, _⟩ := SuggestionStage.commitTo_spec staging hI fuel hf this.deletes
    unfold step
    simp only []
    unfold CommitStaged
    rw [hp2]
    exact ⟨_, rfl, by simp [stagedCost]⟩
  | purge =>
    unfold step
    exact ⟨_, rfl, by simp [stagedCost]⟩

theorem stagedCost_cons (this : SymSpell) (op : IndexOp) (ops : List IndexOp) :
    stagedCost this (op :: ops) = stagedCost this [op] + stagedCost this ops := by
  cases op <;> simp [stagedCost]

theorem run_total (GetstringHash : List Char → Int) (fuel : Nat) (a b : Nat) :
    ∀ (ops : List IndexOp) (clean : Bool) (st : SymSpell × SuggestionStage),
      RunInv GetstringHash a b clean st →
      st.2.Nodes.Count + (stagedCost st.1 ops : Int) ≤ INT_MAX →
      st.2.Nodes.Count + (stagedCost st.1 ops : Int) < (fuel : Int) →
      (run GetstringHash fuel st ops).isSome = true := by
  intro ops
  induction ops with
  | nil => intro clean st _ _ _; rfl
  | cons op rest ih =>
    intro clean st hinv hle hf
    rw [stagedCost_cons] at hle hf
    push_cast at hle hf
    have h0 : (0 : Int) ≤ (stagedCost st.1 rest : Int) := Int.natCast_nonneg _
    have h1 : (0 : Int) ≤ (stagedCost st.1 [op] : Int) := Int.natCast_nonneg _
    obtain ⟨st2, hs, hc⟩ :=
      step_total GetstringHash fuel a b clean st op hinv (by omega) (by omega)
    have hinv2 := step_runInv GetstringHash fuel a b clean st st2 op hs hinv
    have hcost : stagedCost st2.1 rest = stagedCost st.1 rest :=
      stagedCost_congr st.1 st2.1 (hinv2.1.trans hinv.1.symm)
        (hinv2.2.1.trans hinv.2.1.symm) rest
    unfold run
    rw [hs]
    exact ih _ st2 hinv2 (by rw [hcost]; omega) (by rw [hcost]; omega)

end SymSpell

/-- C28: the index invariant, for the index builder modelled from §4.E of the
specification with `GetstringHash` as an argument. Take an instance constructed with
`maxDictionaryEditDistance` and `prefixLength`, a well-formed staging buffer, and any
sequence `ops` of mutating calls (`CreateDictionaryEntry` without and with the staging
buffer, `CommitStaged`, `PurgeBelowThresholdWords`). The calls return when the staging
buffer has room for the staged deletes and `fuel` exceeds its node count. After calls that
return and leave no staged entry without a `CommitStaged`, the configuration is unchanged
and for every word `w` of `words` and every string `d` obtained from the first
`min(|w|, prefixLength)` characters of `w` by `k ≤ maxDictionaryEditDistance`
single-character deletions, the list `deletes[GetstringHash(d)]` contains `w`. -/
theorem symSpell_index_invariant (GetstringHash : List Char → Int) (fuel : Nat)
    (maxDictionaryEditDistance prefixLength : Nat) (countThreshold : Int)
    (staging : SuggestionStage) (hstaging : staging.Inv) (ops : List IndexOp) :
    (staging.Nodes.Count +
        (SymSpell.stagedCost
          (SymSpell.new maxDictionaryEditDistance prefixLength countThreshold) ops : Int) ≤
          INT_MAX →
      staging.Nodes.Count +
        (SymSpell.stagedCost
          (SymSpell.new maxDictionaryEditDistance prefixLength countThreshold) ops : Int) <
          (fuel : Int) →
      (SymSpell.run GetstringHash fuel
        (SymSpell.new maxDictionaryEditDistance prefixLength countThreshold, staging)
        ops).isSome = true) ∧
    ∀ st,
      SymSpell.run GetstringHash fuel
        (SymSpell.new maxDictionaryEditDistance prefixLength countThreshold, staging)
        ops = some st →
      SymSpell.committed true ops = true →
      st.1.maxDictionaryEditDistance = maxDictionaryEditDistance ∧
      st.1.prefixLength = prefixLength ∧
      ∀ w c, Dictionary.findWord st.1.words w = some c →
        ∀ k d, k ≤ maxDictionaryEditDistance →
          SymSpell.DeletesTo (w.take (min w.length prefixLength)) k d →
          w ∈ (Dictionary.find st.1.deletes (GetstringHash d)).getD [] := by
  have h0 := SymSpell.runInv_new GetstringHash maxDictionaryEditDistance prefixLength
    countThreshold staging hstaging
  refine ⟨fun hle hf => SymSpell.run_total GetstringHash fuel _ _ ops true _ h0 hle hf,
    fun st hrun hc => ?_⟩
  obtain ⟨ha, hb, _, _, hinv⟩ :=
    SymSpell.run_runInv GetstringHash fuel _ _ ops true _ st hrun h0
  refine ⟨ha, hb, fun w c hw k d hk hd => ?_⟩
  have hi := hinv hc
  exact hi w (by rw [hw]; rfl) k d (by rw [ha]; exact hk) (by rw [hb]; exact hd)

theorem symSpell_index_invariant_witness :
    SuggestionStage.Inv { Deletes := [], Nodes := ChunkArray.new } ∧
    SymSpell.committed true
      [IndexOp.createStaged ['a', 'b'] 1, IndexOp.create ['b'] 1, IndexOp.commit] = true ∧
    (SymSpell.run (fun s => (s.length : Int)) 10
      (SymSpell.new 1 7 1, { Deletes := [], Nodes := ChunkArray.new })
      [IndexOp.createStaged ['a', 'b'] 1, IndexOp.create ['b'] 1,
        IndexOp.commit]).isSome = true ∧
    ∀ st,
      SymSpell.run (fun s => (s.length : Int)) 10
        (SymSpell.new 1 7 1, { Deletes := [], Nodes := ChunkArray.new })
        [IndexOp.createStaged ['a', 'b'] 1, IndexOp.create ['b'] 1, IndexOp.commit] =
          some st →
      st.1.maxDictionaryEditDistance = 1 ∧ st.1.prefixLength = 7 ∧
      ∀ w c, Dictionary.findWord st.1.words w = some c →
        ∀ k d, k ≤ 1 → SymSpell.DeletesTo (w.take (min w.length 7)) k d →
          w ∈ (Dictionary.find st.1.deletes ((fun s => (s.length : Int)) d)).getD [] :=
  ⟨SuggestionStage.inv_empty _ ChunkArray.inv_new rfl, rfl,
    (symSpell_index_invariant (fun s => (s.length : Int)) 10 1 7 1
      { Deletes := [], Nodes := ChunkArray.new }
      (SuggestionStage.inv_empty _ ChunkArray.inv_new rfl)
      [IndexOp.createStaged ['a', 'b'] 1, IndexOp.create ['b'] 1, IndexOp.commit]).1
      (by decide) (by decide),
    fun st hrun =>
      (symSpell_index_invariant (fun s => (s.length : Int)) 10 1 7 1
        { Deletes := [], Nodes := ChunkArray.new }
        (SuggestionStage.inv_empty _ ChunkArray.inv_new rfl)
        [IndexOp.createStaged ['a', 'b'] 1, IndexOp.create ['b'] 1, IndexOp.commit]).2
        st hrun rfl⟩

theorem xstringCompare_eq_zero_iff (a b : List Char) : xstringCompare a b = 0 ↔ a = b := by
  induction a generalizing b with
  | nil =>
    cases b with
    | nil => simp [xstringCompare]
    | cons y ys => simp [xstringCompare]
  | cons x xs ih =>
    cases b with
    | nil => simp [xstringCompare]
    | cons y ys =>
      simp only [xstringCompare]
      by_cases h1 : x < y
      · rw [if_pos h1]
        constructor
        · intro h; exact absurd h (by decide)
        · intro h
          injection h with h2 _
          exact absurd h1 (by rw [h2]; exact lt_irrefl _)
      · rw [if_neg h1]
        by_cases h2 : y < x
        · rw [if_pos h2]
          constructor
          · intro h; exact absurd h (by decide)
          · intro h
            injection h with h3 _
            exact absurd h2 (by rw [h3]; exact lt_irrefl _)
        · rw [if_neg h2]
          have hxy : x = y := le_antisymm (not_lt.1 h2) (not_lt.1 h1)
          subst hxy
          rw [ih ys]
          constructor
          · intro h; rw [h]
          · intro h; injection h

theorem compareTo_eq_zero_iff (x y : SuggestItem) :
    x.CompareTo y = 0 ↔
      (x.distance = y.distance ∧ x.count = y.count ∧ x.term = y.term) := by
  unfold SuggestItem.CompareTo Helpers.CompareTo
  simp only []
  by_cases h1 : x.distance = y.distance
  · rw [if_pos h1, if_neg (by simp)]
    by_cases h2 : y.count = x.count
    · rw [if_pos h2, if_neg (by simp), xstringCompare_eq_zero_iff]
      exact ⟨fun h => ⟨h1, h2.symm, h⟩, fun h => h.2.2⟩
    · rw [if_neg h2]
      by_cases h3 : y.count > x.count
      · rw [if_pos h3, if_pos (by decide)]
        exact ⟨fun h => absurd h (by decide), fun h => absurd h.2.1.symm h2⟩
      · rw [if_neg h3, if_pos (by decide)]
        exact ⟨fun h => absurd h (by decide), fun h => absurd h.2.1.symm h2⟩
  · rw [if_neg h1]
    by_cases h2 : x.distance > y.distance
    · rw [if_pos h2, if_pos (by decide)]
      exact ⟨fun h => absurd h (by decide), fun h => absurd h.1 h1⟩
    · rw [if_neg h2, if_pos (by decide)]
      exact ⟨fun h => absurd h (by decide), fun h => absurd h.1 h1⟩

theorem equals_iff (x y : SuggestItem) :
    x.Equals y = true ↔
      (x.distance = y.distance ∧ x.count = y.count ∧ x.term = y.term) := by
  unfold SuggestItem.Equals
  simp only [Bool.and_eq_true, beq_iff_eq]
  constructor
  · rintro ⟨⟨h1, h2⟩, h3⟩; exact ⟨h2, h3, h1⟩
  · rintro ⟨h1, h2, h3⟩; exact ⟨⟨h3, h1⟩, h2⟩

theorem compare_iff_lt (x y : SuggestItem) :
    SuggestItem.compare x y = true ↔ x.CompareTo y < 0 := by
  unfold SuggestItem.compare
  by_cases h : x.CompareTo y < 0
  · rw [if_pos h]; exact ⟨fun _ => h, fun _ => rfl⟩
  · rw [if_neg h]; exact ⟨fun c => (by cases c), fun c => absurd c h⟩

theorem lex_iff_lt (a b : List Char) : List.Lex (fun c d => c < d) a b ↔ a < b := Iff.rfl

/-- C40: `SuggestItem::compare` is a strict total order that is consistent with `Equals`:
`compare(x, x)` is false, `compare(x, y)` and `compare(y, z)` imply `compare(x, z)`,
exactly one of `compare(x, y)`, `compare(y, x)`, `Equals(x, y)` holds, and
`x.CompareTo(y) = 0` if and only if `Equals(x, y)`; `Equals(x, y)` holds exactly for items
with the same three fields. -/
theorem suggestItem_compare_strict_total_order (x y z : SuggestItem) :
    SuggestItem.compare x x = false ∧
    (SuggestItem.compare x y = true → SuggestItem.compare y z = true →
      SuggestItem.compare x z = true) ∧
    ((SuggestItem.compare x y = true ∧ SuggestItem.compare y x = false ∧
        x.Equals y = false) ∨
      (SuggestItem.compare x y = false ∧ SuggestItem.compare y x = true ∧
        x.Equals y = false) ∨
      (SuggestItem.compare x y = false ∧ SuggestItem.compare y x = false ∧
        x.Equals y = true)) ∧
    (x.CompareTo y = 0 ↔ x.Equals y = true) ∧
    (x.Equals y = true ↔ x = y) := by
  have hxx : ¬ SuggestItem.compare x x = true := by
    rw [compare_iff_lt, compareTo_neg_iff, lex_iff_lt]
    rintro (h | h | h)
    · omega
    · omega
    · exact lt_irrefl _ h.2.2
  have hxy := compare_iff_lt x y
  have hyx := compare_iff_lt y x
  rw [compareTo_neg_iff, lex_iff_lt] at hxy hyx
  have heq := equals_iff x y
  refine ⟨by simpa using hxx, ?_, ?_, ?_, ?_⟩
  · have hyz := compare_iff_lt y z
    have hxz := compare_iff_lt x z
    rw [compareTo_neg_iff, lex_iff_lt] at hyz hxz
    intro h1 h2
    rw [hxz]
    rcases hxy.1 h1 with a | a | a <;> rcases hyz.1 h2 with b | b | b
    · exact Or.inl (by omega)
    · exact Or.inl (by omega)
    · exact Or.inl (by omega)
    · exact Or.inl (by omega)
    · exact Or.inr (Or.inl ⟨by omega, by omega⟩)
    · exact Or.inr (Or.inl ⟨by omega, by omega⟩)
    · exact Or.inl (by omega)
    · exact Or.inr (Or.inl ⟨by omega, by omega⟩)
    · exact Or.inr (Or.inr ⟨by omega, by omega, lt_trans a.2.2 b.2.2⟩)
  · have e1 : ∀ b : Bool, ¬ b = true → b = false := fun b h => by
      cases b
      · rfl
      · exact absurd rfl h
    rcases lt_trichotomy x.distance y.distance with hd | hd | hd
    · refine Or.inl ⟨hxy.2 (Or.inl hd), e1 _ ?_, e1 _ ?_⟩
      · rw [hyx]; rintro (h | h | h) <;> omega
      · rw [heq]; rintro ⟨h, _⟩; omega
    · rcases lt_trichotomy x.count y.count with hc | hc | hc
      · refine Or.inr (Or.inl ⟨e1 _ ?_, hyx.2 (Or.inr (Or.inl ⟨hd.symm, hc⟩)), e1 _ ?_⟩)
        · rw [hxy]; rintro (h | h | h) <;> omega
        · rw [heq]; rintro ⟨_, h, _⟩; omega
      · rcases lt_trichotomy x.term y.term with ht | ht | ht
        · refine Or.inl ⟨hxy.2 (Or.inr (Or.inr ⟨hd, hc, ht⟩)), e1 _ ?_, e1 _ ?_⟩
          · rw [hyx]
            rintro (h | h | h)
            · omega
            · omega
            · exact lt_asymm ht h.2.2
          · rw [heq]; rintro ⟨_, _, h⟩; exact absurd ht (by rw [h]; exact lt_irrefl _)
        · refine Or.inr (Or.inr ⟨e1 _ ?_, e1 _ ?_, heq.2 ⟨hd, hc, ht⟩⟩)
          · rw [hxy]
            rintro (h | h | h)
            · omega
            · omega
            · exact absurd h.2.2 (by rw [ht]; exact lt_irrefl _)
          · rw [hyx]
            rintro (h | h | h)
            · omega
            · omega
            · exact absurd h.2.2 (by rw [ht]; exact lt_irrefl _)
        · refine Or.inr (Or.inl ⟨e1 _ ?_, hyx.2 (Or.inr (Or.inr ⟨hd.symm, hc.symm, ht⟩)),
            e1 _ ?_⟩)
          · rw [hxy]
            rintro (h | h | h)
            · omega
            · omega
            · exact lt_asymm ht h.2.2
          · rw [heq]; rintro ⟨_, _, h⟩; exact absurd ht (by rw [h]; exact lt_irrefl _)
      · refine Or.inl ⟨hxy.2 (Or.inr (Or.inl ⟨hd, hc⟩)), e1 _ ?_, e1 _ ?_⟩
        · rw [hyx]; rintro (h | h | h) <;> omega
        · rw [heq]; rintro ⟨_, h, _⟩; omega
    · refine Or.inr (Or.inl ⟨e1 _ ?_, hyx.2 (Or.inl hd), e1 _ ?_⟩)
      · rw [hxy]; rintro (h | h | h) <;> omega
      · rw [heq]; rintro ⟨h, _⟩; omega
  · rw [compareTo_eq_zero_iff, heq]
  · rw [heq]
    constructor
    · rintro ⟨h1, h2, h3⟩
      cases x; cases y
      simp only at h1 h2 h3
      subst h1 h2 h3
      rfl
    · intro h; subst h; exact ⟨rfl, rfl, rfl⟩

theorem find_if_not (p : Char → Bool) (s : List Char) :
    find_if (fun ch => !p ch) s = (s.takeWhile p).length := by
  induction s with
  | nil => rfl
  | cons c cs ih =>
    unfold find_if
    cases h : p c
    · simp [List.takeWhile, h]
    · simp [List.takeWhile, h, ih]

theorem drop_length_takeWhile (p : Char → Bool) (s : List Char) :
    s.drop (s.takeWhile p).length = s.dropWhile p := by
  induction s with
  | nil => rfl
  | cons c cs ih =>
    cases h : p c
    · simp [List.takeWhile, List.dropWhile, h]
    · simp [List.takeWhile, List.dropWhile, h, ih]

theorem ltrim_eq (p : Char → Bool) (s : List Char) : ltrim p s = s.dropWhile p := by
  unfold ltrim xstringErase
  rw [find_if_not, drop_length_takeWhile]
  rfl

theorem rtrim_eq (p : Char → Bool) (s : List Char) : rtrim p s = s.rdropWhile p := by
  unfold rtrim xstringErase List.rdropWhile
  rw [find_if_not, List.drop_length, List.append_nil, ← drop_length_takeWhile,
    List.reverse_drop, List.reverse_reverse, List.length_reverse]

theorem ltrim_parts (p : Char → Bool) (s : List Char) :
    ∃ pre, s = pre ++ ltrim p s ∧ (∀ c ∈ pre, p c = true) ∧
      ∀ c, (ltrim p s).head? = some c → p c = false := by
  rw [ltrim_eq]
  refine ⟨s.takeWhile p, (List.takeWhile_append_dropWhile p s).symm,
    fun c hc => List.mem_takeWhile_imp hc, ?_⟩
  intro c hc
  have := List.head?_dropWhile_not p s
  rw [hc] at this
  simpa using this

theorem rtrim_parts (p : Char → Bool) (s : List Char) :
    ∃ suf, s = rtrim p s ++ suf ∧ (∀ c ∈ suf, p c = true) ∧
      ∀ c, (rtrim p s).getLast? = some c → p c = false := by
  rw [rtrim_eq]
  refine ⟨s.rtakeWhile p, ?_, ?_, ?_⟩
  · unfold List.rdropWhile List.rtakeWhile
    rw [← List.reverse_append, List.takeWhile_append_dropWhile, List.reverse_reverse]
  · intro c hc
    unfold List.rtakeWhile at hc
    rw [List.mem_reverse] at hc
    exact List.mem_takeWhile_imp hc
  · intro c hc
    have hne : List.rdropWhile p s ≠ [] := by
      intro h
      rw [h] at hc
      cases hc
    have := List.rdropWhile_last_not p s hne
    rw [List.getLast?_eq_getLast_of_ne_nil hne] at hc
    injection hc with hc
    rw [hc] at this
    simpa using this

theorem trim_eq (p : Char → Bool) (s : List Char) :
    trim p s = (s.dropWhile p).rdropWhile p := by
  unfold trim
  rw [ltrim_eq, rtrim_eq]

theorem head?_rdropWhile_dropWhile (p : Char → Bool) (s : List Char) (c : Char)
    (h : ((s.dropWhile p).rdropWhile p).head? = some c) : p c = false := by
  have hpre : (s.dropWhile p).rdropWhile p <+: s.dropWhile p := List.rdropWhile_prefix p _
  obtain ⟨t, ht⟩ := hpre
  have h2 : (s.dropWhile p).head? = some c := by
    rw [← ht]
    cases hr : (s.dropWhile p).rdropWhile p with
    | nil => rw [hr] at h; cases h
    | cons a as =>
      rw [hr] at h
      simpa using h
  have := List.head?_dropWhile_not p s
  rw [h2] at this
  simpa using this

theorem head?_eq_get_zero (l : List Char) (hl : 0 < l.length) :
    l.head? = some (l.get ⟨0, hl⟩) := by
  cases l with
  | nil => cases hl
  | cons a as => rfl

/-- C33: for every string `s` (and every predicate `isxspace`), `ltrim` removes a leading
run of whitespace and leaves a string that does not begin with whitespace, `rtrim`
removes a trailing run of whitespace and leaves a string that does not end with
whitespace, `trim` leaves the part of `s` between a leading and a trailing run of
whitespace, which neither begins nor ends with whitespace and is empty exactly when `s`
has only whitespace, and `trim` changes nothing in a string that `trim` has left. -/
theorem trim_contract (isxspace : Char → Bool) (s : List Char) :
    (∃ pre, s = pre ++ ltrim isxspace s ∧ (∀ c ∈ pre, isxspace c = true) ∧
      ∀ c, (ltrim isxspace s).head? = some c → isxspace c = false) ∧
    (∃ suf, s = rtrim isxspace s ++ suf ∧ (∀ c ∈ suf, isxspace c = true) ∧
      ∀ c, (rtrim isxspace s).getLast? = some c → isxspace c = false) ∧
    (∃ pre suf, s = pre ++ trim isxspace s ++ suf ∧ (∀ c ∈ pre, isxspace c = true) ∧
      (∀ c ∈ suf, isxspace c = true) ∧
      (∀ c, (trim isxspace s).head? = some c → isxspace c = false) ∧
      (∀ c, (trim isxspace s).getLast? = some c → isxspace c = false)) ∧
    (trim isxspace s = [] ↔ ∀ c ∈ s, isxspace c = true) ∧
    trim isxspace (trim isxspace s) = trim isxspace s := by
  refine ⟨ltrim_parts isxspace s, rtrim_parts isxspace s, ?_, ?_, ?_⟩
  · obtain ⟨pre, h1, h2, _⟩ := ltrim_parts isxspace s
    obtain ⟨suf, h3, h4, h5⟩ := rtrim_parts isxspace (ltrim isxspace s)
    refine ⟨pre, suf, ?_, h2, h4, ?_, h5⟩
    · rw [List.append_assoc]
      unfold trim
      rw [← h3]
      exact h1
    · intro c hc
      rw [trim_eq] at hc
      exact head?_rdropWhile_dropWhile isxspace s c hc
  · rw [trim_eq, List.rdropWhile_eq_nil_iff]
    constructor
    · intro h c hc
      rw [← List.takeWhile_append_dropWhile isxspace s] at hc
      rcases List.mem_append.1 hc with h1 | h1
      · exact List.mem_takeWhile_imp h1
      · exact h c h1
    · intro h c hc
      exact h c ((List.dropWhile_suffix isxspace).subset hc)
  · have hhead : ∀ c, (trim isxspace s).head? = some c → isxspace c = false := by
      intro c hc
      rw [trim_eq] at hc
      exact head?_rdropWhile_dropWhile isxspace s c hc
    have hfix : ltrim isxspace (trim isxspace s) = trim isxspace s := by
      rw [ltrim_eq, List.dropWhile_eq_self_iff]
      intro hl
      have := hhead _ (head?_eq_get_zero _ hl)
      simpa using this
    show rtrim isxspace (ltrim isxspace (trim isxspace s)) = trim isxspace s
    rw [hfix]
    unfold trim
    rw [rtrim_eq, rtrim_eq, List.rdropWhile_idempotent]

/-- C34: the row initialisation of the `Levenshtein` cores. On every vector the loop
`for (j = 0; j < n;) char1Costs[j] = ++j;` leaves element `0` as it was and stores `n` in
element `n` when the vector has one. On the vector of the instance `Levenshtein(3)` and
`len2 = 2` (as for `Distance("ab", "cd")`) the row of the core without a bound is
`{0, 1, 2}` and that of the core with the bound `1` is `{0, 2, 0}`, while the loops of the
`DamerauOSA` cores make `{1, 2, 0}` in both cases. -/
theorem levenshtein_row_init :
    (∀ (n : Nat) (c c1 : List Int), Levenshtein.initLoop n c = some c1 → rd c1 0 = rd c 0) ∧
    (∀ (n : Nat) (c : List Int), 0 < n → n < c.length →
      ∃ c1, Levenshtein.initLoop n c = some c1 ∧ rd c1 n = (n : Int)) ∧
    Levenshtein.newExpected 3 = Except.ok { baseChar1Costs := [0, 0, 0] } ∧
    Helpers.PrefixSuffixPrep ['a', 'b'] ['c', 'd'] = (2, 2, 0) ∧
    (Levenshtein.grow { baseChar1Costs := [0, 0, 0] } 2).baseChar1Costs = [0, 0, 0] ∧
    Levenshtein.initLoop 2 [0, 0, 0] = some [0, 1, 2] ∧
    forLoop (fun j c => c.set j ((j : Int) + 1)) 2 0 ([0, 0, 0] : List Int) = [1, 2, 0] ∧
    (Levenshtein.initLoop (1 : Int).toNat [0, 0, 0]).map
      (fun c => forLoop (fun j c => c.set j ((1 : Int) + 1)) (2 - (1 : Int).toNat)
        (1 : Int).toNat c) = some [0, 2, 0] ∧
    forLoop (fun j c => c.set j ((1 : Int) + 1)) (2 - (1 : Int).toNat) (1 : Int).toNat
      (forLoop (fun j c => c.set j ((j : Int) + 1)) (1 : Int).toNat 0
        ([0, 0, 0] : List Int)) = [1, 2, 0] := by
  refine ⟨?_, ?_, rfl, by decide, by decide, by decide, by decide, by decide, by decide⟩
  · intro n c c1 h
    rw [(Levenshtein.initLoop_spec n c c1 h).2.2 0, if_neg (by omega)]
  · intro n c h0 hn
    obtain ⟨c1, h⟩ := Levenshtein.initLoop_some n c (Or.inl hn)
    refine ⟨c1, h, ?_⟩
    rw [(Levenshtein.initLoop_spec n c c1 h).2.2 n, if_pos ⟨by omega, le_refl _, hn⟩]

/-- C35: index safety fails in `Levenshtein`. The call `Distance("a", "b", 5)` on the
instance made by `Levenshtein()` runs the core without a bound with `len2 = 1` on a vector
of one element, and the loop `for (j = 0; j < len2;) char1Costs[j] = ++j;` writes element
`1` of it: the call returns no value. In general the loop writes outside the vector
exactly when the vector has at most `len2 > 0` elements, which is the case on every call
that makes a new vector. -/
theorem levenshtein_init_out_of_range :
    Helpers.PrefixSuffixPrep ['a'] ['b'] = (1, 1, 0) ∧
    ¬ ((5 : Int) < ((1 : Nat) : Int)) ∧
    (Levenshtein.new.grow 1).baseChar1Costs = [0] ∧
    Levenshtein.initLoop 1 [0] = none ∧
    Levenshtein.DistanceCore ['a'] ['b'] 1 1 0 [0] = none ∧
    Levenshtein.new.DistanceMax ['a'] ['b'] 5 = none ∧
    (∀ (n : Nat) (c : List Int),
      Levenshtein.initLoop n c = none ↔ (0 < n ∧ c.length ≤ n)) ∧
    (∀ (this : Levenshtein) (len2 : Nat), 0 < len2 → this.baseChar1Costs.length < len2 →
      Levenshtein.initLoop len2 (this.grow len2).baseChar1Costs = none) := by
  refine ⟨by decide, by decide, by decide, rfl, rfl, rfl, Levenshtein.initLoop_none, ?_⟩
  intro this len2 h0 hlt
  rw [Levenshtein.initLoop_none]
  refine ⟨h0, ?_⟩
  unfold Levenshtein.grow
  rw [if_neg (by omega)]
  show (List.replicate len2 (0 : Int)).length ≤ len2
  rw [List.length_replicate]

/-- C36: on the instance made by `Levenshtein(3)`, `Levenshtein::Distance("a", "bb")`
returns `1`, while `DamerauOSA::Distance("a", "bb")` returns `2`, the distance of the two
strings, in which no two characters are exchanged. -/
theorem levenshtein_below_damerau :
    Levenshtein.newExpected 3 = Except.ok { baseChar1Costs := [0, 0, 0] } ∧
    (Levenshtein.Distance { baseChar1Costs := [0, 0, 0] } ['a'] ['b', 'b']).map Prod.fst =
      some 1 ∧
    (DamerauOSA.new.Distance ['a'] ['b', 'b']).1 = 2 ∧
    osaDistance ['a'] ['b', 'b'] = 2 ∧
    levDistance ['a'] ['b', 'b'] = 2 := by
  refine ⟨rfl, by decide, by decide, ?_, ?_⟩
  · simp [osaDistance, osaTable, charAt]
  · simp [levDistance, levTable, charAt]

theorem band_step (len2 : Nat) (M lenDiff : Int) (i jStart : Nat) (jEnd : Int)
    (hjs : (jStart : Int) = max 0 ((i : Int) - 1 - (M - lenDiff)))
    (hje : jEnd = min (len2 : Int) (M + (i : Int))) :
    jStart + (if (i : Int) > M - lenDiff then 1 else 0) = bandStart M lenDiff i ∧
    jEnd + (if jEnd < (len2 : Int) then 1 else 0) = bandEnd len2 M i := by
  unfold bandStart bandEnd
  constructor
  · split_ifs with h
    · have : max 0 ((i : Int) - (M - lenDiff)) = (i : Int) - (M - lenDiff) := max_eq_right (by omega)
      rw [this]
      have : max 0 ((i : Int) - 1 - (M - lenDiff)) = (i : Int) - 1 - (M - lenDiff) :=
        max_eq_right (by omega)
      omega
    · have : max 0 ((i : Int) - (M - lenDiff)) = 0 := max_eq_left (by omega)
      rw [this]
      have : max 0 ((i : Int) - 1 - (M - lenDiff)) = 0 := max_eq_left (by omega)
      omega
  · rw [hje]
    rcases le_total (len2 : Int) (M + (i : Int)) with h | h
    · rw [min_eq_left h, if_neg (by omega), min_eq_left (by omega)]
      omega
    · rw [min_eq_right h]
      by_cases h3 : M + (i : Int) < (len2 : Int)
      · rw [if_pos h3, min_eq_right (by omega)]
        omega
      · rw [if_neg h3, min_eq_left (by omega)]
        omega

theorem band_facts (len1 len2 : Nat) (M : Int) (h12 : len1 ≤ len2)
    (h1 : (len2 : Int) - (len1 : Int) ≤ M) (i : Nat) (hi : i < len1) :
    (bandStart M ((len2 : Int) - (len1 : Int)) i : Int) =
      max 0 ((i : Int) - (M - ((len2 : Int) - (len1 : Int)))) ∧
    bandEnd len2 M i - (bandStart M ((len2 : Int) - (len1 : Int)) i : Int) ≤ 2 * M + 1 ∧
    (bandStart M ((len2 : Int) - (len1 : Int)) i : Int) ≤
      (i : Int) + ((len2 : Int) - (len1 : Int)) ∧
    (i : Int) + ((len2 : Int) - (len1 : Int)) < bandEnd len2 M i := by
  unfold bandStart bandEnd
  have hs : ((max 0 ((i : Int) - (M - ((len2 : Int) - (len1 : Int))))).toNat : Int) =
      max 0 ((i : Int) - (M - ((len2 : Int) - (len1 : Int)))) :=
    Int.toNat_of_nonneg (le_max_left _ _)
  rw [hs]
  refine ⟨rfl, ?_, ?_, ?_⟩
  · rcases le_total 0 ((i : Int) - (M - ((len2 : Int) - (len1 : Int)))) with h | h
    · rw [max_eq_right h]
      have := min_le_right (len2 : Int) ((i : Int) + M + 1)
      omega
    · rw [max_eq_left h]
      have := min_le_right (len2 : Int) ((i : Int) + M + 1)
      omega
  · rcases le_total 0 ((i : Int) - (M - ((len2 : Int) - (len1 : Int)))) with h | h
    · rw [max_eq_right h]; omega
    · rw [max_eq_left h]; omega
  · rw [lt_min_iff]
    constructor <;> omega

namespace DamerauOSA

theorem rowsMax_eq_rowsBand (string1 string2 : List Char) (len2 start : Nat)
    (M lenDiff : Int) :
    ∀ (n i jStart : Nat) (jEnd : Int) (o : Outer),
      (jStart : Int) = max 0 ((i : Int) - 1 - (M - lenDiff)) →
      jEnd = min (len2 : Int) (M + (i : Int)) →
      rowsMax string1 string2 len2 start M lenDiff (M - lenDiff) n i jStart jEnd o =
        rowsBand string1 string2 len2 start M lenDiff n i o := by
  intro n
  induction n with
  | zero => intro i jStart jEnd o _ _; rfl
  | succ n ih =>
    intro i jStart jEnd o hjs hje
    obtain ⟨e1, e2⟩ := band_step len2 M lenDiff i jStart jEnd hjs hje
    unfold rowsMax rowsBand
    simp only []
    rw [e1, e2]
    split_ifs with h
    · rfl
    · apply ih
      · unfold bandStart
        rw [Int.toNat_of_nonneg (le_max_left _ _)]
        congr 1
        push_cast
        omega
      · unfold bandEnd
        congr 1
        push_cast
        omega

theorem row_frame (string1 string2 : List Char) (start i jS count : Nat) (o : Outer) :
    (row string1 string2 start i jS count o).char1Costs.length = o.char1Costs.length ∧
    ∀ t, (t < jS ∨ jS + count ≤ t) →
      rd (row string1 string2 start i jS count o).char1Costs t = rd o.char1Costs t := by
  have key := forLoop_inv
    (innerBody string2 start i (charAt string1 (start + i)) o.char1)
    (fun j v => v.char1Costs.length = o.char1Costs.length ∧
      ∀ t, (t < jS ∨ j ≤ t) → rd v.char1Costs t = rd o.char1Costs t)
    count jS
    { char1Costs := o.char1Costs
      prevChar1Costs := o.prevChar1Costs
      currentCost := o.currentCost
      leftCharCost := (i : Int)
      aboveCharCost := (i : Int)
      nextTransCost := 0
      char2 := ' ' }
    ⟨rfl, fun _ _ => rfl⟩
    (by
      intro j v hj1 hj2 ⟨hl, hf⟩
      rw [innerBody_char1Costs]
      refine ⟨by rw [List.length_set]; exact hl, fun t ht => ?_⟩
      rw [rd_set_ne _ _ _ _ (by omega)]
      exact hf t (by omega))
  exact key

end DamerauOSA

namespace Levenshtein

theorem lev_rowsMax_eq_rowsBand (string1 string2 : List Char) (len2 offset : Nat)
    (M lenDiff : Int) :
    ∀ (n i jStart : Nat) (jEnd : Int) (o : Outer),
      (jStart : Int) = max 0 ((i : Int) - 1 - (M - lenDiff)) →
      jEnd = min (len2 : Int) (M + (i : Int)) →
      rowsMax string1 string2 len2 offset M lenDiff (M - lenDiff) n i jStart jEnd o =
        rowsBand string1 string2 len2 offset M lenDiff n i o := by
  intro n
  induction n with
  | zero => intro i jStart jEnd o _ _; rfl
  | succ n ih =>
    intro i jStart jEnd o hjs hje
    obtain ⟨e1, e2⟩ := band_step len2 M lenDiff i jStart jEnd hjs hje
    unfold rowsMax rowsBand
    simp only []
    rw [e1, e2]
    split_ifs with h
    · rfl
    · apply ih
      · unfold bandStart
        rw [Int.toNat_of_nonneg (le_max_left _ _)]
        congr 1
        push_cast
        omega
      · unfold bandEnd
        congr 1
        push_cast
        omega

theorem lev_row_frame (string1 string2 : List Char) (offset i jS count : Nat) (o : Outer) :
    (row string1 string2 offset i jS count o).char1Costs.length = o.char1Costs.length ∧
    ∀ t, (t < jS ∨ jS + count ≤ t) →
      rd (row string1 string2 offset i jS count o).char1Costs t = rd o.char1Costs t := by
  have key := forLoop_inv
    (innerBody string2 offset (charAt string1 (offset + i)))
    (fun j v => v.char1Costs.length = o.char1Costs.length ∧
      ∀ t, (t < jS ∨ j ≤ t) → rd v.char1Costs t = rd o.char1Costs t)
    count jS
    { char1Costs := o.char1Costs
      currentCharCost := o.currentCharCost
      leftCharCost := (i : Int)
      aboveCharCost := (i : Int) }
    ⟨rfl, fun _ _ => rfl⟩
    (by
      intro j v hj1 hj2 ⟨hl, hf⟩
      rw [lev_innerBody_char1Costs]
      refine ⟨by rw [List.length_set]; exact hl, fun t ht => ?_⟩
      rw [rd_set_ne _ _ _ _ (by omega)]
      exact hf t (by omega))
  exact key

end Levenshtein

namespace DamerauOSA

theorem row_cellInv (string1 string2 : List Char) (start i jS count : Nat) (o : Outer)
    (hc : 0 < count → jS + count ≤ o.char1Costs.length)
    (hp : 0 < count → jS + count ≤ o.prevChar1Costs.length) :
    CellInv string1 string2 start i jS o (jS + count)
      (forLoop (innerBody string2 start i (charAt string1 (start + i)) o.char1) count jS
        { char1Costs := o.char1Costs
          prevChar1Costs := o.prevChar1Costs
          currentCost := o.currentCost
          leftCharCost := (i : Int)
          aboveCharCost := (i : Int)
          nextTransCost := 0
          char2 := ' ' }) := by
  apply forLoop_inv (innerBody string2 start i (charAt string1 (start + i)) o.char1)
    (fun j v => CellInv string1 string2 start i jS o j v) count jS
  · exact
      { lenC := rfl
        lenP := rfl
        cOut := fun _ _ => rfl
        pOut := fun _ _ => rfl
        cells := fun t h1 h2 => absurd h2 (by omega)
        left := by rw [if_pos rfl]
        above := by rw [if_pos rfl]
        next := by rw [if_pos rfl]
        ch2 := by rw [if_pos rfl]
        cur := fun h => absurd h (lt_irrefl _) }
  · intro j v hj1 hj2 inv
    have hjc : j < v.char1Costs.length := by rw [inv.lenC]; have := hc (by omega); omega
    have hjp : j < v.prevChar1Costs.length := by rw [inv.lenP]; have := hp (by omega); omega
    have hnew : newCost string2 start i (charAt string1 (start + i)) o.char1 j v =
        cellCost (charAt string1 (start + i)) o.char1 (charAt string2 (start + j))
          (if j = jS then ' ' else charAt string2 (start + (j - 1))) i j
          (if j = jS then (i : Int) else rd o.char1Costs (j - 1))
          (if j = jS then (i : Int) else rd v.char1Costs (j - 1))
          (rd o.char1Costs j)
          (if j = jS then 0 else rd o.prevChar1Costs (j - 1)) := by
      unfold newCost
      rw [inv.ch2, inv.left, inv.above, inv.next, inv.cOut j (Or.inr (le_refl _))]
      rfl
    constructor
    · rw [innerBody_char1Costs, List.length_set]; exact inv.lenC
    · rw [innerBody_prevChar1Costs, List.length_set]; exact inv.lenP
    · intro t ht
      rw [innerBody_char1Costs, rd_set_ne _ _ _ _ (by omega)]
      exact inv.cOut t (by omega)
    · intro t ht
      rw [innerBody_prevChar1Costs, rd_set_ne _ _ _ _ (by omega)]
      exact inv.pOut t (by omega)
    · intro t ht1 ht2
      rw [innerBody_char1Costs, innerBody_prevChar1Costs]
      by_cases e : t = j
      · subst e
        rw [rd_set_eq _ _ _ hjc, rd_set_eq _ _ _ hjp, hnew, inv.left]
        refine ⟨?_, rfl⟩
        by_cases e2 : t = jS
        · simp only [if_pos e2]
        · simp only [if_neg e2]
          rw [rd_set_ne _ _ _ _ (by omega)]
      · rw [rd_set_ne _ _ _ _ e, rd_set_ne _ _ _ _ e]
        have := inv.cells t ht1 (by omega)
        by_cases e2 : t = jS
        · simp only [if_pos e2] at this ⊢
          exact this
        · simp only [if_neg e2] at this ⊢
          rw [rd_set_ne _ _ _ _ (by omega)]
          exact this
    · rw [innerBody_leftCharCost, if_neg (by omega), Nat.add_sub_cancel]
      exact inv.cOut j (Or.inr (le_refl _))
    · rw [innerBody_aboveCharCost, innerBody_char1Costs, if_neg (by omega),
        Nat.add_sub_cancel, rd_set_eq _ _ _ hjc]
    · rw [innerBody_nextTransCost, if_neg (by omega), Nat.add_sub_cancel]
      exact inv.pOut j (Or.inr (le_refl _))
    · rw [innerBody_char2, if_neg (by omega), Nat.add_sub_cancel]
      rfl
    · intro _
      rw [innerBody_currentCost, innerBody_char1Costs, Nat.add_sub_cancel,
        rd_set_eq _ _ _ hjc]

/-- A row of a `DamerauOSA` core writes every column of its band, and nothing else, on
vectors that hold the band. -/
theorem row_written (string1 string2 : List Char) (start i jS : Nat) (hi : Int) (o : Outer)
    (hc : hi ≤ (o.char1Costs.length : Int)) (hp : hi ≤ (o.prevChar1Costs.length : Int)) :
    RowWritten string1 string2 start i jS hi o
      (row string1 string2 start i jS (hi - (jS : Int)).toNat o) := by
  have inv := row_cellInv string1 string2 start i jS (hi - (jS : Int)).toNat o
    (fun h => by omega) (fun h => by omega)
  refine ⟨rfl, ?_, ?_, ?_⟩
  · intro t h1 h2
    exact inv.cells t h1 (by omega)
  · intro t ht
    have h3 : t < jS ∨ jS + (hi - (jS : Int)).toNat ≤ t := by
      by_cases hlt : t < jS
      · exact Or.inl hlt
      · right
        rcases ht with ht | ht <;> omega
    exact ⟨inv.cOut t h3, inv.pOut t h3⟩
  · intro h
    have e : jS + (hi - (jS : Int)).toNat - 1 = (hi - 1).toNat := by omega
    have := inv.cur (by omega)
    rw [e] at this
    exact this

end DamerauOSA

namespace Levenshtein

theorem lev_row_cellInv (string1 string2 : List Char) (offset i jS count : Nat) (o : Outer)
    (hc : 0 < count → jS + count ≤ o.char1Costs.length) :
    LevCellInv string1 string2 offset i jS o (jS + count)
      (forLoop (innerBody string2 offset (charAt string1 (offset + i))) count jS
        { char1Costs := o.char1Costs
          currentCharCost := o.currentCharCost
          leftCharCost := (i : Int)
          aboveCharCost := (i : Int) }) := by
  apply forLoop_inv (innerBody string2 offset (charAt string1 (offset + i)))
    (fun j v => LevCellInv string1 string2 offset i jS o j v) count jS
  · exact
      { lenC := rfl
        cOut := fun _ _ => rfl
        cells := fun t h1 h2 => absurd h2 (by omega)
        left := by rw [if_pos rfl]
        above := by rw [if_pos rfl]
        cur := fun h => absurd h (lt_irrefl _) }
  · intro j v hj1 hj2 inv
    have hjc : j < v.char1Costs.length := by rw [inv.lenC]; have := hc (by omega); omega
    have hnew : levCost (charAt string1 (offset + i)) (charAt string2 (offset + j))
        v.leftCharCost v.aboveCharCost (rd v.char1Costs j) =
        levCost (charAt string1 (offset + i)) (charAt string2 (offset + j))
          (if j = jS then (i : Int) else rd o.char1Costs (j - 1))
          (if j = jS then (i : Int) else rd v.char1Costs (j - 1))
          (rd o.char1Costs j) := by
      rw [inv.left, inv.above, inv.cOut j (Or.inr (le_refl _))]
    constructor
    · rw [lev_innerBody_char1Costs, List.length_set]; exact inv.lenC
    · intro t ht
      rw [lev_innerBody_char1Costs, rd_set_ne _ _ _ _ (by omega)]
      exact inv.cOut t (by omega)
    · intro t ht1 ht2
      rw [lev_innerBody_char1Costs]
      by_cases e : t = j
      · subst e
        rw [rd_set_eq _ _ _ hjc, hnew]
        by_cases e2 : t = jS
        · simp only [if_pos e2]
        · simp only [if_neg e2]
          rw [rd_set_ne _ _ _ _ (by omega)]
      · rw [rd_set_ne _ _ _ _ e]
        have := inv.cells t ht1 (by omega)
        by_cases e2 : t = jS
        · simp only [if_pos e2] at this ⊢
          exact this
        · simp only [if_neg e2] at this ⊢
          rw [rd_set_ne _ _ _ _ (by omega)]
          exact this
    · rw [lev_innerBody_leftCharCost, if_neg (by omega), Nat.add_sub_cancel]
      exact inv.cOut j (Or.inr (le_refl _))
    · rw [lev_innerBody_aboveCharCost, lev_innerBody_char1Costs, if_neg (by omega),
        Nat.add_sub_cancel, rd_set_eq _ _ _ hjc]
    · intro _
      rw [lev_innerBody_currentCharCost, lev_innerBody_char1Costs, Nat.add_sub_cancel,
        rd_set_eq _ _ _ hjc]

/-- A row of a `Levenshtein` core writes every column of its band, and nothing else, on a
vector that holds the band. -/
theorem lev_row_written (string1 string2 : List Char) (offset i jS : Nat) (hi : Int)
    (o : Outer) (hc : hi ≤ (o.char1Costs.length : Int)) :
    RowWritten string1 string2 offset i jS hi o
      (row string1 string2 offset i jS (hi - (jS : Int)).toNat o) := by
  have inv := lev_row_cellInv string1 string2 offset i jS (hi - (jS : Int)).toNat o
    (fun h => by omega)
  refine ⟨?_, ?_, ?_⟩
  · intro t h1 h2
    exact inv.cells t h1 (by omega)
  · intro t ht
    have h3 : t < jS ∨ jS + (hi - (jS : Int)).toNat ≤ t := by
      by_cases hlt : t < jS
      · exact Or.inl hlt
      · right
        rcases ht with ht | ht <;> omega
    exact inv.cOut t h3
  · intro h
    have e : jS + (hi - (jS : Int)).toNat - 1 = (hi - 1).toNat := by omega
    have := inv.cur (by omega)
    rw [e] at this
    exact this

end Levenshtein

/-- C31: the band of the bounded cores. With `lenDiff = len2 - len1` and
`0 ≤ lenDiff ≤ maxDistance < len2`, both bounded cores are their outer loop with the band
in closed form: the inner loop of row `i` runs over the columns `j` with
`max(0, i - (maxDistance - lenDiff)) ≤ j < min(len2, i + maxDistance + 1)`. On vectors of
at least `len2` elements such a row writes every column of its band with the cost of its
cell and leaves the elements of `char1Costs` outside the band as they are (`RowWritten`),
and the `Levenshtein` core returns a value.
For `i < len1` the band has at most `2 * maxDistance + 1` columns and contains the column
`i + lenDiff` of the early-abort test. -/
theorem band_shape (string1 string2 : List Char) (len1 len2 start : Nat) (maxDistance : Int)
    (char1Costs prevChar1Costs : List Int) (h12 : len1 ≤ len2)
    (hd : (len2 : Int) - (len1 : Int) ≤ maxDistance) (hM : maxDistance < (len2 : Int)) :
    DamerauOSA.DistanceCoreMax string1 string2 len1 len2 start maxDistance char1Costs
        prevChar1Costs =
      DamerauOSA.rowsBand string1 string2 len2 start maxDistance
        ((len2 : Int) - (len1 : Int)) len1 0
        { char1Costs := forLoop (fun j c => c.set j (maxDistance + 1))
            (len2 - maxDistance.toNat) maxDistance.toNat
            (forLoop (fun j c => c.set j ((j : Int) + 1)) maxDistance.toNat 0 char1Costs)
          prevChar1Costs := prevChar1Costs
          char1 := ' '
          currentCost := 0 } ∧
    Levenshtein.DistanceCoreMax string1 string2 len1 len2 start maxDistance char1Costs =
      (Levenshtein.initLoop maxDistance.toNat char1Costs).map (fun c =>
        Levenshtein.rowsBand string1 string2 len2 (if start = 0 then 0 else start)
          maxDistance ((len2 : Int) - (len1 : Int)) len1 0
          { char1Costs := forLoop (fun j c => c.set j (maxDistance + 1))
              (len2 - maxDistance.toNat) maxDistance.toNat c
            currentCharCost := 0 }) ∧
    (len2 ≤ char1Costs.length →
      ∃ r, Levenshtein.DistanceCoreMax string1 string2 len1 len2 start maxDistance
        char1Costs = some r) ∧
    (∀ (i : Nat) (o : DamerauOSA.Outer), len2 ≤ o.char1Costs.length →
      len2 ≤ o.prevChar1Costs.length →
      DamerauOSA.RowWritten string1 string2 start i
        (bandStart maxDistance ((len2 : Int) - (len1 : Int)) i) (bandEnd len2 maxDistance i) o
        (DamerauOSA.row string1 string2 start i
          (bandStart maxDistance ((len2 : Int) - (len1 : Int)) i)
          (bandEnd len2 maxDistance i -
            (bandStart maxDistance ((len2 : Int) - (len1 : Int)) i : Int)).toNat o)) ∧
    (∀ (offset i : Nat) (o : Levenshtein.Outer), len2 ≤ o.char1Costs.length →
      Levenshtein.RowWritten string1 string2 offset i
        (bandStart maxDistance ((len2 : Int) - (len1 : Int)) i) (bandEnd len2 maxDistance i) o
        (Levenshtein.row string1 string2 offset i
          (bandStart maxDistance ((len2 : Int) - (len1 : Int)) i)
          (bandEnd len2 maxDistance i -
            (bandStart maxDistance ((len2 : Int) - (len1 : Int)) i : Int)).toNat o)) ∧
    (∀ (i : Nat) (o : DamerauOSA.Outer) (t : Nat),
      ((t : Int) < (bandStart maxDistance ((len2 : Int) - (len1 : Int)) i : Int) ∨
        bandEnd len2 maxDistance i ≤ (t : Int)) →
      rd (DamerauOSA.row string1 string2 start i
        (bandStart maxDistance ((len2 : Int) - (len1 : Int)) i)
        (bandEnd len2 maxDistance i -
          (bandStart maxDistance ((len2 : Int) - (len1 : Int)) i : Int)).toNat o).char1Costs t =
        rd o.char1Costs t) ∧
    (∀ (offset i : Nat) (o : Levenshtein.Outer) (t : Nat),
      ((t : Int) < (bandStart maxDistance ((len2 : Int) - (len1 : Int)) i : Int) ∨
        bandEnd len2 maxDistance i ≤ (t : Int)) →
      rd (Levenshtein.row string1 string2 offset i
        (bandStart maxDistance ((len2 : Int) - (len1 : Int)) i)
        (bandEnd len2 maxDistance i -
          (bandStart maxDistance ((len2 : Int) - (len1 : Int)) i : Int)).toNat o).char1Costs t =
        rd o.char1Costs t) ∧
    ∀ i : Nat, i < len1 →
      (bandStart maxDistance ((len2 : Int) - (len1 : Int)) i : Int) =
        max 0 ((i : Int) - (maxDistance - ((len2 : Int) - (len1 : Int)))) ∧
      bandEnd len2 maxDistance i = min (len2 : Int) ((i : Int) + maxDistance + 1) ∧
      bandEnd len2 maxDistance i -
        (bandStart maxDistance ((len2 : Int) - (len1 : Int)) i : Int) ≤ 2 * maxDistance + 1 ∧
      (bandStart maxDistance ((len2 : Int) - (len1 : Int)) i : Int) ≤
        (i : Int) + ((len2 : Int) - (len1 : Int)) ∧
      (i : Int) + ((len2 : Int) - (len1 : Int)) < bandEnd len2 maxDistance i := by
  have hjs : ((0 : Nat) : Int) =
      max 0 (((0 : Nat) : Int) - 1 - (maxDistance - ((len2 : Int) - (len1 : Int)))) := by
    rw [max_eq_left (by push_cast; omega)]; rfl
  have hje : maxDistance = min (len2 : Int) (maxDistance + ((0 : Nat) : Int)) := by
    rw [min_eq_right (by push_cast; omega)]; push_cast; omega
  have hbe : ∀ i : Nat, bandEnd len2 maxDistance i ≤ (len2 : Int) := fun i => min_le_left _ _
  refine ⟨?_, ?_, ?_, ?_, ?_, ?_, ?_, ?_⟩
  · unfold DamerauOSA.DistanceCoreMax
    exact DamerauOSA.rowsMax_eq_rowsBand string1 string2 len2 start maxDistance _ len1 0 0
      maxDistance _ hjs hje
  · unfold Levenshtein.DistanceCoreMax
    congr 1
    funext c
    exact Levenshtein.lev_rowsMax_eq_rowsBand string1 string2 len2 _ maxDistance _ len1 0 0
      maxDistance _ hjs hje
  · intro hc
    exact Levenshtein.lev_coreMax_some string1 string2 len1 len2 start maxDistance char1Costs
      (by omega)
  · intro i o hc hp
    have := hbe i
    exact DamerauOSA.row_written string1 string2 start i _ _ o (by omega) (by omega)
  · intro offset i o hc
    have := hbe i
    exact Levenshtein.lev_row_written string1 string2 offset i _ _ o (by omega)
  · intro i o t ht
    apply (DamerauOSA.row_frame string1 string2 start i _ _ o).2 t
    by_cases hlt : t < bandStart maxDistance ((len2 : Int) - (len1 : Int)) i
    · exact Or.inl hlt
    · right
      rcases ht with ht | ht <;> omega
  · intro offset i o t ht
    apply (Levenshtein.lev_row_frame string1 string2 offset i _ _ o).2 t
    by_cases hlt : t < bandStart maxDistance ((len2 : Int) - (len1 : Int)) i
    · exact Or.inl hlt
    · right
      rcases ht with ht | ht <;> omega
  · intro i hi
    obtain ⟨a, b, c, d⟩ := band_facts len1 len2 maxDistance h12 hd i hi
    exact ⟨a, rfl, b, c, d⟩

theorem band_shape_witness :
    (2 : Nat) ≤ 3 ∧ (((3 : Nat) : Int) - ((2 : Nat) : Int) ≤ 2) ∧ ((2 : Int) < ((3 : Nat) : Int)) ∧
    (bandStart 2 (((3 : Nat) : Int) - ((2 : Nat) : Int)) 1,
      bandEnd 3 2 1) = (0, 3) ∧
    (DamerauOSA.row ['a', 'b'] ['c', 'd', 'e'] 0 1 0 3
      (DamerauOSA.Outer.mk [1, 2, 3] [0, 0, 0] 'a' 3)).char1Costs = [2, 2, 3] ∧
    (Levenshtein.row ['a', 'b'] ['c', 'd', 'e'] 0 1 0 3
      (Levenshtein.Outer.mk [1, 2, 3] 3)).char1Costs = [2, 2, 3] ∧
    DamerauOSA.RowWritten ['a', 'b'] ['c', 'd', 'e'] 0 1
      (bandStart 2 (((3 : Nat) : Int) - ((2 : Nat) : Int)) 1) (bandEnd 3 2 1)
      (DamerauOSA.Outer.mk [1, 2, 3] [0, 0, 0] 'a' 3)
      (DamerauOSA.row ['a', 'b'] ['c', 'd', 'e'] 0 1
        (bandStart 2 (((3 : Nat) : Int) - ((2 : Nat) : Int)) 1)
        (bandEnd 3 2 1 -
          (bandStart 2 (((3 : Nat) : Int) - ((2 : Nat) : Int)) 1 : Int)).toNat
        (DamerauOSA.Outer.mk [1, 2, 3] [0, 0, 0] 'a' 3)) :=
  ⟨by decide, by decide, by decide, by decide, by decide, by decide,
    (band_shape ['a', 'b'] ['c', 'd', 'e'] 2 3 0 2 [0, 0, 0] [0, 0, 0] (by decide) (by decide)
      (by decide)).2.2.2.1 1 (DamerauOSA.Outer.mk [1, 2, 3] [0, 0, 0] 'a' 3) (by decide)
      (by decide)⟩

theorem toDistance_nonneg (m : ℚ) (hm : m ≤ 1) (n : Int) (hn : 0 ≤ n) :
    0 ≤ Helpers.ToDistance m n := by
  unfold Helpers.ToDistance truncToInt
  have h1 : (0 : ℚ) ≤ (n : ℚ) * (1 - m) + 1 / 10000000000 := by
    have : (0 : ℚ) ≤ (n : ℚ) := by exact_mod_cast hn
    have : (0 : ℚ) ≤ 1 - m := by linarith
    positivity
  rw [if_pos h1]
  exact Int.floor_nonneg.2 h1

theorem KernelCall.prep_eq (c : KernelCall) (len1 len2 start : Nat)
    (hp : Helpers.PrefixSuffixPrep c.shorter c.longer = (len1, len2, start)) :
    c.len1 = len1 ∧ c.len2 = len2 := by
  unfold KernelCall.len1 KernelCall.len2
  rw [hp]
  exact ⟨rfl, rfl⟩

namespace DamerauOSA

theorem grow_length (this : DamerauOSA) (n : Nat) :
    (this.grow n).baseChar1Costs.length = max this.baseChar1Costs.length n := by
  unfold grow
  split_ifs with h
  · show (List.replicate n (0 : Int)).length = _
    rw [List.length_replicate, max_eq_right (by omega)]
  · rw [max_eq_left (by omega)]

theorem sized_grow (this : DamerauOSA) (h : this.Sized) (n : Nat) : (this.grow n).Sized :=
  (grow_spec this h n).2.2

theorem osa_Similarity_unfold (this : DamerauOSA) (a b : List Char) (ha : a ≠ [])
    (hb : b ≠ []) (len1 len2 start : Nat)
    (hp : Helpers.PrefixSuffixPrep (if a.length > b.length then b else a)
      (if a.length > b.length then a else b) = (len1, len2, start)) :
    (this.Similarity a b).2 = if len1 = 0 then this else this.grow len2 := by
  unfold Similarity
  rw [if_neg (by simpa using ha), if_neg (by simpa using hb)]
  simp only [hp]
  split_ifs <;> rfl

theorem osa_SimilarityMax_unfold (this : DamerauOSA) (a b : List Char) (m : ℚ) (ha : a ≠ [])
    (hb : b ≠ []) (hm0 : 0 ≤ m) (hm1 : m ≤ 1) (len1 len2 start : Nat)
    (hp : Helpers.PrefixSuffixPrep (if a.length > b.length then b else a)
      (if a.length > b.length then a else b) = (len1, len2, start)) :
    ∃ v, this.SimilarityMax a b m = Except.ok (v,
      if 0 < Helpers.ToDistance m ((if a.length > b.length then a else b).length : Int) ∧
          (((if a.length > b.length then a else b).length -
            (if a.length > b.length then b else a).length : Nat) : Int) ≤
            Helpers.ToDistance m ((if a.length > b.length then a else b).length : Int) ∧
          len1 ≠ 0 then this.grow len2 else this) := by
  unfold SimilarityMax
  rw [if_neg (by rintro (h | h) <;> linarith),
    if_neg (by simpa using And.intro ha hb)]
  simp only [hp]
  generalize Helpers.ToDistance m
    ((if a.length > b.length then a else b).length : Int) = M
  generalize (((if a.length > b.length then a else b).length -
    (if a.length > b.length then b else a).length : Nat) : Int) = G
  by_cases hg : 0 ≤ M ∧ G > M
  · rw [if_pos hg, if_neg (show ¬ (0 < M ∧ G ≤ M ∧ len1 ≠ 0) by omega)]
    exact ⟨_, rfl⟩
  rw [if_neg hg]
  by_cases h0 : M ≤ 0
  · rw [if_pos h0, if_neg (show ¬ (0 < M ∧ G ≤ M ∧ len1 ≠ 0) by omega)]
    exact ⟨_, rfl⟩
  rw [if_neg h0]
  by_cases h1 : len1 = 0
  · rw [if_pos h1, if_neg (show ¬ (0 < M ∧ G ≤ M ∧ len1 ≠ 0) by omega)]
    exact ⟨_, rfl⟩
  rw [if_neg h1, if_pos (show 0 < M ∧ G ≤ M ∧ len1 ≠ 0 from ⟨by omega, by omega, h1⟩)]
  by_cases h2 : M < (len2 : Int)
  · rw [if_pos h2]
    exact ⟨_, rfl⟩
  · rw [if_neg h2]
    exact ⟨_, rfl⟩

/-- A call that runs the DP leaves the instance with the buffers grown to `len2`; every
other call leaves the instance as it is. -/
theorem call_eq (this : DamerauOSA) (c : KernelCall) :
    (c.runsDP → this.call c = this.grow c.len2) ∧ (¬ c.runsDP → this.call c = this) := by
  rcases hp : Helpers.PrefixSuffixPrep c.shorter c.longer with ⟨len1, len2, start⟩
  obtain ⟨e1, e2⟩ := KernelCall.prep_eq c len1 len2 start hp
  unfold KernelCall.runsDP
  rw [e1, e2]
  cases c with
  | distance a b =>
    show (a ≠ [] ∧ b ≠ [] ∧ True ∧ len1 ≠ 0 → (this.Distance a b).2 = this.grow len2) ∧
      (¬ (a ≠ [] ∧ b ≠ [] ∧ True ∧ len1 ≠ 0) → (this.Distance a b).2 = this)
    by_cases ha : a = []
    · subst ha
      exact ⟨fun h => absurd rfl h.1, fun _ => rfl⟩
    by_cases hb : b = []
    · subst hb
      refine ⟨fun h => absurd rfl h.2.1, fun _ => ?_⟩
      unfold Distance
      rw [if_neg (by simpa using ha)]
      rfl
    rw [osa_Distance_unfold this a b ha hb len1 len2 start hp]
    by_cases h1 : len1 = 0
    · rw [if_pos h1]
      exact ⟨fun h => absurd h1 h.2.2.2, fun _ => rfl⟩
    · rw [if_neg h1]
      exact ⟨fun _ => rfl, fun h => absurd ⟨ha, hb, trivial, h1⟩ h⟩
  | distanceMax a b k =>
    show (a ≠ [] ∧ b ≠ [] ∧ (0 < k ∧
        (((if a.length > b.length then a else b).length -
          (if a.length > b.length then b else a).length : Nat) : Int) ≤
          (if k ≤ INT_MAX then k else INT_MAX)) ∧ len1 ≠ 0 →
          (this.DistanceMax a b k).2 = this.grow len2) ∧
      (¬ (a ≠ [] ∧ b ≠ [] ∧ (0 < k ∧
        (((if a.length > b.length then a else b).length -
          (if a.length > b.length then b else a).length : Nat) : Int) ≤
          (if k ≤ INT_MAX then k else INT_MAX)) ∧ len1 ≠ 0) →
          (this.DistanceMax a b k).2 = this)
    by_cases he : a = [] ∨ b = []
    · have : this.DistanceMax a b k = (Helpers.NullDistanceResults a b k, this) := by
        unfold DistanceMax; rw [if_pos (by simpa using he)]
      rw [this]
      refine ⟨fun h => ?_, fun _ => rfl⟩
      rcases he with he | he
      · exact absurd he h.1
      · exact absurd he h.2.1
    have ha : a ≠ [] := by tauto
    have hb : b ≠ [] := by tauto
    by_cases hk : k ≤ 0
    · have : this.DistanceMax a b k = ((if a = b then 0 else -1), this) := by
        unfold DistanceMax; rw [if_neg (by simpa using And.intro ha hb), if_pos hk]
      rw [this]
      exact ⟨fun h => absurd h.2.2.1.1 (by omega), fun _ => rfl⟩
    rw [osa_DistanceMax_unfold this a b k ha hb (by omega) len1 len2 start hp]
    generalize (if k ≤ INT_MAX then k else INT_MAX) = M
    generalize (((if a.length > b.length then a else b).length -
      (if a.length > b.length then b else a).length : Nat) : Int) = G
    by_cases hg : G > M
    · rw [if_pos hg]
      exact ⟨fun h => absurd h.2.2.1.2 (by omega), fun _ => rfl⟩
    rw [if_neg hg]
    by_cases h1 : len1 = 0
    · rw [if_pos h1]
      exact ⟨fun h => absurd h1 h.2.2.2, fun _ => rfl⟩
    · rw [if_neg h1]
      refine ⟨fun _ => ?_, fun h => absurd ⟨ha, hb, ⟨by omega, by omega⟩, h1⟩ h⟩
      split_ifs <;> rfl
  | similarity a b =>
    show (a ≠ [] ∧ b ≠ [] ∧ True ∧ len1 ≠ 0 → (this.Similarity a b).2 = this.grow len2) ∧
      (¬ (a ≠ [] ∧ b ≠ [] ∧ True ∧ len1 ≠ 0) → (this.Similarity a b).2 = this)
    by_cases ha : a = []
    · subst ha
      refine ⟨fun h => absurd rfl h.1, fun _ => ?_⟩
      unfold Similarity
      rfl
    by_cases hb : b = []
    · subst hb
      refine ⟨fun h => absurd rfl h.2.1, fun _ => ?_⟩
      unfold Similarity
      rw [if_neg (by simpa using ha)]
      rfl
    rw [osa_Similarity_unfold this a b ha hb len1 len2 start hp]
    by_cases h1 : len1 = 0
    · rw [if_pos h1]
      exact ⟨fun h => absurd h1 h.2.2.2, fun _ => rfl⟩
    · rw [if_neg h1]
      exact ⟨fun _ => rfl, fun h => absurd ⟨ha, hb, trivial, h1⟩ h⟩
  | similarityMax a b m =>
    show (a ≠ [] ∧ b ≠ [] ∧ (0 ≤ m ∧ m ≤ 1 ∧
        0 < Helpers.ToDistance m ((if a.length > b.length then a else b).length : Int) ∧
        (((if a.length > b.length then a else b).length -
          (if a.length > b.length then b else a).length : Nat) : Int) ≤
          Helpers.ToDistance m ((if a.length > b.length then a else b).length : Int)) ∧
        len1 ≠ 0 →
          (match this.SimilarityMax a b m with
            | Except.ok r => r.2
            | Except.error _ => this) = this.grow len2) ∧
      (¬ (a ≠ [] ∧ b ≠ [] ∧ (0 ≤ m ∧ m ≤ 1 ∧
        0 < Helpers.ToDistance m ((if a.length > b.length then a else b).length : Int) ∧
        (((if a.length > b.length then a else b).length -
          (if a.length > b.length then b else a).length : Nat) : Int) ≤
          Helpers.ToDistance m ((if a.length > b.length then a else b).length : Int)) ∧
        len1 ≠ 0) →
          (match this.SimilarityMax a b m with
            | Except.ok r => r.2
            | Except.error _ => this) = this)
    by_cases hm : m < 0 ∨ m > 1
    · have : this.SimilarityMax a b m =
          Except.error "minSimilarity must be in range 0 to 1.0" := by
        unfold SimilarityMax; rw [if_pos hm]
      rw [this]
      refine ⟨fun h => ?_, fun _ => rfl⟩
      rcases hm with hm | hm
      · exact absurd h.2.2.1.1 (not_le.2 hm)
      · exact absurd h.2.2.1.2.1 (not_le.2 hm)
    have hm0 : 0 ≤ m := le_of_not_lt (fun c => hm (Or.inl c))
    have hm1 : m ≤ 1 := le_of_not_lt (fun c => hm (Or.inr c))
    by_cases he : a = [] ∨ b = []
    · have : this.SimilarityMax a b m =
          Except.ok (((Helpers.NullSimilarityResults a b m : Int) : ℚ), this) := by
        unfold SimilarityMax; rw [if_neg hm, if_pos (by simpa using he)]
      rw [this]
      refine ⟨fun h => ?_, fun _ => rfl⟩
      rcases he with he | he
      · exact absurd he h.1
      · exact absurd he h.2.1
    have ha : a ≠ [] := by tauto
    have hb : b ≠ [] := by tauto
    obtain ⟨v, hv⟩ := osa_SimilarityMax_unfold this a b m ha hb hm0 hm1 len1 len2 start hp
    rw [hv]
    simp only []
    constructor
    · intro h
      rw [if_pos ⟨h.2.2.1.2.2.1, h.2.2.1.2.2.2, h.2.2.2⟩]
    · intro h
      rw [if_neg]
      intro h2
      exact h ⟨ha, hb, ⟨hm0, hm1, h2.1, h2.2.1⟩, h2.2.2⟩

theorem sized_call (this : DamerauOSA) (h : this.Sized) (c : KernelCall) :
    (this.call c).Sized := by
  classical
  by_cases hc : c.runsDP
  · rw [(call_eq this c).1 hc]; exact sized_grow this h _
  · rw [(call_eq this c).2 hc]; exact h

theorem call_length (this : DamerauOSA) (c : KernelCall) :
    this.baseChar1Costs.length ≤ (this.call c).baseChar1Costs.length ∧
    (c.runsDP → c.len2 ≤ (this.call c).baseChar1Costs.length) := by
  classical
  by_cases hc : c.runsDP
  · rw [(call_eq this c).1 hc, grow_length]
    exact ⟨le_max_left _ _, fun _ => le_max_right _ _⟩
  · rw [(call_eq this c).2 hc]
    exact ⟨le_refl _, fun h => absurd h hc⟩

theorem calls_length (cs : List KernelCall) :
    ∀ this : DamerauOSA, this.baseChar1Costs.length ≤ (this.calls cs).baseChar1Costs.length := by
  induction cs with
  | nil => intro this; exact le_refl _
  | cons c cs ih =>
    intro this
    exact le_trans (call_length this c).1 (ih (this.call c))

theorem sized_calls (cs : List KernelCall) :
    ∀ this : DamerauOSA, this.Sized → (this.calls cs).Sized := by
  induction cs with
  | nil => intro this h; exact h
  | cons c cs ih => intro this h; exact ih _ (sized_call this h c)

theorem calls_append (cs1 cs2 : List KernelCall) :
    ∀ this : DamerauOSA, this.calls (cs1 ++ cs2) = (this.calls cs1).calls cs2 := by
  induction cs1 with
  | nil => intro this; rfl
  | cons c cs ih => intro this; exact ih (this.call c)

end DamerauOSA

namespace Levenshtein

theorem lev_grow_length (this : Levenshtein) (n : Nat) :
    (this.grow n).baseChar1Costs.length = max this.baseChar1Costs.length n := by
  unfold grow
  split_ifs with h
  · rw [max_eq_left h]
  · show (List.replicate n (0 : Int)).length = _
    rw [List.length_replicate, max_eq_right (by omega)]

theorem lev_core_length (s1 s2 : List Char) (len1 len2 start : Nat) (c : List Int)
    (r : Int × List Int) (hret : DistanceCore s1 s2 len1 len2 start c = some r) :
    r.2.length = c.length := by
  obtain ⟨c1, hi, rfl⟩ := lev_core_eq s1 s2 len1 len2 start c r hret
  have key := forLoop_inv
    (fun i o => row s1 s2 start i 0 len2 o)
    (fun _ o => o.char1Costs.length = c.length) len1 0
    { char1Costs := c1, currentCharCost := 0 }
    (initLoop_spec len2 c c1 hi).2.1
    (by
      intro i o _ _ h
      show (row s1 s2 _ i 0 len2 o).char1Costs.length = c.length
      rw [(lev_row_frame s1 s2 _ i 0 len2 o).1]
      exact h)
  exact key

theorem lev_rowsMax_length (string1 string2 : List Char) (len2 offset : Nat)
    (M lenDiff jStartOffset : Int) :
    ∀ (n i jStart : Nat) (jEnd : Int) (o : Outer),
      (rowsMax string1 string2 len2 offset M lenDiff jStartOffset n i jStart jEnd o).2.length =
        o.char1Costs.length := by
  intro n
  induction n with
  | zero => intro i jStart jEnd o; rfl
  | succ n ih =>
    intro i jStart jEnd o
    unfold rowsMax
    simp only []
    generalize jStart + (if (i : Int) > jStartOffset then 1 else 0) = js
    generalize jEnd + (if jEnd < (len2 : Int) then 1 else 0) = je
    by_cases h : rd (row string1 string2 offset i js (je - (js : Int)).toNat o).char1Costs
        ((i : Int) + lenDiff).toNat > M
    · rw [if_pos h]
      exact (lev_row_frame string1 string2 offset i _ _ o).1
    · rw [if_neg h, ih]
      exact (lev_row_frame string1 string2 offset i _ _ o).1

theorem lev_coreMax_length (s1 s2 : List Char) (len1 len2 start : Nat) (M : Int)
    (c : List Int) (r : Int × List Int)
    (hret : DistanceCoreMax s1 s2 len1 len2 start M c = some r) :
    r.2.length = c.length := by
  obtain ⟨c1, hi, rfl⟩ := lev_coreMax_eq s1 s2 len1 len2 start M c r hret
  rw [lev_rowsMax_length]
  show (forLoop _ _ _ c1).length = c.length
  rw [(DamerauOSA.fill_loop (M + 1) (len2 - M.toNat) M.toNat c1).1,
    (initLoop_spec M.toNat c c1 hi).2.1]

theorem lev_core_inst (this : Levenshtein) (s1 s2 : List Char) (len1 len2 start : Nat) :
    DPResult this len2
      ((DistanceCore s1 s2 len1 len2 start (this.grow len2).baseChar1Costs).map
        (fun r => Levenshtein.mk r.2)) := by
  constructor
  · intro l1 h
    obtain ⟨r, hr, rfl⟩ := Option.map_eq_some'.1 h
    exact lev_core_length _ _ _ _ _ _ r hr
  · intro h
    obtain ⟨r, hr⟩ := lev_core_some s1 s2 len1 len2 start (this.grow len2).baseChar1Costs
      (Or.inl ((lev_grow_lt this len2).2 h))
    exact ⟨_, by rw [hr]; rfl⟩

theorem lev_coreMax_inst (this : Levenshtein) (s1 s2 : List Char) (len1 len2 start : Nat)
    (M : Int) (hM : M < (len2 : Int)) :
    DPResult this len2
      ((DistanceCoreMax s1 s2 len1 len2 start M (this.grow len2).baseChar1Costs).map
        (fun r => Levenshtein.mk r.2)) := by
  constructor
  · intro l1 h
    obtain ⟨r, hr, rfl⟩ := Option.map_eq_some'.1 h
    exact lev_coreMax_length _ _ _ _ _ _ _ r hr
  · intro _
    have hg := (lev_grow_spec this len2).1
    obtain ⟨r, hr⟩ := lev_coreMax_some s1 s2 len1 len2 start M
      (this.grow len2).baseChar1Costs (by omega)
    exact ⟨_, by rw [hr]; rfl⟩

theorem lev_Similarity_unfold (this : Levenshtein) (a b : List Char) (ha : a ≠ [])
    (hb : b ≠ []) (len1 len2 start : Nat)
    (hp : Helpers.PrefixSuffixPrep (if a.length > b.length then b else a)
      (if a.length > b.length then a else b) = (len1, len2, start)) :
    (this.Similarity a b).map Prod.snd =
      if len1 = 0 then some this
      else
        (DistanceCore (if a.length > b.length then b else a)
            (if a.length > b.length then a else b) len1 len2 start
            (this.grow len2).baseChar1Costs).map (fun r => Levenshtein.mk r.2) := by
  unfold Similarity
  rw [if_neg (by simpa using ha), if_neg (by simpa using hb)]
  simp only [hp]
  by_cases h1 : len1 = 0
  · rw [if_pos h1, if_pos h1]; rfl
  · rw [if_neg h1, if_neg h1, Option.map_map]; rfl

theorem lev_SimilarityMax_unfold (this : Levenshtein) (a b : List Char) (m : ℚ)
    (ha : a ≠ []) (hb : b ≠ []) (hm0 : 0 ≤ m) (hm1 : m ≤ 1) (len1 len2 start : Nat)
    (hp : Helpers.PrefixSuffixPrep (if a.length > b.length then b else a)
      (if a.length > b.length then a else b) = (len1, len2, start)) :
    ∃ X, this.SimilarityMax a b m = Except.ok X ∧
      if 0 < Helpers.ToDistance m ((if a.length > b.length then a else b).length : Int) ∧
          (((if a.length > b.length then a else b).length -
            (if a.length > b.length then b else a).length : Nat) : Int) ≤
            Helpers.ToDistance m ((if a.length > b.length then a else b).length : Int) ∧
          len1 ≠ 0 then DPResult this len2 (X.map Prod.snd)
      else X.map Prod.snd = some this := by
  have hnn := toDistance_nonneg m hm1
    ((if a.length > b.length then a else b).length : Int) (Int.natCast_nonneg _)
  unfold SimilarityMax
  rw [if_neg (by rintro (h | h) <;> linarith),
    if_neg (by simpa using And.intro ha hb)]
  simp only [hp]
  generalize Helpers.ToDistance m
    ((if a.length > b.length then a else b).length : Int) = M at hnn ⊢
  generalize (((if a.length > b.length then a else b).length -
    (if a.length > b.length then b else a).length : Nat) : Int) = G
  by_cases hg : 0 ≤ M ∧ G > M
  · rw [if_pos hg]
    refine ⟨_, rfl, ?_⟩
    rw [if_neg (show ¬ (0 < M ∧ G ≤ M ∧ len1 ≠ 0) by omega)]
    rfl
  rw [if_neg hg]
  by_cases h0 : M = 0
  · rw [if_pos h0]
    refine ⟨_, rfl, ?_⟩
    rw [if_neg (show ¬ (0 < M ∧ G ≤ M ∧ len1 ≠ 0) by omega)]
    rfl
  rw [if_neg h0]
  by_cases h1 : len1 = 0
  · rw [if_pos h1]
    refine ⟨_, rfl, ?_⟩
    rw [if_neg (show ¬ (0 < M ∧ G ≤ M ∧ len1 ≠ 0) by omega)]
    rfl
  rw [if_neg h1]
  have hpos : 0 < M ∧ G ≤ M ∧ len1 ≠ 0 := ⟨by omega, by omega, h1⟩
  by_cases h2 : M < (len2 : Int)
  · rw [if_pos h2]
    refine ⟨_, rfl, ?_⟩
    rw [if_pos hpos, Option.map_map]
    exact lev_coreMax_inst this _ _ len1 len2 start M h2
  · rw [if_neg h2]
    refine ⟨_, rfl, ?_⟩
    rw [if_pos hpos, Option.map_map]
    exact lev_core_inst this _ _ len1 len2 start

/-- A call that does not run the DP returns and leaves the instance as it is; one that
runs the DP leaves, if it returns, the buffer with the size it has after the growth to
`len2`, and it returns on an instance whose buffer has more than `len2` elements. -/
theorem lev_call_eq (this : Levenshtein) (c : KernelCall) :
    (c.runsDP → DPResult this c.len2 (this.call c)) ∧
    (¬ c.runsDP → this.call c = some this) := by
  rcases hp : Helpers.PrefixSuffixPrep c.shorter c.longer with ⟨len1, len2, start⟩
  obtain ⟨e1, e2⟩ := KernelCall.prep_eq c len1 len2 start hp
  unfold KernelCall.runsDP
  rw [e1, e2]
  cases c with
  | distance a b =>
    show (a ≠ [] ∧ b ≠ [] ∧ True ∧ len1 ≠ 0 →
        DPResult this len2 ((this.Distance a b).map Prod.snd)) ∧
      (¬ (a ≠ [] ∧ b ≠ [] ∧ True ∧ len1 ≠ 0) → (this.Distance a b).map Prod.snd = some this)
    by_cases ha : a = []
    · subst ha
      exact ⟨fun h => absurd rfl h.1, fun _ => rfl⟩
    by_cases hb : b = []
    · subst hb
      refine ⟨fun h => absurd rfl h.2.1, fun _ => ?_⟩
      rw [lev_Distance_nil_right]
      rfl
    rw [lev_Distance_unfold this a b ha hb len1 len2 start hp]
    by_cases h1 : len1 = 0
    · rw [if_pos h1]
      exact ⟨fun h => absurd h1 h.2.2.2, fun _ => rfl⟩
    · rw [if_neg h1, Option.map_map]
      exact ⟨fun _ => lev_core_inst this _ _ len1 len2 start,
        fun h => absurd ⟨ha, hb, trivial, h1⟩ h⟩
  | distanceMax a b k =>
    show (a ≠ [] ∧ b ≠ [] ∧ (0 < k ∧
        (((if a.length > b.length then a else b).length -
          (if a.length > b.length then b else a).length : Nat) : Int) ≤
          (if k ≤ INT_MAX then k else INT_MAX)) ∧ len1 ≠ 0 →
          DPResult this len2 ((this.DistanceMax a b k).map Prod.snd)) ∧
      (¬ (a ≠ [] ∧ b ≠ [] ∧ (0 < k ∧
        (((if a.length > b.length then a else b).length -
          (if a.length > b.length then b else a).length : Nat) : Int) ≤
          (if k ≤ INT_MAX then k else INT_MAX)) ∧ len1 ≠ 0) →
          (this.DistanceMax a b k).map Prod.snd = some this)
    by_cases he : a = [] ∨ b = []
    · rw [lev_DistanceMax_null this a b k he]
      refine ⟨fun h => ?_, fun _ => rfl⟩
      rcases he with he | he
      · exact absurd he h.1
      · exact absurd he h.2.1
    have ha : a ≠ [] := by tauto
    have hb : b ≠ [] := by tauto
    by_cases hk : k ≤ 0
    · rw [lev_DistanceMax_nonpos this a b k ha hb hk]
      exact ⟨fun h => absurd h.2.2.1.1 (by omega), fun _ => rfl⟩
    rw [lev_DistanceMax_unfold this a b k ha hb (by omega) len1 len2 start hp]
    generalize (if k ≤ INT_MAX then k else INT_MAX) = M
    generalize (((if a.length > b.length then a else b).length -
      (if a.length > b.length then b else a).length : Nat) : Int) = G
    by_cases hg : G > M
    · rw [if_pos hg]
      exact ⟨fun h => absurd h.2.2.1.2 (by omega), fun _ => rfl⟩
    rw [if_neg hg]
    by_cases h1 : len1 = 0
    · rw [if_pos h1]
      exact ⟨fun h => absurd h1 h.2.2.2, fun _ => rfl⟩
    · rw [if_neg h1]
      refine ⟨fun _ => ?_, fun h => absurd ⟨ha, hb, ⟨by omega, by omega⟩, h1⟩ h⟩
      by_cases h2 : M < (len2 : Int)
      · rw [if_pos h2, Option.map_map]
        exact lev_coreMax_inst this _ _ len1 len2 start M h2
      · rw [if_neg h2, Option.map_map]
        exact lev_core_inst this _ _ len1 len2 start
  | similarity a b =>
    show (a ≠ [] ∧ b ≠ [] ∧ True ∧ len1 ≠ 0 →
        DPResult this len2 ((this.Similarity a b).map Prod.snd)) ∧
      (¬ (a ≠ [] ∧ b ≠ [] ∧ True ∧ len1 ≠ 0) →
        (this.Similarity a b).map Prod.snd = some this)
    by_cases ha : a = []
    · subst ha
      refine ⟨fun h => absurd rfl h.1, fun _ => ?_⟩
      unfold Similarity
      rfl
    by_cases hb : b = []
    · subst hb
      refine ⟨fun h => absurd rfl h.2.1, fun _ => ?_⟩
      unfold Similarity
      rw [if_neg (by simpa using ha)]
      rfl
    rw [lev_Similarity_unfold this a b ha hb len1 len2 start hp]
    by_cases h1 : len1 = 0
    · rw [if_pos h1]
      exact ⟨fun h => absurd h1 h.2.2.2, fun _ => rfl⟩
    · rw [if_neg h1]
      exact ⟨fun _ => lev_core_inst this _ _ len1 len2 start,
        fun h => absurd ⟨ha, hb, trivial, h1⟩ h⟩
  | similarityMax a b m =>
    show (a ≠ [] ∧ b ≠ [] ∧ (0 ≤ m ∧ m ≤ 1 ∧
        0 < Helpers.ToDistance m ((if a.length > b.length then a else b).length : Int) ∧
        (((if a.length > b.length then a else b).length -
          (if a.length > b.length then b else a).length : Nat) : Int) ≤
          Helpers.ToDistance m ((if a.length > b.length then a else b).length : Int)) ∧
        len1 ≠ 0 →
          DPResult this len2 (match this.SimilarityMax a b m with
            | Except.ok r => r.map Prod.snd
            | Except.error _ => some this)) ∧
      (¬ (a ≠ [] ∧ b ≠ [] ∧ (0 ≤ m ∧ m ≤ 1 ∧
        0 < Helpers.ToDistance m ((if a.length > b.length then a else b).length : Int) ∧
        (((if a.length > b.length then a else b).length -
          (if a.length > b.length then b else a).length : Nat) : Int) ≤
          Helpers.ToDistance m ((if a.length > b.length then a else b).length : Int)) ∧
        len1 ≠ 0) →
          (match this.SimilarityMax a b m with
            | Except.ok r => r.map Prod.snd
            | Except.error _ => some this) = some this)
    by_cases hm : m < 0 ∨ m > 1
    · have : this.SimilarityMax a b m =
          Except.error "minSimilarity must be in range 0 to 1.0" := by
        unfold SimilarityMax; rw [if_pos hm]
      rw [this]
      refine ⟨fun h => ?_, fun _ => rfl⟩
      rcases hm with hm | hm
      · exact absurd h.2.2.1.1 (not_le.2 hm)
      · exact absurd h.2.2.1.2.1 (not_le.2 hm)
    have hm0 : 0 ≤ m := le_of_not_lt (fun c => hm (Or.inl c))
    have hm1 : m ≤ 1 := le_of_not_lt (fun c => hm (Or.inr c))
    by_cases he : a = [] ∨ b = []
    · have : this.SimilarityMax a b m =
          Except.ok (some (((Helpers.NullSimilarityResults a b m : Int) : ℚ), this)) := by
        unfold SimilarityMax; rw [if_neg hm, if_pos (by simpa using he)]
      rw [this]
      refine ⟨fun h => ?_, fun _ => rfl⟩
      rcases he with he | he
      · exact absurd he h.1
      · exact absurd he h.2.1
    have ha : a ≠ [] := by tauto
    have hb : b ≠ [] := by tauto
    obtain ⟨X, hv, hr⟩ :=
      lev_SimilarityMax_unfold this a b m ha hb hm0 hm1 len1 len2 start hp
    rw [hv]
    simp only []
    constructor
    · intro h
      rw [if_pos ⟨h.2.2.1.2.2.1, h.2.2.1.2.2.2, h.2.2.2⟩] at hr
      exact hr
    · intro h
      rw [if_neg] at hr
      · exact hr
      · intro h2
        exact h ⟨ha, hb, ⟨hm0, hm1, h2.1, h2.2.1⟩, h2.2.2⟩

/-- A call that returns does not shorten the buffer, and leaves at least `len2` elements
when it has run the DP. -/
theorem lev_call_length (this : Levenshtein) (c : KernelCall) (l1 : Levenshtein)
    (h : this.call c = some l1) :
    this.baseChar1Costs.length ≤ l1.baseChar1Costs.length ∧
    (c.runsDP → c.len2 ≤ l1.baseChar1Costs.length) := by
  classical
  by_cases hc : c.runsDP
  · rw [((lev_call_eq this c).1 hc).1 l1 h, lev_grow_length]
    exact ⟨le_max_left _ _, fun _ => le_max_right _ _⟩
  · rw [(lev_call_eq this c).2 hc] at h
    obtain rfl := Option.some.inj h
    exact ⟨le_refl _, fun h => absurd h hc⟩

/-- A call returns when it does not run the DP, and when the buffer of the instance has
more than `len2` elements. -/
theorem lev_call_some (this : Levenshtein) (c : KernelCall)
    (h : ¬ c.runsDP ∨ c.len2 < this.baseChar1Costs.length) : ∃ l1, this.call c = some l1 := by
  classical
  by_cases hc : c.runsDP
  · rcases h with h | h
    · exact absurd hc h
    · exact ((lev_call_eq this c).1 hc).2 h
  · exact ⟨this, (lev_call_eq this c).2 hc⟩

theorem lev_calls_length (cs : List KernelCall) :
    ∀ this l1 : Levenshtein, this.calls cs = some l1 →
      this.baseChar1Costs.length ≤ l1.baseChar1Costs.length := by
  induction cs with
  | nil =>
    intro this l1 h
    obtain rfl := Option.some.inj h
    exact le_refl _
  | cons c cs ih =>
    intro this l1 h
    obtain ⟨l2, h2, h3⟩ := Option.bind_eq_some.1 h
    exact le_trans (lev_call_length this c l2 h2).1 (ih l2 l1 h3)

theorem lev_calls_append (cs1 cs2 : List KernelCall) :
    ∀ this : Levenshtein,
      this.calls (cs1 ++ cs2) = (this.calls cs1).bind (fun l => l.calls cs2) := by
  induction cs1 with
  | nil => intro this; rfl
  | cons c cs ih =>
    intro this
    show (this.call c).bind (fun l => calls l (cs ++ cs2)) =
      ((this.call c).bind (fun l => calls l cs)).bind (fun l => l.calls cs2)
    cases this.call c with
    | none => rfl
    | some l => exact ih l

/-- After a sequence of calls that return, the buffer has at least `len2` elements for
every call of the sequence that ran the DP. -/
theorem lev_calls_len2 (this : Levenshtein) (c : KernelCall) (cs1 cs2 : List KernelCall)
    (l1 : Levenshtein) (hc : c.runsDP) (h : this.calls (cs1 ++ c :: cs2) = some l1) :
    c.len2 ≤ l1.baseChar1Costs.length := by
  rw [lev_calls_append] at h
  obtain ⟨l2, -, h3⟩ := Option.bind_eq_some.1 h
  obtain ⟨l3, h4, h5⟩ := Option.bind_eq_some.1 h3
  exact le_trans ((lev_call_length l2 c l3 h4).2 hc) (lev_calls_length cs2 l3 l1 h5)

end Levenshtein

/-- The growth of the buffers of a `DamerauOSA` instance whose two buffers have the same
size, as the constructors make it. -/
theorem osa_buffer_growth (d : DamerauOSA) (hd : d.Sized) (c : KernelCall)
    (cs1 cs2 : List KernelCall) :
    (d.baseChar1Costs.length ≤ (d.call c).baseChar1Costs.length ∧
      d.basePrevChar1Costs.length ≤ (d.call c).basePrevChar1Costs.length) ∧
    (c.runsDP →
      c.len2 ≤ (d.call c).baseChar1Costs.length ∧
      c.len2 ≤ (d.call c).basePrevChar1Costs.length) ∧
    (d.baseChar1Costs.length ≤ (d.calls cs1).baseChar1Costs.length ∧
      d.basePrevChar1Costs.length ≤ (d.calls cs1).basePrevChar1Costs.length) ∧
    (c.runsDP →
      c.len2 ≤ (d.calls (cs1 ++ c :: cs2)).baseChar1Costs.length ∧
      c.len2 ≤ (d.calls (cs1 ++ c :: cs2)).basePrevChar1Costs.length) := by
  have hs1 : (d.call c).Sized := DamerauOSA.sized_call d hd c
  have hs2 : (d.calls cs1).Sized := DamerauOSA.sized_calls cs1 d hd
  have hs3 : (d.calls (cs1 ++ c :: cs2)).Sized := DamerauOSA.sized_calls _ d hd
  unfold DamerauOSA.Sized at hd hs1 hs2 hs3
  have a1 := DamerauOSA.call_length d c
  have a3 := DamerauOSA.calls_length cs1 d
  refine ⟨⟨a1.1, by omega⟩, fun h => ⟨a1.2 h, by have := a1.2 h; omega⟩,
    ⟨a3, by omega⟩, fun h => ?_⟩
  have b1 : c.len2 ≤ (d.calls (cs1 ++ c :: cs2)).baseChar1Costs.length := by
    rw [DamerauOSA.calls_append]
    show c.len2 ≤ (((d.calls cs1).call c).calls cs2).baseChar1Costs.length
    exact le_trans ((DamerauOSA.call_length (d.calls cs1) c).2 h)
      (DamerauOSA.calls_length cs2 _)
  exact ⟨b1, by omega⟩

/-- C32: the growth of the cost buffers fails in `Levenshtein`. The call
`Distance("ab", "cde")` on the instance made by `Levenshtein()` runs the DP with `len2 = 3`
and returns no value: the buffer is grown to three elements and the first loop of the core
writes element `3` of it. Wherever the calls return the buffers grow. For `DamerauOSA` (an
instance whose two buffers have the same size, as the constructors make it) no call of
`Distance` or `Similarity`, with or without a bound, shortens a buffer, a call that runs the
DP leaves at least `len2` elements, and after any sequence of calls the buffers have at
least `len2` elements for every call of the sequence that ran the DP. For `Levenshtein` the
same holds of every call and every sequence of calls that return, and a call returns when
it does not run the DP or the buffer has more than `len2` elements. -/
theorem levenshtein_buffer_growth_no_value :
    (KernelCall.distance ['a', 'b'] ['c', 'd', 'e']).runsDP ∧
    (KernelCall.distance ['a', 'b'] ['c', 'd', 'e']).len2 = 3 ∧
    (Levenshtein.new.grow 3).baseChar1Costs = [0, 0, 0] ∧
    Levenshtein.new.call (KernelCall.distance ['a', 'b'] ['c', 'd', 'e']) = none ∧
    (∀ (d : DamerauOSA) (c : KernelCall) (cs1 cs2 : List KernelCall), d.Sized →
      (d.baseChar1Costs.length ≤ (d.call c).baseChar1Costs.length ∧
        d.basePrevChar1Costs.length ≤ (d.call c).basePrevChar1Costs.length) ∧
      (c.runsDP →
        c.len2 ≤ (d.call c).baseChar1Costs.length ∧
        c.len2 ≤ (d.call c).basePrevChar1Costs.length) ∧
      (d.baseChar1Costs.length ≤ (d.calls cs1).baseChar1Costs.length ∧
        d.basePrevChar1Costs.length ≤ (d.calls cs1).basePrevChar1Costs.length) ∧
      (c.runsDP →
        c.len2 ≤ (d.calls (cs1 ++ c :: cs2)).baseChar1Costs.length ∧
        c.len2 ≤ (d.calls (cs1 ++ c :: cs2)).basePrevChar1Costs.length)) ∧
    (∀ (l l1 : Levenshtein) (c : KernelCall), l.call c = some l1 →
      l.baseChar1Costs.length ≤ l1.baseChar1Costs.length ∧
        (c.runsDP → c.len2 ≤ l1.baseChar1Costs.length)) ∧
    (∀ (l l1 : Levenshtein) (cs : List KernelCall), l.calls cs = some l1 →
      l.baseChar1Costs.length ≤ l1.baseChar1Costs.length) ∧
    (∀ (l l1 : Levenshtein) (c : KernelCall) (cs1 cs2 : List KernelCall), c.runsDP →
      l.calls (cs1 ++ c :: cs2) = some l1 → c.len2 ≤ l1.baseChar1Costs.length) ∧
    (∀ (l : Levenshtein) (c : KernelCall),
      (¬ c.runsDP ∨ c.len2 < l.baseChar1Costs.length) → ∃ l1, l.call c = some l1) :=
  ⟨⟨by decide, by decide, trivial, by decide⟩, by decide, by decide, rfl,
    fun d c cs1 cs2 hd => osa_buffer_growth d hd c cs1 cs2,
    fun l l1 c h => Levenshtein.lev_call_length l c l1 h,
    fun l l1 cs h => Levenshtein.lev_calls_length cs l l1 h,
    fun l l1 c cs1 cs2 hc h => Levenshtein.lev_calls_len2 l c cs1 cs2 l1 hc h,
    fun l c h => Levenshtein.lev_call_some l c h⟩

namespace ChunkArray

theorem inv_Clear {T : Type} (c : ChunkArray T) (hI : c.Inv) : c.Clear.Inv :=
  { chunks := hI.chunks
    count_nonneg := le_refl _
    count_le := by
      show (0 : Int) ≤ (c.Values.length : Int) * 4096
      omega
    count_max := by show (0 : Int) ≤ 2147483647; omega
    capacity_max := hI.capacity_max }

/-- Under the invariant every element below `Count` is an element of a chunk. -/
theorem get?_isSome {T : Type} (c : ChunkArray T) (hI : c.Inv) (i : Nat)
    (hi : (i : Int) < c.Count) :
    ∃ chunk x, c.Values[i / 4096]? = some chunk ∧ chunk.length = 4096 ∧
      chunk[i % 4096]? = some x := by
  have h1 := hI.count_le
  have hlen : i / 4096 < c.Values.length := by
    have := Nat.div_add_mod i 4096
    have := Nat.mod_lt i (show 4096 > 0 by decide)
    omega
  have hc : c.Values[i / 4096]? = some (c.Values[i / 4096]) := List.getElem?_eq_getElem hlen
  have hcl : (c.Values[i / 4096]).length = 4096 := hI.chunks _ (List.getElem?_mem hc)
  have hq : i % 4096 < (c.Values[i / 4096]).length := by
    rw [hcl]; exact Nat.mod_lt _ (by decide)
  exact ⟨_, _, hc, hcl, List.getElem?_eq_getElem hq⟩

theorem At_isSome {T : Type} (c : ChunkArray T) (hI : c.Inv) (i : Nat)
    (hi : (i : Int) < c.Count) : ∃ x, c.At i = some x := by
  have hmax : INT_MAX = 2147483647 := rfl
  have h2 := hI.count_max
  obtain ⟨chunk, x, h3, _, h4⟩ := get?_isSome c hI i hi
  refine ⟨x, ?_⟩
  rw [At_eq_get? c i (by omega)]
  unfold get?
  rw [h3]
  exact h4

/-- A `Set` that returns keeps the invariant and `Count`. -/
theorem inv_Set {T : Type} (c : ChunkArray T) (hI : c.Inv) (i : Nat) (v : T)
    (c1 : ChunkArray T) (h : c.Set i v = some c1) : c1.Inv ∧ c1.Count = c.Count := by
  unfold Set at h
  cases h1 : vget? c.Values (Row i) with
  | none => rw [h1] at h; cases h
  | some chunk =>
    rw [h1] at h
    simp only [] at h
    cases h2 : vset? chunk (Col i) v with
    | none => rw [h2] at h; cases h
    | some chunk2 =>
      rw [h2] at h
      simp only [] at h
      cases h3 : vset? c.Values (Row i) chunk2 with
      | none => rw [h3] at h; cases h
      | some V =>
        rw [h3] at h
        simp only [] at h
        cases h
        have hchunk : chunk ∈ c.Values := by
          unfold vget? at h1
          split_ifs at h1
          exact List.getElem?_mem h1
        have hl2 : chunk2.length = 4096 := by
          unfold vset? at h2
          split_ifs at h2
          cases h2
          rw [List.length_set]
          exact hI.chunks chunk hchunk
        have hV : V = c.Values.set (Row i).toNat chunk2 := by
          unfold vset? at h3
          split_ifs at h3
          cases h3
          rfl
        refine ⟨?_, rfl⟩
        refine
          { chunks := ?_, count_nonneg := hI.count_nonneg, count_le := ?_,
            count_max := hI.count_max, capacity_max := ?_ }
        · intro ch hc
          show ch.length = 4096
          have hc2 : ch ∈ c.Values.set (Row i).toNat chunk2 := by rw [← hV]; exact hc
          rcases List.mem_or_eq_of_mem_set hc2 with h5 | h5
          · exact hI.chunks ch h5
          · rw [h5]; exact hl2
        · show c.Count ≤ ((V.length : Nat) : Int) * 4096
          rw [hV, List.length_set]
          exact hI.count_le
        · show ((V.length : Nat) : Int) * 4096 ≤ 2147483648
          rw [hV, List.length_set]
          exact hI.capacity_max

theorem Set_isSome {T : Type} (c : ChunkArray T) (hI : c.Inv) (i : Nat) (v : T)
    (hi : (i : Int) < c.Count) : ∃ c1, c.Set i v = some c1 := by
  have hmax : INT_MAX = 2147483647 := rfl
  have h2 := hI.count_max
  obtain ⟨chunk, x, h3, hcl, h4⟩ := get?_isSome c hI i hi
  have hlen : i / 4096 < c.Values.length := by
    by_contra hc
    rw [List.getElem?_eq_none (by omega)] at h3
    cases h3
  unfold Set
  rw [Row_eq i (by omega), Col_eq i, vget?_natCast, h3]
  simp only []
  rw [vset?_natCast _ _ _ (by rw [hcl]; exact Nat.mod_lt _ (by decide))]
  simp only []
  rw [vset?_natCast _ _ _ hlen]
  exact ⟨_, rfl⟩

theorem vresize_self {α : Type} (v : List α) (n : Nat) (d : α) (h : v.length = n) :
    vresize v n d = v := by
  unfold vresize
  rw [← h, List.take_length, Nat.sub_self]
  simp

/-- `Reserve(n)` keeps the invariant when the chunks it asks for hold `Count` elements. -/
theorem inv_Reserve {T : Type} [Inhabited T] (c : ChunkArray T) (hI : c.Inv) (n : Int)
    (hn0 : 0 ≤ n) (hn : n + 4096 ≤ INT_MAX) (hc : c.Count ≤ 4096 * ((n + 4095) / 4096)) :
    ∃ c1, c.Reserve n = some c1 ∧ c1.Inv ∧ c1.Count = c.Count ∧
      (c1.Values.length : Int) = (n + 4095) / 4096 := by
  have hmax : INT_MAX = 2147483647 := rfl
  have hC : ChunkSize = 4096 := rfl
  have hd : Int.tdiv (n + 4096 - 1) 4096 = (n + 4095) / 4096 := by
    rw [Int.tdiv_eq_ediv (by omega) (by decide)]
    congr 1
    omega
  unfold Reserve
  rw [hC, if_neg (by omega)]
  simp only []
  rw [hd, if_neg (by omega)]
  refine ⟨_, rfl, ?_, rfl, ?_⟩
  · refine
      { chunks := ?_, count_nonneg := hI.count_nonneg, count_le := ?_,
        count_max := hI.count_max, capacity_max := ?_ }
    · intro chunk hch
      simp only [List.mem_map] at hch
      obtain ⟨a, _, rfl⟩ := hch
      exact length_vresize _ _ _
    · show c.Count ≤ ((List.length (List.map _ _) : Nat) : Int) * 4096
      rw [List.length_map, length_vresize]
      omega
    · show ((List.length (List.map _ _) : Nat) : Int) * 4096 ≤ 2147483648
      rw [List.length_map, length_vresize]
      omega
  · show ((List.length (List.map _ _) : Nat) : Int) = _
    rw [List.length_map, length_vresize]
    omega

end ChunkArray

/-- C37, what fails: after one `Add` on a new array, `Reserve(0)` returns and leaves an
array with `Count = 1` and no chunk; `At(0)` and the next `Add` are then outside the
array. -/
theorem chunkArray_reserve_drops_chunks :
    ∃ c1 c2 : ChunkArray Nat,
      (ChunkArray.new : ChunkArray Nat).Add 7 = some (0, c1) ∧ c1.Reserve 0 = some c2 ∧
      c2.Count = 1 ∧ c2.Values = [] ∧ ¬ (c2.Count ≤ 4096 * (c2.Values.length : Int)) ∧
      c2.At 0 = none ∧ c2.Add 8 = none := by
  obtain ⟨c1, h1, hI1, hc1, _⟩ :=
    ChunkArray.chunkAdd_spec (ChunkArray.new : ChunkArray Nat) ChunkArray.inv_new
      (by decide) 7
  have hc1' : c1.Count = 1 := hc1
  refine ⟨c1, { Values := [], Count := 1 }, h1, ?_, rfl, rfl, by decide, rfl, rfl⟩
  unfold ChunkArray.Reserve
  rw [if_neg (by decide)]
  simp only []
  rw [if_neg (by decide)]
  have hz : (Int.tdiv (0 + ChunkArray.ChunkSize - 1) ChunkArray.ChunkSize).toNat = 0 := by
    decide
  rw [hz, hc1']
  simp [vresize]

/-- C37: the capacity invariant of `ChunkArray` (every chunk has `4096` slots and
`0 ≤ Count ≤ 4096 * chunks`, the numbers within the range of `int`). It holds for a new
array. On an array with the invariant: `At(i)` and `Set(i, v)` are inside a chunk for
every `i < Count`; `Add` writes inside a chunk, returns `Count` and keeps the invariant
(`Count < INT_MAX`); `Clear` and every `Set` that returns keep it; `Reserve(n)` keeps it
when the `ceil(n / 4096)` chunks it asks for hold `Count` elements
(`0 ≤ n`, `n + 4096 ≤ INT_MAX`), in particular on an array with `Count = 0`. -/
theorem chunkArray_capacity_invariant {T : Type} [Inhabited T] (c : ChunkArray T)
    (hI : c.Inv) :
    (ChunkArray.new : ChunkArray T).Inv ∧
    ((∀ chunk ∈ c.Values, chunk.length = 4096) ∧ 0 ≤ c.Count ∧
      c.Count ≤ 4096 * (c.Values.length : Int)) ∧
    (∀ i : Nat, (i : Int) < c.Count → ∃ x, c.At i = some x) ∧
    (∀ (i : Nat) (v : T), (i : Int) < c.Count → ∃ c1, c.Set i v = some c1) ∧
    (∀ (i : Nat) (v : T) (c1 : ChunkArray T), c.Set i v = some c1 →
      c1.Inv ∧ c1.Count = c.Count) ∧
    (∀ v : T, c.Count < INT_MAX →
      ∃ c1, c.Add v = some (c.Count, c1) ∧ c1.Inv ∧ c1.Count = c.Count + 1) ∧
    c.Clear.Inv ∧ c.Clear.Count = 0 ∧
    (∀ n : Int, 0 ≤ n → n + 4096 ≤ INT_MAX → c.Count ≤ 4096 * ((n + 4095) / 4096) →
      ∃ c1, c.Reserve n = some c1 ∧ c1.Inv ∧ c1.Count = c.Count ∧
        (c1.Values.length : Int) = (n + 4095) / 4096) ∧
    (∀ n : Int, 0 ≤ n → n + 4096 ≤ INT_MAX → c.Count = 0 →
      ∃ c1, c.Reserve n = some c1 ∧ c1.Inv ∧ c1.Count = 0) := by
  refine ⟨ChunkArray.inv_new, ⟨hI.chunks, hI.count_nonneg, ?_⟩,
    fun i hi => ChunkArray.At_isSome c hI i hi,
    fun i v hi => ChunkArray.Set_isSome c hI i v hi,
    fun i v c1 h => ChunkArray.inv_Set c hI i v c1 h, ?_,
    ChunkArray.inv_Clear c hI, rfl,
    fun n h0 h1 h2 => ChunkArray.inv_Reserve c hI n h0 h1 h2, ?_⟩
  · have := hI.count_le
    omega
  · intro v hlt
    obtain ⟨c1, h1, h2, h3, _⟩ := ChunkArray.chunkAdd_spec c hI hlt v
    exact ⟨c1, h1, h2, h3⟩
  · intro n h0 h1 h2
    obtain ⟨c1, e1, e2, e3, _⟩ := ChunkArray.inv_Reserve c hI n h0 h1 (by rw [h2]; omega)
    exact ⟨c1, e1, e2, by rw [e3, h2]⟩

theorem chunkArray_capacity_invariant_witness :
    (ChunkArray.new : ChunkArray Nat).Inv ∧
    (∀ v : Nat, (ChunkArray.new : ChunkArray Nat).Count < INT_MAX →
      ∃ c1, (ChunkArray.new : ChunkArray Nat).Add v =
          some ((ChunkArray.new : ChunkArray Nat).Count, c1) ∧ c1.Inv ∧
        c1.Count = (ChunkArray.new : ChunkArray Nat).Count + 1) :=
  ⟨ChunkArray.inv_new,
    (chunkArray_capacity_invariant (ChunkArray.new : ChunkArray Nat)
      ChunkArray.inv_new).2.2.2.2.2.1⟩

theorem addedFor_append_self (adds : List (Int × List Char)) (h : Int) (w : List Char) :
    addedFor (adds ++ [(h, w)]) h = w :: addedFor adds h := by
  unfold addedFor
  simp [List.filter_append, List.filter_cons]

theorem addedFor_append_ne (adds : List (Int × List Char)) (h0 h : Int) (w : List Char)
    (hne : h ≠ h0) : addedFor (adds ++ [(h0, w)]) h = addedFor adds h := by
  unfold addedFor
  have : ¬ h0 = h := fun c => hne c.symm
  simp [List.filter_append, List.filter_cons, this]

theorem addedFor_nil_of_not_mem (adds : List (Int × List Char)) (h : Int)
    (hn : h ∉ adds.map Prod.fst) : addedFor adds h = [] := by
  unfold addedFor
  have : adds.filter (fun p => p.1 = h) = [] := by
    rw [List.filter_eq_nil_iff]
    intro p hp
    simp only [decide_eq_true_eq]
    intro c
    exact hn (List.mem_map.2 ⟨p, hp, c⟩)
  rw [this]
  rfl

namespace SuggestionStage

theorem chain_empty (c : ChunkArray Node) (hc : c.Inv) (h0 : c.Count = 0) :
    Chain { Deletes := [], Nodes := c } [] :=
  { inv := inv_empty c hc h0
    count := h0
    staged := fun _ _ _ => rfl
    keys := fun h => by simp [Dictionary.find]
    entry := fun h e hf => by cases hf
    next := fun k hk => by
      have : (k : Int) < 0 := by rw [← h0]; exact hk
      omega }

theorem chain_Clear (s : SuggestionStage) (adds : List (Int × List Char))
    (hC : s.Chain adds) : s.Clear.Chain [] :=
  chain_empty _ (ChunkArray.inv_Clear s.Nodes hC.inv.nodes) rfl

theorem chain_Add (s : SuggestionStage) (adds : List (Int × List Char)) (hC : s.Chain adds)
    (hlt : s.Nodes.Count < INT_MAX) (h : Int) (w : List Char) :
    ∃ s1, s.Add h w = some s1 ∧ s1.Chain (adds ++ [(h, w)]) := by
  have hI := hC.inv
  have hc0 := hI.nodes.count_nonneg
  obtain ⟨s1, hadd, hI1, hc1, hst, hother, hkeys⟩ := stageAdd_spec s hI hlt h w
  obtain ⟨c1, e1, _, _, hg1, hold1⟩ :=
    ChunkArray.chunkAdd_spec s.Nodes hI.nodes hlt
      ({ suggestion := w, next := (oldEntry s h).first } : Node)
  have hs1 : s1 = SuggestionStage.mk (Dictionary.set s.Deletes h
      (Entry.mk ((oldEntry s h).count + 1) s.Nodes.Count)) c1 := by
    have h2 := hadd
    rw [Add_eq, e1] at h2
    cases h2
    rfl
  have hold_first : -1 ≤ (oldEntry s h).first := by
    unfold oldEntry
    cases hf : Dictionary.find s.Deletes h with
    | none => simp only []; omega
    | some e =>
      simp only []
      have := (hI.first h e hf).1
      omega
  have hold_count : (oldEntry s h).count = ((addedFor adds h).length : Int) := by
    unfold oldEntry
    cases hf : Dictionary.find s.Deletes h with
    | none =>
      simp only []
      have hn : h ∉ adds.map Prod.fst := by
        intro c
        have := (hC.keys h).2 c
        rw [hf] at this
        cases this
      rw [addedFor_nil_of_not_mem adds h hn]
      rfl
    | some e =>
      simp only []
      exact hC.entry h e hf
  refine ⟨s1, hadd, ?_⟩
  refine
    { inv := hI1, count := ?_, staged := ?_, keys := ?_, entry := ?_, next := ?_ }
  · rw [hc1, hC.count, List.length_append, List.length_singleton]
    push_cast
    rfl
  · intro fuel h2 hf
    have hf2 : s.Nodes.Count < (fuel : Int) := by omega
    by_cases hh : h2 = h
    · subst hh
      obtain ⟨l, a1, a2⟩ := hst fuel hf2
      rw [hC.staged fuel h2 hf2] at a1
      cases a1
      rw [a2, addedFor_append_self]
    · rw [hother fuel h2 hh, hC.staged fuel h2 hf2, addedFor_append_ne adds h h2 w hh]
  · intro h2
    rw [hkeys h2, hC.keys h2, List.map_append, List.mem_append]
    simp only [List.map_cons, List.map_nil, List.mem_singleton]
    tauto
  · intro h2 e2 hf
    rw [hs1] at hf
    by_cases hh : h2 = h
    · subst hh
      rw [show Dictionary.find (Dictionary.set s.Deletes h2 _) h2 = _ from
        Dictionary.find_set_self _ _ _] at hf
      cases hf
      show (oldEntry s h2).count + 1 = _
      rw [hold_count, addedFor_append_self, List.length_cons]
      push_cast
      rfl
    · rw [show Dictionary.find (Dictionary.set s.Deletes h _) h2 = _ from
        Dictionary.find_set_ne _ _ _ _ hh] at hf
      rw [addedFor_append_ne adds h h2 w hh]
      exact hC.entry h2 e2 hf
  · intro k hk
    rw [hc1] at hk
    rw [hs1]
    show ∃ node, c1.get? k = some node ∧ -1 ≤ node.next
    by_cases hkc : (k : Int) < s.Nodes.Count
    · rw [hold1 k hkc]
      exact hC.next k hkc
    · have hk3 : s.Nodes.Count.toNat = k := by omega
      rw [← hk3, hg1]
      exact ⟨_, rfl, hold_first⟩

theorem chain_runOps (ops : List StageOp) :
    ∀ (s : SuggestionStage) (adds : List (Int × List Char)), s.Chain adds →
      (adds.length : Int) + (ops.length : Int) ≤ INT_MAX →
      ∃ s2, s.runOps ops = some s2 ∧ s2.Chain (StageOp.sinceClear adds ops) := by
  induction ops with
  | nil => intro s adds hC _; exact ⟨s, rfl, hC⟩
  | cons op rest ih =>
    intro s adds hC hle
    have hlen : ((op :: rest).length : Int) = (rest.length : Int) + 1 := by
      rw [List.length_cons]; push_cast; rfl
    rw [hlen] at hle
    cases op with
    | add h w =>
      obtain ⟨s1, e1, hC1⟩ := chain_Add s adds hC (by rw [hC.count]; omega) h w
      obtain ⟨s2, e2, hC2⟩ := ih s1 (adds ++ [(h, w)]) hC1 (by
        rw [List.length_append, List.length_singleton]; push_cast; omega)
      refine ⟨s2, ?_, hC2⟩
      unfold runOps
      rw [e1]
      exact e2
    | clear =>
      obtain ⟨s2, e2, hC2⟩ := ih s.Clear [] (chain_Clear s adds hC) (by
        have : (0 : Int) ≤ (adds.length : Int) := Int.natCast_nonneg _
        simp only [List.length_nil, Nat.cast_zero]
        omega)
      exact ⟨s2, e2, hC2⟩

theorem deleteCount_eq (s : SuggestionStage) (adds : List (Int × List Char))
    (hC : s.Chain adds) : s.DeleteCount = (((adds.map Prod.fst).dedup.length : Nat) : Int) := by
  unfold DeleteCount
  have hk : ∀ h, h ∈ s.Deletes.map Prod.fst ↔ h ∈ (adds.map Prod.fst).dedup := by
    intro h
    rw [List.mem_dedup, ← hC.keys h]
    have := Dictionary.find_eq_none_iff s.Deletes h
    cases hf : Dictionary.find s.Deletes h with
    | none =>
      rw [hf] at this
      simp only [Option.isSome_none, Bool.false_eq_true, iff_false]
      exact this.1 rfl
    | some e =>
      rw [hf] at this
      simp only [Option.isSome_some, iff_true]
      by_contra hc
      have := this.2 hc
      cases this
  have hp : (s.Deletes.map Prod.fst).Perm (adds.map Prod.fst).dedup :=
    (List.perm_ext_iff_of_nodup hC.inv.keys (List.nodup_dedup _)).2 hk
  have := hp.length_eq
  rw [List.length_map] at this
  rw [this]

end SuggestionStage

/-- C38: the chain invariant of `SuggestionStage`. For a stage made by the constructor
and any sequence of `Add` and `Clear` calls (the number of calls within the range of
`int`), the calls return, and afterwards: `NodeCount` is the number of `Add` calls since
the last `Clear`; `DeleteCount` is the number of different hashes among them; for each
staged hash the entry's `first` is the index of a node below `NodeCount`, its `count` is
the number of `Add` calls for the hash since the last `Clear`, and the walk from `first`
through the `next` fields returns after exactly `count` nodes; the `next` of every node
below `NodeCount` is `-1` or an index smaller than the node's own; and `CommitTo` returns,
whenever the bound of the walks exceeds `NodeCount`. -/
theorem suggestionStage_chain_invariant (n : Int) (hn0 : 0 ≤ n)
    (hn : n * 2 + 4096 ≤ INT_MAX) (ops : List StageOp) (hops : (ops.length : Int) ≤ INT_MAX) :
    ∃ s0 s, SuggestionStage.new n = some s0 ∧ s0.runOps ops = some s ∧
      s.NodeCount = (((StageOp.sinceClear [] ops).length : Nat) : Int) ∧
      s.DeleteCount = (((((StageOp.sinceClear [] ops).map Prod.fst).dedup).length : Nat) : Int) ∧
      (∀ h e, Dictionary.find s.Deletes h = some e →
        0 ≤ e.first ∧ e.first < s.NodeCount ∧
        e.count = (((addedFor (StageOp.sinceClear [] ops) h).length : Nat) : Int) ∧
        0 < e.count ∧
        ∀ fuel : Nat, s.NodeCount < (fuel : Int) →
          ∃ l, SuggestionStage.walk s.Nodes fuel e.first [] = some l ∧
            ((l.length : Nat) : Int) = e.count) ∧
      (∀ h, Dictionary.find s.Deletes h = none →
        h ∉ (StageOp.sinceClear [] ops).map Prod.fst) ∧
      (∀ k : Nat, (k : Int) < s.NodeCount →
        ∃ node, s.Nodes.At k = some node ∧
          (node.next = -1 ∨ (0 ≤ node.next ∧ node.next < (k : Int)))) ∧
      (∀ (fuel : Nat) (p : List (Int × List (List Char))), s.NodeCount < (fuel : Int) →
        ∃ p2, s.CommitTo fuel p = some p2) := by
  have hmax : INT_MAX = 2147483647 := rfl
  obtain ⟨s0, hnew, hI0, hc0, hd0⟩ := SuggestionStage.new_spec n hn0 hn
  have hC0 : s0.Chain [] := by
    have : s0 = { Deletes := [], Nodes := s0.Nodes } := by
      cases s0
      simp only at hd0
      subst hd0
      rfl
    rw [this]
    exact SuggestionStage.chain_empty _ hI0.nodes hc0
  obtain ⟨s, hrun, hC⟩ := SuggestionStage.chain_runOps ops s0 [] hC0 (by
    simp only [List.length_nil, Nat.cast_zero]; omega)
  have hcm := hC.inv.nodes.count_max
  refine ⟨s0, s, hnew, hrun, hC.count, SuggestionStage.deleteCount_eq s _ hC, ?_, ?_, ?_, ?_⟩
  · intro h e hf
    have h1 := hC.inv.first h e hf
    have h2 := hC.entry h e hf
    have hmem : h ∈ (StageOp.sinceClear [] ops).map Prod.fst :=
      (hC.keys h).1 (by rw [hf]; rfl)
    have hpos : 0 < (addedFor (StageOp.sinceClear [] ops) h).length := by
      apply List.length_pos.2
      intro c
      obtain ⟨q, hq, rfl⟩ := List.mem_map.1 hmem
      unfold addedFor at c
      rw [List.reverse_eq_nil_iff, List.map_eq_nil_iff, List.filter_eq_nil_iff] at c
      exact absurd (c q hq) (by simp)
    refine ⟨h1.1, h1.2, h2, by rw [h2]; exact_mod_cast hpos, fun fuel hfu => ?_⟩
    have h3 := hC.staged fuel h hfu
    unfold SuggestionStage.staged at h3
    rw [hf] at h3
    exact ⟨_, h3, h2.symm⟩
  · intro h hf c
    have := (hC.keys h).2 c
    rw [hf] at this
    cases this
  · intro k hk
    obtain ⟨node, a1, a2⟩ := hC.inv.next k hk
    obtain ⟨node2, b1, b2⟩ := hC.next k hk
    rw [a1] at b1
    cases b1
    have hk2 : (k : Int) < s.Nodes.Count := hk
    refine ⟨node, ?_, by omega⟩
    rw [ChunkArray.At_eq_get? s.Nodes k (by omega)]
    exact a1
  · intro fuel p hfu
    obtain ⟨p2, h1, _⟩ := SuggestionStage.commitTo_spec s hC.inv fuel hfu p
    exact ⟨p2, h1⟩

theorem suggestionStage_chain_invariant_witness :
    (0 : Int) ≤ 0 ∧ (0 : Int) * 2 + 4096 ≤ INT_MAX ∧
    ((([StageOp.add 5 ['a'], StageOp.clear, StageOp.add 7 ['b'], StageOp.add 7 ['c']] :
      List StageOp).length : Nat) : Int) ≤ INT_MAX ∧
    StageOp.sinceClear []
      [StageOp.add 5 ['a'], StageOp.clear, StageOp.add 7 ['b'], StageOp.add 7 ['c']] =
      [(7, ['b']), (7, ['c'])] ∧
    ∃ s0 s, SuggestionStage.new 0 = some s0 ∧
      s0.runOps [StageOp.add 5 ['a'], StageOp.clear, StageOp.add 7 ['b'], StageOp.add 7 ['c']] =
        some s ∧
      s.NodeCount = (((StageOp.sinceClear []
        [StageOp.add 5 ['a'], StageOp.clear, StageOp.add 7 ['b'],
          StageOp.add 7 ['c']]).length : Nat) : Int) :=
  ⟨by decide, by decide, by decide, by decide,
    (suggestionStage_chain_invariant 0 (by decide) (by decide)
      [StageOp.add 5 ['a'], StageOp.clear, StageOp.add 7 ['b'], StageOp.add 7 ['c']]
      (by decide)).imp (fun _ h => h.imp (fun _ h2 => ⟨h2.1, h2.2.1, h2.2.2.1⟩))⟩

namespace SuggestionStage

theorem walkState_eq (Nodes : ChunkArray Node) :
    ∀ (fuel : Nat) (next : Int) (suggestions : List (List Char)),
      walkState Nodes fuel next suggestions =
        (walk Nodes fuel next suggestions).map (fun l => (Nodes, l)) := by
  intro fuel
  induction fuel with
  | zero =>
    intro next suggestions
    unfold walkState walk
    split_ifs <;> rfl
  | succ fuel ih =>
    intro next suggestions
    unfold walkState walk
    by_cases h : 0 ≤ next
    · rw [if_pos h, if_pos h]
      cases Nodes.At (toUnsigned next) with
      | none => rfl
      | some node => exact ih node.next _
    · rw [if_neg h, if_neg h]
      rfl

theorem commitLoopState_eq (fuel : Nat) (this : SuggestionStage) :
    ∀ (rest : List (Int × Entry)) (p : List (Int × List (List Char))),
      commitLoopState fuel this rest p =
        (commitLoop this.Nodes fuel rest p).map (fun p2 => (this, p2)) := by
  intro rest
  induction rest with
  | nil => intro p; rfl
  | cons x rest ih =>
    intro p
    obtain ⟨key, entry⟩ := x
    have hstep : commitLoop this.Nodes fuel ((key, entry) :: rest) p =
        match walk this.Nodes fuel entry.first ((Dictionary.find p key).getD []) with
        | none => none
        | some suggestions =>
          commitLoop this.Nodes fuel rest (Dictionary.set p key suggestions) := by
      conv_lhs => unfold commitLoop
      cases Dictionary.find p key <;> rfl
    have hstep2 : commitLoopState fuel this ((key, entry) :: rest) p =
        match walkState this.Nodes fuel entry.first ((Dictionary.find p key).getD []) with
        | none => none
        | some r =>
          commitLoopState fuel { Deletes := this.Deletes, Nodes := r.1 } rest
            (Dictionary.set p key r.2) := by
      conv_lhs => unfold commitLoopState
      cases Dictionary.find p key <;> rfl
    rw [hstep, hstep2, walkState_eq]
    cases walk this.Nodes fuel entry.first ((Dictionary.find p key).getD []) with
    | none => rfl
    | some l => exact ih _

/-- The stage after `CommitTo` is the stage before it, and the permanent dictionary is the
one that `CommitTo` gives. -/
theorem commitToState_eq (this : SuggestionStage) (fuel : Nat)
    (p : List (Int × List (List Char))) :
    this.CommitToState fuel p = (this.CommitTo fuel p).map (fun p2 => (this, p2)) :=
  commitLoopState_eq fuel this this.Deletes p

end SuggestionStage

/-- C39: the frame of `SuggestionStage::CommitTo`. On a well-formed stage and with a bound
of the walks above `NodeCount` the call returns, and the stage after the call is the stage
before it: `DeleteCount`, `NodeCount` and the list staged for every hash are the same. The
entry of the permanent dictionary of every hash that is not staged is as before; the list
of a staged hash is the list it was (the empty list for a hash without an entry) followed
by the staged list, so that the list present before is the beginning of the list
afterwards. -/
theorem suggestionStage_commitTo_frame (s : SuggestionStage) (hI : s.Inv) (fuel : Nat)
    (hf : s.Nodes.Count < (fuel : Int)) (p : List (Int × List (List Char))) :
    ∃ s2 p2, s.CommitToState fuel p = some (s2, p2) ∧
      s2 = s ∧ s2.DeleteCount = s.DeleteCount ∧ s2.NodeCount = s.NodeCount ∧
      (∀ h, s2.staged fuel h = s.staged fuel h) ∧
      (∀ h, Dictionary.find s.Deletes h = none →
        Dictionary.find p2 h = Dictionary.find p h) ∧
      (∀ h e, Dictionary.find s.Deletes h = some e →
        ∃ l, s.staged fuel h = some l ∧
          Dictionary.find p2 h = some ((Dictionary.find p h).getD [] ++ l)) ∧
      (∀ h old, Dictionary.find p h = some old →
        ∃ now, Dictionary.find p2 h = some now ∧ old <+: now) ∧
      ∃ p3, s2.CommitToState fuel p2 = some (s, p3) := by
  obtain ⟨p2, h1, h2⟩ := SuggestionStage.commitTo_spec s hI fuel hf p
  obtain ⟨p3, h3, _⟩ := SuggestionStage.commitTo_spec s hI fuel hf p2
  refine ⟨s, p2, by rw [SuggestionStage.commitToState_eq, h1]; rfl, rfl, rfl, rfl,
    fun _ => rfl, ?_, ?_, ?_, p3, by rw [SuggestionStage.commitToState_eq, h3]; rfl⟩
  · intro h hn
    obtain ⟨l, _, hl⟩ := h2 h
    rw [hl, hn]
    rfl
  · intro h e he
    obtain ⟨l, hs, hl⟩ := h2 h
    refine ⟨l, hs, ?_⟩
    rw [hl, he]
    rfl
  · intro h old ho
    obtain ⟨l, _, hl⟩ := h2 h
    rw [hl, ho]
    cases hd : Dictionary.find s.Deletes h with
    | none => exact ⟨old, rfl, List.prefix_refl _⟩
    | some e => exact ⟨_, rfl, List.prefix_append _ _⟩

theorem suggestionStage_commitTo_frame_witness :
    ∃ s0 s, SuggestionStage.new 0 = some s0 ∧
      s0.runOps [StageOp.add 7 ['b'], StageOp.add 5 ['a'], StageOp.add 7 ['c']] = some s ∧
      s.Inv ∧ s.Nodes.Count < ((4 : Nat) : Int) ∧
      s.staged 4 7 = some [['c'], ['b']] ∧
      ∃ s2 p2, s.CommitToState 4 [(7, [['x']]), (3, [['y']])] = some (s2, p2) ∧
        s2 = s ∧ s2.DeleteCount = s.DeleteCount ∧ s2.NodeCount = s.NodeCount ∧
        (∀ h, s2.staged 4 h = s.staged 4 h) ∧
        (∀ h, Dictionary.find s.Deletes h = none →
          Dictionary.find p2 h = Dictionary.find [(7, [['x']]), (3, [['y']])] h) ∧
        (∀ h e, Dictionary.find s.Deletes h = some e →
          ∃ l, s.staged 4 h = some l ∧
            Dictionary.find p2 h =
              some ((Dictionary.find [(7, [['x']]), (3, [['y']])] h).getD [] ++ l)) ∧
        (∀ h old, Dictionary.find [(7, [['x']]), (3, [['y']])] h = some old →
          ∃ now, Dictionary.find p2 h = some now ∧ old <+: now) ∧
        ∃ p3, s2.CommitToState 4 p2 = some (s, p3) := by
  have hmax : INT_MAX = 2147483647 := rfl
  obtain ⟨s0, hnew, hI0, hc0, hd0⟩ := SuggestionStage.new_spec 0 (by decide) (by decide)
  have hC0 : s0.Chain [] := by
    have : s0 = { Deletes := [], Nodes := s0.Nodes } := by
      cases s0
      simp only at hd0
      subst hd0
      rfl
    rw [this]
    exact SuggestionStage.chain_empty _ hI0.nodes hc0
  obtain ⟨s, hrun, hC⟩ := SuggestionStage.chain_runOps
    [StageOp.add 7 ['b'], StageOp.add 5 ['a'], StageOp.add 7 ['c']] s0 [] hC0 (by decide)
  have hadds : StageOp.sinceClear []
      [StageOp.add 7 ['b'], StageOp.add 5 ['a'], StageOp.add 7 ['c']] =
      [(7, ['b']), (5, ['a']), (7, ['c'])] := by decide
  rw [hadds] at hC
  have hcount : s.Nodes.Count = 3 := hC.count
  have hlt : s.Nodes.Count < ((4 : Nat) : Int) := by rw [hcount]; decide
  have hst : s.staged 4 7 = some [['c'], ['b']] := by
    rw [hC.staged 4 7 hlt]
    decide
  exact ⟨s0, s, hnew, hrun, hC.inv, hlt, hst,
    suggestionStage_commitTo_frame s hC.inv 4 hlt [(7, [['x']]), (3, [['y']])]⟩

namespace DamerauOSA

end DamerauOSA

namespace Levenshtein

end Levenshtein

namespace DamerauOSA

end DamerauOSA

namespace Levenshtein

end Levenshtein

